import Mathlib

/-!
# Binero / Takuzu puzzle generator

A shallow embedding of `src/binero.cpp` (board state, constraint engine, uniqueness
oracle, grader and hole-punching generator) together with theorems about it.

Conventions of the embedding

* `int`, `short` and `char` values are natural numbers: every board has `n ≤ NM = 20`,
  so no counter, index or bit mask leaves the range of its C type.
* the arrays of `tab_t` are total functions on indices; only indices below `n` are read
  or written by the operations on a board built by legal `set` calls.
* a function whose C body contains an `assert` that may fire returns an `Option`;
  `none` stands for the aborted run.
* loops that C bounds by the number of Unknown cells carry that bound as fuel.
-/

set_option autoImplicit false

namespace Binero

/-! ## Constants -/

/-- `#define NM 20` -/
def NM : Nat := 20
/-- `#define UNK 2` -/
def UNK : Nat := 2
/-- `#define R_3 1` -/
def R_3 : Nat := 1
/-- `#define R_HALF 2` -/
def R_HALF : Nat := 2
/-- `#define R_LINEx 16` -/
def R_LINEx : Nat := 16
/-- `#define R_LINE4 8` -/
def R_LINE4 : Nat := 8
/-- `#define R_LINE3 4` -/
def R_LINE3 : Nat := 4
/-- `#define R_LINE (4+8+16)` -/
def R_LINE : Nat := 4 + 8 + 16
/-- `#define R_DUPLINES 128` -/
def R_DUPLINES : Nat := 128
/-- `#define R_ALL 255` -/
def R_ALL : Nat := 255
/-- `#define MDIFF 7` -/
def MDIFF : Nat := 7

/-- The table `int tdiff[MDIFF]` of rule presets, one per difficulty. -/
def tdiff : List Nat :=
  [ R_3 ||| R_HALF,
    R_3 ||| R_HALF ||| R_LINE3,
    R_3 ||| R_HALF ||| R_LINE3 ||| R_LINE4,
    R_3 ||| R_HALF ||| R_LINE,
    R_3 ||| R_HALF ||| R_LINE3 ||| R_DUPLINES,
    R_3 ||| R_HALF ||| R_LINE3 ||| R_LINE4 ||| R_DUPLINES,
    R_3 ||| R_HALF ||| R_LINE ||| R_DUPLINES ]

/-- `#define H_R 1` -/
def H_R : Nat := 1
/-- `#define H_CTR 2` -/
def H_CTR : Nat := 2
/-- `#define H_REV 8` -/
def H_REV : Nat := 8
/-- `#define S_0 16` -/
def S_0 : Nat := 16
/-- `#define S_1 32` -/
def S_1 : Nat := 32
/-- `#define S_B 64` -/
def S_B : Nat := 64
/-- `#define S_P 128` -/
def S_P : Nat := 128
/-- `#define S_B3 256` -/
def S_B3 : Nat := 256
/-- `#define S_END 1024` -/
def S_END : Nat := 1024

/-! ## Board state -/

/-- The fields of `struct tab_t`. -/
structure tab_t where
  n : Nat
  tab : Nat → Nat → Nat
  hn0 : Nat → Nat
  hn1 : Nat → Nat
  vn0 : Nat → Nat
  vn1 : Nat → Nat
  hi : Nat → Nat
  vi : Nat → Nat
  bad3 : Bool
  badH : Bool
  badD : Bool

/-- `a[i]++` on a counter array. -/
def inc (a : Nat → Nat) (i : Nat) : Nat → Nat :=
  fun k => if k = i then a k + 1 else a k

/-- `a[i] |= (1LL << j)` on a mask array. -/
def orbit (a : Nat → Nat) (i j : Nat) : Nat → Nat :=
  fun k => if k = i then a k ||| (1 <<< j) else a k

/-- The cells of an `n × n` grid in the order of the nested loops
`for(i<n) for(j<n)`: rows outermost. -/
def cells (n : Nat) : List (Nat × Nat) :=
  (List.range n).flatMap (fun i => (List.range n).map (fun j => (i, j)))

namespace tab_t

/-- `init()` together with the assignment of `n` that follows it at every call site
(`genrand`, `copywithout`, `read`): `init` overwrites every field except `n`. -/
def init (n : Nat) : tab_t :=
  { n := n
    tab := fun _ _ => UNK
    hn0 := fun _ => 0
    hn1 := fun _ => 0
    vn0 := fun _ => 0
    vn1 := fun _ => 0
    hi := fun _ => 0
    vi := fun _ => 0
    bad3 := false
    badH := false
    badD := false }

/-- `get(i,j)` -/
def get (t : tab_t) (i j : Nat) : Nat := t.tab i j

/-- `checklinecol(i,j)`: the six windows of three cells through `(i,j)`; the first window
of equal cells sets `bad3` and returns. The `int` tests `j<n-1` and `j<n-2` are written
`j+1<n` and `j+2<n`. -/
def checklinecol (t : tab_t) (i j : Nat) : tab_t :=
  let c := t.get i j
  if j > 1 ∧ c = t.get i (j - 1) ∧ c = t.get i (j - 2) then { t with bad3 := true }
  else if (j > 0 ∧ j + 1 < t.n) ∧ c = t.get i (j - 1) ∧ c = t.get i (j + 1) then
    { t with bad3 := true }
  else if j + 2 < t.n ∧ c = t.get i (j + 1) ∧ c = t.get i (j + 2) then { t with bad3 := true }
  else if i > 1 ∧ c = t.get (i - 1) j ∧ c = t.get (i - 2) j then { t with bad3 := true }
  else if (i > 0 ∧ i + 1 < t.n) ∧ c = t.get (i - 1) j ∧ c = t.get (i + 1) j then
    { t with bad3 := true }
  else if i + 2 < t.n ∧ c = t.get (i + 1) j ∧ c = t.get (i + 2) j then { t with bad3 := true }
  else t

/-- The statement `tab[i][j]=x` of `set`. -/
def store (t : tab_t) (i j x : Nat) : tab_t :=
  { t with tab := fun a b => if a = i ∧ b = j then x else t.tab a b }

/-- The branch `if(x==0)` of `set`: both zero counters and the half test on each. -/
def count0 (t : tab_t) (i j : Nat) : tab_t :=
  let t : tab_t := { t with hn0 := inc t.hn0 i, vn0 := inc t.vn0 j }
  let t : tab_t := if t.hn0 i > t.n / 2 then { t with badH := true } else t
  if t.vn0 j > t.n / 2 then { t with badH := true } else t

/-- The branch `if(x==1)` of `set`: both one counters, the half test on each, and the
bit of the cell in the row mask and in the column mask. -/
def count1 (t : tab_t) (i j : Nat) : tab_t :=
  let t : tab_t := { t with hn1 := inc t.hn1 i, vn1 := inc t.vn1 j }
  let t : tab_t := if t.hn1 i > t.n / 2 then { t with badH := true } else t
  let t : tab_t := if t.vn1 j > t.n / 2 then { t with badH := true } else t
  { t with hi := orbit t.hi i j, vi := orbit t.vi j i }

/-- The block `if(hn0[i]+hn1[i]==n)` of `set`: row `i` against every other full row. -/
def duprow (t : tab_t) (i : Nat) : tab_t :=
  if t.hn0 i + t.hn1 i = t.n then
    if (List.range t.n).any
        (fun k => decide (k ≠ i ∧ t.hn0 k + t.hn1 k = t.n ∧ t.hi i = t.hi k)) then
      { t with badD := true }
    else t
  else t

/-- The block `if(vn0[j]+vn1[j]==n)` of `set`: column `j` against every other full column. -/
def dupcol (t : tab_t) (j : Nat) : tab_t :=
  if t.vn0 j + t.vn1 j = t.n then
    if (List.range t.n).any
        (fun k => decide (k ≠ j ∧ t.vn0 k + t.vn1 k = t.n ∧ t.vi j = t.vi k)) then
      { t with badD := true }
    else t
  else t

/-- `set(i,j,x)`. The assertion `tab[i][j]==UNK` is the legality condition of the call:
every call site in the program tests it first, and `Reach` below carries it. -/
def set (t : tab_t) (i j x : Nat) : tab_t :=
  let t : tab_t := t.store i j x
  let t : tab_t := if x = 0 then t.count0 i j else t
  let t : tab_t := if x = 1 then t.count1 i j else t
  let t : tab_t := t.checklinecol i j
  if t.bad3 ∨ t.badH then t else (t.duprow i).dupcol j

/-- `iscomplete()`: no column counter pair sums to less than `n`. -/
def iscomplete (t : tab_t) : Bool :=
  (List.range t.n).all (fun i => decide (¬ (t.vn0 i + t.vn1 i < t.n)))

/-- `isbad(rules)`: the first recorded violation that `rules` selects, or `0`. -/
def isbad (t : tab_t) (rules : Nat) : Nat :=
  if rules &&& R_3 ≠ 0 ∧ t.bad3 = true then R_3
  else if rules &&& R_HALF ≠ 0 ∧ t.badH = true then R_HALF
  else if rules &&& R_DUPLINES ≠ 0 ∧ t.badD = true then R_DUPLINES
  else 0

/-- `copywithout(t,i,j)`: replay every assigned cell of `t` except `(i,j)` on a fresh
board of the same size, in the order of the nested loops. -/
def copywithout (t : tab_t) (i j : Nat) : tab_t :=
  (cells t.n).foldl
    (fun acc c =>
      if c.1 ≠ i ∨ c.2 ≠ j then
        if t.get c.1 c.2 ≠ UNK then acc.set c.1 c.2 (t.get c.1 c.2) else acc
      else acc)
    (init t.n)

end tab_t

/-! ## Constraint engine -/

/-- `nbr1(u)`: population count by the 64-bit parallel bit-summing trick; every
`unsigned long long` operation that can wrap is reduced modulo `2^64`. -/
def nbr1 (u : Nat) : Nat :=
  let a := (u + 2 ^ 64 - ((u >>> 1) &&& 0x5555555555555555)) % 2 ^ 64
  let b := (((a >>> 2) &&& 0x3333333333333333) + (a &&& 0x3333333333333333)) % 2 ^ 64
  let c := ((b + (b >>> 4)) % 2 ^ 64) &&& 0x0F0F0F0F0F0F0F0F
  ((c * 0x101010101010101) % 2 ^ 64) >>> 56

namespace tab_t

/-- The body of the loops of `findcell` at one cell: the trial of value `0`, then the
trial of value `1`; a trial that is bad under `rules` returns the other value. -/
def findcellAt (t : tab_t) (rules : Nat) (c : Nat × Nat) : Option (Nat × Nat × Nat) :=
  if t.get c.1 c.2 = UNK then
    if (t.set c.1 c.2 0).isbad rules ≠ 0 then some (c.1, c.2, 1)
    else if (t.set c.1 c.2 1).isbad rules ≠ 0 then some (c.1, c.2, 0)
    else none
  else none

/-- `findcell(a,b,x,rules)`: `some (a,b,x)` for `true`, `none` for `false`. -/
def findcell (t : tab_t) (rules : Nat) : Option (Nat × Nat × Nat) :=
  (cells t.n).findSome? (t.findcellAt rules)

/-- Row index of position `i` of line `l`: `s?i:l`. -/
def lrow (s l i : Nat) : Nat := if s ≠ 0 then i else l

/-- Column index of position `i` of line `l`: `s?l:i`. -/
def lcol (s l i : Nat) : Nat := if s ≠ 0 then l else i

/-- First loop of `findline_`: the counts `n0`, `n1` and the array `t[0..p)` of the
Unknown positions of the line; `none` is the `assert(0)` on a cell outside `{0,1,UNK}`. -/
def lineScan (s : Nat) (t : tab_t) (l : Nat) : Option (Nat × Nat × List Nat) :=
  (List.range t.n).foldl
    (fun acc i =>
      match acc with
      | none => none
      | some (n0, n1, tl) =>
        let c := t.get (lrow s l i) (lcol s l i)
        if c = 0 then some (n0 + 1, n1, tl)
        else if c = 1 then some (n0, n1 + 1, tl)
        else if c = UNK then some (n0, n1, tl ++ [i])
        else none)
    (some (0, 0, []))

/-- The loop `for(q<p) ta.set(s?t[q]:l, s?l:t[q], (k>>q)&1)` from index `q` on. -/
def fillLine (s l k : Nat) : List Nat → Nat → tab_t → tab_t
  | [], _, ta => ta
  | j :: tl, q, ta => fillLine s l k tl (q + 1) (ta.set (lrow s l j) (lcol s l j) ((k >>> q) &&& 1))

/-- The enumeration loop of `findline_` over the remaining values of `k`, carrying
`(f0, f1)`; `none` is the `return false` inside the loop. -/
def lineEnum (s : Nat) (t : tab_t) (l rules n1 : Nat) (tl : List Nat) :
    List Nat → Nat → Nat → Option (Nat × Nat)
  | [], f0, f1 => some (f0, f1)
  | k :: ks, f0, f1 =>
    if nbr1 k ≠ t.n / 2 - n1 then lineEnum s t l rules n1 tl ks f0 f1
    else if (fillLine s l k tl 0 t).isbad rules = 0 then
      let f1 := f1 ||| k
      let f0 := f0 ||| (((1 <<< tl.length) - 1) ^^^ k)
      if f1 = (1 <<< tl.length) - 1 ∧ f0 = (1 <<< tl.length) - 1 then none
      else lineEnum s t l rules n1 tl ks f0 f1
    else lineEnum s t l rules n1 tl ks f0 f1

/-- The last loop of `findline_` from index `q` on: the first position whose bit is
missing from `f1` (value `0`) or from `f0` (value `1`). The outer `none` is a failed
assertion (lines 522, 523 and 525), `some (some (j, x))` is `return 1`. -/
def linePick (f0 f1 : Nat) : List Nat → Nat → Option (Option (Nat × Nat))
  | [], _ => none
  | j :: tl, q =>
    if f1 &&& (1 <<< q) = 0 then
      if f0 &&& (1 <<< q) ≠ 0 then some (some (j, 0)) else none
    else if f0 &&& (1 <<< q) = 0 then
      if f1 &&& (1 <<< q) ≠ 0 then some (some (j, 1)) else none
    else linePick f0 f1 tl (q + 1)

/-- `findline_<s>(l,j,x,rules)`: outer `none` for a failed assertion, `some none` for
`false`, `some (some (j, x))` for `true`. -/
def findline_ (s : Nat) (t : tab_t) (l rules : Nat) : Option (Option (Nat × Nat)) :=
  match lineScan s t l with
  | none => none
  | some (n0, n1, tl) =>
    if n0 + n1 ≥ t.n then some none
    else if n0 > t.n / 2 then some none
    else if n1 > t.n / 2 then some none
    else if tl.length > 4 ∧ rules &&& R_LINEx = 0 then some none
    else if tl.length > 3 ∧ rules &&& R_LINE4 = 0 then some none
    else
      match lineEnum s t l rules n1 tl (List.range (1 <<< tl.length)) 0 0 with
      | none => some none
      | some (f0, f1) => linePick f0 f1 tl 0

/-- The loop of `findline` over the remaining lines: row `l`, then column `l`. -/
def findlineFrom (t : tab_t) (rules : Nat) : List Nat → Option (Option (Nat × Nat × Nat))
  | [] => some none
  | l :: ls =>
    match findline_ 0 t l rules with
    | none => none
    | some (some (a, x)) => some (some (l, a, x))
    | some none =>
      match findline_ 1 t l rules with
      | none => none
      | some (some (a, x)) => some (some (a, l, x))
      | some none => findlineFrom t rules ls

/-- `findline(i,j,x,rules)` -/
def findline (t : tab_t) (rules : Nat) : Option (Option (Nat × Nat × Nat)) :=
  findlineFrom t rules (List.range t.n)

/-- `find(i,j,x,rules)`: `findcell` first, then `findline` when `rules & R_LINE`. -/
def find (t : tab_t) (rules : Nat) : Option (Option (Nat × Nat × Nat)) :=
  match t.findcell rules with
  | some r => some (some r)
  | none => if rules &&& R_LINE ≠ 0 then t.findline rules else some none

/-- The `while(1)` loop of `cansolve`; one unit of fuel per iteration. `none` is a
failed assertion (or exhausted fuel). -/
def cansolveLoop (rules : Nat) : Nat → tab_t → Option Bool
  | 0, _ => none
  | fuel + 1, t =>
    if t.iscomplete then
      if t.isbad R_ALL ≠ 0 then none else some true
    else
      match t.find rules with
      | none => none
      | some none => some false
      | some (some (i, j, x)) =>
        if (t.set i j x).isbad R_ALL ≠ 0 then none
        else cansolveLoop rules fuel (t.set i j x)

/-- `cansolve(rules)`: each iteration assigns one cell, so `n*n+1` iterations suffice. -/
def cansolve (t : tab_t) (rules : Nat) : Option Bool :=
  cansolveLoop rules (t.n * t.n + 1) t

/-! ## Uniqueness oracle -/

/-- The scan of `nbrsol` for the first Unknown cell. -/
def firstUnk (t : tab_t) : Option (Nat × Nat) :=
  (cells t.n).find? (fun c => decide (t.get c.1 c.2 = UNK))

/-- `nbrsol()` with the recursion depth as fuel; `none` is `assert(0)` (or exhausted
fuel), or a sum that leaves the type: `r` is an `ll_t`, a signed 64-bit integer, and
`r+=t.nbrsol()` has no defined value once the sum exceeds `2^63-1`. -/
def nbrsolAux : Nat → tab_t → Option Nat
  | 0, _ => none
  | fuel + 1, t =>
    if t.isbad R_ALL ≠ 0 then some 0
    else if t.iscomplete then some 1
    else
      match t.firstUnk with
      | none => none
      | some (i, j) =>
        match nbrsolAux fuel (t.set i j 0), nbrsolAux fuel (t.set i j 1) with
        | some r0, some r1 => if r0 + r1 < 2 ^ 63 then some (r0 + r1) else none
        | _, _ => none

/-- `nbrsol()`: the recursion assigns one cell per level. -/
def nbrsol (t : tab_t) : Option Nat :=
  nbrsolAux (t.n * t.n + 1) t

/-- `hasonesol(int)`: `nbrsol()==1`; the argument is ignored. -/
def hasonesol (t : tab_t) (_rules : Nat) : Option Bool :=
  (t.nbrsol).map (fun r => decide (r = 1))

/-- The loop `while(!t.isbad() && t.findcell(i,j,x,R_3|R_HALF)) t.set(i,j,x)` of
`hasuniquesol_`; `none` only when the fuel runs out. -/
def propagate : Nat → tab_t → Option tab_t
  | 0, _ => none
  | fuel + 1, t =>
    if t.isbad R_ALL ≠ 0 then some t
    else
      match t.findcell (R_3 ||| R_HALF) with
      | none => some t
      | some (i, j, x) => propagate fuel (t.set i j x)

/-- The number `r` of values of cell `(i,j)` whose trial is not bad. -/
def viable (t : tab_t) (i j : Nat) : Nat :=
  (if (t.set i j 0).isbad R_ALL = 0 then 1 else 0) +
    (if (t.set i j 1).isbad R_ALL = 0 then 1 else 0)

/-- The scan of `hasuniquesol_` for the Unknown cell with the fewest viable values,
carrying `(br, bi, bj)`; `none` is the `return false` on a cell with no viable value. -/
def pickBranch (t : tab_t) : List (Nat × Nat) → Nat → Nat → Nat → Option (Nat × Nat × Nat)
  | [], br, bi, bj => some (br, bi, bj)
  | c :: cs, br, bi, bj =>
    if t.get c.1 c.2 = UNK then
      if t.viable c.1 c.2 = 0 then none
      else if t.viable c.1 c.2 < br then pickBranch t cs (t.viable c.1 c.2) c.1 c.2
      else pickBranch t cs br bi bj
    else pickBranch t cs br bi bj

/-- `hasuniquesol_()` with the recursion depth as fuel; `none` is the failed
`assert(br<3)` (or exhausted fuel). -/
def hasuniquesolAux : Nat → tab_t → Option Nat
  | 0, _ => none
  | fuel + 1, t0 =>
    match propagate (t0.n * t0.n + 1) t0 with
    | none => none
    | some t =>
      if t.isbad R_ALL ≠ 0 then some 0
      else if t.iscomplete then some 1
      else
        match pickBranch t (cells t.n) 3 0 0 with
        | none => some 0
        | some (br, i, j) =>
          if ¬ br < 3 then none
          else
            match
              (if (t.set i j 0).isbad R_ALL = 0 then hasuniquesolAux fuel (t.set i j 0)
               else some 0),
              (if (t.set i j 1).isbad R_ALL = 0 then hasuniquesolAux fuel (t.set i j 1)
               else some 0) with
            | some r0, some r1 => some (if r0 + r1 > 2 then 2 else r0 + r1)
            | _, _ => none

/-- `hasuniquesol_()` -/
def hasuniquesol_ (t : tab_t) : Option Nat :=
  hasuniquesolAux (t.n * t.n + 1) t

/-- `hasuniquesol()`: `hasuniquesol_()==1`. -/
def hasuniquesol (t : tab_t) : Option Bool :=
  (t.hasuniquesol_).map (fun r => decide (r = 1))

/-! ## Difficulty grader -/

/-- The loop `for(d<MDIFF) if(!ok && t.find(i,j,x,tdiff[d])) {tab[d]++;ok=true;}` of
`solvescore_` once `ok` is still false, from preset `d` on: the first preset whose `find`
succeeds is charged. The outer `none` is a failed assertion inside `find`. -/
def chargeFrom (t : tab_t) (tab : List Int) :
    List Nat → Nat → Option (Option (Nat × Nat × Nat) × List Int)
  | [], _ => some (none, tab)
  | r :: rs, d =>
    match t.find r with
    | none => none
    | some (some m) => some (some m, tab.set d (tab.getD d 0 + 1))
    | some none => chargeFrom t tab rs (d + 1)

/-- `solvescore_(tab)` with the recursion depth as fuel. The value of the recursive call is
dropped, as in the source; the assertion `!t.isbad()` is tested after it. `none` is a failed
assertion (or exhausted fuel). -/
def solvescoreAux : Nat → tab_t → List Int → Option (Bool × List Int)
  | 0, _, _ => none
  | fuel + 1, t, tab =>
    if t.iscomplete then some (true, tab)
    else
      match chargeFrom t tab tdiff 0 with
      | none => none
      | some (none, tab) => some (false, tab)
      | some (some (i, j, x), tab) =>
        match solvescoreAux fuel (t.set i j x) tab with
        | none => none
        | some (_, tab) =>
          if (t.set i j x).isbad R_ALL ≠ 0 then none else some (true, tab)

/-- `solvescore(tab)`: clears the ten slots, then `solvescore_`. The pair is the returned
boolean and the final content of `tab`. -/
def solvescore (t : tab_t) : Option (Bool × List Int) :=
  solvescoreAux (t.n * t.n + 1) t (List.replicate 10 0)

/-- The chain of nested calls of `solvescore_`, with what the source drops: the same
steps as `solvescoreAux`, but the result is the value returned by the innermost call, the
board that call was made on and the final content of `tab`. The innermost value is `true`
when the replay reached a complete board and `false` when it got stuck. -/
def replayAux : Nat → tab_t → List Int → Option (Bool × tab_t × List Int)
  | 0, _, _ => none
  | fuel + 1, t, tab =>
    if t.iscomplete then some (true, t, tab)
    else
      match chargeFrom t tab tdiff 0 with
      | none => none
      | some (none, tab) => some (false, t, tab)
      | some (some (i, j, x), tab) =>
        match replayAux fuel (t.set i j x) tab with
        | none => none
        | some r => if (t.set i j x).isbad R_ALL ≠ 0 then none else some r

/-- The replay of `solvescore` from cleared slots, as `replayAux`. -/
def replay (t : tab_t) : Option (Bool × tab_t × List Int) :=
  replayAux (t.n * t.n + 1) t (List.replicate 10 0)

/-- `score_t::operator<` from slot `i-1` down to slot `0`. -/
def score_ltFrom (a b : List Int) : Nat → Bool
  | 0 => false
  | i + 1 =>
    if a.getD i 0 < b.getD i 0 then true
    else if a.getD i 0 > b.getD i 0 then false
    else score_ltFrom a b i

/-- `score_t::operator<`: slots `9` down to `0`. -/
def score_lt (a b : List Int) : Bool := score_ltFrom a b 10

/-- `score_t::diff()` from slot `i-1` down to slot `0`. -/
def score_diffFrom (a : List Int) : Nat → Int
  | 0 => -1
  | i + 1 => if a.getD i 0 ≠ 0 then (i : Int) else score_diffFrom a i

/-- `score_t::diff()`: the highest slot holding a nonzero count, or `-1`. -/
def score_diff (a : List Int) : Int := score_diffFrom a 10

/-- `tab_t::diff()`: `solvescore` into a fresh signature, then `score_t::diff`; the
boolean returned by `solvescore` is dropped. -/
def diff (t : tab_t) : Option Int :=
  (t.solvescore).map (fun r => score_diff r.2)

/-! ## Text form -/

/-- The digits `%d` prints for a natural number, most significant first, as character
codes; `fuel` bounds their number. -/
def decDigits : Nat → Nat → List Nat
  | 0, _ => []
  | fuel + 1, v => if v < 10 then [48 + v] else decDigits fuel (v / 10) ++ [48 + v % 10]

/-- The characters `fprintf(out,"%d",v)` writes, as character codes. -/
def printd (v : Int) : List Nat :=
  if v < 0 then 45 :: decDigits ((-v).toNat + 1) (-v).toNat
  else decDigits (v.toNat + 1) v.toNat

/-- `score_t::aff(out)`: the first `MDIFF` slots, each followed by a space, then a
newline. -/
def score_aff (tab : List Int) : List Nat :=
  (List.range MDIFF).flatMap (fun i => printd (tab.getD i 0) ++ [32]) ++ [10]

/-- The characters `save` writes for row `i`: `'0'+get(i,j)` for an assigned cell and a
space for an Unknown cell, then a newline. -/
def saveRow (t : tab_t) (i : Nat) : List Nat :=
  (List.range t.n).map (fun j => if t.get i j ≠ UNK then 48 + t.get i j else 32) ++ [10]

/-- `save(out)`: the characters written to `out`, in order. `statr` runs `solvescore`
before it prints the signature; when an assertion fails there the run is aborted inside
`save`, which then does not return and leaves no text to read: `none`. -/
def save (t : tab_t) : Option (List Nat) :=
  match t.solvescore with
  | none => none
  | some r =>
    some (printd t.n ++ [10] ++ (List.range t.n).flatMap (saveRow t) ++ [45, 45, 45, 10]
      ++ score_aff r.2)

/-- The characters `fgets` stores when it may still store `k` of them, and the rest of the
stream: it stops after a newline. -/
def fgetsAux : Nat → List Nat → List Nat × List Nat
  | 0, s => ([], s)
  | _ + 1, [] => ([], [])
  | k + 1, c :: s => if c = 10 then ([c], s) else (c :: (fgetsAux k s).1, (fgetsAux k s).2)

/-- `fgets(bf,size,in)` on the stream `s`: the line stored in `bf` and the rest of the
stream; `none` is the `NULL` returned at the end of the stream. -/
def fgets (size : Nat) (s : List Nat) : Option (List Nat × List Nat) :=
  match s with
  | [] => none
  | _ :: _ => some (fgetsAux (size - 1) s)

/-- White space for `sscanf`: space, tab, newline, vertical tab, form feed, return. -/
def isSpace (c : Nat) : Bool := decide (c = 32 ∨ (9 ≤ c ∧ c ≤ 13))

/-- A decimal digit. -/
def isDigit (c : Nat) : Bool := decide (48 ≤ c ∧ c ≤ 57)

/-- `sscanf(bf,"%d",&n)` for a number that is not negative: white space is skipped, a `+`
is accepted, and the digits that follow are converted; `none` when no digit is found. The
size of a board is a natural number in this embedding, so a text whose number is negative
or leaves the range of `int` has no counterpart here and is `none` as well. -/
def sscanf_d (bf : List Nat) : Option Nat :=
  let s := bf.dropWhile isSpace
  let s := if s.head? = some 43 then s.tail else s
  if s.takeWhile isDigit = [] then none
  else some ((s.takeWhile isDigit).foldl (fun a c => 10 * a + (c - 48)) 0)

/-- The loop over `j` of `read` on row `i`, from column `j` on: it runs while `bf[j]` is
`'0'`, `'1'` or a space and `j<n`; characters past the stored line read as `0`. -/
def readRow (i : Nat) (bf : List Nat) : Nat → Nat → tab_t → tab_t
  | 0, _, t => t
  | fuel + 1, j, t =>
    if (bf.getD j 0 = 48 ∨ bf.getD j 0 = 49 ∨ bf.getD j 0 = 32) ∧ j < t.n then
      let t : tab_t := if bf.getD j 0 = 48 then t.set i j 0 else t
      let t : tab_t := if bf.getD j 0 = 49 then t.set i j 1 else t
      readRow i bf fuel (j + 1) t
    else t

/-- The loop over `i` of `read` with `m` rows left: one `fgets` per row; `none` is
`return 0`. -/
def readRows : Nat → Nat → List Nat → tab_t → Option (tab_t × List Nat)
  | 0, _, s, t => some (t, s)
  | m + 1, i, s, t =>
    match fgets 100 s with
    | none => none
    | some (bf, s) => readRows m (i + 1) s (readRow i bf t.n 0 t)

/-- `read(in)` on the stream `s`: the board read and the rest of the stream; `none` is
`return 0`. -/
def read (s : List Nat) : Option (tab_t × List Nat) :=
  match fgets 100 s with
  | none => none
  | some (bf, s) =>
    match sscanf_d bf with
    | none => none
    | some n => readRows n 0 s (init n)

/-! ## Puzzle generator -/

/-- The inner `while(1)` of `makerandlist` from position `j` on, with the countdown `x`:
the position of the `(x+1)`-th free slot of `tx`; `none` when the scan leaves the array. -/
def skipfree : List Bool → Nat → Int → Option Nat
  | [], _, _ => none
  | b :: tx, j, x =>
    if (if b = false then x - 1 else x) < 0 then some j
    else skipfree tx (j + 1) (if b = false then x - 1 else x)

/-- The outer loop of `makerandlist` with `m` iterations left, at iteration `i`; `rnd k`
is the value of the `k`-th call of `rand()`. `none` is the failed `assert(j<n*n)`. -/
def makerandlistFrom (n : Nat) (rnd : Nat → Nat) :
    Nat → Nat → List Bool → List (Nat × Nat) → Option (List (Nat × Nat))
  | 0, _, _, li => some li
  | m + 1, i, tx, li =>
    match skipfree tx 0 ((rnd i % (n * n - i) : Nat) : Int) with
    | none => none
    | some j =>
      if j < n * n then
        makerandlistFrom n rnd m (i + 1) (tx.set j true) (li ++ [(j % n, j / n)])
      else none

/-- `makerandlist(li)`; the final `assert(li.size()==n*n)` included. -/
def makerandlist (t : tab_t) (rnd : Nat → Nat) : Option (List (Nat × Nat)) :=
  match makerandlistFrom t.n rnd (t.n * t.n) 0 (List.replicate (t.n * t.n) false) [] with
  | none => none
  | some li => if li.length = t.n * t.n then some li else none

/-- `multimap::insert`: after every entry whose key is not greater. -/
def minsert (k : Nat) (v : Nat) : List (Nat × Nat) → List (Nat × Nat)
  | [] => [(k, v)]
  | e :: m => if k < e.1 then (k, v) :: e :: m else e :: minsert k v m

/-- `centerlist(li)`. The `double` key `d + (rand()%100)/100` is compared through the
integer `100*d + rand()%100`: `d` is an integer of at most `2*NM*NM` and the fraction is a
multiple of `1/100` below `1`, so both orders agree. -/
def centerlist (t : tab_t) (rnd : Nat → Nat) : Option (List (Nat × Nat)) :=
  let m := (List.range (t.n * t.n)).foldl
    (fun m i =>
      let a : Int := (i % t.n : Nat)
      let b : Int := (i / t.n : Nat)
      let h : Int := (t.n / 2 : Nat)
      let d := (a - h) * (a - h) + (b - h) * (b - h)
      minsert (100 * d.toNat + rnd i % 100) i m)
    []
  let li := m.map (fun e => (e.2 % t.n, e.2 / t.n))
  if li.length = t.n * t.n then some li else none

/-- `filterlist(li,sel)` -/
def filterlist (t : tab_t) (li : List (Nat × Nat)) (sel : Nat) : List (Nat × Nat) :=
  let ok : Nat × Nat → Bool := fun c =>
    !(decide (sel &&& S_0 ≠ 0 ∧ t.get c.1 c.2 ≠ 0)
      || decide (sel &&& S_1 ≠ 0 ∧ t.get c.1 c.2 ≠ 1)
      || decide (sel &&& S_B ≠ 0 ∧ (c.1 + c.2) % 2 ≠ 0)
      || decide (sel &&& S_B3 ≠ 0 ∧ (c.1 + c.2) % 3 = 0)
      || decide (sel &&& S_P ≠ 0 ∧ c.1 % 2 ≠ 0))
  let li2 := li.filter ok
  let li3 := li.filter (fun c => !ok c)
  if sel &&& S_END ≠ 0 then li2 ++ li3 else li2

/-- `reverselist(li)`: every element is appended to a new list with `push_back`. -/
def reverselist (li : List (Nat × Nat)) : List (Nat × Nat) :=
  li.foldl (fun li2 c => li2 ++ [(c.1, c.2)]) []

/-- The candidate loop of `makeonehole`: the first assigned candidate whose removal keeps
`fct(rules)` true is blanked. The pair is the returned boolean and the board afterwards;
`none` is a failed assertion inside `fct`. -/
def makeoneholeLoop (fct : tab_t → Nat → Option Bool) (t : tab_t) (rules : Nat) :
    List (Nat × Nat) → Option (Bool × tab_t)
  | [] => some (false, t)
  | c :: li =>
    if t.get c.1 c.2 = UNK then makeoneholeLoop fct t rules li
    else
      match fct (t.copywithout c.1 c.2) rules with
      | none => none
      | some false => makeoneholeLoop fct t rules li
      | some true => some (true, t.copywithout c.1 c.2)

/-- `makeonehole(fct,rules,sel)`; `rnd k` is the value of the `k`-th call of `rand()`
made by the call. -/
def makeonehole (fct : tab_t → Nat → Option Bool) (t : tab_t) (rules sel : Nat)
    (rnd : Nat → Nat) : Option (Bool × tab_t) :=
  match (if sel &&& H_CTR ≠ 0 then t.centerlist rnd else t.makerandlist rnd) with
  | none => none
  | some li =>
    let li := if sel &&& H_REV ≠ 0 then reverselist li else li
    makeoneholeLoop fct t rules (t.filterlist li sel)

/-- The `while(1)` loop of `addrand` with `fuel` draws left; `rnd k` is the value of the
`k`-th call of `rand()`. The pair is the board afterwards and the number of calls of
`rand()` made so far; `none` when the fuel runs out. -/
def addrandLoop (t : tab_t) (rnd : Nat → Nat) : Nat → Nat → Option (tab_t × Nat)
  | 0, _ => none
  | fuel + 1, k =>
    if t.get (rnd k % t.n) (rnd (k + 1) % t.n) = UNK then
      some (t.set (rnd k % t.n) (rnd (k + 1) % t.n) (rnd (k + 2) % 2), k + 3)
    else addrandLoop t rnd fuel (k + 2)

/-- `addrand()`: nothing on a complete board, else one random Unknown cell gets a random
value. -/
def addrand (t : tab_t) (rnd : Nat → Nat) (fuel k : Nat) : Option (tab_t × Nat) :=
  if t.iscomplete then some (t, k) else addrandLoop t rnd fuel k

/-- The `while(!iscomplete())` loop of `genrand_` and the test after it, with `m`
iterations left; the pair is the returned boolean and the board afterwards. `fuel` bounds
the draws of each `addrand`; `none` when a bound is exhausted. -/
def genrandLoop (rnd : Nat → Nat) (fuel : Nat) : Nat → tab_t → Nat → Option (Bool × tab_t)
  | 0, _, _ => none
  | m + 1, t, k =>
    if t.iscomplete then
      if t.isbad R_ALL ≠ 0 then some (false, t) else some (true, t)
    else
      match propagate (t.n * t.n + 1) t with
      | none => none
      | some t1 =>
        if t1.isbad R_ALL ≠ 0 then some (false, t1)
        else
          match addrand t1 rnd fuel k with
          | none => none
          | some (t2, k2) =>
            if t2.isbad R_ALL ≠ 0 then some (false, t2)
            else genrandLoop rnd fuel m t2 k2

/-- `genrand_()`: every iteration but the last assigns a cell, so `n*n+1` iterations
suffice. Its inner loop `while(!isbad() && findcell(i,j,x,R_3|R_HALF)) set(i,j,x)` is
`propagate`. -/
def genrand_ (t : tab_t) (rnd : Nat → Nat) (fuel : Nat) : Option (Bool × tab_t) :=
  genrandLoop rnd fuel (t.n * t.n + 1) t 0

end tab_t

/-- Boards the program can hold: the empty board of a size `n ≤ NM`, extended by `set`
calls on Unknown cells inside the grid with a value `0` or `1`. -/
inductive Reach : tab_t → Prop
  | init (n : Nat) (hn : n ≤ NM) : Reach (tab_t.init n)
  | set {t : tab_t} (i j x : Nat) (ht : Reach t) (hi : i < t.n) (hj : j < t.n)
      (hu : t.get i j = UNK) (hx : x ≤ 1) : Reach (t.set i j x)

/-! ## Content of a board -/

/-- Number of positions `k < n` of a line `f` holding the value `v`. -/
def cnt (f : Nat → Nat) (v : Nat) : Nat → Nat
  | 0 => 0
  | n + 1 => cnt f v n + (if f n = v then 1 else 0)

/-- Column `j` of a grid. -/
def col (g : Nat → Nat → Nat) (j : Nat) : Nat → Nat := fun i => g i j

/-- Three consecutive equal assigned cells from position `k` of the line `f`. -/
def Run3 (f : Nat → Nat) (k : Nat) : Prop :=
  f k ≠ UNK ∧ f k = f (k + 1) ∧ f k = f (k + 2)

/-- Some row or column of the grid holds three consecutive equal assigned cells. -/
def Triple (n : Nat) (g : Nat → Nat → Nat) : Prop :=
  ∃ l, l < n ∧ ∃ k, k + 2 < n ∧ (Run3 (g l) k ∨ Run3 (col g l) k)

/-- Some row or column of the grid holds more than `n/2` zeros or more than `n/2` ones. -/
def Half (n : Nat) (g : Nat → Nat → Nat) : Prop :=
  ∃ l, l < n ∧ (cnt (g l) 0 n > n / 2 ∨ cnt (g l) 1 n > n / 2 ∨
    cnt (col g l) 0 n > n / 2 ∨ cnt (col g l) 1 n > n / 2)

/-- Every cell `k < n` of the line is assigned. -/
def Full (n : Nat) (f : Nat → Nat) : Prop := ∀ k, k < n → f k ≠ UNK

/-- Two lines agree on every cell `k < n`. -/
def Same (n : Nat) (f f' : Nat → Nat) : Prop := ∀ k, k < n → f k = f' k

/-- Two distinct fully assigned rows, or two distinct fully assigned columns, are
identical. -/
def Dup (n : Nat) (g : Nat → Nat → Nat) : Prop :=
  ∃ a, a < n ∧ ∃ b, b < n ∧ a ≠ b ∧
    ((Full n (g a) ∧ Full n (g b) ∧ Same n (g a) (g b)) ∨
     (Full n (col g a) ∧ Full n (col g b) ∧ Same n (col g a) (col g b)))

/-- What the counters and masks of a board built by legal `set` calls record about its
grid: cells are `0`, `1` or `UNK`, cells outside the grid are `UNK`, the counters count
the zeros and ones of each line, and the masks hold the positions of the ones. -/
structure Cnt (t : tab_t) : Prop where
  size : t.n ≤ NM
  cell : ∀ i j, t.tab i j ≤ 2
  out : ∀ i j, ¬ (i < t.n ∧ j < t.n) → t.tab i j = UNK
  hn0 : ∀ i, t.hn0 i = cnt (t.tab i) 0 t.n
  hn1 : ∀ i, t.hn1 i = cnt (t.tab i) 1 t.n
  vn0 : ∀ j, t.vn0 j = cnt (col t.tab j) 0 t.n
  vn1 : ∀ j, t.vn1 j = cnt (col t.tab j) 1 t.n
  hi : ∀ i j, (t.hi i).testBit j = decide (t.tab i j = 1)
  vi : ∀ j i, (t.vi j).testBit i = decide (t.tab i j = 1)

/-- What the fields of a board built by legal `set` calls record about its grid: the
counters and masks as in `Cnt`, and the three flags against the violations present. The
duplicate flag is only kept up to date while the other two flags are clear. -/
structure Inv (t : tab_t) extends Cnt t : Prop where
  b3 : t.bad3 = true ↔ Triple t.n t.tab
  bH : t.badH = true ↔ Half t.n t.tab
  bD : t.badD = true → Dup t.n t.tab
  bD' : t.bad3 = false → t.badH = false → Dup t.n t.tab → t.badD = true

/-- One of the six windows tested by `checklinecol` at `(i,j)` holds three equal cells. -/
def Win3 (n : Nat) (g : Nat → Nat → Nat) (i j : Nat) : Prop :=
  (j > 1 ∧ g i j = g i (j - 1) ∧ g i j = g i (j - 2)) ∨
  ((j > 0 ∧ j + 1 < n) ∧ g i j = g i (j - 1) ∧ g i j = g i (j + 1)) ∨
  (j + 2 < n ∧ g i j = g i (j + 1) ∧ g i j = g i (j + 2)) ∨
  (i > 1 ∧ g i j = g (i - 1) j ∧ g i j = g (i - 2) j) ∨
  ((i > 0 ∧ i + 1 < n) ∧ g i j = g (i - 1) j ∧ g i j = g (i + 1) j) ∨
  (i + 2 < n ∧ g i j = g (i + 1) j ∧ g i j = g (i + 2) j)

/-- The board of `set` before the test `if(bad3 || badH) return`. -/
def mid (t : tab_t) (i j x : Nat) : tab_t :=
  let t : tab_t := t.store i j x
  let t : tab_t := if x = 0 then t.count0 i j else t
  let t : tab_t := if x = 1 then t.count1 i j else t
  t.checklinecol i j

/-- Row `i` is full by its counters and its mask equals that of another full row. -/
def RowHit (t : tab_t) (i : Nat) : Prop :=
  t.hn0 i + t.hn1 i = t.n ∧ ∃ k, k < t.n ∧ k ≠ i ∧ t.hn0 k + t.hn1 k = t.n ∧ t.hi i = t.hi k

/-- Column `j` is full by its counters and its mask equals that of another full column. -/
def ColHit (t : tab_t) (j : Nat) : Prop :=
  t.vn0 j + t.vn1 j = t.n ∧ ∃ k, k < t.n ∧ k ≠ j ∧ t.vn0 k + t.vn1 k = t.n ∧ t.vi j = t.vi k

/-- The grid after `tab[i][j]=x`. -/
def upd (g : Nat → Nat → Nat) (i j x : Nat) : Nat → Nat → Nat :=
  fun a b => if a = i ∧ b = j then x else g a b

/-- Line `a` of the grid is full and identical to another full line. -/
def DupAt (n : Nat) (g : Nat → Nat → Nat) (a : Nat) : Prop :=
  Full n (g a) ∧ ∃ k, k < n ∧ k ≠ a ∧ Full n (g k) ∧ Same n (g a) (g k)

/-- The boards the loop `while(1) if(tab.makeonehole(fct,rules,sel)==false) break;` of
`t` passes through from `b0`: any number of `makeonehole` calls that returned true, each
with its own flags and its own values of the random source. -/
inductive Punched (fct : tab_t → Nat → Option Bool) (rules : Nat) (b0 : tab_t) : tab_t → Prop
  | start : Punched fct rules b0 b0
  | hole {b b' : tab_t} (sel : Nat) (rnd : Nat → Nat) (hp : Punched fct rules b0 b)
      (hm : b.makeonehole fct rules sel rnd = some (true, b')) : Punched fct rules b0 b'

/-- Number of one bits of `k` among its `p` low bits: the number of positions `q < p`
with `(k>>q)&1 == 1`. -/
def popc (p k : Nat) : Nat := cnt (fun q => (k >>> q) &&& 1) 1 p

/-- Number of Unknown cells in the rows `i < m` of the grid. -/
def unkRows (g : Nat → Nat → Nat) (n : Nat) : Nat → Nat
  | 0 => 0
  | m + 1 => unkRows g n m + cnt (g m) UNK n

/-- Number of Unknown cells of the board. -/
def unk (t : tab_t) : Nat := unkRows t.tab t.n t.n

/-- The valid completions below a board, counted in the natural numbers, where no sum
leaves the type: `0` below a bad board, `1` for a complete board that is not bad, and
otherwise the completions with the first Unknown cell at `0` plus those with it at `1`.
The depth of the case split is the fuel. -/
def countAux : Nat → tab_t → Option Nat
  | 0, _ => none
  | fuel + 1, t =>
    if t.isbad R_ALL ≠ 0 then some 0
    else if t.iscomplete then some 1
    else
      match t.firstUnk with
      | none => none
      | some (i, j) =>
        match countAux fuel (t.set i j 0), countAux fuel (t.set i j 1) with
        | some r0, some r1 => some (r0 + r1)
        | _, _ => none

/-- Number of valid completions of the board. -/
def nsol (t : tab_t) : Nat := (countAux (unk t + 1) t).getD 0

/-- Grid `g'` extends grid `g`: every assigned cell of `g` has the same value in `g'`. -/
def Sub (g g' : Nat → Nat → Nat) : Prop := ∀ a b, g a b ≠ UNK → g' a b = g a b

/-- Grid `g` is a valid completion of grid `g0`: it extends `g0`, every cell of the
`n × n` grid is `0` or `1`, and it has no run of three, no line over the half and no two
identical lines. -/
def IsSol (n : Nat) (g0 g : Nat → Nat → Nat) : Prop :=
  Sub g0 g ∧ (∀ a b, a < n → b < n → g a b ≤ 1) ∧ (∀ a b, ¬ (a < n ∧ b < n) → g a b = UNK) ∧
    ¬ Triple n g ∧ ¬ Half n g ∧ ¬ Dup n g

/-- The filling of a line read off a grid: bit `q` is the value, modulo `2`, that the grid
holds at the `q`-th position of the list. -/
def encode (g : Nat → Nat → Nat) (s l : Nat) : List Nat → Nat
  | [] => 0
  | j :: tl => g (tab_t.lrow s l j) (tab_t.lcol s l j) % 2 + 2 * encode g s l tl

/-- The Unknown positions of line `l`: the array `t[0..p)` of `findline_`. -/
def unkPos (s : Nat) (t : tab_t) (l : Nat) : List Nat :=
  (List.range t.n).filter (fun i => decide (t.get (tab_t.lrow s l i) (tab_t.lcol s l i) = UNK))

/-- Filling `k` of line `l` passes the tests of the enumeration loop of `findline_`: it
is one of the enumerated values `k < 2^p`, it holds exactly `n/2 - n1` ones, and the board
with the line filled is not bad under `rules`. -/
def FillOK (s : Nat) (t : tab_t) (l rules k : Nat) : Prop :=
  k < 2 ^ (unkPos s t l).length ∧
  popc (unkPos s t l).length k
    = t.n / 2 - cnt (fun i => t.get (tab_t.lrow s l i) (tab_t.lcol s l i)) 1 t.n ∧
  (tab_t.fillLine s l k (unkPos s t l) 0 t).isbad rules = 0

/-! ## Block grids -/

/-- The block of the `16 × 16` grid that row or column `i` runs through. -/
def blk (i : Nat) : Fin 8 := ⟨(i / 2) % 8, Nat.mod_lt _ (by decide)⟩

/-- The grid of `2 × 2` blocks chosen by `v`: block `(a,b)` of the `16 × 16` grid holds the
rows `01` and `10` when `v a b` is false and the rows `10` and `01` when it is true; the
cells outside the grid are Unknown. -/
def blockGrid (v : Fin 8 → Fin 8 → Bool) : Nat → Nat → Nat :=
  fun i j =>
    if i < 16 ∧ j < 16 then
      (if xor (xor (v (blk i) (blk j)) (decide (i % 2 = 1))) (decide (j % 2 = 1)) then 1 else 0)
    else UNK

/-- No two rows of the choice are equal or complementary. -/
def RowsApart (v : Fin 8 → Fin 8 → Bool) : Prop :=
  ∀ a b, a < b → v a ≠ v b ∧ v a ≠ fun m => !(v b m)

/-- No two rows and no two columns of the choice are equal or complementary. -/
def Spread (v : Fin 8 → Fin 8 → Bool) : Prop :=
  RowsApart v ∧ RowsApart (fun a b => v b a)

open tab_t


/-! ## Counting -/

theorem cnt_le (f : Nat → Nat) (v n : Nat) : cnt f v n ≤ n := by
  induction n with
  | zero => simp [cnt]
  | succ n ih => simp only [cnt]; split <;> omega

theorem cnt_congr {f g : Nat → Nat} (v : Nat) {n : Nat} (h : ∀ k, k < n → f k = g k) :
    cnt f v n = cnt g v n := by
  induction n with
  | zero => rfl
  | succ n ih =>
    simp only [cnt]
    rw [ih (fun k hk => h k (by omega)), h n (by omega)]

theorem cnt_update (f : Nat → Nat) (v p x n : Nat) (hp : p < n) (hfp : f p ≠ v) :
    cnt (fun k => if k = p then x else f k) v n = cnt f v n + (if x = v then 1 else 0) := by
  induction n with
  | zero => omega
  | succ n ih =>
    simp only [cnt]
    by_cases hpn : p = n
    · subst hpn
      have : cnt (fun k => if k = p then x else f k) v p = cnt f v p :=
        cnt_congr v (fun k hk => by simp; intro h; omega)
      rw [this]
      simp [hfp]
    · rw [ih (by omega)]
      have : (if n = p then x else f n) = f n := by
        rw [if_neg]; omega
      simp only [this]
      omega

theorem cnt_zero_of_forall_ne (f : Nat → Nat) (v n : Nat) (h : ∀ k, k < n → f k ≠ v) :
    cnt f v n = 0 := by
  induction n with
  | zero => rfl
  | succ n ih =>
    simp only [cnt]
    rw [ih (fun k hk => h k (by omega)), if_neg (h n (by omega))]

theorem cnt_pos_of_mem (f : Nat → Nat) (v n k : Nat) (hk : k < n) (h : f k = v) :
    0 < cnt f v n := by
  induction n with
  | zero => omega
  | succ n ih =>
    simp only [cnt]
    by_cases hkn : k = n
    · subst hkn; simp [h]
    · have := ih (by omega); omega

theorem cnt_add_le (f : Nat → Nat) (n : Nat) : cnt f 0 n + cnt f 1 n ≤ n := by
  induction n with
  | zero => simp [cnt]
  | succ n ih => simp only [cnt]; split <;> split <;> omega

/-- In a line whose cells are `0`, `1` or `UNK`, the zeros and the ones fill the line
exactly when no cell is Unknown. -/
theorem cnt_full_iff (f : Nat → Nat) (n : Nat) (h2 : ∀ k, f k ≤ 2) :
    cnt f 0 n + cnt f 1 n = n ↔ Full n f := by
  induction n with
  | zero => simp [cnt, Full]
  | succ n ih =>
    have h0 := cnt_add_le f n
    simp only [cnt]
    constructor
    · intro h k hk
      have hfn : f n ≠ UNK := by
        intro hc; rw [hc] at h; simp [UNK] at h; omega
      have hn : cnt f 0 n + cnt f 1 n = n := by
        have := h2 n
        simp only [UNK] at hfn
        have h01 : f n = 0 ∨ f n = 1 := by omega
        rcases h01 with h01 | h01 <;> rw [h01] at h <;> simp at h <;> omega
      by_cases hkn : k = n
      · subst hkn; exact hfn
      · exact ih.mp hn k (by omega)
    · intro h
      have hn := ih.mpr (fun k hk => h k (by omega))
      have hfn := h n (by omega)
      have := h2 n
      simp only [UNK] at hfn
      have h01 : f n = 0 ∨ f n = 1 := by omega
      rcases h01 with h01 | h01 <;> rw [h01] <;> simp <;> omega

theorem cnt_lt_of_unk (f : Nat → Nat) (n k : Nat) (hk : k < n) (h : f k = UNK) :
    cnt f 0 n + cnt f 1 n < n := by
  induction n with
  | zero => omega
  | succ n ih =>
    have h0 := cnt_add_le f n
    simp only [cnt]
    by_cases hkn : k = n
    · subst hkn; rw [h]; simp [UNK]; omega
    · have := ih (by omega)
      split <;> split <;> omega

/-! ## The fields of a board after `set` -/

theorem checklinecol_bad3 (t : tab_t) (i j : Nat) :
    (t.checklinecol i j).bad3 = true ↔ t.bad3 = true ∨ Win3 t.n t.tab i j := by
  unfold checklinecol Win3 tab_t.get
  simp only []
  split_ifs with h1 h2 h3 h4 h5 h6
  · exact ⟨fun _ => Or.inr (Or.inl h1), fun _ => rfl⟩
  · exact ⟨fun _ => Or.inr (Or.inr (Or.inl h2)), fun _ => rfl⟩
  · exact ⟨fun _ => Or.inr (Or.inr (Or.inr (Or.inl h3))), fun _ => rfl⟩
  · exact ⟨fun _ => Or.inr (Or.inr (Or.inr (Or.inr (Or.inl h4)))), fun _ => rfl⟩
  · exact ⟨fun _ => Or.inr (Or.inr (Or.inr (Or.inr (Or.inr (Or.inl h5))))), fun _ => rfl⟩
  · exact ⟨fun _ => Or.inr (Or.inr (Or.inr (Or.inr (Or.inr (Or.inr h6))))), fun _ => rfl⟩
  · constructor
    · intro h; exact Or.inl h
    · rintro (h | h | h | h | h | h | h)
      · exact h
      · exact absurd h h1
      · exact absurd h h2
      · exact absurd h h3
      · exact absurd h h4
      · exact absurd h h5
      · exact absurd h h6

theorem checklinecol_rest (t : tab_t) (i j : Nat) :
    (t.checklinecol i j).n = t.n ∧ (t.checklinecol i j).tab = t.tab ∧
    (t.checklinecol i j).hn0 = t.hn0 ∧ (t.checklinecol i j).hn1 = t.hn1 ∧
    (t.checklinecol i j).vn0 = t.vn0 ∧ (t.checklinecol i j).vn1 = t.vn1 ∧
    (t.checklinecol i j).hi = t.hi ∧ (t.checklinecol i j).vi = t.vi ∧
    (t.checklinecol i j).badH = t.badH ∧ (t.checklinecol i j).badD = t.badD := by
  unfold checklinecol
  simp only []
  split_ifs <;> simp

theorem set_eq (t : tab_t) (i j x : Nat) :
    t.set i j x =
      if (mid t i j x).bad3 ∨ (mid t i j x).badH then mid t i j x
      else ((mid t i j x).duprow i).dupcol j := rfl

theorem count0_rest (t : tab_t) (i j : Nat) :
    (t.count0 i j).n = t.n ∧ (t.count0 i j).tab = t.tab ∧
    (t.count0 i j).hn0 = inc t.hn0 i ∧ (t.count0 i j).hn1 = t.hn1 ∧
    (t.count0 i j).vn0 = inc t.vn0 j ∧ (t.count0 i j).vn1 = t.vn1 ∧
    (t.count0 i j).hi = t.hi ∧ (t.count0 i j).vi = t.vi ∧
    (t.count0 i j).bad3 = t.bad3 ∧ (t.count0 i j).badD = t.badD := by
  unfold count0
  simp only []
  split_ifs <;> simp

theorem count0_badH (t : tab_t) (i j : Nat) :
    (t.count0 i j).badH = true ↔
      t.badH = true ∨ t.hn0 i + 1 > t.n / 2 ∨ t.vn0 j + 1 > t.n / 2 := by
  have e1 : inc t.hn0 i i = t.hn0 i + 1 := by simp [inc]
  have e2 : inc t.vn0 j j = t.vn0 j + 1 := by simp [inc]
  unfold count0
  simp only [e1, e2]
  split_ifs <;> simp_all

theorem count1_rest (t : tab_t) (i j : Nat) :
    (t.count1 i j).n = t.n ∧ (t.count1 i j).tab = t.tab ∧
    (t.count1 i j).hn0 = t.hn0 ∧ (t.count1 i j).hn1 = inc t.hn1 i ∧
    (t.count1 i j).vn0 = t.vn0 ∧ (t.count1 i j).vn1 = inc t.vn1 j ∧
    (t.count1 i j).hi = orbit t.hi i j ∧ (t.count1 i j).vi = orbit t.vi j i ∧
    (t.count1 i j).bad3 = t.bad3 ∧ (t.count1 i j).badD = t.badD := by
  unfold count1
  simp only []
  split_ifs <;> simp

theorem count1_badH (t : tab_t) (i j : Nat) :
    (t.count1 i j).badH = true ↔
      t.badH = true ∨ t.hn1 i + 1 > t.n / 2 ∨ t.vn1 j + 1 > t.n / 2 := by
  have e1 : inc t.hn1 i i = t.hn1 i + 1 := by simp [inc]
  have e2 : inc t.vn1 j j = t.vn1 j + 1 := by simp [inc]
  unfold count1
  simp only [e1, e2]
  split_ifs <;> simp_all

theorem duprow_rest (t : tab_t) (i : Nat) :
    (t.duprow i).n = t.n ∧ (t.duprow i).tab = t.tab ∧
    (t.duprow i).hn0 = t.hn0 ∧ (t.duprow i).hn1 = t.hn1 ∧
    (t.duprow i).vn0 = t.vn0 ∧ (t.duprow i).vn1 = t.vn1 ∧
    (t.duprow i).hi = t.hi ∧ (t.duprow i).vi = t.vi ∧
    (t.duprow i).bad3 = t.bad3 ∧ (t.duprow i).badH = t.badH := by
  unfold duprow
  split_ifs <;> simp

theorem duprow_badD (t : tab_t) (i : Nat) :
    (t.duprow i).badD = true ↔ t.badD = true ∨ RowHit t i := by
  unfold duprow RowHit
  split_ifs with h1 h2
  · simp only [List.any_eq_true, List.mem_range, decide_eq_true_eq] at h2
    simp [h1]; right; exact h2
  · simp only [List.any_eq_true, List.mem_range, decide_eq_true_eq] at h2
    simp only [h1, true_and]
    constructor
    · intro h; exact Or.inl h
    · rintro (h | h)
      · exact h
      · exact absurd h h2
  · simp [h1]

theorem dupcol_rest (t : tab_t) (j : Nat) :
    (t.dupcol j).n = t.n ∧ (t.dupcol j).tab = t.tab ∧
    (t.dupcol j).hn0 = t.hn0 ∧ (t.dupcol j).hn1 = t.hn1 ∧
    (t.dupcol j).vn0 = t.vn0 ∧ (t.dupcol j).vn1 = t.vn1 ∧
    (t.dupcol j).hi = t.hi ∧ (t.dupcol j).vi = t.vi ∧
    (t.dupcol j).bad3 = t.bad3 ∧ (t.dupcol j).badH = t.badH := by
  unfold dupcol
  split_ifs <;> simp

theorem dupcol_badD (t : tab_t) (j : Nat) :
    (t.dupcol j).badD = true ↔ t.badD = true ∨ ColHit t j := by
  unfold dupcol ColHit
  split_ifs with h1 h2
  · simp only [List.any_eq_true, List.mem_range, decide_eq_true_eq] at h2
    simp [h1]; right; exact h2
  · simp only [List.any_eq_true, List.mem_range, decide_eq_true_eq] at h2
    simp only [h1, true_and]
    constructor
    · intro h; exact Or.inl h
    · rintro (h | h)
      · exact h
      · exact absurd h h2
  · simp [h1]

theorem store_fields (t : tab_t) (i j x : Nat) :
    (t.store i j x).n = t.n ∧
    (t.store i j x).tab = (fun a b => if a = i ∧ b = j then x else t.tab a b) ∧
    (t.store i j x).hn0 = t.hn0 ∧ (t.store i j x).hn1 = t.hn1 ∧
    (t.store i j x).vn0 = t.vn0 ∧ (t.store i j x).vn1 = t.vn1 ∧
    (t.store i j x).hi = t.hi ∧ (t.store i j x).vi = t.vi ∧
    (t.store i j x).bad3 = t.bad3 ∧ (t.store i j x).badH = t.badH ∧
    (t.store i j x).badD = t.badD := by
  simp [store]

theorem mid_fields (t : tab_t) (i j x : Nat) :
    (mid t i j x).n = t.n ∧
    (mid t i j x).tab = (fun a b => if a = i ∧ b = j then x else t.tab a b) ∧
    (mid t i j x).hn0 = (if x = 0 then inc t.hn0 i else t.hn0) ∧
    (mid t i j x).hn1 = (if x = 1 then inc t.hn1 i else t.hn1) ∧
    (mid t i j x).vn0 = (if x = 0 then inc t.vn0 j else t.vn0) ∧
    (mid t i j x).vn1 = (if x = 1 then inc t.vn1 j else t.vn1) ∧
    (mid t i j x).hi = (if x = 1 then orbit t.hi i j else t.hi) ∧
    (mid t i j x).vi = (if x = 1 then orbit t.vi j i else t.vi) ∧
    (mid t i j x).badD = t.badD := by
  by_cases h0 : x = 0 <;> by_cases h1 : x = 1 <;>
    simp [mid, h0, h1, checklinecol_rest, count0_rest, count1_rest, store_fields]

theorem mid_bad3 (t : tab_t) (i j x : Nat) :
    (mid t i j x).bad3 = true ↔
      t.bad3 = true ∨ Win3 t.n (fun a b => if a = i ∧ b = j then x else t.tab a b) i j := by
  unfold mid
  simp only [checklinecol_bad3]
  by_cases h0 : x = 0 <;> by_cases h1 : x = 1 <;>
    simp [h0, h1, count0_rest, count1_rest, store_fields]

theorem mid_badH (t : tab_t) (i j x : Nat) :
    (mid t i j x).badH = true ↔
      t.badH = true ∨ (x = 0 ∧ (t.hn0 i + 1 > t.n / 2 ∨ t.vn0 j + 1 > t.n / 2)) ∨
        (x = 1 ∧ (t.hn1 i + 1 > t.n / 2 ∨ t.vn1 j + 1 > t.n / 2)) := by
  unfold mid
  simp only [checklinecol_rest]
  by_cases h0 : x = 0 <;> by_cases h1 : x = 1 <;>
    simp [h0, h1, count0_rest, count1_rest, store_fields, count0_badH, count1_badH]

theorem set_fields (t : tab_t) (i j x : Nat) :
    (t.set i j x).n = t.n ∧
    (t.set i j x).tab = (fun a b => if a = i ∧ b = j then x else t.tab a b) ∧
    (t.set i j x).hn0 = (if x = 0 then inc t.hn0 i else t.hn0) ∧
    (t.set i j x).hn1 = (if x = 1 then inc t.hn1 i else t.hn1) ∧
    (t.set i j x).vn0 = (if x = 0 then inc t.vn0 j else t.vn0) ∧
    (t.set i j x).vn1 = (if x = 1 then inc t.vn1 j else t.vn1) ∧
    (t.set i j x).hi = (if x = 1 then orbit t.hi i j else t.hi) ∧
    (t.set i j x).vi = (if x = 1 then orbit t.vi j i else t.vi) ∧
    (t.set i j x).bad3 = (mid t i j x).bad3 ∧
    (t.set i j x).badH = (mid t i j x).badH := by
  obtain ⟨m1, m2, m3, m4, m5, m6, m7, m8, _⟩ := mid_fields t i j x
  rw [set_eq]
  by_cases h : (mid t i j x).bad3 = true ∨ (mid t i j x).badH = true
  · rw [if_pos h]
    exact ⟨m1, m2, m3, m4, m5, m6, m7, m8, rfl, rfl⟩
  · rw [if_neg h]
    simp only [dupcol_rest, duprow_rest]
    exact ⟨m1, m2, m3, m4, m5, m6, m7, m8, trivial, trivial⟩

theorem set_badD (t : tab_t) (i j x : Nat) :
    (t.set i j x).badD = true ↔
      t.badD = true ∨ ((mid t i j x).bad3 = false ∧ (mid t i j x).badH = false ∧
        (RowHit (mid t i j x) i ∨ ColHit (mid t i j x) j)) := by
  have hc : ColHit ((mid t i j x).duprow i) j ↔ ColHit (mid t i j x) j := by
    simp [ColHit, duprow_rest]
  rw [set_eq]
  by_cases h : (mid t i j x).bad3 = true ∨ (mid t i j x).badH = true
  · rw [if_pos h]
    simp only [mid_fields]
    constructor
    · intro h'; exact Or.inl h'
    · rintro (h' | ⟨h3, hH, _⟩)
      · exact h'
      · rcases h with h | h
        · rw [h3] at h; exact absurd h (by simp)
        · rw [hH] at h; exact absurd h (by simp)
  · rw [if_neg h]
    simp only [dupcol_badD, duprow_badD, hc, mid_fields]
    have h3 : (mid t i j x).bad3 = false := by
      cases hb : (mid t i j x).bad3
      · rfl
      · exact absurd (Or.inl hb) h
    have hH : (mid t i j x).badH = false := by
      cases hb : (mid t i j x).badH
      · rfl
      · exact absurd (Or.inr hb) h
    simp only [h3, hH, true_and]
    tauto


/-! ## Boards built by legal `set` calls satisfy the invariant -/

theorem upd_same (g : Nat → Nat → Nat) (i j x : Nat) : upd g i j x i j = x := by
  simp [upd]

theorem upd_other (g : Nat → Nat → Nat) (i j x a b : Nat) (h : ¬ (a = i ∧ b = j)) :
    upd g i j x a b = g a b := by
  simp only [upd]; rw [if_neg h]

theorem set_tab (t : tab_t) (i j x : Nat) : (t.set i j x).tab = upd t.tab i j x :=
  (set_fields t i j x).2.1

theorem set_n (t : tab_t) (i j x : Nat) : (t.set i j x).n = t.n :=
  (set_fields t i j x).1

theorem row_cnt (g : Nat → Nat → Nat) (n i j x a v : Nat) (hj : j < n)
    (hu : g i j = UNK) (hv : v ≠ UNK) :
    cnt (upd g i j x a) v n = cnt (g a) v n + (if a = i ∧ x = v then 1 else 0) := by
  by_cases ha : a = i
  · subst ha
    have e : cnt (upd g a j x a) v n = cnt (fun k => if k = j then x else g a k) v n :=
      cnt_congr v (fun k _ => by simp [upd])
    rw [e, cnt_update (g a) v j x n hj (by rw [hu]; exact fun h => hv h.symm)]
    simp
  · have e : cnt (upd g i j x a) v n = cnt (g a) v n :=
      cnt_congr v (fun k _ => by simp [upd, ha])
    rw [e]; simp [ha]

theorem col_cnt (g : Nat → Nat → Nat) (n i j x b v : Nat) (hi : i < n)
    (hu : g i j = UNK) (hv : v ≠ UNK) :
    cnt (col (upd g i j x) b) v n = cnt (col g b) v n + (if b = j ∧ x = v then 1 else 0) := by
  by_cases hb : b = j
  · subst hb
    have e : cnt (col (upd g i b x) b) v n = cnt (fun k => if k = i then x else col g b k) v n :=
      cnt_congr v (fun k _ => by simp [upd, col])
    rw [e, cnt_update (col g b) v i x n hi (by simp only [col]; rw [hu]; exact fun h => hv h.symm)]
    simp
  · have e : cnt (col (upd g i j x) b) v n = cnt (col g b) v n :=
      cnt_congr v (fun k _ => by simp [upd, col, hb])
    rw [e]; simp [hb]

theorem inv_init (n : Nat) (hn : n ≤ NM) : Inv (tab_t.init n) where
  size := hn
  cell := fun _ _ => by simp [tab_t.init, UNK]
  out := fun _ _ _ => rfl
  hn0 := fun _ => (cnt_zero_of_forall_ne _ _ _ (fun _ _ => by simp [tab_t.init, UNK])).symm
  hn1 := fun _ => (cnt_zero_of_forall_ne _ _ _ (fun _ _ => by simp [tab_t.init, UNK])).symm
  vn0 := fun _ => (cnt_zero_of_forall_ne _ _ _ (fun _ _ => by simp [tab_t.init, UNK, col])).symm
  vn1 := fun _ => (cnt_zero_of_forall_ne _ _ _ (fun _ _ => by simp [tab_t.init, UNK, col])).symm
  hi := fun _ _ => by simp [tab_t.init, UNK]
  vi := fun _ _ => by simp [tab_t.init, UNK]
  b3 := by
    constructor
    · intro h; simp [tab_t.init] at h
    · rintro ⟨l, _, k, _, h | h⟩ <;> exact absurd rfl h.1
  bH := by
    constructor
    · intro h; simp [tab_t.init] at h
    · rintro ⟨l, _, h⟩
      have z : ∀ (f : Nat → Nat) (v : Nat), (∀ k, f k = UNK) → v ≠ UNK → cnt f v n = 0 :=
        fun f v hf hv => cnt_zero_of_forall_ne _ _ _ (fun k _ h => hv (by rw [← h, hf k]))
      have e1 := z ((init n).tab l) 0 (fun _ => rfl) (by simp [UNK])
      have e2 := z ((init n).tab l) 1 (fun _ => rfl) (by simp [UNK])
      have e3 := z (col (init n).tab l) 0 (fun _ => rfl) (by simp [UNK])
      have e4 := z (col (init n).tab l) 1 (fun _ => rfl) (by simp [UNK])
      have e5 : (init n).n = n := rfl
      rw [e5] at h
      omega
  bD := fun h => by simp [tab_t.init] at h
  bD' := by
    rintro _ _ ⟨a, ha, b, _, _, h | h⟩
    · exact absurd rfl (h.1 a ha)
    · exact absurd rfl (h.1 a ha)

theorem upd_of_assigned (g : Nat → Nat → Nat) (i j x a b : Nat) (hu : g i j = UNK)
    (h : g a b ≠ UNK) : upd g i j x a b = g a b := by
  apply upd_other
  rintro ⟨rfl, rfl⟩
  exact h hu

theorem run3_row_old (g : Nat → Nat → Nat) (i j x l k : Nat) (hu : g i j = UNK)
    (h : Run3 (g l) k) : Run3 (upd g i j x l) k := by
  obtain ⟨h1, h2, h3⟩ := h
  have e1 := upd_of_assigned g i j x l k hu h1
  have e2 := upd_of_assigned g i j x l (k + 1) hu (by rw [← h2]; exact h1)
  have e3 := upd_of_assigned g i j x l (k + 2) hu (by rw [← h3]; exact h1)
  exact ⟨by rw [e1]; exact h1, by rw [e1, e2]; exact h2, by rw [e1, e3]; exact h3⟩

theorem run3_col_old (g : Nat → Nat → Nat) (i j x l k : Nat) (hu : g i j = UNK)
    (h : Run3 (col g l) k) : Run3 (col (upd g i j x) l) k := by
  obtain ⟨h1, h2, h3⟩ := h
  simp only [col] at h1 h2 h3
  have e1 := upd_of_assigned g i j x k l hu h1
  have e2 := upd_of_assigned g i j x (k + 1) l hu (by rw [← h2]; exact h1)
  have e3 := upd_of_assigned g i j x (k + 2) l hu (by rw [← h3]; exact h1)
  exact ⟨by simp only [col]; rw [e1]; exact h1, by simp only [col]; rw [e1, e2]; exact h2,
    by simp only [col]; rw [e1, e3]; exact h3⟩

theorem triple_mono_upd (n : Nat) (g : Nat → Nat → Nat) (i j x : Nat) (hu : g i j = UNK)
    (h : Triple n g) : Triple n (upd g i j x) := by
  obtain ⟨l, hl, k, hk, h | h⟩ := h
  · exact ⟨l, hl, k, hk, Or.inl (run3_row_old g i j x l k hu h)⟩
  · exact ⟨l, hl, k, hk, Or.inr (run3_col_old g i j x l k hu h)⟩

theorem win3_triple (n : Nat) (g : Nat → Nat → Nat) (i j : Nat) (hi : i < n) (hj : j < n)
    (hx : g i j ≠ UNK) (h : Win3 n g i j) : Triple n g := by
  rcases h with ⟨h1, h2, h3⟩ | ⟨⟨h1, h1'⟩, h2, h3⟩ | ⟨h1, h2, h3⟩ | ⟨h1, h2, h3⟩ |
    ⟨⟨h1, h1'⟩, h2, h3⟩ | ⟨h1, h2, h3⟩
  · refine ⟨i, hi, j - 2, by omega, Or.inl ⟨?_, ?_, ?_⟩⟩
    · rw [← h3]; exact hx
    · rw [← h3, show j - 2 + 1 = j - 1 by omega]; exact h2
    · rw [← h3, show j - 2 + 2 = j by omega]
  · refine ⟨i, hi, j - 1, by omega, Or.inl ⟨?_, ?_, ?_⟩⟩
    · rw [← h2]; exact hx
    · rw [← h2, show j - 1 + 1 = j by omega]
    · rw [← h2, show j - 1 + 2 = j + 1 by omega]; exact h3
  · exact ⟨i, hi, j, h1, Or.inl ⟨hx, h2, h3⟩⟩
  · refine ⟨j, hj, i - 2, by omega, Or.inr ⟨?_, ?_, ?_⟩⟩ <;> simp only [col]
    · rw [← h3]; exact hx
    · rw [← h3, show i - 2 + 1 = i - 1 by omega]; exact h2
    · rw [← h3, show i - 2 + 2 = i by omega]
  · refine ⟨j, hj, i - 1, by omega, Or.inr ⟨?_, ?_, ?_⟩⟩ <;> simp only [col]
    · rw [← h2]; exact hx
    · rw [← h2, show i - 1 + 1 = i by omega]
    · rw [← h2, show i - 1 + 2 = i + 1 by omega]; exact h3
  · exact ⟨j, hj, i, h1, Or.inr ⟨hx, h2, h3⟩⟩

/-- A run of three in the line `f` that passes through position `p` is seen by one of
the three windows through `p`. -/
theorem run3_through (f : Nat → Nat) (n p k : Nat) (hk : k + 2 < n)
    (hp : p = k ∨ p = k + 1 ∨ p = k + 2) (h : Run3 f k) :
    (p > 1 ∧ f p = f (p - 1) ∧ f p = f (p - 2)) ∨
    ((p > 0 ∧ p + 1 < n) ∧ f p = f (p - 1) ∧ f p = f (p + 1)) ∨
    (p + 2 < n ∧ f p = f (p + 1) ∧ f p = f (p + 2)) := by
  obtain ⟨_, h2, h3⟩ := h
  rcases hp with rfl | rfl | rfl
  · exact Or.inr (Or.inr ⟨hk, h2, h3⟩)
  · refine Or.inr (Or.inl ⟨⟨by omega, by omega⟩, ?_, ?_⟩)
    · rw [show k + 1 - 1 = k by omega]; exact h2.symm
    · rw [show k + 1 + 1 = k + 2 by omega, ← h2, ← h3]
  · refine Or.inl ⟨by omega, ?_, ?_⟩
    · rw [show k + 2 - 1 = k + 1 by omega, ← h2, ← h3]
    · rw [show k + 2 - 2 = k by omega]; exact h3.symm

theorem triple_upd (n : Nat) (g : Nat → Nat → Nat) (i j x : Nat) (hi : i < n) (hj : j < n)
    (hu : g i j = UNK) (hx : x ≠ UNK) :
    Triple n (upd g i j x) ↔ Triple n g ∨ Win3 n (upd g i j x) i j := by
  constructor
  · rintro ⟨l, hl, k, hk, h | h⟩
    · by_cases hc : l = i ∧ (j = k ∨ j = k + 1 ∨ j = k + 2)
      · obtain ⟨rfl, hp⟩ := hc
        rcases run3_through (upd g l j x l) n j k hk hp h with w | w | w
        · exact Or.inr (Or.inl w)
        · exact Or.inr (Or.inr (Or.inl w))
        · exact Or.inr (Or.inr (Or.inr (Or.inl w)))
      · left
        obtain ⟨h1, h2, h3⟩ := h
        have e1 := upd_other g i j x l k (by omega)
        have e2 := upd_other g i j x l (k + 1) (by omega)
        have e3 := upd_other g i j x l (k + 2) (by omega)
        rw [e1] at h1 h2 h3; rw [e2] at h2; rw [e3] at h3
        exact ⟨l, hl, k, hk, Or.inl ⟨h1, h2, h3⟩⟩
    · by_cases hc : l = j ∧ (i = k ∨ i = k + 1 ∨ i = k + 2)
      · obtain ⟨rfl, hp⟩ := hc
        rcases run3_through (col (upd g i l x) l) n i k hk hp h with w | w | w
        · exact Or.inr (Or.inr (Or.inr (Or.inr (Or.inl w))))
        · exact Or.inr (Or.inr (Or.inr (Or.inr (Or.inr (Or.inl w)))))
        · exact Or.inr (Or.inr (Or.inr (Or.inr (Or.inr (Or.inr w)))))
      · left
        obtain ⟨h1, h2, h3⟩ := h
        simp only [col] at h1 h2 h3
        have e1 := upd_other g i j x k l (by omega)
        have e2 := upd_other g i j x (k + 1) l (by omega)
        have e3 := upd_other g i j x (k + 2) l (by omega)
        rw [e1] at h1 h2 h3; rw [e2] at h2; rw [e3] at h3
        exact ⟨l, hl, k, hk, Or.inr ⟨h1, h2, h3⟩⟩
  · rintro (h | h)
    · exact triple_mono_upd n g i j x hu h
    · exact win3_triple n (upd g i j x) i j hi hj (by rw [upd_same]; exact hx) h

theorem half_step (c m : Nat) (P : Prop) [Decidable P]
    (h : c + (if P then 1 else 0) > m) : c > m ∨ (P ∧ c + 1 > m) := by
  by_cases hP : P
  · rw [if_pos hP] at h; exact Or.inr ⟨hP, h⟩
  · rw [if_neg hP] at h; exact Or.inl h

theorem half_upd (n : Nat) (g : Nat → Nat → Nat) (i j x : Nat) (hi : i < n) (hj : j < n)
    (hu : g i j = UNK) :
    Half n (upd g i j x) ↔
      Half n g ∨ (x = 0 ∧ (cnt (g i) 0 n + 1 > n / 2 ∨ cnt (col g j) 0 n + 1 > n / 2)) ∨
        (x = 1 ∧ (cnt (g i) 1 n + 1 > n / 2 ∨ cnt (col g j) 1 n + 1 > n / 2)) := by
  have r0 := fun a => row_cnt g n i j x a 0 hj hu (by simp [UNK])
  have r1 := fun a => row_cnt g n i j x a 1 hj hu (by simp [UNK])
  have c0 := fun b => col_cnt g n i j x b 0 hi hu (by simp [UNK])
  have c1 := fun b => col_cnt g n i j x b 1 hi hu (by simp [UNK])
  unfold Half
  simp only [r0, r1, c0, c1]
  constructor
  · rintro ⟨l, hl, h | h | h | h⟩
    · rcases half_step _ _ _ h with h' | ⟨⟨rfl, rfl⟩, h'⟩
      · exact Or.inl ⟨l, hl, Or.inl h'⟩
      · exact Or.inr (Or.inl ⟨rfl, Or.inl h'⟩)
    · rcases half_step _ _ _ h with h' | ⟨⟨rfl, rfl⟩, h'⟩
      · exact Or.inl ⟨l, hl, Or.inr (Or.inl h')⟩
      · exact Or.inr (Or.inr ⟨rfl, Or.inl h'⟩)
    · rcases half_step _ _ _ h with h' | ⟨⟨rfl, rfl⟩, h'⟩
      · exact Or.inl ⟨l, hl, Or.inr (Or.inr (Or.inl h'))⟩
      · exact Or.inr (Or.inl ⟨rfl, Or.inr h'⟩)
    · rcases half_step _ _ _ h with h' | ⟨⟨rfl, rfl⟩, h'⟩
      · exact Or.inl ⟨l, hl, Or.inr (Or.inr (Or.inr h'))⟩
      · exact Or.inr (Or.inr ⟨rfl, Or.inr h'⟩)
  · rintro (⟨l, hl, h | h | h | h⟩ | ⟨rfl, h | h⟩ | ⟨rfl, h | h⟩)
    · exact ⟨l, hl, Or.inl (Nat.lt_of_lt_of_le h (Nat.le_add_right _ _))⟩
    · exact ⟨l, hl, Or.inr (Or.inl (Nat.lt_of_lt_of_le h (Nat.le_add_right _ _)))⟩
    · exact ⟨l, hl, Or.inr (Or.inr (Or.inl (Nat.lt_of_lt_of_le h (Nat.le_add_right _ _))))⟩
    · exact ⟨l, hl, Or.inr (Or.inr (Or.inr (Nat.lt_of_lt_of_le h (Nat.le_add_right _ _))))⟩
    · exact ⟨i, hi, Or.inl (by simpa using h)⟩
    · exact ⟨j, hj, Or.inr (Or.inr (Or.inl (by simpa using h)))⟩
    · exact ⟨i, hi, Or.inr (Or.inl (by simpa using h))⟩
    · exact ⟨j, hj, Or.inr (Or.inr (Or.inr (by simpa using h)))⟩

/-! ### Masks and duplicate lines -/

theorem dup_iff (n : Nat) (g : Nat → Nat → Nat) :
    Dup n g ↔ ∃ a, a < n ∧ (DupAt n g a ∨ DupAt n (col g) a) := by
  constructor
  · rintro ⟨a, ha, b, hb, hab, ⟨h1, h2, h3⟩ | ⟨h1, h2, h3⟩⟩
    · exact ⟨a, ha, Or.inl ⟨h1, b, hb, fun h => hab h.symm, h2, h3⟩⟩
    · exact ⟨a, ha, Or.inr ⟨h1, b, hb, fun h => hab h.symm, h2, h3⟩⟩
  · rintro ⟨a, ha, ⟨h1, b, hb, hab, h2, h3⟩ | ⟨h1, b, hb, hab, h2, h3⟩⟩
    · exact ⟨a, ha, b, hb, fun h => hab h.symm, Or.inl ⟨h1, h2, h3⟩⟩
    · exact ⟨a, ha, b, hb, fun h => hab h.symm, Or.inr ⟨h1, h2, h3⟩⟩

/-- Two full lines have equal masks exactly when they agree cell for cell. -/
theorem mask_same (n : Nat) (g : Nat → Nat → Nat) (m : Nat → Nat)
    (hm : ∀ a b, (m a).testBit b = decide (g a b = 1)) (hc : ∀ a b, g a b ≤ 2)
    (hout : ∀ a b, ¬ b < n → g a b = UNK) (a b : Nat)
    (fa : Full n (g a)) (fb : Full n (g b)) : m a = m b ↔ Same n (g a) (g b) := by
  constructor
  · intro h k hk
    have e : decide (g a k = 1) = decide (g b k = 1) := by rw [← hm, ← hm, h]
    have e' : g a k = 1 ↔ g b k = 1 := by simpa using e
    have h1 := hc a k
    have h2 := hc b k
    have h3 := fa k hk
    have h4 := fb k hk
    simp only [UNK] at h3 h4
    by_cases h5 : g a k = 1
    · rw [h5, e'.mp h5]
    · have h6 : ¬ g b k = 1 := fun h => h5 (e'.mpr h)
      omega
  · intro h
    apply Nat.eq_of_testBit_eq
    intro k
    rw [hm, hm]
    by_cases hk : k < n
    · rw [h k hk]
    · rw [hout a k hk, hout b k hk]

theorem full_iff_cnt (t : tab_t) (hC : Cnt t) (a : Nat) :
    (t.hn0 a + t.hn1 a = t.n ↔ Full t.n (t.tab a)) ∧
    (t.vn0 a + t.vn1 a = t.n ↔ Full t.n (col t.tab a)) := by
  rw [hC.hn0, hC.hn1, hC.vn0, hC.vn1]
  exact ⟨cnt_full_iff _ _ (fun k => hC.cell a k), cnt_full_iff _ _ (fun k => hC.cell k a)⟩

theorem rowhit_iff (t : tab_t) (hC : Cnt t) (i : Nat) :
    RowHit t i ↔ DupAt t.n t.tab i := by
  unfold RowHit DupAt
  rw [(full_iff_cnt t hC i).1]
  constructor
  · rintro ⟨h1, k, hk, hki, h2, h3⟩
    have fk := (full_iff_cnt t hC k).1.mp h2
    exact ⟨h1, k, hk, hki, fk,
      (mask_same t.n t.tab t.hi hC.hi hC.cell (fun a b hb => hC.out a b (fun h => hb h.2))
        i k h1 fk).mp h3⟩
  · rintro ⟨h1, k, hk, hki, h2, h3⟩
    exact ⟨h1, k, hk, hki, (full_iff_cnt t hC k).1.mpr h2,
      (mask_same t.n t.tab t.hi hC.hi hC.cell (fun a b hb => hC.out a b (fun h => hb h.2))
        i k h1 h2).mpr h3⟩

theorem colhit_iff (t : tab_t) (hC : Cnt t) (j : Nat) :
    ColHit t j ↔ DupAt t.n (col t.tab) j := by
  unfold ColHit DupAt
  rw [(full_iff_cnt t hC j).2]
  constructor
  · rintro ⟨h1, k, hk, hkj, h2, h3⟩
    have fk := (full_iff_cnt t hC k).2.mp h2
    exact ⟨h1, k, hk, hkj, fk,
      (mask_same t.n (col t.tab) t.vi hC.vi (fun a b => hC.cell b a)
        (fun a b hb => hC.out b a (fun h => hb h.1)) j k h1 fk).mp h3⟩
  · rintro ⟨h1, k, hk, hkj, h2, h3⟩
    exact ⟨h1, k, hk, hkj, (full_iff_cnt t hC k).2.mpr h2,
      (mask_same t.n (col t.tab) t.vi hC.vi (fun a b => hC.cell b a)
        (fun a b hb => hC.out b a (fun h => hb h.1)) j k h1 h2).mpr h3⟩

theorem upd_row_other (g : Nat → Nat → Nat) (i j x a : Nat) (h : a ≠ i) :
    upd g i j x a = g a := by
  funext b; exact upd_other g i j x a b (fun h' => h h'.1)

theorem upd_col_other (g : Nat → Nat → Nat) (i j x b : Nat) (h : b ≠ j) :
    col (upd g i j x) b = col g b := by
  funext a; exact upd_other g i j x a b (fun h' => h h'.2)

theorem dupAt_row_upd (n : Nat) (g : Nat → Nat → Nat) (i j x a : Nat) (han : a < n)
    (ha : a ≠ i) (h : DupAt n (upd g i j x) a) :
    DupAt n g a ∨ DupAt n (upd g i j x) i := by
  obtain ⟨h1, k, hk, hka, h2, h3⟩ := h
  by_cases hki : k = i
  · subst hki
    exact Or.inr ⟨h2, a, han, ha, h1, fun b hb => (h3 b hb).symm⟩
  · rw [upd_row_other g i j x a ha] at h1 h3
    rw [upd_row_other g i j x k hki] at h2 h3
    exact Or.inl ⟨h1, k, hk, hka, h2, h3⟩

theorem dupAt_col_upd (n : Nat) (g : Nat → Nat → Nat) (i j x b : Nat) (hbn : b < n)
    (hb : b ≠ j) (h : DupAt n (col (upd g i j x)) b) :
    DupAt n (col g) b ∨ DupAt n (col (upd g i j x)) j := by
  obtain ⟨h1, k, hk, hkb, h2, h3⟩ := h
  by_cases hkj : k = j
  · subst hkj
    exact Or.inr ⟨h2, b, hbn, hb, h1, fun a ha => (h3 a ha).symm⟩
  · rw [upd_col_other g i j x b hb] at h1 h3
    rw [upd_col_other g i j x k hkj] at h2 h3
    exact Or.inl ⟨h1, k, hk, hkb, h2, h3⟩

theorem full_row_ne (n : Nat) (g : Nat → Nat → Nat) (i j a : Nat) (hj : j < n)
    (hu : g i j = UNK) (h : Full n (g a)) : a ≠ i := by
  rintro rfl; exact h j hj hu

theorem full_col_ne (n : Nat) (g : Nat → Nat → Nat) (i j b : Nat) (hi : i < n)
    (hu : g i j = UNK) (h : Full n (col g b)) : b ≠ j := by
  rintro rfl; exact h i hi hu

theorem dup_upd (n : Nat) (g : Nat → Nat → Nat) (i j x : Nat) (hi : i < n) (hj : j < n)
    (hu : g i j = UNK) :
    Dup n (upd g i j x) ↔
      Dup n g ∨ DupAt n (upd g i j x) i ∨ DupAt n (col (upd g i j x)) j := by
  rw [dup_iff, dup_iff]
  constructor
  · rintro ⟨a, ha, h | h⟩
    · by_cases hai : a = i
      · subst hai; exact Or.inr (Or.inl h)
      · rcases dupAt_row_upd n g i j x a ha hai h with h' | h'
        · exact Or.inl ⟨a, ha, Or.inl h'⟩
        · exact Or.inr (Or.inl h')
    · by_cases haj : a = j
      · subst haj; exact Or.inr (Or.inr h)
      · rcases dupAt_col_upd n g i j x a ha haj h with h' | h'
        · exact Or.inl ⟨a, ha, Or.inr h'⟩
        · exact Or.inr (Or.inr h')
  · rintro (⟨a, ha, ⟨h1, k, hk, hka, h2, h3⟩ | ⟨h1, k, hk, hka, h2, h3⟩⟩ | h | h)
    · have e1 := upd_row_other g i j x a (full_row_ne n g i j a hj hu h1)
      have e2 := upd_row_other g i j x k (full_row_ne n g i j k hj hu h2)
      exact ⟨a, ha, Or.inl ⟨by rw [e1]; exact h1, k, hk, hka, by rw [e2]; exact h2,
        by rw [e1, e2]; exact h3⟩⟩
    · have e1 := upd_col_other g i j x a (full_col_ne n g i j a hi hu h1)
      have e2 := upd_col_other g i j x k (full_col_ne n g i j k hi hu h2)
      exact ⟨a, ha, Or.inr ⟨by rw [e1]; exact h1, k, hk, hka, by rw [e2]; exact h2,
        by rw [e1, e2]; exact h3⟩⟩
    · exact ⟨i, hi, Or.inl h⟩
    · exact ⟨j, hj, Or.inr h⟩

theorem inc_apply (c : Nat → Nat) (i a : Nat) :
    inc c i a = c a + (if a = i then 1 else 0) := by
  simp only [inc]; split <;> rfl

theorem counter_step (c : Nat → Nat) (f f' : Nat → Nat) (n i x v a : Nat)
    (hc : c a = cnt f v n)
    (hf : cnt f' v n = cnt f v n + (if a = i ∧ x = v then 1 else 0)) :
    (if x = v then inc c i else c) a = cnt f' v n := by
  rw [hf]
  by_cases hx : x = v
  · rw [if_pos hx, inc_apply, hc]
    by_cases ha : a = i <;> simp [ha, hx]
  · rw [if_neg hx, hc]; simp [hx]

theorem mask_step (m : Nat → Nat) (g : Nat → Nat → Nat) (i j x a b : Nat)
    (hm : (m a).testBit b = decide (g a b = 1)) (hu : g i j = UNK) :
    ((if x = 1 then orbit m i j else m) a).testBit b = decide (upd g i j x a b = 1) := by
  by_cases hab : a = i ∧ b = j
  · obtain ⟨rfl, rfl⟩ := hab
    rw [upd_same]
    by_cases h1 : x = 1
    · rw [if_pos h1]
      simp [orbit, Nat.testBit_or, Nat.one_shiftLeft, Nat.testBit_two_pow, h1]
    · rw [if_neg h1, hm, hu]
      simp [UNK, h1]
  · rw [upd_other g i j x a b hab]
    by_cases h1 : x = 1
    · rw [if_pos h1]
      simp only [orbit]
      by_cases ha : a = i
      · rw [if_pos ha, Nat.testBit_or, Nat.one_shiftLeft, Nat.testBit_two_pow, hm]
        have : ¬ j = b := fun h => hab ⟨ha, h.symm⟩
        simp [this]
      · rw [if_neg ha, hm]
    · rw [if_neg h1, hm]

theorem cnt_set (t : tab_t) (i j x : Nat) (hC : Cnt t) (hi : i < t.n) (hj : j < t.n)
    (hu : t.tab i j = UNK) (hx : x ≤ 1) : Cnt (t.set i j x) := by
  obtain ⟨f1, f2, f3, f4, f5, f6, f7, f8, _, _⟩ := set_fields t i j x
  have e2 : (t.set i j x).tab = upd t.tab i j x := f2
  have v0 : (0 : Nat) ≠ UNK := by simp [UNK]
  have v1 : (1 : Nat) ≠ UNK := by simp [UNK]
  refine ⟨?_, ?_, ?_, ?_, ?_, ?_, ?_, ?_, ?_⟩
  · rw [f1]; exact hC.size
  · intro a b
    rw [e2]; simp only [upd]
    split
    · omega
    · exact hC.cell a b
  · intro a b hab
    rw [f1] at hab
    have hne : ¬ (a = i ∧ b = j) := by
      rintro ⟨rfl, rfl⟩; exact hab ⟨hi, hj⟩
    rw [e2, upd_other _ _ _ _ _ _ hne]
    exact hC.out a b hab
  · intro a
    rw [f3, e2, f1]
    exact counter_step _ _ _ _ _ _ _ _ (hC.hn0 a) (row_cnt t.tab t.n i j x a 0 hj hu v0)
  · intro a
    rw [f4, e2, f1]
    exact counter_step _ _ _ _ _ _ _ _ (hC.hn1 a) (row_cnt t.tab t.n i j x a 1 hj hu v1)
  · intro b
    rw [f5, e2, f1]
    exact counter_step _ _ _ _ _ _ _ _ (hC.vn0 b) (col_cnt t.tab t.n i j x b 0 hi hu v0)
  · intro b
    rw [f6, e2, f1]
    exact counter_step _ _ _ _ _ _ _ _ (hC.vn1 b) (col_cnt t.tab t.n i j x b 1 hi hu v1)
  · intro a b
    rw [f7, e2]
    exact mask_step t.hi t.tab i j x a b (hC.hi a b) hu
  · intro b a
    rw [f8, e2]
    have := mask_step t.vi (col t.tab) j i x b a (hC.vi b a) hu
    rw [this]
    simp [upd, col, and_comm]

theorem rowhit_mid (t : tab_t) (i j x : Nat) :
    RowHit (mid t i j x) i ↔ RowHit (t.set i j x) i := by
  obtain ⟨f1, _, f3, f4, _, _, f7, _, _, _⟩ := set_fields t i j x
  obtain ⟨m1, _, m3, m4, _, _, m7, _, _⟩ := mid_fields t i j x
  unfold RowHit
  rw [f1, f3, f4, f7, m1, m3, m4, m7]

theorem colhit_mid (t : tab_t) (i j x : Nat) :
    ColHit (mid t i j x) j ↔ ColHit (t.set i j x) j := by
  obtain ⟨f1, _, _, _, f5, f6, _, f8, _, _⟩ := set_fields t i j x
  obtain ⟨m1, _, _, _, m5, m6, _, m8, _⟩ := mid_fields t i j x
  unfold ColHit
  rw [f1, f5, f6, f8, m1, m5, m6, m8]

/-- What `set` does to the three flags, in terms of the grid. -/
theorem set_flags (t : tab_t) (i j x : Nat) (hI : Inv t) (hi : i < t.n) (hj : j < t.n)
    (hu : t.tab i j = UNK) (hx : x ≤ 1) :
    ((t.set i j x).bad3 = true ↔ Triple t.n (upd t.tab i j x)) ∧
    ((t.set i j x).badH = true ↔ Half t.n (upd t.tab i j x)) ∧
    ((t.set i j x).badD = true ↔ t.badD = true ∨
      ((t.set i j x).bad3 = false ∧ (t.set i j x).badH = false ∧
        (DupAt t.n (upd t.tab i j x) i ∨ DupAt t.n (col (upd t.tab i j x)) j))) := by
  have hC' := cnt_set t i j x hI.toCnt hi hj hu hx
  obtain ⟨f1, f2, _, _, _, _, _, _, f9, f10⟩ := set_fields t i j x
  have e2 : (t.set i j x).tab = upd t.tab i j x := f2
  have hxu : x ≠ UNK := by simp only [UNK]; omega
  refine ⟨?_, ?_, ?_⟩
  · rw [f9, mid_bad3, triple_upd t.n t.tab i j x hi hj hu hxu, hI.b3]; rfl
  · rw [f10, mid_badH, half_upd t.n t.tab i j x hi hj hu, hI.bH, hI.hn0, hI.hn1, hI.vn0,
      hI.vn1]
  · rw [set_badD, rowhit_mid, colhit_mid, rowhit_iff _ hC', colhit_iff _ hC', f9, f10, f1, e2]

theorem inv_set (t : tab_t) (i j x : Nat) (hI : Inv t) (hi : i < t.n) (hj : j < t.n)
    (hu : t.tab i j = UNK) (hx : x ≤ 1) : Inv (t.set i j x) := by
  have hC' := cnt_set t i j x hI.toCnt hi hj hu hx
  obtain ⟨h3, hH, hD⟩ := set_flags t i j x hI hi hj hu hx
  have e1 : (t.set i j x).n = t.n := set_n t i j x
  have e2 : (t.set i j x).tab = upd t.tab i j x := set_tab t i j x
  have hdup := dup_upd t.n t.tab i j x hi hj hu
  refine { toCnt := hC', b3 := ?_, bH := ?_, bD := ?_, bD' := ?_ }
  · rw [e1, e2]; exact h3
  · rw [e1, e2]; exact hH
  · rw [e1, e2, hD, hdup]
    rintro (h | ⟨_, _, h⟩)
    · exact Or.inl (hI.bD h)
    · exact Or.inr h
  · rw [e1, e2, hD, hdup]
    intro b3 bH h
    rcases h with h | h
    · left
      apply hI.bD' _ _ h
      · cases hb : t.bad3
        · rfl
        · have := h3.mpr (triple_mono_upd t.n t.tab i j x hu (hI.b3.mp hb))
          rw [b3] at this; exact absurd this (by simp)
      · cases hb : t.badH
        · rfl
        · have := hH.mpr ((half_upd t.n t.tab i j x hi hj hu).mpr (Or.inl (hI.bH.mp hb)))
          rw [bH] at this; exact absurd this (by simp)
    · exact Or.inr ⟨b3, bH, h⟩

theorem Reach.inv {t : tab_t} (h : Reach t) : Inv t := by
  induction h with
  | init n hn => exact inv_init n hn
  | set i j x _ hi hj hu hx ih => exact inv_set _ i j x ih hi hj hu hx


/-! ## Reading the flags -/

theorem isbad_eq_zero (t : tab_t) (rules : Nat) :
    t.isbad rules = 0 ↔
      (rules &&& R_3 ≠ 0 → t.bad3 = false) ∧ (rules &&& R_HALF ≠ 0 → t.badH = false) ∧
        (rules &&& R_DUPLINES ≠ 0 → t.badD = false) := by
  unfold isbad
  by_cases h1 : rules &&& R_3 ≠ 0 ∧ t.bad3 = true
  · rw [if_pos h1]
    constructor
    · intro h; exact absurd h (by decide)
    · intro h; have := h.1 h1.1; rw [h1.2] at this; exact absurd this (by simp)
  · rw [if_neg h1]
    by_cases h2 : rules &&& R_HALF ≠ 0 ∧ t.badH = true
    · rw [if_pos h2]
      constructor
      · intro h; exact absurd h (by decide)
      · intro h; have := h.2.1 h2.1; rw [h2.2] at this; exact absurd this (by simp)
    · rw [if_neg h2]
      by_cases h3 : rules &&& R_DUPLINES ≠ 0 ∧ t.badD = true
      · rw [if_pos h3]
        constructor
        · intro h; exact absurd h (by decide)
        · intro h; have := h.2.2 h3.1; rw [h3.2] at this; exact absurd this (by simp)
      · rw [if_neg h3]
        simp only [true_iff]
        refine ⟨fun h => ?_, fun h => ?_, fun h => ?_⟩
        · cases hb : t.bad3
          · rfl
          · exact absurd ⟨h, hb⟩ h1
        · cases hb : t.badH
          · rfl
          · exact absurd ⟨h, hb⟩ h2
        · cases hb : t.badD
          · rfl
          · exact absurd ⟨h, hb⟩ h3

theorem isbad_all_eq_zero (t : tab_t) :
    t.isbad R_ALL = 0 ↔ t.bad3 = false ∧ t.badH = false ∧ t.badD = false := by
  rw [isbad_eq_zero]
  have e1 : R_ALL &&& R_3 ≠ 0 := by decide
  have e2 : R_ALL &&& R_HALF ≠ 0 := by decide
  have e3 : R_ALL &&& R_DUPLINES ≠ 0 := by decide
  exact ⟨fun h => ⟨h.1 e1, h.2.1 e2, h.2.2 e3⟩, fun h => ⟨fun _ => h.1, fun _ => h.2.1, fun _ => h.2.2⟩⟩

/-- A violation reported under any rule mask is reported under `R_ALL`. -/
theorem isbad_all_of_isbad (t : tab_t) (rules : Nat) (h : t.isbad rules ≠ 0) :
    t.isbad R_ALL ≠ 0 := by
  intro h0
  obtain ⟨h3, hH, hD⟩ := (isbad_all_eq_zero t).mp h0
  exact h ((isbad_eq_zero t rules).mpr ⟨fun _ => h3, fun _ => hH, fun _ => hD⟩)

theorem iscomplete_iff (t : tab_t) (hC : Cnt t) :
    t.iscomplete = true ↔ ∀ i j, i < t.n → j < t.n → t.tab i j ≠ UNK := by
  unfold iscomplete
  simp only [List.all_eq_true, List.mem_range, decide_eq_true_eq, Nat.not_lt]
  constructor
  · intro h i j hi hj
    have h1 := h j hj
    have h2 := cnt_add_le (col t.tab j) t.n
    rw [hC.vn0, hC.vn1] at h1
    exact (cnt_full_iff (col t.tab j) t.n (fun k => hC.cell k j)).mp (by omega) i hi
  · intro h j hj
    rw [hC.vn0, hC.vn1]
    exact Nat.le_of_eq
      ((cnt_full_iff (col t.tab j) t.n (fun k => hC.cell k j)).mpr (fun i hi => h i j hi hj)).symm

/-- On a board built by legal `set` calls, `isbad()` is `0` exactly when the grid has no
run of three, no line over the half and no pair of identical full lines. -/
theorem isbad_all_iff (t : tab_t) (hI : Inv t) :
    t.isbad R_ALL = 0 ↔ ¬ Triple t.n t.tab ∧ ¬ Half t.n t.tab ∧ ¬ Dup t.n t.tab := by
  rw [isbad_all_eq_zero, ← hI.b3, ← hI.bH]
  constructor
  · rintro ⟨h3, hH, hD⟩
    refine ⟨by simp [h3], by simp [hH], fun h => ?_⟩
    have := hI.bD' h3 hH h
    rw [hD] at this; exact absurd this (by simp)
  · rintro ⟨h3, hH, hD⟩
    refine ⟨by simpa using h3, by simpa using hH, ?_⟩
    cases hb : t.badD
    · rfl
    · exact absurd (hI.bD hb) hD

/-! ## Single-cell deduction -/

theorem mem_cells (n : Nat) (c : Nat × Nat) : c ∈ cells n ↔ c.1 < n ∧ c.2 < n := by
  unfold cells
  simp only [List.mem_flatMap, List.mem_range, List.mem_map]
  constructor
  · rintro ⟨i, hi, j, hj, rfl⟩; exact ⟨hi, hj⟩
  · rintro ⟨h1, h2⟩; exact ⟨c.1, h1, c.2, h2, rfl⟩

theorem findcellAt_some (t : tab_t) (rules : Nat) (c : Nat × Nat) (a b x : Nat)
    (h : t.findcellAt rules c = some (a, b, x)) :
    a = c.1 ∧ b = c.2 ∧ t.get a b = UNK ∧
      ((x = 1 ∧ (t.set a b 0).isbad rules ≠ 0) ∨
       (x = 0 ∧ (t.set a b 0).isbad rules = 0 ∧ (t.set a b 1).isbad rules ≠ 0)) := by
  unfold findcellAt at h
  by_cases hu : t.get c.1 c.2 = UNK
  · rw [if_pos hu] at h
    by_cases h0 : (t.set c.1 c.2 0).isbad rules ≠ 0
    · rw [if_pos h0] at h
      simp only [Option.some.injEq, Prod.mk.injEq] at h
      obtain ⟨rfl, rfl, rfl⟩ := h
      exact ⟨rfl, rfl, hu, Or.inl ⟨rfl, h0⟩⟩
    · rw [if_neg h0] at h
      by_cases h1 : (t.set c.1 c.2 1).isbad rules ≠ 0
      · rw [if_pos h1] at h
        simp only [Option.some.injEq, Prod.mk.injEq] at h
        obtain ⟨rfl, rfl, rfl⟩ := h
        exact ⟨rfl, rfl, hu, Or.inr ⟨rfl, by simpa using h0, h1⟩⟩
      · rw [if_neg h1] at h; exact absurd h (by simp)
  · rw [if_neg hu] at h; exact absurd h (by simp)

/-- What `findcell` returns: an Unknown cell of the grid, and the value opposite to the
first trial that is bad under `rules`; the trial of `1` is made only when that of `0` is
not bad. -/
theorem findcell_some (t : tab_t) (rules a b x : Nat)
    (h : t.findcell rules = some (a, b, x)) :
    a < t.n ∧ b < t.n ∧ t.get a b = UNK ∧
      ((x = 1 ∧ (t.set a b 0).isbad rules ≠ 0) ∨
       (x = 0 ∧ (t.set a b 0).isbad rules = 0 ∧ (t.set a b 1).isbad rules ≠ 0)) := by
  unfold findcell at h
  obtain ⟨l1, c, l2, hl, hc, _⟩ := List.findSome?_eq_some_iff.mp h
  have hm : c ∈ cells t.n := by rw [hl]; simp
  obtain ⟨h1, h2⟩ := (mem_cells t.n c).mp hm
  obtain ⟨rfl, rfl, h3, h4⟩ := findcellAt_some t rules c a b x hc
  exact ⟨h1, h2, h3, h4⟩

theorem findcell_reach (t : tab_t) (rules a b x : Nat) (ht : Reach t)
    (h : t.findcell rules = some (a, b, x)) : Reach (t.set a b x) := by
  obtain ⟨h1, h2, h3, h4⟩ := findcell_some t rules a b x h
  refine Reach.set a b x ht h1 h2 h3 ?_
  rcases h4 with ⟨rfl, _⟩ | ⟨rfl, _⟩ <;> omega

theorem propagate_reach (fuel : Nat) (t t' : tab_t) (ht : Reach t)
    (h : propagate fuel t = some t') : Reach t' := by
  induction fuel generalizing t with
  | zero => simp [propagate] at h
  | succ fuel ih =>
    unfold propagate at h
    by_cases hb : t.isbad R_ALL ≠ 0
    · rw [if_pos hb] at h
      simp only [Option.some.injEq] at h
      rw [← h]; exact ht
    · rw [if_neg hb] at h
      cases hf : t.findcell (R_3 ||| R_HALF) with
      | none =>
        rw [hf] at h
        simp only [Option.some.injEq] at h
        rw [← h]; exact ht
      | some r =>
        obtain ⟨a, b, x⟩ := r
        rw [hf] at h
        exact ih _ (findcell_reach t _ a b x ht hf) h


/-! ## Complete valid boards (C5) -/

theorem addrandLoop_reach (t : tab_t) (rnd : Nat → Nat) (fuel k : Nat) (t' : tab_t) (k' : Nat)
    (ht : Reach t) (hn : 0 < t.n) (h : addrandLoop t rnd fuel k = some (t', k')) :
    Reach t' := by
  induction fuel generalizing k with
  | zero => simp [addrandLoop] at h
  | succ fuel ih =>
    unfold addrandLoop at h
    by_cases hu : t.get (rnd k % t.n) (rnd (k + 1) % t.n) = UNK
    · rw [if_pos hu] at h
      simp only [Option.some.injEq, Prod.mk.injEq] at h
      rw [← h.1]
      exact Reach.set _ _ _ ht (Nat.mod_lt _ hn) (Nat.mod_lt _ hn) hu
        (Nat.le_of_lt_succ (Nat.mod_lt _ (by omega)))
    · rw [if_neg hu] at h
      exact ih _ h

theorem iscomplete_zero (t : tab_t) (h : t.n = 0) : t.iscomplete = true := by
  unfold iscomplete; rw [h]; rfl

theorem addrand_reach (t : tab_t) (rnd : Nat → Nat) (fuel k : Nat) (t' : tab_t) (k' : Nat)
    (ht : Reach t) (h : addrand t rnd fuel k = some (t', k')) : Reach t' := by
  unfold addrand at h
  by_cases hc : t.iscomplete = true
  · rw [if_pos hc] at h
    simp only [Option.some.injEq, Prod.mk.injEq] at h
    rw [← h.1]; exact ht
  · rw [if_neg hc] at h
    have hn : 0 < t.n := by
      rcases Nat.eq_zero_or_pos t.n with h0 | h0
      · exact absurd (iscomplete_zero t h0) hc
      · exact h0
    exact addrandLoop_reach t rnd fuel k t' k' ht hn h

/-- A board on which `genrand_` returns true is built by legal `set` calls, complete and
not bad. -/
theorem genrandLoop_true (rnd : Nat → Nat) (fuel m : Nat) (t : tab_t) (k : Nat) (b : tab_t)
    (ht : Reach t) (h : genrandLoop rnd fuel m t k = some (true, b)) :
    Reach b ∧ b.iscomplete = true ∧ b.isbad R_ALL = 0 := by
  induction m generalizing t k with
  | zero => simp [genrandLoop] at h
  | succ m ih =>
    unfold genrandLoop at h
    by_cases hc : t.iscomplete = true
    · rw [if_pos hc] at h
      by_cases hb : t.isbad R_ALL ≠ 0
      · rw [if_pos hb] at h; simp at h
      · rw [if_neg hb] at h
        simp only [Option.some.injEq, Prod.mk.injEq, true_and] at h
        rw [← h]; exact ⟨ht, hc, by simpa using hb⟩
    · rw [if_neg hc] at h
      cases hp : propagate (t.n * t.n + 1) t with
      | none => rw [hp] at h; simp at h
      | some t1 =>
        rw [hp] at h
        simp only [] at h
        have h1 := propagate_reach _ t t1 ht hp
        by_cases hb : t1.isbad R_ALL ≠ 0
        · rw [if_pos hb] at h; simp at h
        · rw [if_neg hb] at h
          cases ha : addrand t1 rnd fuel k with
          | none => rw [ha] at h; simp at h
          | some r =>
            obtain ⟨t2, k2⟩ := r
            rw [ha] at h
            simp only [] at h
            have h2 := addrand_reach t1 rnd fuel k t2 k2 h1 ha
            by_cases hb2 : t2.isbad R_ALL ≠ 0
            · rw [if_pos hb2] at h; simp at h
            · rw [if_neg hb2] at h
              exact ih t2 k2 h2 h

/-- C5. Every board built from the empty board by legal `set` calls that is complete and
not bad under `R_ALL`, and every board on which `genrand_` returns true starting from an
empty board, satisfies the three rules of the puzzle: each row and each column holds
exactly `n/2` zeros and `n/2` ones, no row or column holds three consecutive equal cells,
and no two distinct rows and no two distinct columns are identical. -/
theorem complete_valid_board_rules (b : tab_t)
    (h : (Reach b ∧ b.iscomplete = true ∧ b.isbad R_ALL = 0) ∨
      (∃ n rnd fuel, n ≤ NM ∧ (tab_t.init n).genrand_ rnd fuel = some (true, b))) :
    (∀ i, i < b.n →
      cnt (fun j => b.get i j) 0 b.n = b.n / 2 ∧ cnt (fun j => b.get i j) 1 b.n = b.n / 2 ∧
      cnt (fun k => b.get k i) 0 b.n = b.n / 2 ∧ cnt (fun k => b.get k i) 1 b.n = b.n / 2) ∧
    (∀ i k, i < b.n → k + 2 < b.n →
      ¬ (b.get i k = b.get i (k + 1) ∧ b.get i k = b.get i (k + 2)) ∧
      ¬ (b.get k i = b.get (k + 1) i ∧ b.get k i = b.get (k + 2) i)) ∧
    (∀ a c, a < b.n → c < b.n → a ≠ c →
      (∃ j, j < b.n ∧ b.get a j ≠ b.get c j) ∧ (∃ i, i < b.n ∧ b.get i a ≠ b.get i c)) := by
  have h' : Reach b ∧ b.iscomplete = true ∧ b.isbad R_ALL = 0 := by
    rcases h with h | ⟨n, rnd, fuel, hn, h⟩
    · exact h
    · exact genrandLoop_true rnd fuel _ _ 0 b (Reach.init n hn) h
  obtain ⟨hr, hc, hb⟩ := h'
  have hI := hr.inv
  have hfull := (iscomplete_iff b hI.toCnt).mp hc
  obtain ⟨h3, hH, hD⟩ := (isbad_all_iff b hI).mp hb
  refine ⟨?_, ?_, ?_⟩
  · intro i hi
    have r := (cnt_full_iff (b.tab i) b.n (fun k => hI.cell i k)).mpr (fun k hk => hfull i k hi hk)
    have c := (cnt_full_iff (col b.tab i) b.n (fun k => hI.cell k i)).mpr
      (fun k hk => hfull k i hk hi)
    have r0 : ¬ cnt (b.tab i) 0 b.n > b.n / 2 := fun h => hH ⟨i, hi, Or.inl h⟩
    have r1 : ¬ cnt (b.tab i) 1 b.n > b.n / 2 := fun h => hH ⟨i, hi, Or.inr (Or.inl h)⟩
    have c0 : ¬ cnt (col b.tab i) 0 b.n > b.n / 2 :=
      fun h => hH ⟨i, hi, Or.inr (Or.inr (Or.inl h))⟩
    have c1 : ¬ cnt (col b.tab i) 1 b.n > b.n / 2 :=
      fun h => hH ⟨i, hi, Or.inr (Or.inr (Or.inr h))⟩
    show cnt (b.tab i) 0 b.n = b.n / 2 ∧ cnt (b.tab i) 1 b.n = b.n / 2 ∧
      cnt (col b.tab i) 0 b.n = b.n / 2 ∧ cnt (col b.tab i) 1 b.n = b.n / 2
    omega
  · intro i k hi hk
    constructor
    · rintro ⟨e1, e2⟩
      exact h3 ⟨i, hi, k, hk, Or.inl ⟨hfull i k hi (by omega), e1, e2⟩⟩
    · rintro ⟨e1, e2⟩
      exact h3 ⟨i, hi, k, hk, Or.inr ⟨hfull k i (by omega) hi, e1, e2⟩⟩
  · intro a c ha hc' hac
    constructor
    · by_contra hne
      have hs : Same b.n (b.tab a) (b.tab c) := by
        intro j hj
        by_contra hd
        exact hne ⟨j, hj, hd⟩
      exact hD ⟨a, ha, c, hc', hac, Or.inl ⟨fun k hk => hfull a k ha hk,
        fun k hk => hfull c k hc' hk, hs⟩⟩
    · by_contra hne
      have hs : Same b.n (col b.tab a) (col b.tab c) := by
        intro i hi
        by_contra hd
        exact hne ⟨i, hi, hd⟩
      exact hD ⟨a, ha, c, hc', hac, Or.inr ⟨fun k hk => hfull k a hk ha,
        fun k hk => hfull k c hk hc', hs⟩⟩

/-- Witness for C5: the complete `2 × 2` board with rows `01` and `10`. -/
theorem complete_valid_board_rules_witness :
    let b := ((((tab_t.init 2).set 0 0 0).set 0 1 1).set 1 0 1).set 1 1 0
    (∀ i, i < b.n →
      cnt (fun j => b.get i j) 0 b.n = b.n / 2 ∧ cnt (fun j => b.get i j) 1 b.n = b.n / 2 ∧
      cnt (fun k => b.get k i) 0 b.n = b.n / 2 ∧ cnt (fun k => b.get k i) 1 b.n = b.n / 2) ∧
    (∀ i k, i < b.n → k + 2 < b.n →
      ¬ (b.get i k = b.get i (k + 1) ∧ b.get i k = b.get i (k + 2)) ∧
      ¬ (b.get k i = b.get (k + 1) i ∧ b.get k i = b.get (k + 2) i)) ∧
    (∀ a c, a < b.n → c < b.n → a ≠ c →
      (∃ j, j < b.n ∧ b.get a j ≠ b.get c j) ∧ (∃ i, i < b.n ∧ b.get i a ≠ b.get i c)) :=
  complete_valid_board_rules _
    (Or.inl ⟨Reach.set 1 1 0 (Reach.set 1 0 1 (Reach.set 0 1 1 (Reach.set 0 0 0
      (Reach.init 2 (by decide)) (by decide) (by decide) (by decide) (by decide))
      (by decide) (by decide) (by decide) (by decide))
      (by decide) (by decide) (by decide) (by decide))
      (by decide) (by decide) (by decide) (by decide), by decide, by decide⟩)


/-! ## Single-cell deduction (C9) -/

/-- C9, counterexample. On the `2 × 2` board with `(0,1)=0` and `(1,0)=1`, which is built
by legal `set` calls and not bad, `findcell` under `R_ALL` returns cell `(0,0)` with
value `1`, yet assigning `1` to it gives a bad board: both trial values are bad and
`findcell` returns after the first trial. -/
theorem findcell_forced_value_counterexample :
    Reach (((tab_t.init 2).set 0 1 0).set 1 0 1) ∧
    (((tab_t.init 2).set 0 1 0).set 1 0 1).isbad R_ALL = 0 ∧
    (((tab_t.init 2).set 0 1 0).set 1 0 1).findcell R_ALL = some (0, 0, 1) ∧
    ((((tab_t.init 2).set 0 1 0).set 1 0 1).set 0 0 (1 - 1)).isbad R_ALL ≠ 0 ∧
    ¬ ((((tab_t.init 2).set 0 1 0).set 1 0 1).set 0 0 1).isbad R_ALL = 0 :=
  ⟨Reach.set 1 0 1 (Reach.set 0 1 0 (Reach.init 2 (by decide)) (by decide) (by decide)
      (by decide) (by decide)) (by decide) (by decide) (by decide) (by decide),
    by decide, by decide, by decide, by decide⟩

/-- C9, amended. Whenever `findcell(a,b,x,rules)` returns true, cell `(a,b)` lies in the
grid and is Unknown, `x` is `0` or `1`, assigning `1-x` to it gives a board that is bad
under `rules`, and when `x = 0` assigning `x` gives a board that is not bad under `rules`
(when `x = 1` the trial of `1` is not made). -/
theorem findcell_forces_opposite_of_bad_trial (t : tab_t) (rules a b x : Nat)
    (h : t.findcell rules = some (a, b, x)) :
    a < t.n ∧ b < t.n ∧ t.get a b = UNK ∧ x ≤ 1 ∧
      (t.set a b (1 - x)).isbad rules ≠ 0 ∧
      (x = 0 → (t.set a b x).isbad rules = 0) := by
  obtain ⟨h1, h2, h3, h4⟩ := findcell_some t rules a b x h
  refine ⟨h1, h2, h3, ?_, ?_, ?_⟩
  · rcases h4 with ⟨rfl, _⟩ | ⟨rfl, _⟩ <;> omega
  · rcases h4 with ⟨rfl, h0⟩ | ⟨rfl, _, h1'⟩
    · exact h0
    · exact h1'
  · rintro rfl
    rcases h4 with ⟨hx, _⟩ | ⟨_, h0, _⟩
    · omega
    · exact h0

/-- Witness for C9: after `(0,0)=0` and `(0,1)=0` on the empty `4 × 4` board, `findcell`
under `R_3` returns `(0,2)` with value `1`. -/
theorem findcell_forces_opposite_of_bad_trial_witness :
    (0 : Nat) < 4 ∧ (2 : Nat) < 4 ∧ (((tab_t.init 4).set 0 0 0).set 0 1 0).get 0 2 = UNK ∧
      (1 : Nat) ≤ 1 ∧
      ((((tab_t.init 4).set 0 0 0).set 0 1 0).set 0 2 (1 - 1)).isbad R_3 ≠ 0 ∧
      ((1 : Nat) = 0 → ((((tab_t.init 4).set 0 0 0).set 0 1 0).set 0 2 1).isbad R_3 = 0) :=
  findcell_forces_opposite_of_bad_trial (((tab_t.init 4).set 0 0 0).set 0 1 0) R_3 0 2 1
    (by decide)

/-! ## Grading (C6) -/

set_option maxRecDepth 100000 in
/-- C6, the code at the failing input. On the `4 × 4` board with `(0,0)=0` and `(0,1)=0`
the replay assigns `(0,2)=1` and `(0,3)=1` under the first preset and then reaches an
incomplete board on which `find` fails for all seven presets; `solvescore` still returns
true, with two steps charged to slot `0`. -/
theorem solvescore_true_on_stuck_replay :
    (((tab_t.init 4).set 0 0 0).set 0 1 0).find (tdiff.getD 0 0) = some (some (0, 2, 1)) ∧
    ((((tab_t.init 4).set 0 0 0).set 0 1 0).set 0 2 1).find (tdiff.getD 0 0)
      = some (some (0, 3, 1)) ∧
    (((((tab_t.init 4).set 0 0 0).set 0 1 0).set 0 2 1).set 0 3 1).iscomplete = false ∧
    (∀ r ∈ tdiff,
      (((((tab_t.init 4).set 0 0 0).set 0 1 0).set 0 2 1).set 0 3 1).find r = some none) ∧
    (((tab_t.init 4).set 0 0 0).set 0 1 0).solvescore
      = some (true, [2, 0, 0, 0, 0, 0, 0, 0, 0, 0]) := by
  refine ⟨by decide!, by decide!, by decide!, ?_, by decide!⟩
  decide!


/-! ## Hole punching (C2, C3) -/

theorem makeoneholeLoop_true (fct : tab_t → Nat → Option Bool) (t : tab_t) (rules : Nat)
    (li : List (Nat × Nat)) (t' : tab_t)
    (h : makeoneholeLoop fct t rules li = some (true, t')) :
    ∃ c, c ∈ li ∧ t.get c.1 c.2 ≠ UNK ∧ t' = t.copywithout c.1 c.2 ∧
      fct t' rules = some true := by
  induction li with
  | nil => simp [makeoneholeLoop] at h
  | cons c li ih =>
    unfold makeoneholeLoop at h
    by_cases hu : t.get c.1 c.2 = UNK
    · rw [if_pos hu] at h
      obtain ⟨c', hc', r⟩ := ih h
      exact ⟨c', List.mem_cons_of_mem _ hc', r⟩
    · rw [if_neg hu] at h
      cases hf : fct (t.copywithout c.1 c.2) rules with
      | none => rw [hf] at h; simp at h
      | some v =>
        cases v with
        | false =>
          rw [hf] at h
          obtain ⟨c', hc', r⟩ := ih h
          exact ⟨c', List.mem_cons_of_mem _ hc', r⟩
        | true =>
          rw [hf] at h
          simp only [Option.some.injEq, Prod.mk.injEq, true_and] at h
          exact ⟨c, List.mem_cons_self _ _, hu, h.symm, by rw [← h]; exact hf⟩

theorem makeoneholeLoop_false (fct : tab_t → Nat → Option Bool) (t : tab_t) (rules : Nat)
    (li : List (Nat × Nat)) (t' : tab_t)
    (h : makeoneholeLoop fct t rules li = some (false, t')) :
    t' = t ∧ ∀ c, c ∈ li → t.get c.1 c.2 ≠ UNK →
      fct (t.copywithout c.1 c.2) rules = some false := by
  induction li with
  | nil =>
    simp only [makeoneholeLoop, Option.some.injEq, Prod.mk.injEq, true_and] at h
    exact ⟨h.symm, fun c hc => absurd hc (List.not_mem_nil c)⟩
  | cons c li ih =>
    unfold makeoneholeLoop at h
    by_cases hu : t.get c.1 c.2 = UNK
    · rw [if_pos hu] at h
      obtain ⟨e, r⟩ := ih h
      refine ⟨e, fun c' hc' hne => ?_⟩
      rcases List.mem_cons.mp hc' with rfl | hc'
      · exact absurd hu hne
      · exact r c' hc' hne
    · rw [if_neg hu] at h
      cases hf : fct (t.copywithout c.1 c.2) rules with
      | none => rw [hf] at h; simp at h
      | some v =>
        cases v with
        | false =>
          rw [hf] at h
          obtain ⟨e, r⟩ := ih h
          refine ⟨e, fun c' hc' hne => ?_⟩
          rcases List.mem_cons.mp hc' with rfl | hc'
          · exact hf
          · exact r c' hc' hne
        | true =>
          rw [hf] at h
          simp at h

theorem makeonehole_true (fct : tab_t → Nat → Option Bool) (t : tab_t) (rules sel : Nat)
    (rnd : Nat → Nat) (t' : tab_t) (h : t.makeonehole fct rules sel rnd = some (true, t')) :
    ∃ i j, t.get i j ≠ UNK ∧ t' = t.copywithout i j ∧ fct t' rules = some true := by
  unfold makeonehole at h
  cases hl : (if sel &&& H_CTR ≠ 0 then t.centerlist rnd else t.makerandlist rnd) with
  | none => rw [hl] at h; simp at h
  | some li =>
    rw [hl] at h
    obtain ⟨c, _, h1, h2, h3⟩ := makeoneholeLoop_true fct t rules _ t' h
    exact ⟨c.1, c.2, h1, h2, h3⟩

theorem cansolve_complete (t : tab_t) (rules : Nat) (hc : t.iscomplete = true)
    (hb : t.isbad R_ALL = 0) : t.cansolve rules = some true := by
  unfold cansolve cansolveLoop
  rw [if_pos hc, if_neg (by simp [hb])]

theorem nbrsol_complete (t : tab_t) (hc : t.iscomplete = true)
    (hb : t.isbad R_ALL = 0) : t.nbrsol = some 1 := by
  unfold nbrsol nbrsolAux
  rw [if_neg (by simp [hb]), if_pos hc]

theorem hasonesol_true_iff (t : tab_t) (rules : Nat) :
    t.hasonesol rules = some true ↔ t.nbrsol = some 1 := by
  unfold hasonesol
  cases t.nbrsol with
  | none => simp
  | some r => simp

/-- C2. Starting from a complete board that is not bad, after any number of `makeonehole`
calls that returned true (any flags `sel`, any values of the random source), the
predicate the holes were punched under holds on the board in hand: `cansolve(rules)` is
true for `fct = cansolve`, and `nbrsol() == 1` for `fct = hasonesol`. A `makeonehole` call
that returns false leaves the board unchanged, so the final puzzle satisfies it too. -/
theorem hole_punching_keeps_predicate (rules : Nat) (b0 b : tab_t)
    (hc : b0.iscomplete = true) (hb : b0.isbad R_ALL = 0) :
    (Punched tab_t.cansolve rules b0 b →
      b.cansolve rules = some true ∧
      ∀ sel rnd b', b.makeonehole tab_t.cansolve rules sel rnd = some (false, b') →
        b' = b ∧ b'.cansolve rules = some true) ∧
    (Punched tab_t.hasonesol rules b0 b →
      b.nbrsol = some 1 ∧
      ∀ sel rnd b', b.makeonehole tab_t.hasonesol rules sel rnd = some (false, b') →
        b' = b ∧ b'.nbrsol = some 1) := by
  have stay : ∀ (fct : tab_t → Nat → Option Bool) (t : tab_t) (sel : Nat) (rnd : Nat → Nat)
      (t' : tab_t), t.makeonehole fct rules sel rnd = some (false, t') → t' = t := by
    intro fct t sel rnd t' h
    unfold makeonehole at h
    cases hl : (if sel &&& H_CTR ≠ 0 then t.centerlist rnd else t.makerandlist rnd) with
    | none => rw [hl] at h; simp at h
    | some li =>
      rw [hl] at h
      exact (makeoneholeLoop_false fct t rules _ t' h).1
  constructor
  · intro hp
    have key : b.cansolve rules = some true := by
      induction hp with
      | start => exact cansolve_complete b0 rules hc hb
      | hole sel rnd _ hm _ =>
        obtain ⟨_, _, _, _, h3⟩ := makeonehole_true _ _ rules sel rnd _ hm
        exact h3
    refine ⟨key, fun sel rnd b' h => ?_⟩
    have e := stay _ _ sel rnd b' h
    exact ⟨e, by rw [e]; exact key⟩
  · intro hp
    have key : b.nbrsol = some 1 := by
      induction hp with
      | start => exact nbrsol_complete b0 hc hb
      | hole sel rnd _ hm _ =>
        obtain ⟨_, _, _, _, h3⟩ := makeonehole_true _ _ rules sel rnd _ hm
        exact (hasonesol_true_iff _ rules).mp h3
    refine ⟨key, fun sel rnd b' h => ?_⟩
    have e := stay _ _ sel rnd b' h
    exact ⟨e, by rw [e]; exact key⟩

/-- Witness for C2: on the complete `2 × 2` board with rows `01` and `10`, with
`sel = 0` and a random source that always yields `0`, `makeonehole` returns true and blanks
`(0,0)`, and called again it returns true and blanks `(1,0)`, under `cansolve` and under
`hasonesol` alike; on the board with the two holes `cansolve(R_ALL)` is true and `nbrsol()`
is `1`. -/
theorem hole_punching_keeps_predicate_witness :
    ((((((tab_t.init 2).set 0 0 0).set 0 1 1).set 1 0 1).set 1 1 0).makeonehole tab_t.cansolve R_ALL 0 (fun _ => 0)
        = some (true, ((((((tab_t.init 2).set 0 0 0).set 0 1 1).set 1 0 1).set 1 1 0).copywithout 0 0)) ∧
      ((((((tab_t.init 2).set 0 0 0).set 0 1 1).set 1 0 1).set 1 1 0).copywithout 0 0).makeonehole tab_t.cansolve R_ALL 0 (fun _ => 0)
        = some (true, (((((((tab_t.init 2).set 0 0 0).set 0 1 1).set 1 0 1).set 1 1 0).copywithout 0 0).copywithout 1 0)) ∧
      (((((((tab_t.init 2).set 0 0 0).set 0 1 1).set 1 0 1).set 1 1 0).copywithout 0 0).copywithout 1 0).cansolve R_ALL = some true) ∧
    ((((((tab_t.init 2).set 0 0 0).set 0 1 1).set 1 0 1).set 1 1 0).makeonehole tab_t.hasonesol R_ALL 0 (fun _ => 0)
        = some (true, ((((((tab_t.init 2).set 0 0 0).set 0 1 1).set 1 0 1).set 1 1 0).copywithout 0 0)) ∧
      ((((((tab_t.init 2).set 0 0 0).set 0 1 1).set 1 0 1).set 1 1 0).copywithout 0 0).makeonehole tab_t.hasonesol R_ALL 0 (fun _ => 0)
        = some (true, (((((((tab_t.init 2).set 0 0 0).set 0 1 1).set 1 0 1).set 1 1 0).copywithout 0 0).copywithout 1 0)) ∧
      (((((((tab_t.init 2).set 0 0 0).set 0 1 1).set 1 0 1).set 1 1 0).copywithout 0 0).copywithout 1 0).nbrsol = some 1) :=
  ⟨⟨rfl, rfl,
    ((hole_punching_keeps_predicate R_ALL (((((tab_t.init 2).set 0 0 0).set 0 1 1).set 1 0 1).set 1 1 0)
      (((((((tab_t.init 2).set 0 0 0).set 0 1 1).set 1 0 1).set 1 1 0).copywithout 0 0).copywithout 1 0) (by decide) (by decide)).1
      (Punched.hole 0 (fun _ => 0) (Punched.hole 0 (fun _ => 0) Punched.start rfl) rfl)).1⟩,
   ⟨rfl, rfl,
    ((hole_punching_keeps_predicate R_ALL (((((tab_t.init 2).set 0 0 0).set 0 1 1).set 1 0 1).set 1 1 0)
      (((((((tab_t.init 2).set 0 0 0).set 0 1 1).set 1 0 1).set 1 1 0).copywithout 0 0).copywithout 1 0) (by decide) (by decide)).2
      (Punched.hole 0 (fun _ => 0) (Punched.hole 0 (fun _ => 0) Punched.start rfl) rfl)).1⟩⟩


/-! ### `makerandlist` enumerates every cell -/

theorem skipfree_spec (tx : List Bool) (j0 x : Nat) (hx : x < tx.count false) :
    ∃ j, skipfree tx j0 (x : Int) = some (j0 + j) ∧ j < tx.length ∧ tx[j]? = some false := by
  induction tx generalizing j0 x with
  | nil => simp at hx
  | cons b tx ih =>
    unfold skipfree
    cases b with
    | false =>
      simp only [if_true]
      rw [List.count_cons] at hx
      simp only [beq_self_eq_true, if_true] at hx
      by_cases h0 : x = 0
      · subst h0
        refine ⟨0, ?_, by simp, by simp⟩
        simp
      · have hneg : ¬ ((x : Int) - 1 < 0) := by omega
        rw [if_neg hneg]
        have e : (x : Int) - 1 = ((x - 1 : Nat) : Int) := by omega
        rw [e]
        obtain ⟨j, h1, h2, h3⟩ := ih (j0 + 1) (x - 1) (by omega)
        refine ⟨j + 1, ?_, by simp; omega, by simpa using h3⟩
        rw [h1]; congr 1; omega
    | true =>
      simp only [Bool.true_eq_false, if_false]
      rw [List.count_cons] at hx
      simp only [Bool.true_eq_false, beq_iff_eq, if_false, Nat.add_zero] at hx
      have hneg : ¬ ((x : Int) < 0) := by omega
      rw [if_neg hneg]
      obtain ⟨j, h1, h2, h3⟩ := ih (j0 + 1) x hx
      refine ⟨j + 1, ?_, by simp; omega, by simpa using h3⟩
      rw [h1]; congr 1; omega

theorem all_true_of_count_false_zero (tx : List Bool) (h : tx.count false = 0) (j : Nat)
    (hj : j < tx.length) : tx[j]? = some true := by
  have hm : false ∉ tx := List.count_eq_zero.mp h
  rw [List.getElem?_eq_getElem hj]
  cases hb : tx[j] with
  | true => rfl
  | false => exact absurd (hb ▸ List.getElem_mem hj) hm

theorem makerandlistFrom_spec (n : Nat) (rnd : Nat → Nat) (m : Nat) :
    ∀ (i : Nat) (tx : List Bool) (li : List (Nat × Nat)), tx.length = n * n →
      tx.count false = m → i + m = n * n → li.length = i →
      (∀ j, j < n * n → tx[j]? = some true → (j % n, j / n) ∈ li) →
      ∃ li', makerandlistFrom n rnd m i tx li = some li' ∧ li'.length = n * n ∧
        ∀ j, j < n * n → (j % n, j / n) ∈ li' := by
  induction m with
  | zero =>
    intro i tx li hlen hcnt him hli hmem
    refine ⟨li, rfl, by omega, fun j hj => hmem j hj ?_⟩
    exact all_true_of_count_false_zero tx hcnt j (by omega)
  | succ m ih =>
    intro i tx li hlen hcnt him hli hmem
    unfold makerandlistFrom
    have hx : rnd i % (n * n - i) < tx.count false := by
      have hpos : n * n - i = m + 1 := by omega
      rw [hcnt, hpos]; exact Nat.mod_lt _ (by omega)
    obtain ⟨j, h1, h2, h3⟩ := skipfree_spec tx 0 _ hx
    rw [h1]
    simp only [Nat.zero_add]
    have hjn : j < n * n := by omega
    rw [if_pos hjn]
    apply ih (i + 1) (tx.set j true) (li ++ [(j % n, j / n)])
    · rw [List.length_set]; exact hlen
    · rw [List.count_set _ _ _ _ h2]
      have e : tx[j] = false := by
        have := List.getElem?_eq_getElem h2
        rw [this] at h3; exact Option.some.inj h3
      rw [e, hcnt]; simp
    · omega
    · simp [hli]
    · intro k hk hkt
      rw [List.getElem?_set] at hkt
      by_cases hjk : j = k
      · subst hjk; simp
      · rw [if_neg hjk] at hkt
        exact List.mem_append_left _ (hmem k hk hkt)

theorem length_cells (n : Nat) : (cells n).length = n * n := by
  exact (List.length_product (List.range n) (List.range n)).trans (by rw [List.length_range])

theorem nodup_cells (n : Nat) : (cells n).Nodup :=
  List.Nodup.product (List.nodup_range n) (List.nodup_range n)

/-- For any values of the random source, `makerandlist` passes its assertions and returns
the `n*n` cells, each exactly once. -/
theorem makerandlist_perm (t : tab_t) (rnd : Nat → Nat) :
    ∃ li, t.makerandlist rnd = some li ∧ li.Perm (cells t.n) := by
  obtain ⟨li, h1, h2, h3⟩ := makerandlistFrom_spec t.n rnd (t.n * t.n) 0
    (List.replicate (t.n * t.n) false) [] (by simp) (by simp) (by simp) rfl
    (fun j hj h => by
      rw [List.getElem?_replicate] at h
      rw [if_pos hj] at h
      exact absurd h (by simp))
  refine ⟨li, ?_, ?_⟩
  · unfold makerandlist
    rw [h1]
    simp only []
    rw [if_pos h2]
  · have hsub : cells t.n ⊆ li := by
      intro c hc
      obtain ⟨hc1, hc2⟩ := (mem_cells t.n c).mp hc
      have hlt : c.2 * t.n + c.1 < t.n * t.n := by
        calc c.2 * t.n + c.1 < c.2 * t.n + t.n := by omega
          _ = (c.2 + 1) * t.n := by ring
          _ ≤ t.n * t.n := Nat.mul_le_mul_right _ (by omega)
      have := h3 (c.2 * t.n + c.1) hlt
      have e1 : (c.2 * t.n + c.1) % t.n = c.1 := by
        rw [Nat.add_comm, Nat.add_mul_mod_self_right, Nat.mod_eq_of_lt hc1]
      have e2 : (c.2 * t.n + c.1) / t.n = c.2 := by
        rw [Nat.add_comm, Nat.add_mul_div_right _ _ (by omega), Nat.div_eq_of_lt hc1,
          Nat.zero_add]
      rw [e1, e2] at this
      exact this
    exact ((List.subperm_of_subset (nodup_cells t.n) hsub).perm_of_length_le
      (by rw [h2, length_cells])).symm

theorem filterlist_zero (t : tab_t) (li : List (Nat × Nat)) : t.filterlist li 0 = li := by
  unfold filterlist
  simp

/-- C3. With no flags (`sel = 0`) and for any values of the random source, a `makeonehole`
call that returns false leaves the board unchanged, and for every assigned cell `(i,j)` of
the grid the predicate `fct(rules)` is false on `copywithout(board,i,j)`; the candidate list
built by `makerandlist` holds each of the `n*n` cells exactly once. -/
theorem makeonehole_false_locally_minimal (fct : tab_t → Nat → Option Bool) (t : tab_t)
    (rules : Nat) (rnd : Nat → Nat) (t' : tab_t)
    (h : t.makeonehole fct rules 0 rnd = some (false, t')) :
    t' = t ∧
    (∀ i j, i < t.n → j < t.n → t.get i j ≠ UNK →
      fct (t.copywithout i j) rules = some false) ∧
    (∃ li, t.makerandlist rnd = some li ∧ li.Perm (cells t.n)) := by
  obtain ⟨li, hl, hp⟩ := makerandlist_perm t rnd
  unfold makeonehole at h
  have e0 : ¬ (0 &&& H_CTR ≠ 0) := by decide
  have e1 : ¬ (0 &&& H_REV ≠ 0) := by decide
  rw [if_neg e0, hl] at h
  simp only [if_neg e1, filterlist_zero] at h
  obtain ⟨h1, h2⟩ := makeoneholeLoop_false fct t rules li t' h
  refine ⟨h1, fun i j hi hj hu => ?_, li, hl, hp⟩
  exact h2 (i, j) (hp.symm.subset ((mem_cells t.n (i, j)).mpr ⟨hi, hj⟩)) hu

set_option maxRecDepth 100000 in
/-- Witness for C3: on the `2 × 2` board whose only assigned cell is `(0,0)=0`, with the
random source constantly `0`, `makeonehole` under `cansolve` returns false: blanking the
cell leaves the empty board, which `cansolve` cannot complete. -/
theorem makeonehole_false_locally_minimal_witness :
    (tab_t.init 2).set 0 0 0 = (tab_t.init 2).set 0 0 0 ∧
    (∀ i j, i < ((tab_t.init 2).set 0 0 0).n → j < ((tab_t.init 2).set 0 0 0).n →
      ((tab_t.init 2).set 0 0 0).get i j ≠ UNK →
      (((tab_t.init 2).set 0 0 0).copywithout i j).cansolve R_ALL = some false) ∧
    (∃ li, ((tab_t.init 2).set 0 0 0).makerandlist (fun _ => 0) = some li ∧
      li.Perm (cells ((tab_t.init 2).set 0 0 0).n)) :=
  makeonehole_false_locally_minimal tab_t.cansolve ((tab_t.init 2).set 0 0 0) R_ALL
    (fun _ => 0) ((tab_t.init 2).set 0 0 0) rfl


/-! ## `nbr1` counts the one bits -/

/-- Bitwise and acts separately below and above bit `k`. -/
theorem and_split_pow (k a0 a1 b0 b1 : Nat) (ha : a0 < 2 ^ k) (hb : b0 < 2 ^ k) :
    (a0 + 2 ^ k * a1) &&& (b0 + 2 ^ k * b1) = (a0 &&& b0) + 2 ^ k * (a1 &&& b1) := by
  have hab : a0 &&& b0 < 2 ^ k := Nat.and_lt_two_pow a0 hb
  apply Nat.eq_of_testBit_eq
  intro j
  rw [Nat.testBit_and, Nat.add_comm a0, Nat.add_comm b0, Nat.add_comm (a0 &&& b0),
    Nat.testBit_mul_pow_two_add a1 ha, Nat.testBit_mul_pow_two_add b1 hb,
    Nat.testBit_mul_pow_two_add (a1 &&& b1) hab]
  by_cases hj : j < k
  · simp [hj]
  · simp [hj]

/-- Three bytes as one number. -/
theorem and_bytes (x y z m0 m1 m2 mh : Nat) (hx : x < 256) (hy : y < 256) (hz : z < 256)
    (h0 : m0 < 256) (h1 : m1 < 256) (h2 : m2 < 256) :
    (x + 256 * y + 65536 * z) &&& (m0 + 256 * m1 + 65536 * m2 + 16777216 * mh) =
      (x &&& m0) + 256 * (y &&& m1) + 65536 * (z &&& m2) := by
  have e1 : x + 256 * y + 65536 * z = x + 2 ^ 8 * (y + 2 ^ 8 * (z + 2 ^ 8 * 0)) := by omega
  have e2 : m0 + 256 * m1 + 65536 * m2 + 16777216 * mh =
      m0 + 2 ^ 8 * (m1 + 2 ^ 8 * (m2 + 2 ^ 8 * mh)) := by omega
  rw [e1, e2, and_split_pow 8 x _ m0 _ (by omega) (by omega),
    and_split_pow 8 y _ m1 _ (by omega) (by omega),
    and_split_pow 8 z _ m2 _ (by omega) (by omega)]
  simp
  omega

/-- A mask bit above the operand is without effect. -/
theorem and_high_bit (k a c m : Nat) (ha : a < 2 ^ k) (hm : m < 2 ^ k) :
    (a + 2 ^ k * c) &&& m = a &&& m := by
  have := and_split_pow k a c m 0 ha hm
  simpa using this

/-- First step of `nbr1` on three bytes: every byte is treated on its own. -/
theorem nbr1_stepA (x y z : Nat) (hx : x < 256) (hy : y < 256) (hz : z < 256) :
    (x + 256 * y + 65536 * z + 2 ^ 64
        - (((x + 256 * y + 65536 * z) >>> 1) &&& 0x5555555555555555)) % 2 ^ 64 =
      (x - ((x / 2) &&& 0x55)) + 256 * (y - ((y / 2) &&& 0x55))
        + 65536 * (z - ((z / 2) &&& 0x55)) := by
  have s : (x + 256 * y + 65536 * z) >>> 1 =
      (x / 2 + 2 ^ 7 * (y % 2)) + 256 * (y / 2 + 2 ^ 7 * (z % 2)) + 65536 * (z / 2 + 2 ^ 7 * 0) := by
    rw [Nat.shiftRight_eq_div_pow]; omega
  have m : (0x5555555555555555 : Nat) = 0x55 + 256 * 0x55 + 65536 * 0x55 + 16777216 * 0x5555555555 := by
    norm_num
  rw [s, m, and_bytes _ _ _ _ _ _ _ (by omega) (by omega) (by omega) (by omega) (by omega)
    (by omega), and_high_bit 7 (x / 2) _ 0x55 (by omega) (by omega),
    and_high_bit 7 (y / 2) _ 0x55 (by omega) (by omega),
    and_high_bit 7 (z / 2) _ 0x55 (by omega) (by omega)]
  have hx' : (x / 2) &&& 0x55 ≤ x / 2 := Nat.and_le_left
  have hy' : (y / 2) &&& 0x55 ≤ y / 2 := Nat.and_le_left
  have hz' : (z / 2) &&& 0x55 ≤ z / 2 := Nat.and_le_left
  omega

/-- Second step of `nbr1` on three bytes. -/
theorem nbr1_stepB (x y z : Nat) (hx : x < 256) (hy : y < 256) (hz : z < 256) :
    ((((x + 256 * y + 65536 * z) >>> 2) &&& 0x3333333333333333)
        + ((x + 256 * y + 65536 * z) &&& 0x3333333333333333)) % 2 ^ 64 =
      (((x / 4) &&& 0x33) + (x &&& 0x33)) + 256 * (((y / 4) &&& 0x33) + (y &&& 0x33))
        + 65536 * (((z / 4) &&& 0x33) + (z &&& 0x33)) := by
  have s : (x + 256 * y + 65536 * z) >>> 2 =
      (x / 4 + 2 ^ 6 * (y % 4)) + 256 * (y / 4 + 2 ^ 6 * (z % 4)) + 65536 * (z / 4 + 2 ^ 6 * 0) := by
    rw [Nat.shiftRight_eq_div_pow]; omega
  have m : (0x3333333333333333 : Nat) = 0x33 + 256 * 0x33 + 65536 * 0x33 + 16777216 * 0x3333333333 := by
    norm_num
  rw [s, m, and_bytes _ _ _ _ _ _ _ (by omega) (by omega) (by omega) (by omega) (by omega)
    (by omega), and_bytes _ _ _ _ _ _ _ hx hy hz (by omega) (by omega) (by omega),
    and_high_bit 6 (x / 4) _ 0x33 (by omega) (by omega),
    and_high_bit 6 (y / 4) _ 0x33 (by omega) (by omega),
    and_high_bit 6 (z / 4) _ 0x33 (by omega) (by omega)]
  have h1 : (x / 4) &&& 0x33 ≤ 0x33 := Nat.and_le_right
  have h2 : (y / 4) &&& 0x33 ≤ 0x33 := Nat.and_le_right
  have h3 : (z / 4) &&& 0x33 ≤ 0x33 := Nat.and_le_right
  have h4 : x &&& 0x33 ≤ 0x33 := Nat.and_le_right
  have h5 : y &&& 0x33 ≤ 0x33 := Nat.and_le_right
  have h6 : z &&& 0x33 ≤ 0x33 := Nat.and_le_right
  omega

/-- Third and fourth step of `nbr1` on three bytes whose two halves each hold a count of
at most `4`: the result is the sum of the six counts. -/
theorem nbr1_stepCD (x y z : Nat)
    (hx : x % 16 ≤ 4 ∧ x / 16 ≤ 4) (hy : y % 16 ≤ 4 ∧ y / 16 ≤ 4)
    (hz : z % 16 ≤ 4 ∧ z / 16 ≤ 4) :
    ((((((x + 256 * y + 65536 * z) + ((x + 256 * y + 65536 * z) >>> 4)) % 2 ^ 64)
        &&& 0x0F0F0F0F0F0F0F0F) * 0x101010101010101) % 2 ^ 64) >>> 56 =
      (x % 16 + x / 16) + (y % 16 + y / 16) + (z % 16 + z / 16) := by
  have s : ((x + 256 * y + 65536 * z) + ((x + 256 * y + 65536 * z) >>> 4)) % 2 ^ 64 =
      (x + x / 16 + 16 * (y % 16)) + 256 * (y + y / 16 + 16 * (z % 16))
        + 65536 * (z + z / 16) := by
    rw [Nat.shiftRight_eq_div_pow]; omega
  have m : (0x0F0F0F0F0F0F0F0F : Nat) = (2 ^ 4 - 1) + 256 * (2 ^ 4 - 1) + 65536 * (2 ^ 4 - 1)
      + 16777216 * 0x0F0F0F0F0F := by
    norm_num
  rw [s, m, and_bytes _ _ _ _ _ _ _ (by omega) (by omega) (by omega) (by omega) (by omega)
    (by omega), Nat.and_pow_two_sub_one_eq_mod, Nat.and_pow_two_sub_one_eq_mod,
    Nat.and_pow_two_sub_one_eq_mod, Nat.shiftRight_eq_div_pow]
  have p0 : (x + x / 16 + 16 * (y % 16)) % 2 ^ 4 = x % 16 + x / 16 := by omega
  have p1 : (y + y / 16 + 16 * (z % 16)) % 2 ^ 4 = y % 16 + y / 16 := by omega
  have p2 : (z + z / 16) % 2 ^ 4 = z % 16 + z / 16 := by omega
  rw [p0, p1, p2]
  have ha : x % 16 + x / 16 ≤ 8 := by omega
  have hb : y % 16 + y / 16 ≤ 8 := by omega
  have hc : z % 16 + z / 16 ≤ 8 := by omega
  clear s m p0 p1 p2 hx hy hz
  generalize x % 16 + x / 16 = a at *
  generalize y % 16 + y / 16 = b at *
  generalize z % 16 + z / 16 = c at *
  have e : (a + 256 * b + 65536 * c) * 0x101010101010101 =
      (a * 0x101010101010101 + b * 0x101010101010100 + c * 0x101010101010000)
        + 2 ^ 64 * (b + 257 * c) := by omega
  rw [e, Nat.add_mul_mod_self_left, Nat.mod_eq_of_lt (by omega)]
  omega

theorem bit_eq (k q : Nat) : (k >>> q) &&& 1 = k / 2 ^ q % 2 := by
  rw [Nat.shiftRight_eq_div_pow, Nat.and_one_is_mod]

theorem popc_succ (p k : Nat) : popc (p + 1) k = popc p k + k / 2 ^ p % 2 := by
  unfold popc
  simp only [cnt, bit_eq]
  have : k / 2 ^ p % 2 < 2 := Nat.mod_lt _ (by omega)
  split <;> omega

theorem popc_add (p q k : Nat) : popc (p + q) k = popc p k + popc q (k / 2 ^ p) := by
  induction q with
  | zero => simp [popc, cnt]
  | succ q ih =>
    rw [← Nat.add_assoc, popc_succ, popc_succ, ih, Nat.div_div_eq_div_mul, ← Nat.pow_add]
    omega

theorem popc_zero (q : Nat) : popc q 0 = 0 := by
  unfold popc
  apply cnt_zero_of_forall_ne
  intro k _
  simp

theorem popc_high (p q k : Nat) (h : k < 2 ^ p) : popc (p + q) k = popc p k := by
  rw [popc_add, Nat.div_eq_of_lt h, popc_zero]; rfl

theorem popc_mod (p k : Nat) : popc p (k % 2 ^ p) = popc p k := by
  unfold popc
  apply cnt_congr
  intro q hq
  rw [bit_eq, bit_eq]
  have e : 2 ^ p = 2 ^ q * 2 ^ (p - q) := by rw [← Nat.pow_add]; congr 1; omega
  rw [e, Nat.mod_mul_right_div_self]
  apply Nat.mod_mod_of_dvd
  exact dvd_pow_self 2 (by omega)

set_option maxRecDepth 100000 in
/-- The first two steps of `nbr1` turn a byte into two half bytes, each a count of at most
`4`, whose sum is the number of one bits of the byte. -/
theorem nbr1_byte : ∀ x, x < 256 →
    ((((x - ((x / 2) &&& 0x55)) / 4) &&& 0x33) + ((x - ((x / 2) &&& 0x55)) &&& 0x33)) % 16 ≤ 4 ∧
    ((((x - ((x / 2) &&& 0x55)) / 4) &&& 0x33) + ((x - ((x / 2) &&& 0x55)) &&& 0x33)) / 16 ≤ 4 ∧
    ((((x - ((x / 2) &&& 0x55)) / 4) &&& 0x33) + ((x - ((x / 2) &&& 0x55)) &&& 0x33)) % 16 +
    ((((x - ((x / 2) &&& 0x55)) / 4) &&& 0x33) + ((x - ((x / 2) &&& 0x55)) &&& 0x33)) / 16
      = popc 8 x := by
  decide!

/-- On three bytes `nbr1` returns the number of one bits. -/
theorem nbr1_bytes (x y z : Nat) (hx : x < 256) (hy : y < 256) (hz : z < 256) :
    nbr1 (x + 256 * y + 65536 * z) = popc 8 x + popc 8 y + popc 8 z := by
  obtain ⟨x1, x2, x3⟩ := nbr1_byte x hx
  obtain ⟨y1, y2, y3⟩ := nbr1_byte y hy
  obtain ⟨z1, z2, z3⟩ := nbr1_byte z hz
  unfold nbr1
  simp only []
  rw [nbr1_stepA x y z hx hy hz,
    nbr1_stepB _ _ _ (by omega) (by omega) (by omega),
    nbr1_stepCD _ _ _ ⟨x1, x2⟩ ⟨y1, y2⟩ ⟨z1, z2⟩, x3, y3, z3]

/-- C-level fact behind `nbr1(k)!=n/2-n1`: for the values `k < 2^p` with `p ≤ 24` that
`findline_` enumerates, `nbr1(k)` is the number of one bits of `k`. -/
theorem nbr1_eq_popc (p k : Nat) (hp : p ≤ 24) (hk : k < 2 ^ p) : nbr1 k = popc p k := by
  have h24 : k < 2 ^ 24 := Nat.lt_of_lt_of_le hk (Nat.pow_le_pow_right (by omega) hp)
  have e : k = k % 256 + 256 * (k / 256 % 256) + 65536 * (k / 65536) := by omega
  have e8 : popc 8 (k % 256) = popc 8 k := popc_mod 8 k
  have e16 : popc 8 (k / 256 % 256) = popc 8 (k / 256) := popc_mod 8 (k / 256)
  have s1 : popc 24 k = popc 8 k + popc 16 (k / 256) := popc_add 8 16 k
  have s2 : popc 16 (k / 256) = popc 8 (k / 256) + popc 8 (k / 256 / 256) :=
    popc_add 8 8 (k / 256)
  have s3 : k / 256 / 256 = k / 65536 := by omega
  have s4 : popc 24 k = popc p k := by
    have := popc_high p (24 - p) k hk
    rw [show p + (24 - p) = 24 by omega] at this
    exact this
  rw [e, nbr1_bytes _ _ _ (by omega) (by omega) (by omega), ← e, e8, e16, ← s4, s1, s2, s3]
  omega


/-! ## Line deduction (C10) -/

/-- The scan of `findline_` over the first `m` positions. -/
theorem lineScan_fold (s : Nat) (t : tab_t) (l m : Nat) (r : Nat × Nat × List Nat)
    (h : (List.range m).foldl
      (fun acc i =>
        match acc with
        | none => none
        | some (n0, n1, tl) =>
          let c := t.get (lrow s l i) (lcol s l i)
          if c = 0 then some (n0 + 1, n1, tl)
          else if c = 1 then some (n0, n1 + 1, tl)
          else if c = UNK then some (n0, n1, tl ++ [i])
          else none)
      (some (0, 0, [])) = some r) :
    r = (cnt (fun i => t.get (lrow s l i) (lcol s l i)) 0 m,
         cnt (fun i => t.get (lrow s l i) (lcol s l i)) 1 m,
         (List.range m).filter (fun i => decide (t.get (lrow s l i) (lcol s l i) = UNK))) := by
  induction m generalizing r with
  | zero =>
    simp only [List.range_zero, List.foldl_nil, Option.some.injEq] at h
    rw [← h]; rfl
  | succ m ih =>
    rw [List.range_succ, List.foldl_append] at h
    simp only [List.foldl_cons, List.foldl_nil] at h
    generalize hF : (List.range m).foldl _ (some (0, 0, [])) = F at h
    cases F with
    | none => simp at h
    | some r' =>
      have e := ih r' hF
      obtain ⟨n0, n1, tl⟩ := r'
      simp only [Prod.mk.injEq] at e
      obtain ⟨e0, e1, e2⟩ := e
      simp only [] at h
      rw [List.range_succ, List.filter_append]
      simp only [cnt, List.filter_cons, List.filter_nil]
      by_cases c0 : t.get (lrow s l m) (lcol s l m) = 0
      · rw [if_pos c0] at h
        simp only [Option.some.injEq] at h
        rw [← h, e0, e1, e2]
        simp [c0, UNK]
      · rw [if_neg c0] at h
        by_cases c1 : t.get (lrow s l m) (lcol s l m) = 1
        · rw [if_pos c1] at h
          simp only [Option.some.injEq] at h
          rw [← h, e0, e1, e2]
          simp [c1, UNK]
        · rw [if_neg c1] at h
          by_cases c2 : t.get (lrow s l m) (lcol s l m) = UNK
          · rw [if_pos c2] at h
            simp only [Option.some.injEq] at h
            rw [← h, e0, e1, e2]
            simp [c2, UNK]
          · rw [if_neg c2] at h
            simp at h

theorem lineScan_some (s : Nat) (t : tab_t) (l : Nat) (r : Nat × Nat × List Nat)
    (h : lineScan s t l = some r) :
    r = (cnt (fun i => t.get (lrow s l i) (lcol s l i)) 0 t.n,
         cnt (fun i => t.get (lrow s l i) (lcol s l i)) 1 t.n,
         (List.range t.n).filter (fun i => decide (t.get (lrow s l i) (lcol s l i) = UNK))) :=
  lineScan_fold s t l t.n r h

/-- What the enumeration loop of `findline_` has accumulated when it runs to its end:
`f1` holds the one positions and `f0` the zero positions of the fillings that passed both
tests. -/
theorem lineEnum_some (s : Nat) (t : tab_t) (l rules n1 : Nat) (tl ks : List Nat)
    (f0 f1 g0 g1 : Nat) (h : lineEnum s t l rules n1 tl ks f0 f1 = some (g0, g1)) :
    (∀ q, g1.testBit q = true ↔ f1.testBit q = true ∨
      ∃ k, k ∈ ks ∧ nbr1 k = t.n / 2 - n1 ∧ (fillLine s l k tl 0 t).isbad rules = 0 ∧
        k.testBit q = true) ∧
    (∀ q, g0.testBit q = true ↔ f0.testBit q = true ∨
      ∃ k, k ∈ ks ∧ nbr1 k = t.n / 2 - n1 ∧ (fillLine s l k tl 0 t).isbad rules = 0 ∧
        (((1 <<< tl.length) - 1) ^^^ k).testBit q = true) := by
  induction ks generalizing f0 f1 with
  | nil =>
    simp only [lineEnum, Option.some.injEq, Prod.mk.injEq] at h
    obtain ⟨rfl, rfl⟩ := h
    simp
  | cons k ks ih =>
    unfold lineEnum at h
    by_cases hc : nbr1 k ≠ t.n / 2 - n1
    · rw [if_pos hc] at h
      obtain ⟨i1, i0⟩ := ih f0 f1 h
      refine ⟨fun q => ?_, fun q => ?_⟩
      · rw [i1 q]
        constructor
        · rintro (h' | ⟨k', hk', r⟩)
          · exact Or.inl h'
          · exact Or.inr ⟨k', List.mem_cons_of_mem _ hk', r⟩
        · rintro (h' | ⟨k', hk', r⟩)
          · exact Or.inl h'
          · rcases List.mem_cons.mp hk' with rfl | hk'
            · exact absurd r.1 hc
            · exact Or.inr ⟨k', hk', r⟩
      · rw [i0 q]
        constructor
        · rintro (h' | ⟨k', hk', r⟩)
          · exact Or.inl h'
          · exact Or.inr ⟨k', List.mem_cons_of_mem _ hk', r⟩
        · rintro (h' | ⟨k', hk', r⟩)
          · exact Or.inl h'
          · rcases List.mem_cons.mp hk' with rfl | hk'
            · exact absurd r.1 hc
            · exact Or.inr ⟨k', hk', r⟩
    · rw [if_neg hc] at h
      have hc' : nbr1 k = t.n / 2 - n1 := by simpa using hc
      by_cases hb : (fillLine s l k tl 0 t).isbad rules = 0
      · rw [if_pos hb] at h
        simp only [] at h
        by_cases he : (f1 ||| k) = (1 <<< tl.length) - 1 ∧
            (f0 ||| (((1 <<< tl.length) - 1) ^^^ k)) = (1 <<< tl.length) - 1
        · rw [if_pos he] at h; simp at h
        · rw [if_neg he] at h
          obtain ⟨i1, i0⟩ := ih _ _ h
          refine ⟨fun q => ?_, fun q => ?_⟩
          · rw [i1 q, Nat.testBit_or, Bool.or_eq_true]
            constructor
            · rintro ((h' | h') | ⟨k', hk', r⟩)
              · exact Or.inl h'
              · exact Or.inr ⟨k, List.mem_cons_self _ _, hc', hb, h'⟩
              · exact Or.inr ⟨k', List.mem_cons_of_mem _ hk', r⟩
            · rintro (h' | ⟨k', hk', r⟩)
              · exact Or.inl (Or.inl h')
              · rcases List.mem_cons.mp hk' with rfl | hk'
                · exact Or.inl (Or.inr r.2.2)
                · exact Or.inr ⟨k', hk', r⟩
          · rw [i0 q, Nat.testBit_or, Bool.or_eq_true]
            constructor
            · rintro ((h' | h') | ⟨k', hk', r⟩)
              · exact Or.inl h'
              · exact Or.inr ⟨k, List.mem_cons_self _ _, hc', hb, h'⟩
              · exact Or.inr ⟨k', List.mem_cons_of_mem _ hk', r⟩
            · rintro (h' | ⟨k', hk', r⟩)
              · exact Or.inl (Or.inl h')
              · rcases List.mem_cons.mp hk' with rfl | hk'
                · exact Or.inl (Or.inr r.2.2)
                · exact Or.inr ⟨k', hk', r⟩
      · rw [if_neg hb] at h
        obtain ⟨i1, i0⟩ := ih f0 f1 h
        refine ⟨fun q => ?_, fun q => ?_⟩
        · rw [i1 q]
          constructor
          · rintro (h' | ⟨k', hk', r⟩)
            · exact Or.inl h'
            · exact Or.inr ⟨k', List.mem_cons_of_mem _ hk', r⟩
          · rintro (h' | ⟨k', hk', r⟩)
            · exact Or.inl h'
            · rcases List.mem_cons.mp hk' with rfl | hk'
              · exact absurd r.2.1 hb
              · exact Or.inr ⟨k', hk', r⟩
        · rw [i0 q]
          constructor
          · rintro (h' | ⟨k', hk', r⟩)
            · exact Or.inl h'
            · exact Or.inr ⟨k', List.mem_cons_of_mem _ hk', r⟩
          · rintro (h' | ⟨k', hk', r⟩)
            · exact Or.inl h'
            · rcases List.mem_cons.mp hk' with rfl | hk'
              · exact absurd r.2.1 hb
              · exact Or.inr ⟨k', hk', r⟩

theorem and_bit_eq_zero (f q : Nat) : f &&& (1 <<< q) = 0 ↔ f.testBit q = false := by
  rw [Nat.one_shiftLeft]
  constructor
  · intro h
    have := congrArg (fun v => v.testBit q) h
    simpa using this
  · intro h
    apply Nat.eq_of_testBit_eq
    intro j
    rw [Nat.testBit_and, Nat.testBit_two_pow, Nat.zero_testBit]
    by_cases hj : q = j
    · subst hj; simp [h]
    · simp [hj]

/-- What the last loop of `findline_` returns: a position of the array `t[]` whose bit is
missing from exactly one of `f1` and `f0`. -/
theorem linePick_some (f0 f1 : Nat) (tl : List Nat) (q0 j x : Nat)
    (h : linePick f0 f1 tl q0 = some (some (j, x))) :
    ∃ q, q < tl.length ∧ tl[q]? = some j ∧
      ((x = 0 ∧ f1.testBit (q0 + q) = false ∧ f0.testBit (q0 + q) = true) ∨
       (x = 1 ∧ f0.testBit (q0 + q) = false ∧ f1.testBit (q0 + q) = true)) := by
  induction tl generalizing q0 with
  | nil => simp [linePick] at h
  | cons a tl ih =>
    unfold linePick at h
    by_cases h1 : f1 &&& (1 <<< q0) = 0
    · rw [if_pos h1] at h
      by_cases h0 : f0 &&& (1 <<< q0) ≠ 0
      · rw [if_pos h0] at h
        simp only [Option.some.injEq, Prod.mk.injEq] at h
        obtain ⟨rfl, rfl⟩ := h
        refine ⟨0, by simp, by simp, Or.inl ⟨rfl, (and_bit_eq_zero f1 q0).mp h1, ?_⟩⟩
        have := (and_bit_eq_zero f0 q0).not.mp h0
        simpa using this
      · rw [if_neg h0] at h; simp at h
    · rw [if_neg h1] at h
      by_cases h0 : f0 &&& (1 <<< q0) = 0
      · rw [if_pos h0, if_pos h1] at h
        simp only [Option.some.injEq, Prod.mk.injEq] at h
        obtain ⟨rfl, rfl⟩ := h
        refine ⟨0, by simp, by simp, Or.inr ⟨rfl, (and_bit_eq_zero f0 q0).mp h0, ?_⟩⟩
        have := (and_bit_eq_zero f1 q0).not.mp h1
        simpa using this
      · rw [if_neg h0] at h
        obtain ⟨q, hq, hj, r⟩ := ih (q0 + 1) h
        refine ⟨q + 1, by simp; omega, by simpa using hj, ?_⟩
        rw [show q0 + (q + 1) = q0 + 1 + q by omega]
        exact r

theorem set_get (t : tab_t) (i j x a b : Nat) :
    (t.set i j x).get a b = if a = i ∧ b = j then x else t.get a b := by
  unfold tab_t.get
  rw [set_tab]; rfl

theorem lpos_inj (s l j j' : Nat) (h : lrow s l j = lrow s l j' ∧ lcol s l j = lcol s l j') :
    j = j' := by
  unfold lrow lcol at h
  by_cases hs : s ≠ 0
  · rw [if_pos hs, if_pos hs] at h; exact h.1
  · rw [if_neg hs, if_neg hs, if_neg hs, if_neg hs] at h; exact h.2

theorem fillLine_get_other (s l k : Nat) (tl : List Nat) (q : Nat) (t : tab_t) (a b : Nat)
    (h : ∀ j, j ∈ tl → ¬ (a = lrow s l j ∧ b = lcol s l j)) :
    (fillLine s l k tl q t).get a b = t.get a b := by
  induction tl generalizing q t with
  | nil => rfl
  | cons j tl ih =>
    unfold fillLine
    rw [ih _ _ (fun j' hj' => h j' (List.mem_cons_of_mem _ hj')), set_get,
      if_neg (h j (List.mem_cons_self _ _))]

/-- The filling `k` puts bit `q` of `k` at the `q`-th Unknown position of the line. -/
theorem fillLine_get (s l k : Nat) (tl : List Nat) (q0 : Nat) (t : tab_t) (q j : Nat)
    (hnd : tl.Nodup) (hj : tl[q]? = some j) :
    (fillLine s l k tl q0 t).get (lrow s l j) (lcol s l j) = (k >>> (q0 + q)) &&& 1 := by
  induction tl generalizing q0 t q with
  | nil => simp at hj
  | cons a tl ih =>
    unfold fillLine
    obtain ⟨ha, hnd'⟩ := List.nodup_cons.mp hnd
    cases q with
    | zero =>
      simp only [List.getElem?_cons_zero, Option.some.injEq] at hj
      subst hj
      rw [fillLine_get_other, set_get, if_pos ⟨rfl, rfl⟩]
      · rfl
      · intro j' hj' hc
        exact ha (lpos_inj s l a j' hc ▸ hj')
    | succ q =>
      simp only [List.getElem?_cons_succ] at hj
      rw [ih (q0 + 1) _ q hnd' hj, show q0 + 1 + q = q0 + (q + 1) by omega]

theorem bit_testBit (k q : Nat) : (k >>> q) &&& 1 = if k.testBit q = true then 1 else 0 := by
  rw [bit_eq, Nat.testBit_to_div_mod]
  have : k / 2 ^ q % 2 < 2 := Nat.mod_lt _ (by omega)
  by_cases h : k / 2 ^ q % 2 = 1
  · simp [h]
  · simp [h]; omega

/-- What `findline_` returns, in terms of the fillings of the line. Whenever `findline_<s>(l,j,x,rules)` returns true on a board of size at most `NM`,
position `j` of the line is inside the grid and Unknown, `x` is `0` or `1`, at least one
filling of the Unknown cells of the line with exactly `n/2 - n1` ones gives a board that
is not bad under `rules`, and every such filling puts the value `x` at position `j`.
A filling is a number `k < 2^p` whose bit `q` is the value of the `q`-th Unknown cell. -/
theorem findline_spec (s : Nat) (t : tab_t) (l rules j x : Nat) (hn : t.n ≤ NM)
    (h : t.findline_ s l rules = some (some (j, x))) :
    j < t.n ∧ t.get (lrow s l j) (lcol s l j) = UNK ∧ x ≤ 1 ∧
    (∃ k, k < 2 ^ ((List.range t.n).filter
          (fun i => decide (t.get (lrow s l i) (lcol s l i) = UNK))).length ∧
      popc ((List.range t.n).filter
          (fun i => decide (t.get (lrow s l i) (lcol s l i) = UNK))).length k
        = t.n / 2 - cnt (fun i => t.get (lrow s l i) (lcol s l i)) 1 t.n ∧
      (fillLine s l k ((List.range t.n).filter
          (fun i => decide (t.get (lrow s l i) (lcol s l i) = UNK))) 0 t).isbad rules = 0) ∧
    (∀ k, k < 2 ^ ((List.range t.n).filter
          (fun i => decide (t.get (lrow s l i) (lcol s l i) = UNK))).length →
      popc ((List.range t.n).filter
          (fun i => decide (t.get (lrow s l i) (lcol s l i) = UNK))).length k
        = t.n / 2 - cnt (fun i => t.get (lrow s l i) (lcol s l i)) 1 t.n →
      (fillLine s l k ((List.range t.n).filter
          (fun i => decide (t.get (lrow s l i) (lcol s l i) = UNK))) 0 t).isbad rules = 0 →
      (fillLine s l k ((List.range t.n).filter
          (fun i => decide (t.get (lrow s l i) (lcol s l i) = UNK))) 0 t).get
        (lrow s l j) (lcol s l j) = x) := by
  unfold findline_ at h
  cases hs : lineScan s t l with
  | none => rw [hs] at h; simp at h
  | some r =>
    rw [hs] at h
    have hr := lineScan_some s t l r hs
    generalize htl : (List.range t.n).filter
      (fun i => decide (t.get (lrow s l i) (lcol s l i) = UNK)) = tl at hr ⊢
    generalize hn1 : cnt (fun i => t.get (lrow s l i) (lcol s l i)) 1 t.n = n1 at hr ⊢
    subst hr
    simp only [] at h
    split_ifs at h with g1 g2 g3 g4 g5
    · simp at h
    · simp at h
    · simp at h
    · simp at h
    · simp at h
    · cases he : lineEnum s t l rules n1 tl (List.range (1 <<< tl.length)) 0 0 with
      | none => rw [he] at h; simp at h
      | some f =>
        obtain ⟨f0, f1⟩ := f
        rw [he] at h
        simp only [] at h
        obtain ⟨i1, i0⟩ := lineEnum_some s t l rules n1 tl _ 0 0 f0 f1 he
        obtain ⟨q, hq, hj, hx⟩ := linePick_some f0 f1 tl 0 j x h
        rw [Nat.zero_add] at hx
        have hnd : tl.Nodup := by rw [← htl]; exact (List.nodup_range t.n).filter _
        have hmem : j ∈ tl := List.getElem?_mem hj
        have hj' : j < t.n ∧ t.get (lrow s l j) (lcol s l j) = UNK := by
          rw [← htl, List.mem_filter, List.mem_range] at hmem
          exact ⟨hmem.1, by simpa using hmem.2⟩
        have hlen : tl.length ≤ 24 := by
          have : tl.length ≤ (List.range t.n).length := by
            rw [← htl]; exact List.length_filter_le _ _
          rw [List.length_range] at this
          unfold NM at hn; omega
        have hrange : ∀ k, k ∈ List.range (1 <<< tl.length) ↔ k < 2 ^ tl.length := by
          intro k; rw [List.mem_range, Nat.one_shiftLeft]
        have hfull : ((1 <<< tl.length) - 1).testBit q = true := by
          rw [Nat.one_shiftLeft, Nat.testBit_two_pow_sub_one]; simpa using hq
        have hget := fun k => fillLine_get s l k tl 0 t q j hnd hj
        simp only [Nat.zero_add, bit_testBit] at hget
        refine ⟨hj'.1, hj'.2, ?_, ?_, ?_⟩
        · rcases hx with ⟨rfl, _⟩ | ⟨rfl, _⟩ <;> omega
        · rcases hx with ⟨_, _, hb⟩ | ⟨_, _, hb⟩
          · obtain h' | ⟨k, hk, hv, hbad, _⟩ := (i0 q).mp hb
            · simp at h'
            · exact ⟨k, (hrange k).mp hk, by rw [← nbr1_eq_popc _ k hlen ((hrange k).mp hk)]; exact hv,
                hbad⟩
          · obtain h' | ⟨k, hk, hv, hbad, _⟩ := (i1 q).mp hb
            · simp at h'
            · exact ⟨k, (hrange k).mp hk, by rw [← nbr1_eq_popc _ k hlen ((hrange k).mp hk)]; exact hv,
                hbad⟩
        · intro k hk hv hbad
          rw [← nbr1_eq_popc _ k hlen hk] at hv
          rw [hget k]
          rcases hx with ⟨rfl, hz, _⟩ | ⟨rfl, hz, _⟩
          · have : k.testBit q = false := by
              cases hb : k.testBit q
              · rfl
              · have := (i1 q).mpr (Or.inr ⟨k, (hrange k).mpr hk, hv, hbad, hb⟩)
                rw [hz] at this; exact absurd this (by simp)
            simp [this]
          · have : k.testBit q = true := by
              cases hb : k.testBit q
              · have hxor : (((1 <<< tl.length) - 1) ^^^ k).testBit q = true := by
                  rw [Nat.testBit_xor, hfull, hb]; rfl
                have := (i0 q).mpr (Or.inr ⟨k, (hrange k).mpr hk, hv, hbad, hxor⟩)
                rw [hz] at this; exact absurd this (by simp)
              · rfl
            simp [this]

/-- C10. Whenever `findline_<s>(l,j,x,rules)` returns true on a board of size at most `NM`,
position `j` of the line is inside the grid and Unknown, `x` is `0` or `1`, at least one
filling of the Unknown cells of the line with exactly `n/2 - n1` ones gives a board that
is not bad under `rules`, and every such filling puts the value `x` at position `j`.
A filling is a number `k < 2^p` whose bit `q` is the value of the `q`-th Unknown cell. -/
theorem findline_sound (s : Nat) (t : tab_t) (l rules j x : Nat) (hn : t.n ≤ NM)
    (h : t.findline_ s l rules = some (some (j, x))) :
    j < t.n ∧ t.get (lrow s l j) (lcol s l j) = UNK ∧ x ≤ 1 ∧
    (∃ k, k < 2 ^ ((List.range t.n).filter
          (fun i => decide (t.get (lrow s l i) (lcol s l i) = UNK))).length ∧
      popc ((List.range t.n).filter
          (fun i => decide (t.get (lrow s l i) (lcol s l i) = UNK))).length k
        = t.n / 2 - cnt (fun i => t.get (lrow s l i) (lcol s l i)) 1 t.n ∧
      (fillLine s l k ((List.range t.n).filter
          (fun i => decide (t.get (lrow s l i) (lcol s l i) = UNK))) 0 t).isbad rules = 0) ∧
    (∀ k, k < 2 ^ ((List.range t.n).filter
          (fun i => decide (t.get (lrow s l i) (lcol s l i) = UNK))).length →
      popc ((List.range t.n).filter
          (fun i => decide (t.get (lrow s l i) (lcol s l i) = UNK))).length k
        = t.n / 2 - cnt (fun i => t.get (lrow s l i) (lcol s l i)) 1 t.n →
      (fillLine s l k ((List.range t.n).filter
          (fun i => decide (t.get (lrow s l i) (lcol s l i) = UNK))) 0 t).isbad rules = 0 →
      (fillLine s l k ((List.range t.n).filter
          (fun i => decide (t.get (lrow s l i) (lcol s l i) = UNK))) 0 t).get
        (lrow s l j) (lcol s l j) = x) :=
  findline_spec s t l rules j x hn h

set_option maxRecDepth 100000 in
/-- Witness for C10: on the `4 × 4` board with `(0,0)=1` and `(0,3)=1`, row `0` already
holds its two ones, the only filling without ones is valid, and `findline_<0>` returns
position `1` with value `0`. -/
theorem findline_sound_witness :
    (1 : Nat) < (((tab_t.init 4).set 0 0 1).set 0 3 1).n ∧
    (((tab_t.init 4).set 0 0 1).set 0 3 1).get (lrow 0 0 1) (lcol 0 0 1) = UNK ∧
    (0 : Nat) ≤ 1 :=
  ⟨(findline_sound 0 (((tab_t.init 4).set 0 0 1).set 0 3 1) 0 R_ALL 1 0 (by decide)
      (by decide!)).1,
   (findline_sound 0 (((tab_t.init 4).set 0 0 1).set 0 3 1) 0 R_ALL 1 0 (by decide)
      (by decide!)).2.1,
   (findline_sound 0 (((tab_t.init 4).set 0 0 1).set 0 3 1) 0 R_ALL 1 0 (by decide)
      (by decide!)).2.2.1⟩


/-! ## Counting the completions -/

theorem cnt_update_drop (f : Nat → Nat) (v p x n : Nat) (hp : p < n) (hfp : f p = v)
    (hx : x ≠ v) :
    cnt (fun k => if k = p then x else f k) v n + 1 = cnt f v n := by
  induction n with
  | zero => omega
  | succ n ih =>
    simp only [cnt]
    by_cases hpn : p = n
    · subst hpn
      have : cnt (fun k => if k = p then x else f k) v p = cnt f v p :=
        cnt_congr v (fun k hk => by simp; intro h; omega)
      rw [this]
      simp [hfp, hx]
    · have := ih (by omega)
      have e : (if n = p then x else f n) = f n := by
        rw [if_neg]; omega
      simp only [e]
      omega

theorem unkRows_upd (g : Nat → Nat → Nat) (n i j x m : Nat) (hj : j < n)
    (hu : g i j = UNK) (hx : x ≠ UNK) :
    unkRows (upd g i j x) n m + (if i < m then 1 else 0) = unkRows g n m := by
  induction m with
  | zero => simp [unkRows]
  | succ m ih =>
    simp only [unkRows]
    by_cases him : i = m
    · subst him
      have e : cnt (upd g i j x i) UNK n + 1 = cnt (g i) UNK n := by
        have e' : cnt (upd g i j x i) UNK n = cnt (fun k => if k = j then x else g i k) UNK n :=
          cnt_congr UNK (fun k _ => by simp [upd])
        rw [e']
        exact cnt_update_drop (g i) UNK j x n hj hu hx
      simp at ih
      simp
      omega
    · rw [upd_row_other g i j x m (fun h => him h.symm)]
      by_cases h1 : i < m
      · have : i < m + 1 := by omega
        simp [h1, this] at ih ⊢
        omega
      · have : ¬ i < m + 1 := by omega
        simp [h1, this] at ih ⊢
        omega

theorem unk_set (t : tab_t) (i j x : Nat) (hi : i < t.n) (hj : j < t.n)
    (hu : t.tab i j = UNK) (hx : x ≤ 1) : unk (t.set i j x) + 1 = unk t := by
  unfold unk
  rw [set_n, set_tab]
  have := unkRows_upd t.tab t.n i j x t.n hj hu (by simp only [UNK]; omega)
  rw [if_pos hi] at this
  exact this

theorem unkRows_pos (g : Nat → Nat → Nat) (n m i j : Nat) (hi : i < m) (hj : j < n)
    (hu : g i j = UNK) : 0 < unkRows g n m := by
  induction m with
  | zero => omega
  | succ m ih =>
    simp only [unkRows]
    by_cases him : i = m
    · subst him
      have := cnt_pos_of_mem (g i) UNK n j hj hu
      omega
    · have := ih (by omega)
      omega

theorem firstUnk_some (t : tab_t) (a b : Nat) (h : t.firstUnk = some (a, b)) :
    a < t.n ∧ b < t.n ∧ t.tab a b = UNK := by
  unfold firstUnk at h
  obtain ⟨h1, l1, l2, hl, _⟩ := List.find?_eq_some.mp h
  have hm : (a, b) ∈ cells t.n := by rw [hl]; simp
  obtain ⟨h2, h3⟩ := (mem_cells t.n (a, b)).mp hm
  exact ⟨h2, h3, by simpa [tab_t.get] using h1⟩

theorem firstUnk_none (t : tab_t) (h : t.firstUnk = none) :
    ∀ i j, i < t.n → j < t.n → t.tab i j ≠ UNK := by
  unfold firstUnk at h
  intro i j hi hj
  have := List.find?_eq_none.mp h (i, j) ((mem_cells t.n (i, j)).mpr ⟨hi, hj⟩)
  simpa [tab_t.get] using this

/-- The flags are sticky: a bad board stays bad under `set`. -/
theorem set_bad_mono (t : tab_t) (i j x : Nat) (h : t.isbad R_ALL ≠ 0) :
    (t.set i j x).isbad R_ALL ≠ 0 := by
  intro h0
  apply h
  obtain ⟨h3, hH, hD⟩ := (isbad_all_eq_zero _).mp h0
  obtain ⟨_, _, _, _, _, _, _, _, f9, f10⟩ := set_fields t i j x
  rw [isbad_all_eq_zero]
  refine ⟨?_, ?_, ?_⟩
  · cases hb : t.bad3
    · rfl
    · have := (mid_bad3 t i j x).mpr (Or.inl hb)
      rw [← f9, h3] at this; exact absurd this (by simp)
  · cases hb : t.badH
    · rfl
    · have := (mid_badH t i j x).mpr (Or.inl hb)
      rw [← f10, hH] at this; exact absurd this (by simp)
  · cases hb : t.badD
    · rfl
    · have := (set_badD t i j x).mpr (Or.inl hb)
      rw [hD] at this; exact absurd this (by simp)

theorem countAux_indep (fuel : Nat) :
    ∀ (t : tab_t) (fuel' : Nat), Inv t → unk t < fuel → unk t < fuel' →
      countAux fuel t = countAux fuel' t ∧ ∃ c, countAux fuel t = some c := by
  induction fuel with
  | zero => intro t fuel' _ hf _; omega
  | succ f ih =>
    intro t fuel' hI hf hf'
    obtain ⟨f', rfl⟩ : ∃ f', fuel' = f' + 1 := ⟨fuel' - 1, by omega⟩
    unfold countAux
    by_cases hb : t.isbad R_ALL ≠ 0
    · rw [if_pos hb, if_pos hb]; exact ⟨rfl, 0, rfl⟩
    · rw [if_neg hb, if_neg hb]
      by_cases hc : t.iscomplete = true
      · rw [if_pos hc, if_pos hc]; exact ⟨rfl, 1, rfl⟩
      · rw [if_neg hc, if_neg hc]
        cases hu : t.firstUnk with
        | none =>
          exact absurd ((iscomplete_iff t hI.toCnt).mpr (firstUnk_none t hu)) hc
        | some c =>
          obtain ⟨a, b⟩ := c
          obtain ⟨h1, h2, h3⟩ := firstUnk_some t a b hu
          have u0 := unk_set t a b 0 h1 h2 h3 (by omega)
          have u1 := unk_set t a b 1 h1 h2 h3 (by omega)
          have i0 := inv_set t a b 0 hI h1 h2 h3 (by omega)
          have i1 := inv_set t a b 1 hI h1 h2 h3 (by omega)
          obtain ⟨e0, c0, s0⟩ := ih (t.set a b 0) f' i0 (by omega) (by omega)
          obtain ⟨e1, c1, s1⟩ := ih (t.set a b 1) f' i1 (by omega) (by omega)
          simp only []
          rw [← e0, ← e1, s0, s1]
          exact ⟨rfl, c0 + c1, rfl⟩

/-- With enough fuel the count is defined, and its value does not depend on the fuel. -/
theorem countAux_fuel (fuel : Nat) (t : tab_t) (hI : Inv t) (hf : unk t < fuel) :
    countAux fuel t = some (nsol t) := by
  obtain ⟨e, c, hc⟩ := countAux_indep fuel t (unk t + 1) hI hf (by omega)
  unfold nsol
  rw [← e, hc]; rfl

theorem unkRows_le (g : Nat → Nat → Nat) (n m : Nat) : unkRows g n m ≤ m * n := by
  induction m with
  | zero => simp [unkRows]
  | succ m ih =>
    simp only [unkRows]
    have := cnt_le (g m) UNK n
    have e : (m + 1) * n = m * n + n := by ring
    omega

theorem unk_le (t : tab_t) : unk t ≤ t.n * t.n := unkRows_le t.tab t.n t.n


theorem nsol_bad (t : tab_t) (hb : t.isbad R_ALL ≠ 0) : nsol t = 0 := by
  unfold nsol countAux
  rw [if_pos hb]; rfl

theorem nsol_complete (t : tab_t) (hb : t.isbad R_ALL = 0) (hc : t.iscomplete = true) :
    nsol t = 1 := by
  unfold nsol countAux
  rw [if_neg (by simp [hb]), if_pos hc]; rfl

theorem nsol_first (t : tab_t) (hI : Inv t) (hb : t.isbad R_ALL = 0)
    (hc : t.iscomplete = false) (a b : Nat) (hu : t.firstUnk = some (a, b)) :
    nsol t = nsol (t.set a b 0) + nsol (t.set a b 1) := by
  obtain ⟨h1, h2, h3⟩ := firstUnk_some t a b hu
  have u0 := unk_set t a b 0 h1 h2 h3 (by omega)
  have u1 := unk_set t a b 1 h1 h2 h3 (by omega)
  have i0 := inv_set t a b 0 hI h1 h2 h3 (by omega)
  have i1 := inv_set t a b 1 hI h1 h2 h3 (by omega)
  have e : countAux (unk t + 1) t = some (nsol (t.set a b 0) + nsol (t.set a b 1)) := by
    unfold countAux
    rw [if_neg (by simp [hb]), if_neg (by simp [hc]), hu]
    simp only []
    rw [countAux_fuel _ _ i0 (by omega), countAux_fuel _ _ i1 (by omega)]
  unfold nsol
  rw [e]; rfl

/-- With enough fuel `nbrsol` returns the number of completions when that number is below
`2^63`; otherwise a sum leaves `ll_t` and there is no value. -/
theorem nbrsolAux_fuel (fuel : Nat) : ∀ (t : tab_t), Inv t → unk t < fuel →
    nbrsolAux fuel t = if nsol t < 2 ^ 63 then some (nsol t) else none := by
  induction fuel with
  | zero => intro t _ hf; omega
  | succ f ih =>
    intro t hI hf
    unfold nbrsolAux
    by_cases hb : t.isbad R_ALL ≠ 0
    · rw [if_pos hb, nsol_bad t hb, if_pos (by norm_num)]
    · rw [if_neg hb]
      have hb0 : t.isbad R_ALL = 0 := by simpa using hb
      by_cases hc : t.iscomplete = true
      · rw [if_pos hc, nsol_complete t hb0 hc, if_pos (by norm_num)]
      · rw [if_neg hc]
        have hc0 : t.iscomplete = false := by simpa using hc
        cases hu : t.firstUnk with
        | none =>
          exact absurd ((iscomplete_iff t hI.toCnt).mpr (firstUnk_none t hu)) hc
        | some c =>
          obtain ⟨a, b⟩ := c
          obtain ⟨h1, h2, h3⟩ := firstUnk_some t a b hu
          have u0 := unk_set t a b 0 h1 h2 h3 (by omega)
          have u1 := unk_set t a b 1 h1 h2 h3 (by omega)
          have i0 := inv_set t a b 0 hI h1 h2 h3 (by omega)
          have i1 := inv_set t a b 1 hI h1 h2 h3 (by omega)
          have e := nsol_first t hI hb0 hc0 a b hu
          simp only []
          rw [ih _ i0 (by omega), ih _ i1 (by omega), e]
          by_cases l0 : nsol (t.set a b 0) < 2 ^ 63
          · by_cases l1 : nsol (t.set a b 1) < 2 ^ 63
            · rw [if_pos l0, if_pos l1]
            · have l2 : ¬ nsol (t.set a b 0) + nsol (t.set a b 1) < 2 ^ 63 := by omega
              rw [if_pos l0, if_neg l1, if_neg l2]
          · have l2 : ¬ nsol (t.set a b 0) + nsol (t.set a b 1) < 2 ^ 63 := by omega
            rw [if_neg l0, if_neg l2]

/-- On a board built by legal `set` calls with fewer than `2^63` completions, `nbrsol()`
returns the number of completions. -/
theorem nbrsol_eq (t : tab_t) (hI : Inv t) (h : nsol t < 2 ^ 63) : t.nbrsol = some (nsol t) := by
  unfold nbrsol
  rw [nbrsolAux_fuel _ t hI (by have := unk_le t; omega), if_pos h]

/-- On a board built by legal `set` calls with `2^63` completions or more, a sum of
`nbrsol()` leaves `ll_t`. -/
theorem nbrsol_overflow (t : tab_t) (hI : Inv t) (h : 2 ^ 63 ≤ nsol t) : t.nbrsol = none := by
  unfold nbrsol
  rw [nbrsolAux_fuel _ t hI (by have := unk_le t; omega), if_neg (by omega)]

/-- Whenever `nbrsol()` returns, it returns the number of completions. -/
theorem nbrsol_some (t : tab_t) (hI : Inv t) (c : Nat) (h : t.nbrsol = some c) :
    c = nsol t ∧ nsol t < 2 ^ 63 := by
  unfold nbrsol at h
  rw [nbrsolAux_fuel _ t hI (by have := unk_le t; omega)] at h
  by_cases l : nsol t < 2 ^ 63
  · rw [if_pos l] at h
    exact ⟨(Option.some.inj h).symm, l⟩
  · rw [if_neg l] at h
    exact absurd h (by simp)

theorem iscomplete_congr (t t' : tab_t) (hI : Inv t) (hI' : Inv t') (hn : t.n = t'.n)
    (ht : t.tab = t'.tab) : t.iscomplete = t'.iscomplete := by
  have h1 := iscomplete_iff t hI.toCnt
  have h2 := iscomplete_iff t' hI'.toCnt
  rw [← hn, ← ht] at h2
  cases hc : t.iscomplete
  · cases hc' : t'.iscomplete
    · rfl
    · have := h1.mpr (h2.mp hc'); rw [hc] at this; exact absurd this (by simp)
  · exact (h2.mpr (h1.mp hc)).symm

theorem isbad_congr (t t' : tab_t) (hI : Inv t) (hI' : Inv t') (hn : t.n = t'.n)
    (ht : t.tab = t'.tab) : t.isbad R_ALL = 0 ↔ t'.isbad R_ALL = 0 := by
  rw [isbad_all_iff t hI, isbad_all_iff t' hI', hn, ht]

theorem firstUnk_congr (t t' : tab_t) (hn : t.n = t'.n) (ht : t.tab = t'.tab) :
    t.firstUnk = t'.firstUnk := by
  unfold firstUnk tab_t.get
  rw [hn, ht]

theorem unk_congr (t t' : tab_t) (hn : t.n = t'.n) (ht : t.tab = t'.tab) : unk t = unk t' := by
  unfold unk; rw [hn, ht]

/-- The number of completions depends on the grid only, not on the order of the `set`
calls that built the board. -/
theorem nsol_congr (m : Nat) : ∀ (t t' : tab_t), unk t = m → Inv t → Inv t' → t.n = t'.n →
    t.tab = t'.tab → nsol t = nsol t' := by
  induction m with
  | zero =>
    intro t t' hm hI hI' hn ht
    by_cases hb : t.isbad R_ALL = 0
    · have hb' := (isbad_congr t t' hI hI' hn ht).mp hb
      have hc : t.iscomplete = true := by
        cases hc : t.iscomplete
        · cases hu : t.firstUnk with
          | none => exact absurd ((iscomplete_iff t hI.toCnt).mpr (firstUnk_none t hu)) (by simp [hc])
          | some c =>
            obtain ⟨h1, h2, h3⟩ := firstUnk_some t c.1 c.2 hu
            have := unkRows_pos t.tab t.n t.n c.1 c.2 h1 h2 h3
            unfold unk at hm; omega
        · rfl
      rw [nsol_complete t hb hc, nsol_complete t' hb' (by rw [← iscomplete_congr t t' hI hI' hn ht]; exact hc)]
    · have hb' : t'.isbad R_ALL ≠ 0 := fun h => hb ((isbad_congr t t' hI hI' hn ht).mpr h)
      rw [nsol_bad t hb, nsol_bad t' hb']
  | succ m ih =>
    intro t t' hm hI hI' hn ht
    by_cases hb : t.isbad R_ALL = 0
    · have hb' := (isbad_congr t t' hI hI' hn ht).mp hb
      cases hc : t.iscomplete
      · have hc' : t'.iscomplete = false := by rw [← iscomplete_congr t t' hI hI' hn ht]; exact hc
        cases hu : t.firstUnk with
        | none => exact absurd ((iscomplete_iff t hI.toCnt).mpr (firstUnk_none t hu)) (by simp [hc])
        | some c =>
          obtain ⟨a, b⟩ := c
          have hu' : t'.firstUnk = some (a, b) := by rw [← firstUnk_congr t t' hn ht]; exact hu
          obtain ⟨h1, h2, h3⟩ := firstUnk_some t a b hu
          obtain ⟨h1', h2', h3'⟩ := firstUnk_some t' a b hu'
          rw [nsol_first t hI hb hc a b hu, nsol_first t' hI' hb' hc' a b hu']
          have u0 := unk_set t a b 0 h1 h2 h3 (by omega)
          have u1 := unk_set t a b 1 h1 h2 h3 (by omega)
          rw [ih (t.set a b 0) (t'.set a b 0) (by omega)
              (inv_set t a b 0 hI h1 h2 h3 (by omega)) (inv_set t' a b 0 hI' h1' h2' h3' (by omega))
              (by rw [set_n, set_n, hn]) (by rw [set_tab, set_tab, ht]),
            ih (t.set a b 1) (t'.set a b 1) (by omega)
              (inv_set t a b 1 hI h1 h2 h3 (by omega)) (inv_set t' a b 1 hI' h1' h2' h3' (by omega))
              (by rw [set_n, set_n, hn]) (by rw [set_tab, set_tab, ht])]
      · rw [nsol_complete t hb hc,
          nsol_complete t' hb' (by rw [← iscomplete_congr t t' hI hI' hn ht]; exact hc)]
    · have hb' : t'.isbad R_ALL ≠ 0 := fun h => hb ((isbad_congr t t' hI hI' hn ht).mpr h)
      rw [nsol_bad t hb, nsol_bad t' hb']

theorem upd_comm (g : Nat → Nat → Nat) (i j x a b y : Nat) (h : ¬ (a = i ∧ b = j)) :
    upd (upd g i j x) a b y = upd (upd g a b y) i j x := by
  funext p q
  simp only [upd]
  by_cases h1 : p = a ∧ q = b
  · have h2 : ¬ (p = i ∧ q = j) := by
      rintro ⟨rfl, rfl⟩; exact h ⟨h1.1.symm, h1.2.symm⟩
    simp [h1, h2, h]
  · simp [h1]

/-- The completions of a board split by the value of any Unknown cell, not only the first
one in scan order. -/
theorem nsol_branch (m : Nat) : ∀ (t : tab_t) (i j : Nat), unk t = m → Inv t → i < t.n →
    j < t.n → t.tab i j = UNK → nsol t = nsol (t.set i j 0) + nsol (t.set i j 1) := by
  induction m with
  | zero =>
    intro t i j hm _ hi hj hu
    have := unkRows_pos t.tab t.n t.n i j hi hj hu
    unfold unk at hm; omega
  | succ m ih =>
    intro t i j hm hI hi hj hu
    by_cases hb : t.isbad R_ALL = 0
    · have hc : t.iscomplete = false := by
        cases hc : t.iscomplete
        · rfl
        · exact absurd hu ((iscomplete_iff t hI.toCnt).mp hc i j hi hj)
      cases hf : t.firstUnk with
      | none => exact absurd hu (firstUnk_none t hf i j hi hj)
      | some c =>
        obtain ⟨a, b⟩ := c
        obtain ⟨h1, h2, h3⟩ := firstUnk_some t a b hf
        by_cases hab : a = i ∧ b = j
        · obtain ⟨rfl, rfl⟩ := hab
          exact nsol_first t hI hb hc a b hf
        · have hab' : ¬ (i = a ∧ j = b) := fun h => hab ⟨h.1.symm, h.2.symm⟩
          have key : ∀ v w, v ≤ 1 → w ≤ 1 →
              nsol ((t.set a b v).set i j w) = nsol ((t.set i j w).set a b v) ∧
              nsol (t.set a b v) = nsol ((t.set a b v).set i j 0) + nsol ((t.set a b v).set i j 1) ∧
              nsol (t.set i j w) = nsol ((t.set i j w).set a b 0) + nsol ((t.set i j w).set a b 1) := by
            intro v w hv hw
            have uA := unk_set t a b v h1 h2 h3 hv
            have uB := unk_set t i j w hi hj hu hw
            have iA := inv_set t a b v hI h1 h2 h3 hv
            have iB := inv_set t i j w hI hi hj hu hw
            have cA : (t.set a b v).tab i j = UNK := by
              rw [set_tab, upd_other _ _ _ _ _ _ hab']; exact hu
            have cB : (t.set i j w).tab a b = UNK := by
              rw [set_tab, upd_other _ _ _ _ _ _ hab]; exact h3
            have nA : i < (t.set a b v).n ∧ j < (t.set a b v).n := by rw [set_n]; exact ⟨hi, hj⟩
            have nB : a < (t.set i j w).n ∧ b < (t.set i j w).n := by rw [set_n]; exact ⟨h1, h2⟩
            have uAB := unk_set _ i j w nA.1 nA.2 cA hw
            refine ⟨?_, ?_, ?_⟩
            · apply nsol_congr _ _ _ rfl (inv_set _ i j w iA nA.1 nA.2 cA hw)
                (inv_set _ a b v iB nB.1 nB.2 cB hv)
              · rw [set_n, set_n, set_n, set_n]
              · rw [set_tab, set_tab, set_tab, set_tab]
                exact upd_comm t.tab a b v i j w hab'
            · exact ih _ i j (by omega) iA nA.1 nA.2 cA
            · exact ih _ a b (by omega) iB nB.1 nB.2 cB
          obtain ⟨k00, kA0, kB0⟩ := key 0 0 (by omega) (by omega)
          obtain ⟨k01, _, kB1⟩ := key 0 1 (by omega) (by omega)
          obtain ⟨k10, kA1, _⟩ := key 1 0 (by omega) (by omega)
          obtain ⟨k11, _, _⟩ := key 1 1 (by omega) (by omega)
          rw [nsol_first t hI hb hc a b hf, kA0, kA1, kB0, kB1, k00, k01, k10, k11]
          omega
    · rw [nsol_bad t hb, nsol_bad _ (set_bad_mono t i j 0 hb), nsol_bad _ (set_bad_mono t i j 1 hb)]


/-! ## Completions as grids -/

theorem sub_refl (g : Nat → Nat → Nat) : Sub g g := fun _ _ _ => rfl

theorem sub_trans {g1 g2 g3 : Nat → Nat → Nat} (h12 : Sub g1 g2) (h23 : Sub g2 g3) :
    Sub g1 g3 := by
  intro a b h
  have e := h12 a b h
  rw [h23 a b (by rw [e]; exact h), e]

theorem sub_upd (g : Nat → Nat → Nat) (i j x : Nat) (hu : g i j = UNK) :
    Sub g (upd g i j x) := fun a b h => upd_of_assigned g i j x a b hu h

theorem sub_upd_left (g g' : Nat → Nat → Nat) (i j x : Nat) (h : Sub g g')
    (hx : g' i j = x) : Sub (upd g i j x) g' := by
  intro a b hab
  by_cases hc : a = i ∧ b = j
  · obtain ⟨rfl, rfl⟩ := hc
    rw [upd_same]; exact hx
  · rw [upd_other g i j x a b hc] at hab ⊢
    exact h a b hab

theorem triple_mono (n : Nat) (g g' : Nat → Nat → Nat) (h : Sub g g') (ht : Triple n g) :
    Triple n g' := by
  obtain ⟨l, hl, k, hk, ⟨h1, h2, h3⟩ | ⟨h1, h2, h3⟩⟩ := ht
  · have e1 := h l k h1
    have e2 := h l (k + 1) (by rw [← h2]; exact h1)
    have e3 := h l (k + 2) (by rw [← h3]; exact h1)
    exact ⟨l, hl, k, hk, Or.inl ⟨by rw [e1]; exact h1, by rw [e1, e2]; exact h2,
      by rw [e1, e3]; exact h3⟩⟩
  · simp only [col] at h1 h2 h3
    have e1 := h k l h1
    have e2 := h (k + 1) l (by rw [← h2]; exact h1)
    have e3 := h (k + 2) l (by rw [← h3]; exact h1)
    exact ⟨l, hl, k, hk, Or.inr ⟨by simp only [col]; rw [e1]; exact h1,
      by simp only [col]; rw [e1, e2]; exact h2, by simp only [col]; rw [e1, e3]; exact h3⟩⟩

theorem cnt_mono (f f' : Nat → Nat) (v n : Nat) (h : ∀ k, k < n → f k = v → f' k = v) :
    cnt f v n ≤ cnt f' v n := by
  induction n with
  | zero => simp [cnt]
  | succ n ih =>
    simp only [cnt]
    have := ih (fun k hk => h k (by omega))
    by_cases hf : f n = v
    · rw [if_pos hf, if_pos (h n (by omega) hf)]; omega
    · rw [if_neg hf]; split <;> omega

theorem half_mono (n : Nat) (g g' : Nat → Nat → Nat) (h : Sub g g') (hh : Half n g) :
    Half n g' := by
  have r : ∀ l v, v ≠ UNK → cnt (g l) v n ≤ cnt (g' l) v n := fun l v hv =>
    cnt_mono _ _ _ _ (fun k _ hk => by rw [h l k (by rw [hk]; exact hv), hk])
  have c : ∀ l v, v ≠ UNK → cnt (col g l) v n ≤ cnt (col g' l) v n := fun l v hv =>
    cnt_mono _ _ _ _ (fun k _ hk => by
      simp only [col] at hk ⊢
      rw [h k l (by rw [hk]; exact hv), hk])
  have v0 : (0 : Nat) ≠ UNK := by simp [UNK]
  have v1 : (1 : Nat) ≠ UNK := by simp [UNK]
  obtain ⟨l, hl, h' | h' | h' | h'⟩ := hh
  · exact ⟨l, hl, Or.inl (Nat.lt_of_lt_of_le h' (r l 0 v0))⟩
  · exact ⟨l, hl, Or.inr (Or.inl (Nat.lt_of_lt_of_le h' (r l 1 v1)))⟩
  · exact ⟨l, hl, Or.inr (Or.inr (Or.inl (Nat.lt_of_lt_of_le h' (c l 0 v0))))⟩
  · exact ⟨l, hl, Or.inr (Or.inr (Or.inr (Nat.lt_of_lt_of_le h' (c l 1 v1))))⟩

theorem dup_mono (n : Nat) (g g' : Nat → Nat → Nat) (h : Sub g g') (hd : Dup n g) :
    Dup n g' := by
  obtain ⟨a, ha, b, hb, hab, ⟨h1, h2, h3⟩ | ⟨h1, h2, h3⟩⟩ := hd
  · have ea : ∀ k, k < n → g' a k = g a k := fun k hk => h a k (h1 k hk)
    have eb : ∀ k, k < n → g' b k = g b k := fun k hk => h b k (h2 k hk)
    exact ⟨a, ha, b, hb, hab, Or.inl ⟨fun k hk => by rw [ea k hk]; exact h1 k hk,
      fun k hk => by rw [eb k hk]; exact h2 k hk,
      fun k hk => by rw [ea k hk, eb k hk]; exact h3 k hk⟩⟩
  · have ea : ∀ k, k < n → g' k a = g k a := fun k hk => h k a (h1 k hk)
    have eb : ∀ k, k < n → g' k b = g k b := fun k hk => h k b (h2 k hk)
    exact ⟨a, ha, b, hb, hab, Or.inr ⟨fun k hk => by simp only [col]; rw [ea k hk]; exact h1 k hk,
      fun k hk => by simp only [col]; rw [eb k hk]; exact h2 k hk,
      fun k hk => by simp only [col]; rw [ea k hk, eb k hk]; exact h3 k hk⟩⟩

/-- A board whose grid extends that of a bad board is bad. -/
theorem bad_mono (a b : tab_t) (ha : Inv a) (hb : Inv b) (hn : a.n = b.n)
    (hs : Sub a.tab b.tab) (h : a.isbad R_ALL ≠ 0) : b.isbad R_ALL ≠ 0 := by
  intro h0
  apply h
  obtain ⟨h3, hH, hD⟩ := (isbad_all_iff b hb).mp h0
  rw [isbad_all_iff a ha, hn]
  exact ⟨fun t => h3 (triple_mono _ _ _ hs t), fun t => hH (half_mono _ _ _ hs t),
    fun t => hD (dup_mono _ _ _ hs t)⟩

theorem isbad_ne_zero_iff (t : tab_t) (rules : Nat) (h3 : rules &&& R_3 ≠ 0)
    (hH : rules &&& R_HALF ≠ 0) :
    t.isbad rules ≠ 0 ↔
      t.bad3 = true ∨ t.badH = true ∨ (rules &&& R_DUPLINES ≠ 0 ∧ t.badD = true) := by
  rw [Ne, isbad_eq_zero]
  constructor
  · intro h
    by_contra hc
    push_neg at hc
    apply h
    refine ⟨fun _ => by simpa using hc.1, fun _ => by simpa using hc.2.1, fun hd => ?_⟩
    have := hc.2.2 hd
    simpa using this
  · rintro (h | h | ⟨hd, h⟩) hc
    · have := hc.1 h3; rw [h] at this; exact absurd this (by simp)
    · have := hc.2.1 hH; rw [h] at this; exact absurd this (by simp)
    · have := hc.2.2 hd; rw [h] at this; exact absurd this (by simp)

/-- Under a rule mask that holds `R_3` and `R_HALF`, a board whose grid extends that of a
board reported bad is reported bad. -/
theorem bad_mono_rules (a b : tab_t) (rules : Nat) (ha : Inv a) (hb : Inv b) (hn : a.n = b.n)
    (hs : Sub a.tab b.tab) (h3 : rules &&& R_3 ≠ 0) (hH : rules &&& R_HALF ≠ 0)
    (h : a.isbad rules ≠ 0) : b.isbad rules ≠ 0 := by
  rw [isbad_ne_zero_iff _ _ h3 hH] at h ⊢
  rcases h with h | h | ⟨hd, h⟩
  · exact Or.inl (hb.b3.mpr (by rw [← hn]; exact triple_mono _ _ _ hs (ha.b3.mp h)))
  · exact Or.inr (Or.inl (hb.bH.mpr (by rw [← hn]; exact half_mono _ _ _ hs (ha.bH.mp h))))
  · have hdup : Dup b.n b.tab := by rw [← hn]; exact dup_mono _ _ _ hs (ha.bD h)
    cases e3 : b.bad3
    · cases eH : b.badH
      · exact Or.inr (Or.inr ⟨hd, hb.bD' e3 eH hdup⟩)
      · exact Or.inr (Or.inl rfl)
    · exact Or.inl rfl

/-- A board with a valid completion is not bad. -/
theorem sol_not_bad (t : tab_t) (hI : Inv t) (g : Nat → Nat → Nat) (hg : IsSol t.n t.tab g) :
    t.isbad R_ALL = 0 := by
  obtain ⟨hs, _, _, h3, hH, hD⟩ := hg
  rw [isbad_all_iff t hI]
  exact ⟨fun h => h3 (triple_mono _ _ _ hs h), fun h => hH (half_mono _ _ _ hs h),
    fun h => hD (dup_mono _ _ _ hs h)⟩

theorem isSol_set (t : tab_t) (g : Nat → Nat → Nat) (i j : Nat) (hg : IsSol t.n t.tab g) :
    IsSol (t.set i j (g i j)).n (t.set i j (g i j)).tab g := by
  rw [set_n, set_tab]
  exact ⟨sub_upd_left _ _ _ _ _ hg.1 rfl, hg.2⟩

theorem isSol_of_set (t : tab_t) (g : Nat → Nat → Nat) (i j x : Nat) (hu : t.tab i j = UNK)
    (hx : x ≤ 1) (hg : IsSol (t.set i j x).n (t.set i j x).tab g) :
    IsSol t.n t.tab g ∧ g i j = x := by
  rw [set_n, set_tab] at hg
  refine ⟨⟨sub_trans (sub_upd t.tab i j x hu) hg.1, hg.2⟩, ?_⟩
  have := hg.1 i j (by rw [upd_same]; simp only [UNK]; omega)
  rw [upd_same] at this; exact this

/-- A board with a positive number of completions has a valid completion. -/
theorem nsol_pos_sol (m : Nat) : ∀ (t : tab_t), unk t = m → Inv t → 0 < nsol t →
    ∃ g, IsSol t.n t.tab g := by
  induction m with
  | zero =>
    intro t hm hI hp
    have hb : t.isbad R_ALL = 0 := by
      by_contra hb; rw [nsol_bad t hb] at hp; omega
    have hfull : ∀ i j, i < t.n → j < t.n → t.tab i j ≠ UNK := by
      intro i j hi hj hu
      have := unkRows_pos t.tab t.n t.n i j hi hj hu
      unfold unk at hm; omega
    obtain ⟨h3, hH, hD⟩ := (isbad_all_iff t hI).mp hb
    refine ⟨t.tab, sub_refl _, fun a b ha hb' => ?_, hI.out, h3, hH, hD⟩
    have := hI.cell a b
    have := hfull a b ha hb'
    simp only [UNK] at this
    omega
  | succ m ih =>
    intro t hm hI hp
    have hb : t.isbad R_ALL = 0 := by
      by_contra hb; rw [nsol_bad t hb] at hp; omega
    cases hf : t.firstUnk with
    | none =>
      have := unk_le t
      have hfull := firstUnk_none t hf
      obtain ⟨h3, hH, hD⟩ := (isbad_all_iff t hI).mp hb
      refine ⟨t.tab, sub_refl _, fun a b ha hb' => ?_, hI.out, h3, hH, hD⟩
      have := hI.cell a b
      have := hfull a b ha hb'
      simp only [UNK] at this
      omega
    | some c =>
      obtain ⟨a, b⟩ := c
      obtain ⟨h1, h2, h3⟩ := firstUnk_some t a b hf
      rw [nsol_branch _ t a b rfl hI h1 h2 h3] at hp
      have hv : 0 < nsol (t.set a b 0) ∨ 0 < nsol (t.set a b 1) := by omega
      rcases hv with hv | hv
      · obtain ⟨g, hg⟩ := ih (t.set a b 0)
          (by have := unk_set t a b 0 h1 h2 h3 (by omega); omega)
          (inv_set t a b 0 hI h1 h2 h3 (by omega)) hv
        exact ⟨g, (isSol_of_set t g a b 0 h3 (by omega) hg).1⟩
      · obtain ⟨g, hg⟩ := ih (t.set a b 1)
          (by have := unk_set t a b 1 h1 h2 h3 (by omega); omega)
          (inv_set t a b 1 hI h1 h2 h3 (by omega)) hv
        exact ⟨g, (isSol_of_set t g a b 1 h3 (by omega) hg).1⟩

/-- A board with a valid completion has a positive number of completions. -/
theorem sol_nsol_pos (m : Nat) : ∀ (t : tab_t) (g : Nat → Nat → Nat), unk t = m → Inv t →
    IsSol t.n t.tab g → 0 < nsol t := by
  induction m with
  | zero =>
    intro t g hm hI hg
    have hb := sol_not_bad t hI g hg
    have hc : t.iscomplete = true := by
      rw [iscomplete_iff t hI.toCnt]
      intro i j hi hj hu
      have := unkRows_pos t.tab t.n t.n i j hi hj hu
      unfold unk at hm; omega
    rw [nsol_complete t hb hc]; omega
  | succ m ih =>
    intro t g hm hI hg
    have hb := sol_not_bad t hI g hg
    cases hf : t.firstUnk with
    | none =>
      have hc := (iscomplete_iff t hI.toCnt).mpr (firstUnk_none t hf)
      rw [nsol_complete t hb hc]; omega
    | some c =>
      obtain ⟨a, b⟩ := c
      obtain ⟨h1, h2, h3⟩ := firstUnk_some t a b hf
      have hv := hg.2.1 a b h1 h2
      have hpos := ih (t.set a b (g a b)) g
        (by have := unk_set t a b (g a b) h1 h2 h3 hv; omega)
        (inv_set t a b (g a b) hI h1 h2 h3 hv) (isSol_set t g a b hg)
      rw [nsol_branch _ t a b rfl hI h1 h2 h3]
      have h01 : g a b = 0 ∨ g a b = 1 := by omega
      rcases h01 with e | e <;> rw [e] at hpos <;> omega


/-! ## The pruned uniqueness search (C4) -/

/-- A move returned by `findcell` keeps the number of completions. -/
theorem findcell_nsol (t : tab_t) (rules a b x : Nat) (hI : Inv t)
    (h : t.findcell rules = some (a, b, x)) :
    a < t.n ∧ b < t.n ∧ t.tab a b = UNK ∧ x ≤ 1 ∧ nsol (t.set a b x) = nsol t := by
  obtain ⟨h1, h2, h3, h4⟩ := findcell_some t rules a b x h
  have hb := nsol_branch _ t a b rfl hI h1 h2 h3
  rcases h4 with ⟨rfl, h0⟩ | ⟨rfl, _, h1'⟩
  · have := nsol_bad _ (isbad_all_of_isbad _ _ h0)
    exact ⟨h1, h2, h3, by omega, by omega⟩
  · have := nsol_bad _ (isbad_all_of_isbad _ _ h1')
    exact ⟨h1, h2, h3, by omega, by omega⟩

theorem propagate_spec (fuel : Nat) : ∀ (t : tab_t), Inv t → unk t < fuel →
    ∃ t', propagate fuel t = some t' ∧ Inv t' ∧ t'.n = t.n ∧ nsol t' = nsol t ∧
      unk t' ≤ unk t := by
  induction fuel with
  | zero => intro t _ h; omega
  | succ fuel ih =>
    intro t hI hf
    unfold propagate
    by_cases hb : t.isbad R_ALL ≠ 0
    · rw [if_pos hb]; exact ⟨t, rfl, hI, rfl, rfl, Nat.le_refl _⟩
    · rw [if_neg hb]
      cases hc : t.findcell (R_3 ||| R_HALF) with
      | none => exact ⟨t, rfl, hI, rfl, rfl, Nat.le_refl _⟩
      | some r =>
        obtain ⟨a, b, x⟩ := r
        obtain ⟨h1, h2, h3, h4, h5⟩ := findcell_nsol t _ a b x hI hc
        have hu := unk_set t a b x h1 h2 h3 h4
        obtain ⟨t', e, i', n', s', u'⟩ := ih (t.set a b x) (inv_set t a b x hI h1 h2 h3 h4)
          (by omega)
        exact ⟨t', e, i', by rw [n', set_n], by rw [s', h5], by omega⟩

theorem viable_le (t : tab_t) (i j : Nat) : t.viable i j ≤ 2 := by
  unfold viable; split <;> split <;> omega

theorem viable_zero (t : tab_t) (i j : Nat) (h : t.viable i j = 0) :
    (t.set i j 0).isbad R_ALL ≠ 0 ∧ (t.set i j 1).isbad R_ALL ≠ 0 := by
  unfold viable at h
  by_cases h0 : (t.set i j 0).isbad R_ALL = 0
  · rw [if_pos h0] at h; omega
  · by_cases h1 : (t.set i j 1).isbad R_ALL = 0
    · rw [if_pos h1] at h; omega
    · exact ⟨h0, h1⟩

theorem pickBranch_none (t : tab_t) (cs : List (Nat × Nat)) (br bi bj : Nat)
    (h : pickBranch t cs br bi bj = none) :
    ∃ c, c ∈ cs ∧ t.get c.1 c.2 = UNK ∧ t.viable c.1 c.2 = 0 := by
  induction cs generalizing br bi bj with
  | nil => simp [pickBranch] at h
  | cons c cs ih =>
    unfold pickBranch at h
    by_cases hu : t.get c.1 c.2 = UNK
    · rw [if_pos hu] at h
      by_cases hv : t.viable c.1 c.2 = 0
      · exact ⟨c, List.mem_cons_self _ _, hu, hv⟩
      · rw [if_neg hv] at h
        by_cases hlt : t.viable c.1 c.2 < br
        · rw [if_pos hlt] at h
          obtain ⟨c', hc', r⟩ := ih _ _ _ h
          exact ⟨c', List.mem_cons_of_mem _ hc', r⟩
        · rw [if_neg hlt] at h
          obtain ⟨c', hc', r⟩ := ih _ _ _ h
          exact ⟨c', List.mem_cons_of_mem _ hc', r⟩
    · rw [if_neg hu] at h
      obtain ⟨c', hc', r⟩ := ih _ _ _ h
      exact ⟨c', List.mem_cons_of_mem _ hc', r⟩

theorem pickBranch_some (t : tab_t) (cs : List (Nat × Nat)) (br bi bj br' i j : Nat)
    (h : pickBranch t cs br bi bj = some (br', i, j)) :
    br' ≤ br ∧ (∀ c, c ∈ cs → t.get c.1 c.2 = UNK → br' ≤ t.viable c.1 c.2) ∧
      ((br' = br ∧ i = bi ∧ j = bj) ∨ ((i, j) ∈ cs ∧ t.get i j = UNK ∧ br' < br)) := by
  induction cs generalizing br bi bj with
  | nil =>
    simp only [pickBranch, Option.some.injEq, Prod.mk.injEq] at h
    obtain ⟨rfl, rfl, rfl⟩ := h
    exact ⟨Nat.le_refl _, fun c hc => absurd hc (List.not_mem_nil c), Or.inl ⟨rfl, rfl, rfl⟩⟩
  | cons c cs ih =>
    unfold pickBranch at h
    by_cases hu : t.get c.1 c.2 = UNK
    · rw [if_pos hu] at h
      by_cases hv : t.viable c.1 c.2 = 0
      · rw [if_pos hv] at h; simp at h
      · rw [if_neg hv] at h
        by_cases hlt : t.viable c.1 c.2 < br
        · rw [if_pos hlt] at h
          obtain ⟨r1, r2, r3⟩ := ih _ _ _ h
          refine ⟨by omega, fun c' hc' hu' => ?_, Or.inr ?_⟩
          · rcases List.mem_cons.mp hc' with rfl | hc'
            · exact r1
            · exact r2 c' hc' hu'
          · rcases r3 with ⟨e1, e2, e3⟩ | ⟨m, u, l⟩
            · subst e2; subst e3
              exact ⟨List.mem_cons_self _ _, hu, by omega⟩
            · exact ⟨List.mem_cons_of_mem _ m, u, by omega⟩
        · rw [if_neg hlt] at h
          obtain ⟨r1, r2, r3⟩ := ih _ _ _ h
          refine ⟨r1, fun c' hc' hu' => ?_, ?_⟩
          · rcases List.mem_cons.mp hc' with rfl | hc'
            · omega
            · exact r2 c' hc' hu'
          · rcases r3 with e | ⟨m, u, l⟩
            · exact Or.inl e
            · exact Or.inr ⟨List.mem_cons_of_mem _ m, u, l⟩
    · rw [if_neg hu] at h
      obtain ⟨r1, r2, r3⟩ := ih _ _ _ h
      refine ⟨r1, fun c' hc' hu' => ?_, ?_⟩
      · rcases List.mem_cons.mp hc' with rfl | hc'
        · exact absurd hu' hu
        · exact r2 c' hc' hu'
      · rcases r3 with e | ⟨m, u, l⟩
        · exact Or.inl e
        · exact Or.inr ⟨List.mem_cons_of_mem _ m, u, l⟩

/-- With enough fuel `hasuniquesol_` returns the number of completions capped at `2`. -/
theorem hasuniquesolAux_eq (fuel : Nat) : ∀ (t : tab_t), Inv t → unk t < fuel →
    hasuniquesolAux fuel t = some (min (nsol t) 2) := by
  induction fuel with
  | zero => intro t _ h; omega
  | succ fuel ih =>
    intro t0 hI0 hf
    unfold hasuniquesolAux
    obtain ⟨t, hp, hI, hn, hs, hu⟩ := propagate_spec (t0.n * t0.n + 1) t0 hI0
      (by have := unk_le t0; omega)
    rw [hp]
    simp only []
    rw [← hs]
    by_cases hb : t.isbad R_ALL ≠ 0
    · rw [if_pos hb, nsol_bad t hb]; rfl
    · rw [if_neg hb]
      have hb0 : t.isbad R_ALL = 0 := by simpa using hb
      by_cases hc : t.iscomplete = true
      · rw [if_pos hc, nsol_complete t hb0 hc]; rfl
      · rw [if_neg hc]
        have hex : ∃ i j, i < t.n ∧ j < t.n ∧ t.tab i j = UNK := by
          by_contra hne
          apply hc
          rw [iscomplete_iff t hI.toCnt]
          intro i j hi hj hu'
          exact hne ⟨i, j, hi, hj, hu'⟩
        obtain ⟨i0, j0, hi0, hj0, hu0⟩ := hex
        cases hpb : pickBranch t (cells t.n) 3 0 0 with
        | none =>
          obtain ⟨c, hc', hcu, hcv⟩ := pickBranch_none t _ _ _ _ hpb
          obtain ⟨c1, c2⟩ := (mem_cells t.n c).mp hc'
          obtain ⟨b0, b1⟩ := viable_zero t c.1 c.2 hcv
          rw [nsol_branch _ t c.1 c.2 rfl hI c1 c2 hcu, nsol_bad _ b0, nsol_bad _ b1]
          rfl
        | some r =>
          obtain ⟨br, i, j⟩ := r
          obtain ⟨_, r2, r3⟩ := pickBranch_some t _ _ _ _ _ _ _ hpb
          have hbr : br < 3 := by
            have := r2 (i0, j0) ((mem_cells t.n (i0, j0)).mpr ⟨hi0, hj0⟩) hu0
            have := viable_le t i0 j0
            simp only [] at *
            omega
          have hcell : (i, j) ∈ cells t.n ∧ t.get i j = UNK := by
            rcases r3 with ⟨e, _, _⟩ | ⟨m, u, _⟩
            · omega
            · exact ⟨m, u⟩
          obtain ⟨hi, hj⟩ := (mem_cells t.n (i, j)).mp hcell.1
          have hu' : t.tab i j = UNK := hcell.2
          simp only []
          rw [if_neg (by omega)]
          have val : ∀ v, v ≤ 1 →
              (if (t.set i j v).isbad R_ALL = 0 then hasuniquesolAux fuel (t.set i j v)
                else some 0) = some (min (nsol (t.set i j v)) 2) := by
            intro v hv
            by_cases hbv : (t.set i j v).isbad R_ALL = 0
            · rw [if_pos hbv]
              exact ih _ (inv_set t i j v hI hi hj hu' hv)
                (by have := unk_set t i j v hi hj hu' hv; omega)
            · rw [if_neg hbv, nsol_bad _ hbv]; rfl
          rw [val 0 (by omega), val 1 (by omega), nsol_branch _ t i j rfl hI hi hj hu']
          simp only [Option.some.injEq]
          split <;> omega

theorem hasuniquesol__eq (t : tab_t) (hI : Inv t) :
    t.hasuniquesol_ = some (min (nsol t) 2) :=
  hasuniquesolAux_eq _ t hI (by have := unk_le t; omega)

theorem nsol_le_pow (m : Nat) : ∀ (t : tab_t), unk t = m → Inv t → nsol t ≤ 2 ^ m := by
  induction m with
  | zero =>
    intro t hm hI
    by_cases hb : t.isbad R_ALL ≠ 0
    · rw [nsol_bad t hb]; norm_num
    · have hb0 : t.isbad R_ALL = 0 := by simpa using hb
      by_cases hc : t.iscomplete = true
      · rw [nsol_complete t hb0 hc]; norm_num
      · cases hu : t.firstUnk with
        | none => exact absurd ((iscomplete_iff t hI.toCnt).mpr (firstUnk_none t hu)) hc
        | some c =>
          obtain ⟨a, b⟩ := c
          obtain ⟨h1, h2, h3⟩ := firstUnk_some t a b hu
          have := unk_set t a b 0 h1 h2 h3 (by omega)
          omega
  | succ m ih =>
    intro t hm hI
    by_cases hb : t.isbad R_ALL ≠ 0
    · rw [nsol_bad t hb]; exact Nat.zero_le _
    · have hb0 : t.isbad R_ALL = 0 := by simpa using hb
      by_cases hc : t.iscomplete = true
      · rw [nsol_complete t hb0 hc]; exact Nat.one_le_two_pow
      · have hc0 : t.iscomplete = false := by simpa using hc
        cases hu : t.firstUnk with
        | none => exact absurd ((iscomplete_iff t hI.toCnt).mpr (firstUnk_none t hu)) hc
        | some c =>
          obtain ⟨a, b⟩ := c
          obtain ⟨h1, h2, h3⟩ := firstUnk_some t a b hu
          have u0 := unk_set t a b 0 h1 h2 h3 (by omega)
          have u1 := unk_set t a b 1 h1 h2 h3 (by omega)
          have i0 := inv_set t a b 0 hI h1 h2 h3 (by omega)
          have i1 := inv_set t a b 1 hI h1 h2 h3 (by omega)
          rw [nsol_first t hI hb0 hc0 a b hu]
          have l0 := ih _ (by omega) i0
          have l1 := ih _ (by omega) i1
          have e : 2 ^ (m + 1) = 2 ^ m + 2 ^ m := by ring
          omega

/-- A board of size at most `7` has fewer than `2^63` valid completions. -/
theorem nsol_small (t : tab_t) (hI : Inv t) (hn : t.n ≤ 7) : nsol t < 2 ^ 63 := by
  have h1 := nsol_le_pow _ t rfl hI
  have h2 : unk t ≤ t.n * t.n := unk_le t
  have h3 : t.n * t.n ≤ 7 * 7 := Nat.mul_le_mul hn hn
  have h4 : 2 ^ unk t ≤ 2 ^ 49 := Nat.pow_le_pow_right (by norm_num) (by omega)
  have h5 : (2 : Nat) ^ 49 < 2 ^ 63 := by norm_num
  omega

/-- C4 (amended). For every board built from the empty board by legal `set` calls (bad or
not, complete or not) that has fewer than `2^63` valid completions, as every board of size
`n ≤ 7` has: `nbrsol()` returns the number `c` of valid completions, `hasuniquesol_()`
returns `min(c,2)`, and `hasuniquesol()` and `hasonesol()` return the same boolean. -/
theorem hasuniquesol_agrees_with_nbrsol (t : tab_t) (ht : Reach t)
    (h : t.n ≤ 7 ∨ nsol t < 2 ^ 63) :
    ∃ c, c = nsol t ∧ t.nbrsol = some c ∧ t.hasuniquesol_ = some (min c 2) ∧
      t.hasuniquesol = t.hasonesol 0 := by
  have hI := ht.inv
  have hlt : nsol t < 2 ^ 63 := by
    rcases h with h | h
    · exact nsol_small t hI h
    · exact h
  refine ⟨nsol t, rfl, nbrsol_eq t hI hlt, hasuniquesol__eq t hI, ?_⟩
  unfold hasuniquesol hasonesol
  rw [nbrsol_eq t hI hlt, hasuniquesol__eq t hI]
  simp only [Option.map_some', Option.some.injEq, decide_eq_decide]
  omega

set_option maxRecDepth 100000 in
/-- Witness for the amended C4: the board with `(0,0)=0` and `(0,1)=0` on the empty
`4 × 4` board, of size `4 ≤ 7`, and the empty `2 × 2` board, whose two valid completions
are counted by evaluation. -/
theorem hasuniquesol_agrees_with_nbrsol_witness :
    (∃ c, c = nsol (((tab_t.init 4).set 0 0 0).set 0 1 0) ∧
      (((tab_t.init 4).set 0 0 0).set 0 1 0).nbrsol = some c ∧
      (((tab_t.init 4).set 0 0 0).set 0 1 0).hasuniquesol_ = some (min c 2) ∧
      (((tab_t.init 4).set 0 0 0).set 0 1 0).hasuniquesol
        = (((tab_t.init 4).set 0 0 0).set 0 1 0).hasonesol 0) ∧
    (nsol (tab_t.init 2) = 2 ∧
      ∃ c, c = nsol (tab_t.init 2) ∧ (tab_t.init 2).nbrsol = some c ∧
        (tab_t.init 2).hasuniquesol_ = some (min c 2) ∧
        (tab_t.init 2).hasuniquesol = (tab_t.init 2).hasonesol 0) :=
  ⟨hasuniquesol_agrees_with_nbrsol _
    (Reach.set 0 1 0 (Reach.set 0 0 0 (Reach.init 4 (by decide)) (by decide) (by decide)
      (by decide) (by decide)) (by decide) (by decide) (by decide) (by decide))
    (Or.inl (by decide)),
   by decide!,
   hasuniquesol_agrees_with_nbrsol (tab_t.init 2) (Reach.init 2 (by decide))
    (Or.inr (by decide!))⟩


/-! ## Fillings of a line read off a grid -/

theorem encode_lt (g : Nat → Nat → Nat) (s l : Nat) (tl : List Nat) :
    encode g s l tl < 2 ^ tl.length := by
  induction tl with
  | nil => simp [encode]
  | cons j tl ih =>
    simp only [encode, List.length_cons, Nat.pow_succ]
    have := Nat.mod_lt (g (lrow s l j) (lcol s l j)) (show 0 < 2 by omega)
    omega

theorem encode_bit (g : Nat → Nat → Nat) (s l : Nat) (tl : List Nat) (q j : Nat)
    (hj : tl[q]? = some j) :
    (encode g s l tl >>> q) &&& 1 = g (lrow s l j) (lcol s l j) % 2 := by
  induction tl generalizing q with
  | nil => simp at hj
  | cons a tl ih =>
    rw [bit_eq]
    cases q with
    | zero =>
      simp only [List.getElem?_cons_zero, Option.some.injEq] at hj
      subst hj
      simp only [encode, Nat.pow_zero, Nat.div_one]
      omega
    | succ q =>
      simp only [List.getElem?_cons_succ] at hj
      have := ih q hj
      rw [bit_eq] at this
      rw [← this]
      simp only [encode, Nat.pow_succ]
      have h2 := Nat.mod_lt (g (lrow s l a) (lcol s l a)) (show 0 < 2 by omega)
      have e : (g (lrow s l a) (lcol s l a) % 2 + 2 * encode g s l tl) / (2 ^ q * 2)
          = encode g s l tl / 2 ^ q := by
        rw [Nat.mul_comm (2 ^ q) 2, ← Nat.div_div_eq_div_mul]
        congr 1
        omega
      rw [e]

theorem popc_shift (p k : Nat) : popc (p + 1) k = k % 2 + popc p (k / 2) := by
  have h := popc_add 1 p k
  have h1 : popc 1 k = k % 2 := by
    rw [popc_succ 0 k]
    simp [popc, cnt]
  rw [Nat.add_comm 1 p] at h
  rw [h, h1]
  simp

theorem popc_encode (g : Nat → Nat → Nat) (s l : Nat) (tl : List Nat) :
    popc tl.length (encode g s l tl)
      = (tl.map (fun j => g (lrow s l j) (lcol s l j) % 2)).sum := by
  induction tl with
  | nil => simp [encode, popc, cnt]
  | cons j tl ih =>
    simp only [encode, List.length_cons, List.map_cons, List.sum_cons]
    rw [popc_shift]
    have h2 := Nat.mod_lt (g (lrow s l j) (lcol s l j)) (show 0 < 2 by omega)
    have e1 : (g (lrow s l j) (lcol s l j) % 2 + 2 * encode g s l tl) % 2
        = g (lrow s l j) (lcol s l j) % 2 := by omega
    have e2 : (g (lrow s l j) (lcol s l j) % 2 + 2 * encode g s l tl) / 2
        = encode g s l tl := by omega
    rw [e1, e2, ih]

/-- Ones of a line that extends another line, against the ones of that line and the
values at its Unknown positions. -/
theorem cnt_ones_extend (f f' : Nat → Nat) (m : Nat)
    (h1 : ∀ k, k < m → f k ≠ UNK → f' k = f k) (h2 : ∀ k, k < m → f k = UNK → f' k ≤ 1) :
    cnt f' 1 m = cnt f 1 m +
      (((List.range m).filter (fun i => decide (f i = UNK))).map (fun j => f' j % 2)).sum := by
  induction m with
  | zero => simp [cnt]
  | succ m ih =>
    have := ih (fun k hk => h1 k (by omega)) (fun k hk => h2 k (by omega))
    rw [List.range_succ, List.filter_append, List.map_append, List.sum_append]
    simp only [cnt, List.filter_cons, List.filter_nil]
    by_cases hu : f m = UNK
    · have hle := h2 m (by omega) hu
      have e : (if f m = 1 then 1 else 0) = 0 := by
        rw [if_neg]; rw [hu]; decide
      rw [e]
      simp only [hu, decide_True, if_true, List.map_cons, List.map_nil, List.sum_cons,
        List.sum_nil]
      by_cases h01 : f' m = 1
      · rw [if_pos h01, h01]; omega
      · rw [if_neg h01]
        have h0 : f' m = 0 := by omega
        rw [h0]; omega
    · have e := h1 m (by omega) hu
      simp only [hu, decide_False, if_false, List.map_nil, List.sum_nil, e]
      have : (false = true) = False := by simp
      simp only [this, if_false, List.map_nil, List.sum_nil]
      omega

theorem fillLine_n (s l k : Nat) (tl : List Nat) (q : Nat) (t : tab_t) :
    (fillLine s l k tl q t).n = t.n := by
  induction tl generalizing q t with
  | nil => rfl
  | cons j tl ih => unfold fillLine; rw [ih, set_n]

theorem bit_le_one (k q : Nat) : (k >>> q) &&& 1 ≤ 1 := by
  rw [bit_eq]; have := Nat.mod_lt (k / 2 ^ q) (show 0 < 2 by omega); omega

/-- Filling distinct Unknown cells of the grid keeps the invariant. -/
theorem fillLine_inv (s l k : Nat) (tl : List Nat) (q : Nat) (t : tab_t) (hI : Inv t)
    (hnd : tl.Nodup)
    (hc : ∀ j, j ∈ tl → lrow s l j < t.n ∧ lcol s l j < t.n ∧
      t.tab (lrow s l j) (lcol s l j) = UNK) :
    Inv (fillLine s l k tl q t) := by
  induction tl generalizing q t with
  | nil => exact hI
  | cons j tl ih =>
    unfold fillLine
    obtain ⟨hj, hnd'⟩ := List.nodup_cons.mp hnd
    obtain ⟨c1, c2, c3⟩ := hc j (List.mem_cons_self _ _)
    apply ih _ _ (inv_set t _ _ _ hI c1 c2 c3 (bit_le_one k q)) hnd'
    intro j' hj'
    obtain ⟨d1, d2, d3⟩ := hc j' (List.mem_cons_of_mem _ hj')
    rw [set_n, set_tab]
    refine ⟨d1, d2, ?_⟩
    rw [upd_other _ _ _ _ _ _ (fun h => hj (lpos_inj s l j' j h ▸ hj'))]
    exact d3

theorem mem_unkPos (s : Nat) (t : tab_t) (l j : Nat) :
    j ∈ unkPos s t l ↔ j < t.n ∧ t.tab (lrow s l j) (lcol s l j) = UNK := by
  unfold unkPos
  rw [List.mem_filter, List.mem_range]
  simp [tab_t.get]

theorem nodup_unkPos (s : Nat) (t : tab_t) (l : Nat) : (unkPos s t l).Nodup :=
  (List.nodup_range t.n).filter _

theorem lpos_lt (s l j n : Nat) (hl : l < n) (hj : j < n) : lrow s l j < n ∧ lcol s l j < n := by
  unfold lrow lcol
  by_cases hs : s ≠ 0
  · rw [if_pos hs, if_pos hs]; exact ⟨hj, hl⟩
  · rw [if_neg hs, if_neg hs]; exact ⟨hl, hj⟩

/-- The filling of line `l` read off a grid that extends the board and holds `0` or `1`
on the whole line: it is one of the fillings `findline_` enumerates, the filled board
satisfies the invariant and is extended by the grid, and its number of ones is the number
of ones of the grid's line less those already on the board. -/
theorem fill_of_grid (s : Nat) (t : tab_t) (l : Nat) (g : Nat → Nat → Nat) (hI : Inv t)
    (hl : l < t.n) (hs : Sub t.tab g)
    (hg : ∀ j, j < t.n → g (lrow s l j) (lcol s l j) ≤ 1) :
    encode g s l (unkPos s t l) < 2 ^ (unkPos s t l).length ∧
    Inv (fillLine s l (encode g s l (unkPos s t l)) (unkPos s t l) 0 t) ∧
    (fillLine s l (encode g s l (unkPos s t l)) (unkPos s t l) 0 t).n = t.n ∧
    Sub (fillLine s l (encode g s l (unkPos s t l)) (unkPos s t l) 0 t).tab g ∧
    cnt (fun j => g (lrow s l j) (lcol s l j)) 1 t.n =
      cnt (fun j => t.get (lrow s l j) (lcol s l j)) 1 t.n
        + popc (unkPos s t l).length (encode g s l (unkPos s t l)) := by
  refine ⟨encode_lt _ _ _ _, ?_, fillLine_n _ _ _ _ _ _, ?_, ?_⟩
  · apply fillLine_inv _ _ _ _ _ _ hI (nodup_unkPos s t l)
    intro j hj
    obtain ⟨h1, h2⟩ := (mem_unkPos s t l j).mp hj
    exact ⟨(lpos_lt s l j t.n hl h1).1, (lpos_lt s l j t.n hl h1).2, h2⟩
  · intro a b hab
    by_cases hex : ∃ j, j ∈ unkPos s t l ∧ a = lrow s l j ∧ b = lcol s l j
    · obtain ⟨j, hj, rfl, rfl⟩ := hex
      obtain ⟨q, hq⟩ := List.mem_iff_getElem?.mp hj
      have e := fillLine_get s l (encode g s l (unkPos s t l)) (unkPos s t l) 0 t q j
        (nodup_unkPos s t l) hq
      rw [Nat.zero_add, encode_bit g s l _ q j hq] at e
      have hle := hg j ((mem_unkPos s t l j).mp hj).1
      show g _ _ = tab_t.get _ _ _
      rw [e]; omega
    · have e := fillLine_get_other s l (encode g s l (unkPos s t l)) (unkPos s t l) 0 t a b
        (fun j hj hc => hex ⟨j, hj, hc⟩)
      have e' : (fillLine s l (encode g s l (unkPos s t l)) (unkPos s t l) 0 t).tab a b
          = t.tab a b := e
      rw [e'] at hab ⊢
      exact hs a b hab
  · rw [popc_encode]
    exact cnt_ones_extend (fun j => t.get (lrow s l j) (lcol s l j))
      (fun j => g (lrow s l j) (lcol s l j)) t.n
      (fun k _ hk => hs _ _ hk) (fun k hk _ => hg k hk)


/-! ## Deductions are sound (C1) -/

theorem line_cases (s l : Nat) (g : Nat → Nat → Nat) :
    (fun j => g (lrow s l j) (lcol s l j)) = g l ∨
    (fun j => g (lrow s l j) (lcol s l j)) = col g l := by
  unfold lrow lcol col
  by_cases hs : s ≠ 0
  · right; funext j; rw [if_pos hs, if_pos hs]
  · left; funext j; rw [if_neg hs, if_neg hs]

theorem sol_cell_le (n : Nat) (g0 g : Nat → Nat → Nat) (hg : IsSol n g0 g) (a b : Nat) :
    g a b ≤ 2 := by
  by_cases h : a < n ∧ b < n
  · have := hg.2.1 a b h.1 h.2; omega
  · rw [hg.2.2.1 a b h]; simp [UNK]

/-- Every line of a valid completion holds exactly `n/2` ones. -/
theorem sol_line_ones (n : Nat) (g0 g : Nat → Nat → Nat) (s l : Nat) (hl : l < n)
    (hg : IsSol n g0 g) : cnt (fun j => g (lrow s l j) (lcol s l j)) 1 n = n / 2 := by
  have hle := sol_cell_le n g0 g hg
  obtain ⟨_, h1, _, _, hH, _⟩ := hg
  have r0 : ¬ cnt (g l) 0 n > n / 2 := fun h => hH ⟨l, hl, Or.inl h⟩
  have r1 : ¬ cnt (g l) 1 n > n / 2 := fun h => hH ⟨l, hl, Or.inr (Or.inl h)⟩
  have c0 : ¬ cnt (col g l) 0 n > n / 2 := fun h => hH ⟨l, hl, Or.inr (Or.inr (Or.inl h))⟩
  have c1 : ¬ cnt (col g l) 1 n > n / 2 := fun h => hH ⟨l, hl, Or.inr (Or.inr (Or.inr h))⟩
  have fr : cnt (g l) 0 n + cnt (g l) 1 n = n :=
    (cnt_full_iff (g l) n (fun k => hle l k)).mpr
      (fun k hk => by have := h1 l k hl hk; simp only [UNK]; omega)
  have fc : cnt (col g l) 0 n + cnt (col g l) 1 n = n :=
    (cnt_full_iff (col g l) n (fun k => hle k l)).mpr
      (fun k hk => by have := h1 k l hk hl; simp only [col, UNK]; omega)
  rcases line_cases s l g with e | e <;> rw [e] <;> omega

/-- A value forced by `findline_` is the value every valid completion holds there. -/
theorem findline_sol (s : Nat) (t : tab_t) (l rules j x : Nat) (hI : Inv t) (hl : l < t.n)
    (h : t.findline_ s l rules = some (some (j, x))) (g : Nat → Nat → Nat)
    (hg : IsSol t.n t.tab g) : g (lrow s l j) (lcol s l j) = x := by
  obtain ⟨hj, _, hx, _, hall⟩ := findline_spec s t l rules j x hI.size h
  have hU : (List.range t.n).filter
      (fun i => decide (t.get (lrow s l i) (lcol s l i) = UNK)) = unkPos s t l := rfl
  rw [hU] at hall
  have hline : ∀ k, k < t.n → g (lrow s l k) (lcol s l k) ≤ 1 := fun k hk =>
    hg.2.1 _ _ (lpos_lt s l k t.n hl hk).1 (lpos_lt s l k t.n hl hk).2
  obtain ⟨f1, f2, f3, f4, f5⟩ := fill_of_grid s t l g hI hl hg.1 hline
  have hones := sol_line_ones t.n t.tab g s l hl hg
  have hbad : (fillLine s l (encode g s l (unkPos s t l)) (unkPos s t l) 0 t).isbad rules = 0 := by
    by_contra hb
    exact isbad_all_of_isbad _ _ hb (sol_not_bad _ f2 g (by rw [f3]; exact ⟨f4, hg.2⟩))
  have hget := hall (encode g s l (unkPos s t l)) f1 (by rw [hones] at f5; omega) hbad
  have := f4 (lrow s l j) (lcol s l j) (by
    show tab_t.get _ _ _ ≠ UNK
    rw [hget]; simp only [UNK]; omega)
  rw [this]; exact hget

theorem findlineFrom_some (t : tab_t) (rules : Nat) (ls : List Nat) (i j x : Nat)
    (h : findlineFrom t rules ls = some (some (i, j, x))) :
    ∃ s l a, (s = 0 ∨ s = 1) ∧ l ∈ ls ∧ t.findline_ s l rules = some (some (a, x)) ∧
      i = lrow s l a ∧ j = lcol s l a := by
  induction ls with
  | nil => simp [findlineFrom] at h
  | cons l ls ih =>
    unfold findlineFrom at h
    cases h0 : t.findline_ 0 l rules with
    | none => rw [h0] at h; simp at h
    | some r0 =>
      rw [h0] at h
      cases r0 with
      | some m =>
        obtain ⟨a, x'⟩ := m
        simp only [Option.some.injEq, Prod.mk.injEq] at h
        obtain ⟨rfl, rfl, rfl⟩ := h
        exact ⟨0, l, a, Or.inl rfl, List.mem_cons_self _ _, h0, by simp [lrow], by simp [lcol]⟩
      | none =>
        simp only [] at h
        cases h1 : t.findline_ 1 l rules with
        | none => rw [h1] at h; simp at h
        | some r1 =>
          rw [h1] at h
          cases r1 with
          | some m =>
            obtain ⟨a, x'⟩ := m
            simp only [Option.some.injEq, Prod.mk.injEq] at h
            obtain ⟨rfl, rfl, rfl⟩ := h
            exact ⟨1, l, a, Or.inr rfl, List.mem_cons_self _ _, h1, by simp [lrow], by simp [lcol]⟩
          | none =>
            simp only [] at h
            obtain ⟨s, l', a, hs, hm, r⟩ := ih h
            exact ⟨s, l', a, hs, List.mem_cons_of_mem _ hm, r⟩

/-- Where a move returned by `find` comes from. -/
theorem find_some (t : tab_t) (rules i j x : Nat)
    (h : t.find rules = some (some (i, j, x))) :
    t.findcell rules = some (i, j, x) ∨
    ∃ s l a, ((s = 0 ∨ s = 1) ∧ rules &&& R_LINE ≠ 0) ∧ l < t.n ∧
      t.findline_ s l rules = some (some (a, x)) ∧ i = lrow s l a ∧ j = lcol s l a := by
  unfold find at h
  cases hc : t.findcell rules with
  | some r =>
    rw [hc] at h
    simp only [Option.some.injEq] at h
    exact Or.inl (by rw [h])
  | none =>
    rw [hc] at h
    simp only [] at h
    by_cases hr : rules &&& R_LINE ≠ 0
    · rw [if_pos hr] at h
      obtain ⟨s, l, a, hs, hm, r⟩ := findlineFrom_some t rules _ i j x h
      exact Or.inr ⟨s, l, a, ⟨hs, hr⟩, List.mem_range.mp hm, r⟩
    · rw [if_neg hr] at h; simp at h

/-- A move returned by `find` assigns `0` or `1` to an Unknown cell of the grid. -/
theorem find_legal (t : tab_t) (rules i j x : Nat) (hI : Inv t)
    (h : t.find rules = some (some (i, j, x))) :
    i < t.n ∧ j < t.n ∧ t.tab i j = UNK ∧ x ≤ 1 := by
  rcases find_some t rules i j x h with hc | ⟨s, l, a, _, hl, hf, rfl, rfl⟩
  · obtain ⟨h1, h2, h3, h4⟩ := findcell_some t rules i j x hc
    exact ⟨h1, h2, h3, by rcases h4 with ⟨rfl, _⟩ | ⟨rfl, _⟩ <;> omega⟩
  · obtain ⟨hj, hu, hx, _, _⟩ := findline_spec s t l rules a x hI.size hf
    exact ⟨(lpos_lt s l a t.n hl hj).1, (lpos_lt s l a t.n hl hj).2, hu, hx⟩

/-- A move returned by `find` is the value every valid completion holds at that cell. -/
theorem find_sol (t : tab_t) (rules i j x : Nat) (hI : Inv t)
    (h : t.find rules = some (some (i, j, x))) (g : Nat → Nat → Nat)
    (hg : IsSol t.n t.tab g) : g i j = x := by
  rcases find_some t rules i j x h with hc | ⟨s, l, a, _, hl, hf, rfl, rfl⟩
  · obtain ⟨h1, h2, h3, h4⟩ := findcell_some t rules i j x hc
    have hle := hg.2.1 i j h1 h2
    have hs := isSol_set t g i j hg
    have hnb := sol_not_bad _ (inv_set t i j (g i j) hI h1 h2 h3 hle) g hs
    rcases h4 with ⟨rfl, h0⟩ | ⟨rfl, _, h1'⟩
    · by_contra hne
      have e : g i j = 0 := by omega
      rw [e] at hnb
      exact isbad_all_of_isbad _ _ h0 hnb
    · by_contra hne
      have e : g i j = 1 := by omega
      rw [e] at hnb
      exact isbad_all_of_isbad _ _ h1' hnb
  · exact findline_sol s t l rules a x hI hl hf g hg

/-- A move returned by `find` keeps the number of completions. -/
theorem find_nsol (t : tab_t) (rules i j x : Nat) (hI : Inv t)
    (h : t.find rules = some (some (i, j, x))) : nsol (t.set i j x) = nsol t := by
  obtain ⟨h1, h2, h3, h4⟩ := find_legal t rules i j x hI h
  have hb := nsol_branch _ t i j rfl hI h1 h2 h3
  have key : ∀ y, y ≤ 1 → y ≠ x → nsol (t.set i j y) = 0 := by
    intro y hy hne
    by_contra hp
    obtain ⟨g, hg⟩ := nsol_pos_sol _ _ rfl (inv_set t i j y hI h1 h2 h3 hy) (by omega)
    obtain ⟨hg', e⟩ := isSol_of_set t g i j y h3 hy hg
    exact hne (by rw [← e]; exact find_sol t rules i j x hI h g hg')
  have hx : x = 0 ∨ x = 1 := by omega
  rcases hx with rfl | rfl
  · have := key 1 (by omega) (by omega); omega
  · have := key 0 (by omega) (by omega); omega

theorem cansolveLoop_nsol (rules fuel : Nat) : ∀ (t : tab_t), Inv t →
    cansolveLoop rules fuel t = some true → nsol t = 1 := by
  induction fuel with
  | zero => intro t _ h; simp [cansolveLoop] at h
  | succ fuel ih =>
    intro t hI h
    unfold cansolveLoop at h
    by_cases hc : t.iscomplete = true
    · rw [if_pos hc] at h
      by_cases hb : t.isbad R_ALL ≠ 0
      · rw [if_pos hb] at h; simp at h
      · exact nsol_complete t (by simpa using hb) hc
    · rw [if_neg hc] at h
      cases hf : t.find rules with
      | none => rw [hf] at h; simp at h
      | some r =>
        rw [hf] at h
        cases r with
        | none => simp at h
        | some m =>
          obtain ⟨i, j, x⟩ := m
          simp only [] at h
          by_cases hb : (t.set i j x).isbad R_ALL ≠ 0
          · rw [if_pos hb] at h; simp at h
          · rw [if_neg hb] at h
            obtain ⟨h1, h2, h3, h4⟩ := find_legal t rules i j x hI hf
            rw [← find_nsol t rules i j x hI hf]
            exact ih _ (inv_set t i j x hI h1 h2 h3 h4) h

/-- C1. For every board built from the empty board by legal `set` calls and every rule
mask, if `cansolve(rules)` returns true (no assertion fails) then the board has exactly
one valid completion: `nbrsol()` returns `1`, `hasuniquesol_()` returns `1` and
`hasuniquesol()` is true. -/
theorem cansolve_implies_unique (t : tab_t) (rules : Nat) (ht : Reach t)
    (h : t.cansolve rules = some true) :
    t.nbrsol = some 1 ∧ t.hasuniquesol_ = some 1 ∧ t.hasuniquesol = some true := by
  have hI := ht.inv
  have e := cansolveLoop_nsol rules _ t hI h
  have h1 := nbrsol_eq t hI (by rw [e]; norm_num)
  have h2 := hasuniquesol__eq t hI
  rw [e] at h1 h2
  refine ⟨h1, h2, ?_⟩
  unfold hasuniquesol
  rw [h2]; rfl

set_option maxRecDepth 100000 in
/-- Witness for C1: the `2 × 2` board whose only assigned cell is `(0,0)=0` is completed
by `cansolve` under the first preset. -/
theorem cansolve_implies_unique_witness :
    ((tab_t.init 2).set 0 0 0).nbrsol = some 1 ∧
    ((tab_t.init 2).set 0 0 0).hasuniquesol_ = some 1 ∧
    ((tab_t.init 2).set 0 0 0).hasuniquesol = some true :=
  cansolve_implies_unique ((tab_t.init 2).set 0 0 0) (R_3 ||| R_HALF)
    (Reach.set 0 0 0 (Reach.init 2 (by decide)) (by decide) (by decide) (by decide)
      (by decide))
    (by decide!)


/-! ## The line deduction finds what the fillings force (C7) -/

theorem lineScan_ne_none (s : Nat) (t : tab_t) (l : Nat) (hc : ∀ i j, t.tab i j ≤ 2) (m : Nat) :
    (List.range m).foldl
      (fun acc i =>
        match acc with
        | none => none
        | some (n0, n1, tl) =>
          let c := t.get (lrow s l i) (lcol s l i)
          if c = 0 then some (n0 + 1, n1, tl)
          else if c = 1 then some (n0, n1 + 1, tl)
          else if c = UNK then some (n0, n1, tl ++ [i])
          else none)
      (some (0, 0, [])) ≠ none := by
  induction m with
  | zero => simp
  | succ m ih =>
    rw [List.range_succ, List.foldl_append]
    simp only [List.foldl_cons, List.foldl_nil]
    generalize hF : (List.range m).foldl _ (some (0, 0, [])) = F at ih ⊢
    cases F with
    | none => exact absurd rfl ih
    | some r' =>
      obtain ⟨n0, n1, tl⟩ := r'
      simp only []
      have h2 : t.get (lrow s l m) (lcol s l m) ≤ 2 := hc _ _
      by_cases c0 : t.get (lrow s l m) (lcol s l m) = 0
      · rw [if_pos c0]; simp
      · rw [if_neg c0]
        by_cases c1 : t.get (lrow s l m) (lcol s l m) = 1
        · rw [if_pos c1]; simp
        · rw [if_neg c1]
          have c2 : t.get (lrow s l m) (lcol s l m) = UNK := by simp only [UNK]; omega
          rw [if_pos c2]; simp

/-- On a board whose cells are `0`, `1` or `UNK` the first loop of `findline_` passes its
assertion and returns the two counts and the Unknown positions of the line. -/
theorem lineScan_eq (s : Nat) (t : tab_t) (l : Nat) (hc : ∀ i j, t.tab i j ≤ 2) :
    lineScan s t l = some (cnt (fun i => t.get (lrow s l i) (lcol s l i)) 0 t.n,
      cnt (fun i => t.get (lrow s l i) (lcol s l i)) 1 t.n, unkPos s t l) := by
  cases h : lineScan s t l with
  | some r => rw [lineScan_some s t l r h]; rfl
  | none => exact absurd h (lineScan_ne_none s t l hc t.n)

theorem findline_eq (s : Nat) (t : tab_t) (l rules : Nat) (hc : ∀ i j, t.tab i j ≤ 2) :
    t.findline_ s l rules =
      if cnt (fun i => t.get (lrow s l i) (lcol s l i)) 0 t.n
          + cnt (fun i => t.get (lrow s l i) (lcol s l i)) 1 t.n ≥ t.n then some none
      else if cnt (fun i => t.get (lrow s l i) (lcol s l i)) 0 t.n > t.n / 2 then some none
      else if cnt (fun i => t.get (lrow s l i) (lcol s l i)) 1 t.n > t.n / 2 then some none
      else if (unkPos s t l).length > 4 ∧ rules &&& R_LINEx = 0 then some none
      else if (unkPos s t l).length > 3 ∧ rules &&& R_LINE4 = 0 then some none
      else
        match lineEnum s t l rules (cnt (fun i => t.get (lrow s l i) (lcol s l i)) 1 t.n)
          (unkPos s t l) (List.range (1 <<< (unkPos s t l).length)) 0 0 with
        | none => some none
        | some (f0, f1) => linePick f0 f1 (unkPos s t l) 0 := by
  unfold findline_
  rw [lineScan_eq s t l hc]

/-- When the enumeration loop of `findline_` leaves early, every position has been seen
with a one and with a zero among the fillings that passed both tests. -/
theorem lineEnum_none (s : Nat) (t : tab_t) (l rules n1 : Nat) (tl ks : List Nat)
    (f0 f1 : Nat) (h : lineEnum s t l rules n1 tl ks f0 f1 = none) (q : Nat)
    (hq : q < tl.length) :
    (f1.testBit q = true ∨ ∃ k, k ∈ ks ∧ nbr1 k = t.n / 2 - n1 ∧
        (fillLine s l k tl 0 t).isbad rules = 0 ∧ k.testBit q = true) ∧
    (f0.testBit q = true ∨ ∃ k, k ∈ ks ∧ nbr1 k = t.n / 2 - n1 ∧
        (fillLine s l k tl 0 t).isbad rules = 0 ∧ k.testBit q = false) := by
  have hfull : ((1 <<< tl.length) - 1).testBit q = true := by
    rw [Nat.one_shiftLeft, Nat.testBit_two_pow_sub_one]; simpa using hq
  induction ks generalizing f0 f1 with
  | nil => simp [lineEnum] at h
  | cons k ks ih =>
    unfold lineEnum at h
    by_cases hc : nbr1 k ≠ t.n / 2 - n1
    · rw [if_pos hc] at h
      obtain ⟨a1, a0⟩ := ih f0 f1 h
      constructor
      · rcases a1 with a | ⟨k', hk', r⟩
        · exact Or.inl a
        · exact Or.inr ⟨k', List.mem_cons_of_mem _ hk', r⟩
      · rcases a0 with a | ⟨k', hk', r⟩
        · exact Or.inl a
        · exact Or.inr ⟨k', List.mem_cons_of_mem _ hk', r⟩
    · rw [if_neg hc] at h
      have hc' : nbr1 k = t.n / 2 - n1 := by simpa using hc
      by_cases hb : (fillLine s l k tl 0 t).isbad rules = 0
      · rw [if_pos hb] at h
        simp only [] at h
        have key : ((f1 ||| k).testBit q = true → f1.testBit q = true ∨ ∃ k', k' ∈ k :: ks ∧
              nbr1 k' = t.n / 2 - n1 ∧ (fillLine s l k' tl 0 t).isbad rules = 0 ∧
              k'.testBit q = true) ∧
            ((f0 ||| (((1 <<< tl.length) - 1) ^^^ k)).testBit q = true →
              f0.testBit q = true ∨ ∃ k', k' ∈ k :: ks ∧
              nbr1 k' = t.n / 2 - n1 ∧ (fillLine s l k' tl 0 t).isbad rules = 0 ∧
              k'.testBit q = false) := by
          constructor
          · intro hb1
            rw [Nat.testBit_or] at hb1
            cases e1 : f1.testBit q
            · rw [e1] at hb1
              exact Or.inr ⟨k, List.mem_cons_self _ _, hc', hb, by simpa using hb1⟩
            · exact Or.inl rfl
          · intro hb0
            rw [Nat.testBit_or, Nat.testBit_xor, hfull] at hb0
            cases e0 : f0.testBit q
            · rw [e0] at hb0
              refine Or.inr ⟨k, List.mem_cons_self _ _, hc', hb, ?_⟩
              cases ek : k.testBit q
              · rfl
              · rw [ek] at hb0; simp at hb0
            · exact Or.inl rfl
        by_cases he : (f1 ||| k) = (1 <<< tl.length) - 1 ∧
            (f0 ||| (((1 <<< tl.length) - 1) ^^^ k)) = (1 <<< tl.length) - 1
        · exact ⟨key.1 (by rw [he.1]; exact hfull), key.2 (by rw [he.2]; exact hfull)⟩
        · rw [if_neg he] at h
          obtain ⟨a1, a0⟩ := ih _ _ h
          constructor
          · rcases a1 with a | ⟨k', hk', r⟩
            · exact key.1 a
            · exact Or.inr ⟨k', List.mem_cons_of_mem _ hk', r⟩
          · rcases a0 with a | ⟨k', hk', r⟩
            · exact key.2 a
            · exact Or.inr ⟨k', List.mem_cons_of_mem _ hk', r⟩
      · rw [if_neg hb] at h
        obtain ⟨a1, a0⟩ := ih f0 f1 h
        constructor
        · rcases a1 with a | ⟨k', hk', r⟩
          · exact Or.inl a
          · exact Or.inr ⟨k', List.mem_cons_of_mem _ hk', r⟩
        · rcases a0 with a | ⟨k', hk', r⟩
          · exact Or.inl a
          · exact Or.inr ⟨k', List.mem_cons_of_mem _ hk', r⟩

/-- When the enumeration loop of `findline_` runs to its end, the two masks are not both
full, unless they were so at the start. -/
theorem lineEnum_not_full (s : Nat) (t : tab_t) (l rules n1 : Nat) (tl ks : List Nat)
    (f0 f1 g0 g1 : Nat) (h : lineEnum s t l rules n1 tl ks f0 f1 = some (g0, g1))
    (hf : ¬ (f1 = (1 <<< tl.length) - 1 ∧ f0 = (1 <<< tl.length) - 1)) :
    ¬ (g1 = (1 <<< tl.length) - 1 ∧ g0 = (1 <<< tl.length) - 1) := by
  induction ks generalizing f0 f1 with
  | nil =>
    simp only [lineEnum, Option.some.injEq, Prod.mk.injEq] at h
    obtain ⟨rfl, rfl⟩ := h
    exact hf
  | cons k ks ih =>
    unfold lineEnum at h
    by_cases hc : nbr1 k ≠ t.n / 2 - n1
    · rw [if_pos hc] at h; exact ih f0 f1 h hf
    · rw [if_neg hc] at h
      by_cases hb : (fillLine s l k tl 0 t).isbad rules = 0
      · rw [if_pos hb] at h
        simp only [] at h
        by_cases he : (f1 ||| k) = (1 <<< tl.length) - 1 ∧
            (f0 ||| (((1 <<< tl.length) - 1) ^^^ k)) = (1 <<< tl.length) - 1
        · rw [if_pos he] at h; simp at h
        · rw [if_neg he] at h; exact ih _ _ h he
      · rw [if_neg hb] at h; exact ih f0 f1 h hf

/-- The last loop of `findline_` returns a move when every position has its bit in one of
the masks and some position misses it in one of them. -/
theorem linePick_complete (f0 f1 : Nat) (tl : List Nat) (q0 : Nat)
    (hall : ∀ q, q0 ≤ q → q < q0 + tl.length → f1.testBit q = true ∨ f0.testBit q = true)
    (hex : ∃ q, q0 ≤ q ∧ q < q0 + tl.length ∧ (f1.testBit q = false ∨ f0.testBit q = false)) :
    ∃ m, linePick f0 f1 tl q0 = some (some m) := by
  induction tl generalizing q0 with
  | nil =>
    obtain ⟨q, h1, h2, _⟩ := hex
    simp at h2; omega
  | cons a tl ih =>
    unfold linePick
    have h00 := hall q0 (Nat.le_refl _) (by simp)
    by_cases h1 : f1 &&& (1 <<< q0) = 0
    · rw [if_pos h1]
      have b1 := (and_bit_eq_zero f1 q0).mp h1
      have b0 : f0.testBit q0 = true := by
        rcases h00 with h | h
        · rw [b1] at h; exact absurd h (by simp)
        · exact h
      have : f0 &&& (1 <<< q0) ≠ 0 := by
        intro hc
        have := (and_bit_eq_zero f0 q0).mp hc
        rw [b0] at this; exact absurd this (by simp)
      rw [if_pos this]
      exact ⟨_, rfl⟩
    · rw [if_neg h1]
      by_cases h0 : f0 &&& (1 <<< q0) = 0
      · rw [if_pos h0, if_pos h1]
        exact ⟨_, rfl⟩
      · rw [if_neg h0]
        apply ih (q0 + 1)
        · intro q hq1 hq2
          exact hall q (by omega) (by simp; omega)
        · obtain ⟨q, hq1, hq2, hq3⟩ := hex
          have hne : q ≠ q0 := by
            rintro rfl
            rcases hq3 with h | h
            · exact h1 ((and_bit_eq_zero f1 q).mpr h)
            · exact h0 ((and_bit_eq_zero f0 q).mpr h)
          exact ⟨q, by omega, by simp at hq2; omega, hq3⟩


/-! ## Fillings that pass the tests of `findline_` -/

theorem unkPos_len (s : Nat) (t : tab_t) (l : Nat) (hn : t.n ≤ NM) :
    (unkPos s t l).length ≤ 24 := by
  have : (unkPos s t l).length ≤ (List.range t.n).length := List.length_filter_le _ _
  rw [List.length_range] at this
  unfold NM at hn; omega

theorem fillOK_iff (s : Nat) (t : tab_t) (l rules k : Nat) (hn : t.n ≤ NM)
    (hk : k < 2 ^ (unkPos s t l).length) :
    (nbr1 k = t.n / 2 - cnt (fun i => t.get (lrow s l i) (lcol s l i)) 1 t.n ∧
      (fillLine s l k (unkPos s t l) 0 t).isbad rules = 0) ↔ FillOK s t l rules k := by
  unfold FillOK
  rw [nbr1_eq_popc _ k (unkPos_len s t l hn) hk]
  exact ⟨fun h => ⟨hk, h⟩, fun h => h.2⟩

theorem unkPos_pos (s : Nat) (t : tab_t) (l : Nat) (hc : ∀ i j, t.tab i j ≤ 2)
    (h : cnt (fun i => t.get (lrow s l i) (lcol s l i)) 0 t.n
      + cnt (fun i => t.get (lrow s l i) (lcol s l i)) 1 t.n < t.n) :
    0 < (unkPos s t l).length := by
  by_contra h0
  have hnil : unkPos s t l = [] := List.length_eq_zero.mp (by omega)
  have hF : Full t.n (fun i => t.get (lrow s l i) (lcol s l i)) := by
    intro k hk hu
    have : k ∈ unkPos s t l := (mem_unkPos s t l k).mpr ⟨hk, hu⟩
    rw [hnil] at this; simp at this
  have := (cnt_full_iff (fun i => t.get (lrow s l i) (lcol s l i)) t.n
    (fun k => hc _ _)).mpr hF
  omega

/-- After a full enumeration that met a filling passing both tests, the last loop of
`findline_` returns a move: its assertions hold and it does not run off its end. -/
theorem linePick_of_enum (s : Nat) (t : tab_t) (l rules n1 : Nat) (tl : List Nat)
    (g0 g1 : Nat) (hp : 0 < tl.length)
    (h : lineEnum s t l rules n1 tl (List.range (1 <<< tl.length)) 0 0 = some (g0, g1))
    (hv : ∃ k, k < 2 ^ tl.length ∧ nbr1 k = t.n / 2 - n1 ∧
      (fillLine s l k tl 0 t).isbad rules = 0) :
    ∃ m, linePick g0 g1 tl 0 = some (some m) := by
  obtain ⟨i1, i0⟩ := lineEnum_some s t l rules n1 tl _ 0 0 g0 g1 h
  obtain ⟨k, hk, hv, hb⟩ := hv
  have hmem : k ∈ List.range (1 <<< tl.length) := by
    rw [List.mem_range, Nat.one_shiftLeft]; exact hk
  have hfull : ∀ q, ((1 <<< tl.length) - 1).testBit q = decide (q < tl.length) := by
    intro q; rw [Nat.one_shiftLeft, Nat.testBit_two_pow_sub_one]
  have hsmall : ∀ k' q, k' ∈ List.range (1 <<< tl.length) → tl.length ≤ q →
      k'.testBit q = false := by
    intro k' q hk' hq
    rw [List.mem_range, Nat.one_shiftLeft] at hk'
    exact Nat.testBit_lt_two_pow
      (Nat.lt_of_lt_of_le hk' (Nat.pow_le_pow_right (by omega) hq))
  have hhi1 : ∀ q, tl.length ≤ q → g1.testBit q = false := by
    intro q hq
    cases e : g1.testBit q
    · rfl
    · rcases (i1 q).mp e with h' | ⟨k', hk', _, _, hb'⟩
      · simp at h'
      · rw [hsmall k' q hk' hq] at hb'; exact absurd hb' (by simp)
  have hhi0 : ∀ q, tl.length ≤ q → g0.testBit q = false := by
    intro q hq
    cases e : g0.testBit q
    · rfl
    · rcases (i0 q).mp e with h' | ⟨k', hk', _, _, hb'⟩
      · simp at h'
      · rw [Nat.testBit_xor, hfull, hsmall k' q hk' hq] at hb'
        have : ¬ q < tl.length := by omega
        simp [this] at hb'
  apply linePick_complete
  · intro q _ hq
    rw [Nat.zero_add] at hq
    cases e : k.testBit q
    · right
      apply (i0 q).mpr
      right
      exact ⟨k, hmem, hv, hb, by rw [Nat.testBit_xor, hfull, e]; simp [hq]⟩
    · left
      exact (i1 q).mpr (Or.inr ⟨k, hmem, hv, hb, e⟩)
  · have hnf := lineEnum_not_full s t l rules n1 tl _ 0 0 g0 g1 h (by
      rintro ⟨h1, _⟩
      have : 1 < 2 ^ tl.length := Nat.one_lt_two_pow (by omega)
      rw [Nat.one_shiftLeft] at h1; omega)
    by_contra hne
    apply hnf
    have hb1 : ∀ q, q < tl.length → g1.testBit q = true ∧ g0.testBit q = true := by
      intro q hq
      constructor
      · cases e : g1.testBit q
        · exact absurd ⟨q, Nat.zero_le _, by omega, Or.inl e⟩ hne
        · rfl
      · cases e : g0.testBit q
        · exact absurd ⟨q, Nat.zero_le _, by omega, Or.inr e⟩ hne
        · rfl
    constructor
    · apply Nat.eq_of_testBit_eq
      intro q
      rw [hfull]
      by_cases hq : q < tl.length
      · rw [(hb1 q hq).1]; simp [hq]
      · rw [hhi1 q (by omega)]; simp [hq]
    · apply Nat.eq_of_testBit_eq
      intro q
      rw [hfull]
      by_cases hq : q < tl.length
      · rw [(hb1 q hq).2]; simp [hq]
      · rw [hhi0 q (by omega)]; simp [hq]

/-- No assertion of `findline_` fails on a line that has a filling passing both tests. -/
theorem findline_total (s : Nat) (t : tab_t) (l rules : Nat) (hC : Cnt t)
    (hv : ∃ k, FillOK s t l rules k) : t.findline_ s l rules ≠ none := by
  rw [findline_eq s t l rules hC.cell]
  split_ifs with g1 g2 g3 g4 g5
  · simp
  · simp
  · simp
  · simp
  · simp
  · cases he : lineEnum s t l rules (cnt (fun i => t.get (lrow s l i) (lcol s l i)) 1 t.n)
        (unkPos s t l) (List.range (1 <<< (unkPos s t l).length)) 0 0 with
    | none => simp
    | some f =>
      obtain ⟨f0, f1⟩ := f
      obtain ⟨k, hk⟩ := hv
      obtain ⟨m, hm⟩ := linePick_of_enum s t l rules _ (unkPos s t l) f0 f1
        (unkPos_pos s t l hC.cell (by omega)) he
        ⟨k, hk.1, ((fillOK_iff s t l rules k hC.size hk.1).mpr hk).1, hk.2.2⟩
      simp only []
      rw [hm]; simp

/-- The line deduction is complete for a forced position: on a line that is not full, not
over the half and within the size allowed by `rules`, if some filling passes both tests
and all such fillings agree at one Unknown position, `findline_` returns a move. -/
theorem findline_complete (s : Nat) (t : tab_t) (l rules : Nat) (hC : Cnt t)
    (h1 : cnt (fun i => t.get (lrow s l i) (lcol s l i)) 0 t.n
      + cnt (fun i => t.get (lrow s l i) (lcol s l i)) 1 t.n < t.n)
    (h2 : cnt (fun i => t.get (lrow s l i) (lcol s l i)) 0 t.n ≤ t.n / 2)
    (h3 : cnt (fun i => t.get (lrow s l i) (lcol s l i)) 1 t.n ≤ t.n / 2)
    (h4 : ¬ ((unkPos s t l).length > 4 ∧ rules &&& R_LINEx = 0))
    (h5 : ¬ ((unkPos s t l).length > 3 ∧ rules &&& R_LINE4 = 0))
    (hv : ∃ k, FillOK s t l rules k) (q : Nat) (b : Bool) (hq : q < (unkPos s t l).length)
    (hall : ∀ k, FillOK s t l rules k → k.testBit q = b) :
    ∃ m, t.findline_ s l rules = some (some m) := by
  rw [findline_eq s t l rules hC.cell, if_neg (by omega), if_neg (by omega), if_neg (by omega),
    if_neg h4, if_neg h5]
  have hr : ∀ k, k ∈ List.range (1 <<< (unkPos s t l).length) →
      k < 2 ^ (unkPos s t l).length := by
    intro k hk; rw [List.mem_range, Nat.one_shiftLeft] at hk; exact hk
  cases he : lineEnum s t l rules (cnt (fun i => t.get (lrow s l i) (lcol s l i)) 1 t.n)
      (unkPos s t l) (List.range (1 <<< (unkPos s t l).length)) 0 0 with
  | none =>
    exfalso
    obtain ⟨a1, a0⟩ := lineEnum_none s t l rules _ _ _ 0 0 he q hq
    rcases a1 with a1 | ⟨k1, hk1, v1, b1, e1⟩
    · simp at a1
    rcases a0 with a0 | ⟨k0, hk0, v0, b0, e0⟩
    · simp at a0
    have c1 := hall k1 ((fillOK_iff s t l rules k1 hC.size (hr k1 hk1)).mp ⟨v1, b1⟩)
    have c0 := hall k0 ((fillOK_iff s t l rules k0 hC.size (hr k0 hk0)).mp ⟨v0, b0⟩)
    rw [e1] at c1; rw [e0] at c0
    rw [← c1] at c0; exact absurd c0 (by simp)
  | some f =>
    obtain ⟨f0, f1⟩ := f
    obtain ⟨k, hk⟩ := hv
    obtain ⟨m, hm⟩ := linePick_of_enum s t l rules _ (unkPos s t l) f0 f1
      (unkPos_pos s t l hC.cell h1) he
      ⟨k, hk.1, ((fillOK_iff s t l rules k hC.size hk.1).mpr hk).1, hk.2.2⟩
    exact ⟨m, hm⟩


/-! ## Deductions survive further assignments -/

theorem fillLine_sub (s l k : Nat) (t : tab_t) :
    Sub t.tab (fillLine s l k (unkPos s t l) 0 t).tab := by
  intro a b hab
  exact fillLine_get_other s l k (unkPos s t l) 0 t a b (fun j hj hc => by
    obtain ⟨rfl, rfl⟩ := hc
    exact hab ((mem_unkPos s t l j).mp hj).2)

theorem fillLine_line_le (s l k : Nat) (t : tab_t) (hC : Cnt t) (j : Nat) (hj : j < t.n) :
    (fillLine s l k (unkPos s t l) 0 t).tab (lrow s l j) (lcol s l j) ≤ 1 := by
  by_cases hm : j ∈ unkPos s t l
  · obtain ⟨q, hq⟩ := List.mem_iff_getElem?.mp hm
    have e := fillLine_get s l k (unkPos s t l) 0 t q j (nodup_unkPos s t l) hq
    have e' : (fillLine s l k (unkPos s t l) 0 t).tab (lrow s l j) (lcol s l j)
        = (k >>> (0 + q)) &&& 1 := e
    rw [e']; exact bit_le_one _ _
  · have hne : t.tab (lrow s l j) (lcol s l j) ≠ UNK :=
      fun h => hm ((mem_unkPos s t l j).mpr ⟨hj, h⟩)
    rw [fillLine_sub s l k t _ _ hne]
    have := hC.cell (lrow s l j) (lcol s l j)
    simp only [UNK] at hne
    omega

theorem popc_encode_fill (s l k : Nat) (t : tab_t) :
    popc (unkPos s t l).length
      (encode (fillLine s l k (unkPos s t l) 0 t).tab s l (unkPos s t l))
      = popc (unkPos s t l).length k := by
  unfold popc
  apply cnt_congr
  intro q hq
  obtain ⟨j, hj⟩ : ∃ j, (unkPos s t l)[q]? = some j := ⟨_, List.getElem?_eq_getElem hq⟩
  rw [encode_bit _ s l _ q j hj]
  have e := fillLine_get s l k (unkPos s t l) 0 t q j (nodup_unkPos s t l) hj
  have e' : (fillLine s l k (unkPos s t l) 0 t).tab (lrow s l j) (lcol s l j)
      = (k >>> (0 + q)) &&& 1 := e
  rw [e', Nat.zero_add]
  have := bit_le_one k q
  omega

/-- The line of a valid completion is a filling that passes both tests of `findline_`. -/
theorem fillOK_of_sol (s : Nat) (t : tab_t) (l rules : Nat) (g : Nat → Nat → Nat)
    (hI : Inv t) (hl : l < t.n) (hg : IsSol t.n t.tab g) :
    FillOK s t l rules (encode g s l (unkPos s t l)) := by
  have hline : ∀ k, k < t.n → g (lrow s l k) (lcol s l k) ≤ 1 := fun k hk =>
    hg.2.1 _ _ (lpos_lt s l k t.n hl hk).1 (lpos_lt s l k t.n hl hk).2
  obtain ⟨f1, f2, f3, f4, f5⟩ := fill_of_grid s t l g hI hl hg.1 hline
  have hones := sol_line_ones t.n t.tab g s l hl hg
  refine ⟨f1, by rw [hones] at f5; omega, ?_⟩
  by_contra hb
  exact isbad_all_of_isbad _ _ hb (sol_not_bad _ f2 g (by rw [f3]; exact ⟨f4, hg.2⟩))

theorem fillLine_unk_inv (s l k : Nat) (t : tab_t) (hI : Inv t) (hl : l < t.n) :
    Inv (fillLine s l k (unkPos s t l) 0 t) := by
  apply fillLine_inv _ _ _ _ _ _ hI (nodup_unkPos s t l)
  intro j hj
  obtain ⟨h1, h2⟩ := (mem_unkPos s t l j).mp hj
  exact ⟨(lpos_lt s l j t.n hl h1).1, (lpos_lt s l j t.n hl h1).2, h2⟩

/-- A filling that passes both tests on a board with more cells assigned restricts to a
filling that passes both tests on the board with fewer cells assigned. -/
theorem fillOK_restrict (s : Nat) (t u : tab_t) (l rules k : Nat) (ht : Inv t) (hu : Inv u)
    (hn : t.n = u.n) (hs : Sub t.tab u.tab) (hl : l < t.n)
    (h3 : rules &&& R_3 ≠ 0) (hH : rules &&& R_HALF ≠ 0)
    (h1 : cnt (fun i => u.get (lrow s l i) (lcol s l i)) 1 u.n ≤ u.n / 2)
    (hk : FillOK s u l rules k) :
    FillOK s t l rules (encode (fillLine s l k (unkPos s u l) 0 u).tab s l (unkPos s t l)) ∧
    Sub (fillLine s l (encode (fillLine s l k (unkPos s u l) 0 u).tab s l (unkPos s t l))
      (unkPos s t l) 0 t).tab (fillLine s l k (unkPos s u l) 0 u).tab := by
  have hlu : l < u.n := hn ▸ hl
  have hIu := fillLine_unk_inv s l k u hu hlu
  have hsu := fillLine_sub s l k u
  have hGl := fillLine_line_le s l k u hu.toCnt
  obtain ⟨_, _, _, _, cu⟩ := fill_of_grid s u l _ hu hlu hsu hGl
  rw [popc_encode_fill, hk.2.1] at cu
  obtain ⟨f1, f2, f3, f4, f5⟩ := fill_of_grid s t l _ ht hl (sub_trans hs hsu)
    (fun j hj => hGl j (hn ▸ hj))
  refine ⟨⟨f1, ?_, ?_⟩, f4⟩
  · rw [← hn] at cu h1
    omega
  · by_contra hb
    exact bad_mono_rules _ _ rules f2 hIu
      (f3.trans (hn.trans (fillLine_n s l k _ 0 u).symm)) f4 h3 hH hb hk.2.2

theorem line_half (s : Nat) (u : tab_t) (l : Nat) (hl : l < u.n) (hH : ¬ Half u.n u.tab) :
    cnt (fun i => u.get (lrow s l i) (lcol s l i)) 0 u.n ≤ u.n / 2 ∧
    cnt (fun i => u.get (lrow s l i) (lcol s l i)) 1 u.n ≤ u.n / 2 := by
  have r0 : ¬ cnt (u.tab l) 0 u.n > u.n / 2 := fun h => hH ⟨l, hl, Or.inl h⟩
  have r1 : ¬ cnt (u.tab l) 1 u.n > u.n / 2 := fun h => hH ⟨l, hl, Or.inr (Or.inl h)⟩
  have c0 : ¬ cnt (col u.tab l) 0 u.n > u.n / 2 :=
    fun h => hH ⟨l, hl, Or.inr (Or.inr (Or.inl h))⟩
  have c1 : ¬ cnt (col u.tab l) 1 u.n > u.n / 2 :=
    fun h => hH ⟨l, hl, Or.inr (Or.inr (Or.inr h))⟩
  show cnt (fun i => u.tab (lrow s l i) (lcol s l i)) 0 u.n ≤ _ ∧
    cnt (fun i => u.tab (lrow s l i) (lcol s l i)) 1 u.n ≤ _
  rcases line_cases s l u.tab with e | e <;> rw [e] <;> omega

theorem unkPos_mono (s : Nat) (t u : tab_t) (l : Nat) (hn : t.n = u.n) (hs : Sub t.tab u.tab) :
    (unkPos s u l).length ≤ (unkPos s t l).length := by
  unfold unkPos
  rw [← hn]
  apply List.Sublist.length_le
  apply List.monotone_filter_right
  intro i hi
  have hi' : u.tab (lrow s l i) (lcol s l i) = UNK := by simpa [tab_t.get] using hi
  have : t.tab (lrow s l i) (lcol s l i) = UNK := by
    by_contra hne
    rw [hs _ _ hne] at hi'
    exact hne hi'
  simpa [tab_t.get] using this

/-- A line deduction made on a board is still available, on the same line, on every board
with more cells assigned that has a valid completion and leaves the deduced cell Unknown. -/
theorem findline_mono (s : Nat) (t u : tab_t) (l rules a x : Nat) (ht : Inv t) (hu : Inv u)
    (hn : t.n = u.n) (hs : Sub t.tab u.tab) (hl : l < t.n)
    (h3 : rules &&& R_3 ≠ 0) (hH : rules &&& R_HALF ≠ 0)
    (g : Nat → Nat → Nat) (hg : IsSol u.n u.tab g)
    (h : t.findline_ s l rules = some (some (a, x)))
    (hua : u.tab (lrow s l a) (lcol s l a) = UNK) :
    ∃ m, u.findline_ s l rules = some (some m) := by
  have hlu : l < u.n := hn ▸ hl
  obtain ⟨ha, _, hx, _, hall⟩ := findline_spec s t l rules a x ht.size h
  have hU : (List.range t.n).filter
      (fun i => decide (t.get (lrow s l i) (lcol s l i) = UNK)) = unkPos s t l := rfl
  rw [hU] at hall
  have hth : ¬ ((unkPos s t l).length > 4 ∧ rules &&& R_LINEx = 0) ∧
      ¬ ((unkPos s t l).length > 3 ∧ rules &&& R_LINE4 = 0) := by
    rw [findline_eq s t l rules ht.cell] at h
    split_ifs at h with g1 g2 g3 g4 g5
    · simp at h
    · simp at h
    · simp at h
    · simp at h
    · simp at h
    · exact ⟨g4, g5⟩
  have hlen := unkPos_mono s t u l hn hs
  have hau : a < u.n := hn ▸ ha
  have hmem : a ∈ unkPos s u l := (mem_unkPos s u l a).mpr ⟨hau, hua⟩
  obtain ⟨q, hq⟩ := List.mem_iff_getElem?.mp hmem
  have hqlt : q < (unkPos s u l).length := by
    by_contra hc
    rw [List.getElem?_eq_none (by omega)] at hq
    exact absurd hq (by simp)
  have hnb := sol_not_bad u hu g hg
  obtain ⟨_, hnH, _⟩ := (isbad_all_iff u hu).mp hnb
  obtain ⟨b0, b1⟩ := line_half s u l hlu hnH
  apply findline_complete s u l rules hu.toCnt
    (cnt_lt_of_unk (fun i => u.get (lrow s l i) (lcol s l i)) u.n a hau hua) b0 b1
    (fun hc => hth.1 ⟨by omega, hc.2⟩) (fun hc => hth.2 ⟨by omega, hc.2⟩)
    ⟨_, fillOK_of_sol s u l rules g hu hlu hg⟩ q (decide (x = 1)) hqlt
  intro k hk
  obtain ⟨r1, r2⟩ := fillOK_restrict s t u l rules k ht hu hn hs hl h3 hH b1 hk
  have e := hall _ r1.1 r1.2.1 r1.2.2
  have e2 := r2 (lrow s l a) (lcol s l a) (by
    show tab_t.get _ _ _ ≠ UNK
    rw [e]; simp only [UNK]; omega)
  have e3 := fillLine_get s l k (unkPos s u l) 0 u q a (nodup_unkPos s u l) hq
  have e4 : (k >>> (0 + q)) &&& 1 = x := by
    rw [← e3]
    show (fillLine s l k (unkPos s u l) 0 u).tab _ _ = x
    rw [e2]; exact e
  rw [Nat.zero_add, bit_testBit] at e4
  cases hb : k.testBit q
  · rw [hb] at e4
    have : x = 0 := by simpa using e4.symm
    subst this; rfl
  · rw [hb] at e4
    have : x = 1 := by simpa using e4.symm
    subst this; rfl


/-! ## `find` on boards between a solvable board and its completion -/

theorem sub_upd_both (g g' : Nat → Nat → Nat) (i j y : Nat) (h : Sub g g') :
    Sub (upd g i j y) (upd g' i j y) := by
  intro a b hab
  by_cases hc : a = i ∧ b = j
  · obtain ⟨rfl, rfl⟩ := hc
    rw [upd_same, upd_same]
  · rw [upd_other g i j y a b hc] at hab
    rw [upd_other g i j y a b hc, upd_other g' i j y a b hc]
    exact h a b hab

/-- The cell deduction succeeds as soon as some trial at an Unknown cell is bad. -/
theorem findcell_complete (t : tab_t) (rules i j y : Nat) (hi : i < t.n) (hj : j < t.n)
    (hu : t.get i j = UNK) (hy : y ≤ 1) (hb : (t.set i j y).isbad rules ≠ 0) :
    ∃ m, t.findcell rules = some m := by
  unfold findcell
  cases h : (cells t.n).findSome? (t.findcellAt rules) with
  | some m => exact ⟨m, rfl⟩
  | none =>
    exfalso
    rw [List.findSome?_eq_none_iff] at h
    have h' := h (i, j) ((mem_cells t.n (i, j)).mpr ⟨hi, hj⟩)
    unfold findcellAt at h'
    simp only [] at h'
    rw [if_pos hu] at h'
    by_cases h0 : (t.set i j 0).isbad rules ≠ 0
    · rw [if_pos h0] at h'; simp at h'
    · rw [if_neg h0] at h'
      have hy1 : y = 1 := by
        by_contra hne
        have hy0 : y = 0 := by omega
        subst hy0
        exact h0 hb
      subst hy1
      rw [if_pos hb] at h'; simp at h'

theorem findlineFrom_total (t : tab_t) (rules : Nat) (ls : List Nat)
    (h : ∀ s l, l ∈ ls → t.findline_ s l rules ≠ none) : findlineFrom t rules ls ≠ none := by
  induction ls with
  | nil => simp [findlineFrom]
  | cons l ls ih =>
    unfold findlineFrom
    cases h0 : t.findline_ 0 l rules with
    | none => exact absurd h0 (h 0 l (List.mem_cons_self _ _))
    | some r0 =>
      cases r0 with
      | some m => obtain ⟨a, x⟩ := m; simp
      | none =>
        simp only []
        cases h1 : t.findline_ 1 l rules with
        | none => exact absurd h1 (h 1 l (List.mem_cons_self _ _))
        | some r1 =>
          cases r1 with
          | some m => obtain ⟨a, x⟩ := m; simp
          | none =>
            simp only []
            exact ih (fun s l' hl' => h s l' (List.mem_cons_of_mem _ hl'))

theorem findlineFrom_complete (t : tab_t) (rules : Nat) (ls : List Nat)
    (htot : ∀ s l, l ∈ ls → t.findline_ s l rules ≠ none) (s l : Nat) (hs : s = 0 ∨ s = 1)
    (hl : l ∈ ls) (hm : ∃ m, t.findline_ s l rules = some (some m)) :
    ∃ m, findlineFrom t rules ls = some (some m) := by
  induction ls with
  | nil => simp at hl
  | cons l0 ls ih =>
    unfold findlineFrom
    cases h0 : t.findline_ 0 l0 rules with
    | none => exact absurd h0 (htot 0 l0 (List.mem_cons_self _ _))
    | some r0 =>
      cases r0 with
      | some m => obtain ⟨a, x⟩ := m; exact ⟨_, rfl⟩
      | none =>
        simp only []
        cases h1 : t.findline_ 1 l0 rules with
        | none => exact absurd h1 (htot 1 l0 (List.mem_cons_self _ _))
        | some r1 =>
          cases r1 with
          | some m => obtain ⟨a, x⟩ := m; exact ⟨_, rfl⟩
          | none =>
            simp only []
            have hl' : l ∈ ls := by
              rcases List.mem_cons.mp hl with rfl | hl'
              · exfalso
                obtain ⟨m, hm⟩ := hm
                rcases hs with rfl | rfl
                · rw [h0] at hm; simp at hm
                · rw [h1] at hm; simp at hm
              · exact hl'
            exact ih (fun s l' hl'' => htot s l' (List.mem_cons_of_mem _ hl'')) hl'

/-- No assertion of `find` fails on a board that has a valid completion. -/
theorem find_total (t : tab_t) (rules : Nat) (g : Nat → Nat → Nat) (hI : Inv t)
    (hg : IsSol t.n t.tab g) : t.find rules ≠ none := by
  unfold find
  cases hc : t.findcell rules with
  | some r => simp
  | none =>
    simp only []
    by_cases hr : rules &&& R_LINE ≠ 0
    · rw [if_pos hr]
      unfold findline
      exact findlineFrom_total t rules _ (fun s l hl =>
        findline_total s t l rules hI.toCnt
          ⟨_, fillOK_of_sol s t l rules g hI (List.mem_range.mp hl) hg⟩)
    · rw [if_neg hr]; simp

/-- A deduction made by `find` on a board is matched by a deduction of `find` on every
board with more cells assigned that has a valid completion and leaves the deduced cell
Unknown. -/
theorem find_mono (t u : tab_t) (rules i j x : Nat) (ht : Inv t) (hu : Inv u)
    (hn : t.n = u.n) (hs : Sub t.tab u.tab)
    (h3 : rules &&& R_3 ≠ 0) (hH : rules &&& R_HALF ≠ 0)
    (g : Nat → Nat → Nat) (hg : IsSol u.n u.tab g)
    (h : t.find rules = some (some (i, j, x))) (hij : u.tab i j = UNK) :
    ∃ m, u.find rules = some (some m) := by
  cases hc : u.findcell rules with
  | some r => exact ⟨r, by unfold find; rw [hc]⟩
  | none =>
    rcases find_some t rules i j x h with hct | ⟨s, l, a, ⟨hs01, hR⟩, hl, hf, rfl, rfl⟩
    · exfalso
      obtain ⟨h1, h2, hut, h4⟩ := findcell_some t rules i j x hct
      have hy : ∃ y, y ≤ 1 ∧ (t.set i j y).isbad rules ≠ 0 := by
        rcases h4 with ⟨_, hb⟩ | ⟨_, _, hb⟩
        · exact ⟨0, by omega, hb⟩
        · exact ⟨1, by omega, hb⟩
      obtain ⟨y, hy, hb⟩ := hy
      have hbu : (u.set i j y).isbad rules ≠ 0 := by
        apply bad_mono_rules (t.set i j y) (u.set i j y) rules
          (inv_set t i j y ht h1 h2 hut hy) (inv_set u i j y hu (hn ▸ h1) (hn ▸ h2) hij hy)
          (by rw [set_n, set_n]; exact hn) _ h3 hH hb
        rw [set_tab, set_tab]
        exact sub_upd_both _ _ _ _ _ hs
      obtain ⟨m, hm⟩ := findcell_complete u rules i j y (hn ▸ h1) (hn ▸ h2) hij hy hbu
      rw [hc] at hm; simp at hm
    · have hlu : l < u.n := hn ▸ hl
      unfold find
      rw [hc]
      simp only []
      rw [if_pos hR]
      unfold findline
      exact findlineFrom_complete u rules _ (fun s' l' hl' =>
          findline_total s' u l' rules hu.toCnt
            ⟨_, fillOK_of_sol s' u l' rules g hu (List.mem_range.mp hl') hg⟩)
        s l hs01 (List.mem_range.mpr hlu)
        (findline_mono s t u l rules a x ht hu hn hs hl h3 hH g hg hf hij)

/-- When `cansolve(rules)` succeeds from a board, `find(rules)` returns a move on every
incomplete board that lies between that board and its completion. -/
theorem cansolveLoop_find (rules : Nat) (h3 : rules &&& R_3 ≠ 0) (hH : rules &&& R_HALF ≠ 0)
    (fuel : Nat) : ∀ (t : tab_t), Inv t → cansolveLoop rules fuel t = some true →
    ∀ (u : tab_t) (g : Nat → Nat → Nat), Inv u → t.n = u.n → Sub t.tab u.tab →
      IsSol u.n u.tab g → u.iscomplete = false → ∃ m, u.find rules = some (some m) := by
  induction fuel with
  | zero => intro t _ h; simp [cansolveLoop] at h
  | succ fuel ih =>
    intro t ht h u g hu hn hs hg hinc
    unfold cansolveLoop at h
    by_cases hc : t.iscomplete = true
    · exfalso
      have hcu : u.iscomplete = true := by
        rw [iscomplete_iff u hu.toCnt]
        intro i j hi hj
        have hne := (iscomplete_iff t ht.toCnt).mp hc i j (hn ▸ hi) (hn ▸ hj)
        rw [hs i j hne]; exact hne
      rw [hcu] at hinc; exact absurd hinc (by simp)
    · rw [if_neg hc] at h
      cases hf : t.find rules with
      | none => rw [hf] at h; simp at h
      | some r =>
        rw [hf] at h
        cases r with
        | none => simp at h
        | some m =>
          obtain ⟨i, j, x⟩ := m
          simp only [] at h
          by_cases hb : (t.set i j x).isbad R_ALL ≠ 0
          · rw [if_pos hb] at h; simp at h
          · rw [if_neg hb] at h
            by_cases hij : u.tab i j = UNK
            · exact find_mono t u rules i j x ht hu hn hs h3 hH g hg hf hij
            · obtain ⟨h1, h2, hut, hx⟩ := find_legal t rules i j x ht hf
              have hgt : IsSol t.n t.tab g := ⟨sub_trans hs hg.1, hn ▸ hg.2⟩
              have e1 := find_sol t rules i j x ht hf g hgt
              have e2 := hg.1 i j hij
              apply ih (t.set i j x) (inv_set t i j x ht h1 h2 hut hx) h u g hu
                (by rw [set_n]; exact hn) _ hg hinc
              rw [set_tab]
              exact sub_upd_left _ _ _ _ _ hs (by rw [← e2]; exact e1)


/-! ## The replay of `solvescore` on a tier-solvable board (C7) -/

theorem getD_set_ne (tab : List Int) (a k : Nat) (v : Int) (h : a ≠ k) :
    (tab.set a v).getD k 0 = tab.getD k 0 := by
  simp [List.getD_eq_getElem?_getD, List.getElem?_set_ne h]

theorem sum_set_succ (tab : List Int) (a : Nat) (h : a < tab.length) :
    (tab.set a (tab.getD a 0 + 1)).sum = tab.sum + 1 := by
  induction tab generalizing a with
  | nil => simp at h
  | cons v tab ih =>
    cases a with
    | zero => simp only [List.set_cons_zero, List.getD_cons_zero, List.sum_cons]; omega
    | succ a =>
      simp only [List.set_cons_succ, List.getD_cons_succ, List.sum_cons]
      rw [ih a (by simpa using h)]
      omega

/-- What the charging loop of `solvescore_` does when no assertion of `find` fails and
some preset finds a move: it charges the first preset that finds one. -/
theorem chargeFrom_spec (t : tab_t) (tab : List Int) (rs : List Nat) :
    ∀ (d0 e : Nat), (∀ r, r ∈ rs → t.find r ≠ none) → e < rs.length →
    (∃ m, t.find (rs.getD e 0) = some (some m)) →
    ∃ e1 m, e1 ≤ e ∧ t.find (rs.getD e1 0) = some (some m) ∧
      chargeFrom t tab rs d0 = some (some m, tab.set (d0 + e1) (tab.getD (d0 + e1) 0 + 1)) := by
  induction rs with
  | nil => intro d0 e _ he; simp at he
  | cons r rs ih =>
    intro d0 e htot he hm
    unfold chargeFrom
    cases hf : t.find r with
    | none => exact absurd hf (htot r (List.mem_cons_self _ _))
    | some o =>
      cases o with
      | some m => exact ⟨0, m, Nat.zero_le _, by simpa using hf, rfl⟩
      | none =>
        simp only []
        cases e with
        | zero =>
          obtain ⟨m, hm⟩ := hm
          rw [List.getD_cons_zero, hf] at hm
          simp at hm
        | succ e =>
          rw [List.getD_cons_succ] at hm
          obtain ⟨e1, m, h1, h2, h3⟩ := ih (d0 + 1) e
            (fun r' hr' => htot r' (List.mem_cons_of_mem _ hr')) (by simpa using he) hm
          refine ⟨e1 + 1, m, by omega, by rw [List.getD_cons_succ]; exact h2, ?_⟩
          rw [h3, show d0 + 1 + e1 = d0 + (e1 + 1) by omega]

theorem unk_complete (u : tab_t) (hC : Cnt u) (hc : u.iscomplete = true) : unk u = 0 := by
  have hall := (iscomplete_iff u hC).mp hc
  have : ∀ m, m ≤ u.n → unkRows u.tab u.n m = 0 := by
    intro m
    induction m with
    | zero => intro _; rfl
    | succ m ihm =>
      intro hm
      simp only [unkRows, ihm (by omega), Nat.zero_add]
      exact cnt_zero_of_forall_ne _ _ _ (fun k hk => hall m k (by omega) hk)
  exact this u.n (Nat.le_refl _)

/-- The replay of `solvescore_` from a board with a valid completion, when `find` under the
preset of some tier up to `d` returns a move on every incomplete board between it and the
completion:
no assertion fails, the innermost call is made on a complete board that is not bad, one
slot of index at most `d` is charged per Unknown cell, and `solvescore_` returns true. -/
theorem replay_complete (d : Nat) (g : Nat → Nat → Nat) (fuel : Nat) :
    ∀ (u : tab_t) (tab : List Int), unk u < fuel → Inv u → IsSol u.n u.tab g →
    (∀ v, Inv v → u.n = v.n → Sub u.tab v.tab → IsSol v.n v.tab g → v.iscomplete = false →
      ∃ e mv, e ≤ d ∧ e < tdiff.length ∧ v.find (tdiff.getD e 0) = some (some mv)) →
    tab.length = 10 → (∀ k, d < k → tab.getD k 0 = 0) →
    ∃ w tab1, replayAux fuel u tab = some (true, w, tab1) ∧ w.iscomplete = true ∧
      w.isbad R_ALL = 0 ∧ solvescoreAux fuel u tab = some (true, tab1) ∧
      tab1.length = 10 ∧ tab1.sum = tab.sum + (unk u : Int) ∧
      (∀ k, d < k → tab1.getD k 0 = 0) := by
  induction fuel with
  | zero => intro u tab hf; omega
  | succ fuel ih =>
    intro u tab hf hu hg hK hlen hgood
    unfold replayAux solvescoreAux
    by_cases hc : u.iscomplete = true
    · rw [if_pos hc, if_pos hc]
      refine ⟨u, tab, rfl, hc, sol_not_bad u hu g hg, rfl, hlen, ?_, hgood⟩
      have hz : unk u = 0 := unk_complete u hu.toCnt hc
      rw [hz]; simp
    · rw [if_neg hc, if_neg hc]
      have hinc : u.iscomplete = false := by simpa using hc
      obtain ⟨e, mv, hed, hel, hmv⟩ := hK u hu rfl (sub_refl _) hg hinc
      obtain ⟨e1, ⟨i, j, x⟩, hle, hfind, hch⟩ := chargeFrom_spec u tab tdiff 0 e
        (fun r _ => find_total u r g hu hg) hel ⟨mv, hmv⟩
      rw [hch]
      simp only []
      obtain ⟨h1, h2, hut, hx⟩ := find_legal u _ i j x hu hfind
      have e1g := find_sol u _ i j x hu hfind g hg
      have hu1 := inv_set u i j x hu h1 h2 hut hx
      have hg1 : IsSol (u.set i j x).n (u.set i j x).tab g := by
        rw [← e1g]; exact isSol_set u g i j hg
      have hunk := unk_set u i j x h1 h2 hut hx
      have hlt : 0 + e1 < tab.length := by
        have : tdiff.length = 7 := rfl
        omega
      obtain ⟨w, tab1, r1, r2, r3, r4, r5, r6, r7⟩ := ih (u.set i j x)
        (tab.set (0 + e1) (tab.getD (0 + e1) 0 + 1)) (by omega) hu1 hg1
        (fun v hv hnv hsv hgv hcv => hK v hv (by rw [← hnv, set_n])
          (sub_trans (sub_upd u.tab i j x hut) (by rw [set_tab] at hsv; exact hsv)) hgv hcv)
        (by rw [List.length_set]; exact hlen)
        (fun k hk => by rw [getD_set_ne _ _ _ _ (by omega)]; exact hgood k hk)
      rw [r1, r4]
      simp only []
      have hnb : ¬ (u.set i j x).isbad R_ALL ≠ 0 := by
        rw [sol_not_bad _ hu1 g hg1]; simp
      rw [if_neg hnb, if_neg hnb]
      refine ⟨w, tab1, rfl, r2, r3, rfl, r5, ?_, r7⟩
      rw [r6, sum_set_succ tab _ hlt]
      omega

theorem score_diffFrom_le (tab : List Int) (d : Nat) (h : ∀ k, d < k → tab.getD k 0 = 0)
    (i : Nat) : score_diffFrom tab i ≤ (d : Int) := by
  induction i with
  | zero => simp only [score_diffFrom]; omega
  | succ i ih =>
    simp only [score_diffFrom]
    by_cases hz : tab.getD i 0 ≠ 0
    · rw [if_pos hz]
      have : ¬ d < i := fun hlt => hz (h i hlt)
      omega
    · rw [if_neg hz]; exact ih

theorem tdiff_rules (d : Nat) (hd : d < MDIFF) :
    tdiff.getD d 0 &&& R_3 ≠ 0 ∧ tdiff.getD d 0 &&& R_HALF ≠ 0 := by
  unfold MDIFF at hd
  interval_cases d <;> decide!

/-- C7. For every tier `d` in `0..6` and every board built from the empty board by legal
`set` calls on which `cansolve(tdiff[d])` returns true: the replay of `solvescore` passes
every assertion, it never gets stuck (its innermost call is made on a complete board that
is not bad, and returns true), `solvescore` returns true, the slots hold one charge for
each Unknown cell of the board, every slot of index above `d` is left at zero, and
`diff()` returns the value of `score_t::diff` on these slots, which is at most `d`. -/
theorem cansolve_tier_graded (t : tab_t) (d : Nat) (ht : Reach t) (hd : d < MDIFF)
    (h : t.cansolve (tdiff.getD d 0) = some true) :
    ∃ w tab, t.replay = some (true, w, tab) ∧ w.iscomplete = true ∧ w.isbad R_ALL = 0 ∧
      t.solvescore = some (true, tab) ∧ tab.sum = (unk t : Int) ∧
      (∀ k, d < k → tab.getD k 0 = 0) ∧
      t.diff = some (score_diff tab) ∧ score_diff tab ≤ (d : Int) := by
  have hI := ht.inv
  obtain ⟨h3, hH⟩ := tdiff_rules d hd
  have hn1 := cansolveLoop_nsol _ _ t hI h
  obtain ⟨g, hg⟩ := nsol_pos_sol _ t rfl hI (by omega)
  obtain ⟨w, tab, r1, r2, r3, r4, _, r6, r7⟩ := replay_complete d g (t.n * t.n + 1) t
    (List.replicate 10 0) (by have := unk_le t; omega) hI hg
    (fun v hv hnv hsv hgv hcv => by
      obtain ⟨m, hm⟩ := cansolveLoop_find _ h3 hH _ t hI h v g hv hnv hsv hgv hcv
      exact ⟨d, m, Nat.le_refl _, hd, hm⟩)
    (by simp) (fun k _ => by
      rw [List.getD_eq_getElem?_getD, List.getElem?_replicate]; split <;> rfl)
  refine ⟨w, tab, r1, r2, r3, r4, by simpa using r6, r7, ?_, score_diffFrom_le tab d r7 10⟩
  have r4a : t.solvescore = some (true, tab) := r4
  unfold diff
  rw [r4a]; rfl

set_option maxRecDepth 100000 in
/-- Witness for C7: the `2 × 2` board with `(0,0)=0` and `(1,1)=0`, which `cansolve` solves
under the preset of tier `0`. -/
theorem cansolve_tier_graded_witness :
    ∃ w tab, (((tab_t.init 2).set 0 0 0).set 1 1 0).replay = some (true, w, tab) ∧
      w.iscomplete = true ∧ w.isbad R_ALL = 0 ∧
      (((tab_t.init 2).set 0 0 0).set 1 1 0).solvescore = some (true, tab) ∧
      tab.sum = (unk (((tab_t.init 2).set 0 0 0).set 1 1 0) : Int) ∧
      (∀ k, 0 < k → tab.getD k 0 = 0) ∧
      (((tab_t.init 2).set 0 0 0).set 1 1 0).diff = some (score_diff tab) ∧
      score_diff tab ≤ ((0 : Nat) : Int) :=
  cansolve_tier_graded (((tab_t.init 2).set 0 0 0).set 1 1 0) 0
    (Reach.set 1 1 0 (Reach.set 0 0 0 (Reach.init 2 (by decide)) (by decide) (by decide)
      (by decide) (by decide)) (by decide) (by decide) (by decide!) (by decide))
    (by decide) (by decide!)


/-! ## Content of `copywithout` -/

theorem copywithout_fold (t : tab_t) (hC : Cnt t) (i j : Nat) (cs : List (Nat × Nat)) :
    ∀ (acc : tab_t), Reach acc → acc.n = t.n → cs.Nodup →
    (∀ c, c ∈ cs → c.1 < t.n ∧ c.2 < t.n ∧ acc.tab c.1 c.2 = UNK) →
    Reach (cs.foldl
      (fun acc c =>
        if c.1 ≠ i ∨ c.2 ≠ j then
          if t.get c.1 c.2 ≠ UNK then acc.set c.1 c.2 (t.get c.1 c.2) else acc
        else acc) acc) ∧
    (cs.foldl
      (fun acc c =>
        if c.1 ≠ i ∨ c.2 ≠ j then
          if t.get c.1 c.2 ≠ UNK then acc.set c.1 c.2 (t.get c.1 c.2) else acc
        else acc) acc).n = t.n ∧
    ∀ a b, (cs.foldl
      (fun acc c =>
        if c.1 ≠ i ∨ c.2 ≠ j then
          if t.get c.1 c.2 ≠ UNK then acc.set c.1 c.2 (t.get c.1 c.2) else acc
        else acc) acc).tab a b =
      if (a, b) ∈ cs ∧ ¬ (a = i ∧ b = j) ∧ t.tab a b ≠ UNK then t.tab a b else acc.tab a b := by
  induction cs with
  | nil => intro acc hr hn _ _; exact ⟨hr, hn, fun a b => by simp⟩
  | cons c cs ih =>
    intro acc hr hn hnd hc
    obtain ⟨ci, cj⟩ := c
    obtain ⟨hcn, hnd1⟩ := List.nodup_cons.mp hnd
    obtain ⟨c1, c2, c3⟩ := hc (ci, cj) (List.mem_cons_self _ _)
    simp only [] at c1 c2 c3
    rw [List.foldl_cons]
    simp only []
    by_cases hk : (ci ≠ i ∨ cj ≠ j) ∧ t.get ci cj ≠ UNK
    · rw [if_pos hk.1, if_pos hk.2]
      have hx : t.get ci cj ≤ 1 := by
        have h1 := hC.cell ci cj
        have h2 := hk.2
        simp only [UNK, tab_t.get] at h2 ⊢
        omega
      obtain ⟨r1, r2, r3⟩ := ih (acc.set ci cj (t.get ci cj))
        (Reach.set _ _ _ hr (hn ▸ c1) (hn ▸ c2) c3 hx) (by rw [set_n]; exact hn) hnd1
        (fun c' hc' => by
          obtain ⟨d1, d2, d3⟩ := hc c' (List.mem_cons_of_mem _ hc')
          refine ⟨d1, d2, ?_⟩
          rw [set_tab, upd_other _ _ _ _ _ _ (fun h => hcn (by
            have : c' = (ci, cj) := Prod.ext h.1 h.2
            rw [← this]; exact hc'))]
          exact d3)
      refine ⟨r1, r2, fun a b => ?_⟩
      rw [r3 a b, set_tab]
      by_cases hab : (a, b) ∈ cs
      · have hne : ¬ (a = ci ∧ b = cj) := fun h => hcn (by
          have : (a, b) = (ci, cj) := Prod.ext h.1 h.2
          rw [← this]; exact hab)
        rw [upd_other _ _ _ _ _ _ hne]
        have hm : (a, b) ∈ (ci, cj) :: cs := List.mem_cons_of_mem _ hab
        simp only [hab, hm, true_and]
      · rw [if_neg (fun h => hab h.1)]
        by_cases hac : a = ci ∧ b = cj
        · obtain ⟨rfl, rfl⟩ := hac
          rw [upd_same, if_pos ⟨List.mem_cons_self _ _, not_and_or.mpr hk.1, hk.2⟩]
          rfl
        · rw [upd_other _ _ _ _ _ _ hac, if_neg]
          rintro ⟨h, _⟩
          rcases List.mem_cons.mp h with h | h
          · exact hac ⟨congrArg Prod.fst h, congrArg Prod.snd h⟩
          · exact hab h
    · have e : (if ci ≠ i ∨ cj ≠ j then
            if t.get ci cj ≠ UNK then acc.set ci cj (t.get ci cj) else acc
          else acc) = acc := by
        by_cases h1 : ci ≠ i ∨ cj ≠ j
        · rw [if_pos h1, if_neg (fun h2 => hk ⟨h1, h2⟩)]
        · rw [if_neg h1]
      rw [e]
      obtain ⟨r1, r2, r3⟩ := ih acc hr hn hnd1
        (fun c' hc' => hc c' (List.mem_cons_of_mem _ hc'))
      refine ⟨r1, r2, fun a b => ?_⟩
      rw [r3 a b]
      by_cases hab : (a, b) ∈ cs
      · have hm : (a, b) ∈ (ci, cj) :: cs := List.mem_cons_of_mem _ hab
        simp only [hab, hm, true_and]
      · rw [if_neg (fun h => hab h.1), if_neg]
        rintro ⟨h, h2, h3⟩
        rcases List.mem_cons.mp h with h | h
        · have ea : a = ci := congrArg Prod.fst h
          have eb : b = cj := congrArg Prod.snd h
          subst ea; subst eb
          exact hk ⟨not_and_or.mp h2, h3⟩
        · exact hab h

/-- The board `copywithout(t,i,j)`: it is built by legal `set` calls, has the size of `t`
and holds the grid of `t` with the cell `(i,j)` Unknown. -/
theorem copywithout_spec (t : tab_t) (hC : Cnt t) (i j : Nat) :
    Reach (t.copywithout i j) ∧ (t.copywithout i j).n = t.n ∧
      (t.copywithout i j).tab = upd t.tab i j UNK := by
  obtain ⟨r1, r2, r3⟩ := copywithout_fold t hC i j (cells t.n) (tab_t.init t.n)
    (Reach.init t.n hC.size) rfl (nodup_cells t.n)
    (fun c hc => ⟨((mem_cells t.n c).mp hc).1, ((mem_cells t.n c).mp hc).2, rfl⟩)
  refine ⟨r1, r2, ?_⟩
  funext a b
  have e := r3 a b
  have e0 : (tab_t.init t.n).tab a b = UNK := rfl
  rw [e0] at e
  show (List.foldl _ (tab_t.init t.n) (cells t.n)).tab a b = _
  rw [e]
  unfold upd
  by_cases hab : a = i ∧ b = j
  · rw [if_pos hab, if_neg (fun h => h.2.1 hab)]
  · rw [if_neg hab]
    by_cases hu : t.tab a b = UNK
    · rw [if_neg (fun h => h.2.2 hu), hu]
    · rw [if_pos ⟨(mem_cells t.n (a, b)).mpr (by
        by_contra hc
        exact hu (hC.out a b hc)), hab, hu⟩]


/-! ## What a replay that ends on a complete board tells (C8) -/

theorem getD_set_self (tab : List Int) (a : Nat) (v : Int) (h : a < tab.length) :
    (tab.set a v).getD a 0 = v := by
  simp [List.getD_eq_getElem?_getD, List.getElem?_set, h]

theorem getD_set_le (tab : List Int) (a k : Nat) (h : a < tab.length) :
    tab.getD k 0 ≤ (tab.set a (tab.getD a 0 + 1)).getD k 0 := by
  by_cases hk : a = k
  · subst hk
    rw [getD_set_self tab a _ h]; omega
  · rw [getD_set_ne tab a k _ hk]

/-- Where a charge of the charging loop of `solvescore_` comes from. -/
theorem chargeFrom_some (t : tab_t) (tab : List Int) (rs : List Nat) :
    ∀ (d0 : Nat) (m : Nat × Nat × Nat) (tab2 : List Int),
    chargeFrom t tab rs d0 = some (some m, tab2) →
    ∃ e, e < rs.length ∧ t.find (rs.getD e 0) = some (some m) ∧
      tab2 = tab.set (d0 + e) (tab.getD (d0 + e) 0 + 1) := by
  induction rs with
  | nil => intro d0 m tab2 h; simp [chargeFrom] at h
  | cons r rs ih =>
    intro d0 m tab2 h
    unfold chargeFrom at h
    cases hf : t.find r with
    | none => rw [hf] at h; simp at h
    | some o =>
      rw [hf] at h
      cases o with
      | some m1 =>
        simp only [Option.some.injEq, Prod.mk.injEq] at h
        obtain ⟨h1, h2⟩ := h
        subst h1
        exact ⟨0, by simp, by simpa using hf, h2.symm⟩
      | none =>
        simp only [] at h
        obtain ⟨e, he, h1, h2⟩ := ih (d0 + 1) m tab2 h
        exact ⟨e + 1, by simpa using he, by rw [List.getD_cons_succ]; exact h1,
          by rw [h2, show d0 + 1 + e = d0 + (e + 1) by omega]⟩

/-- One step of a replay that ends on a complete board, from an incomplete board. -/
theorem replayAux_true_step (fuel : Nat) (u : tab_t) (tab : List Int) (w : tab_t)
    (tab1 : List Int) (hinc : u.iscomplete = false)
    (h : replayAux (fuel + 1) u tab = some (true, w, tab1)) :
    ∃ e i j x, e < tdiff.length ∧ u.find (tdiff.getD e 0) = some (some (i, j, x)) ∧
      (u.set i j x).isbad R_ALL = 0 ∧
      replayAux fuel (u.set i j x) (tab.set e (tab.getD e 0 + 1)) = some (true, w, tab1) := by
  unfold replayAux at h
  rw [if_neg (by rw [hinc]; simp)] at h
  cases hch : chargeFrom u tab tdiff 0 with
  | none => rw [hch] at h; simp at h
  | some p =>
    rw [hch] at h
    obtain ⟨o, tab2⟩ := p
    cases o with
    | none => simp at h
    | some m =>
      obtain ⟨i, j, x⟩ := m
      simp only [] at h
      obtain ⟨e, he, hf, ht⟩ := chargeFrom_some u tab tdiff 0 (i, j, x) tab2 hch
      rw [Nat.zero_add] at ht
      cases hr : replayAux fuel (u.set i j x) tab2 with
      | none => rw [hr] at h; simp at h
      | some r =>
        rw [hr] at h
        simp only [] at h
        by_cases hb : (u.set i j x).isbad R_ALL ≠ 0
        · rw [if_pos hb] at h; simp at h
        · rw [if_neg hb] at h
          simp only [Option.some.injEq] at h
          subst h
          exact ⟨e, i, j, x, he, hf, by simpa using hb, by rw [← ht]; exact hr⟩

theorem replayAux_complete (fuel : Nat) (u : tab_t) (tab : List Int) (w : tab_t)
    (tab1 : List Int) (hc : u.iscomplete = true)
    (h : replayAux fuel u tab = some (true, w, tab1)) : w = u ∧ tab1 = tab := by
  cases fuel with
  | zero => simp [replayAux] at h
  | succ fuel =>
    unfold replayAux at h
    rw [if_pos hc] at h
    simp only [Option.some.injEq, Prod.mk.injEq, true_and] at h
    exact ⟨h.1.symm, h.2.symm⟩

/-- The slots never decrease along a replay and their number is kept. -/
theorem replayAux_slots (fuel : Nat) : ∀ (u : tab_t) (tab : List Int) (w : tab_t)
    (tab1 : List Int), 7 ≤ tab.length → replayAux fuel u tab = some (true, w, tab1) →
    tab1.length = tab.length ∧ ∀ k, tab.getD k 0 ≤ tab1.getD k 0 := by
  induction fuel with
  | zero => intro u tab w tab1 _ h; simp [replayAux] at h
  | succ fuel ih =>
    intro u tab w tab1 hl h
    by_cases hc : u.iscomplete = true
    · obtain ⟨_, rfl⟩ := replayAux_complete _ u tab w tab1 hc h
      exact ⟨rfl, fun k => Int.le_refl _⟩
    · obtain ⟨e, i, j, x, he, _, _, hr⟩ := replayAux_true_step fuel u tab w tab1
        (by simpa using hc) h
      have he7 : e < tab.length := by
        have : tdiff.length = 7 := rfl
        omega
      obtain ⟨r1, r2⟩ := ih _ _ w tab1 (by rw [List.length_set]; exact hl) hr
      rw [List.length_set] at r1
      exact ⟨r1, fun k => Int.le_trans (getD_set_le tab e k he7) (r2 k)⟩

/-- A replay from an incomplete board that ends on a complete board ends on a completion
of the board that passed the assertion `!isbad()`. -/
theorem replayAux_sound (fuel : Nat) : ∀ (u : tab_t) (tab : List Int) (w : tab_t)
    (tab1 : List Int), Inv u → u.iscomplete = false →
    replayAux fuel u tab = some (true, w, tab1) →
    Inv w ∧ w.n = u.n ∧ Sub u.tab w.tab ∧ w.iscomplete = true ∧ w.isbad R_ALL = 0 := by
  induction fuel with
  | zero => intro u tab w tab1 _ _ h; simp [replayAux] at h
  | succ fuel ih =>
    intro u tab w tab1 hu hinc h
    obtain ⟨e, i, j, x, he, hf, hnb, hr⟩ := replayAux_true_step fuel u tab w tab1 hinc h
    obtain ⟨h1, h2, hut, hx⟩ := find_legal u _ i j x hu hf
    have hu1 := inv_set u i j x hu h1 h2 hut hx
    have hs1 : Sub u.tab (u.set i j x).tab := by rw [set_tab]; exact sub_upd u.tab i j x hut
    by_cases hc : (u.set i j x).iscomplete = true
    · obtain ⟨rfl, _⟩ := replayAux_complete _ _ _ w tab1 hc hr
      exact ⟨hu1, set_n u i j x, hs1, hc, hnb⟩
    · obtain ⟨r1, r2, r3, r4, r5⟩ := ih _ _ w tab1 hu1 (by simpa using hc) hr
      exact ⟨r1, r2.trans (set_n u i j x), sub_trans hs1 r3, r4, r5⟩

theorem isSol_of_complete (u w : tab_t) (hw : Inv w) (hn : w.n = u.n) (hs : Sub u.tab w.tab)
    (hc : w.iscomplete = true) (hb : w.isbad R_ALL = 0) : IsSol u.n u.tab w.tab := by
  obtain ⟨h3, hH, hD⟩ := (isbad_all_iff w hw).mp hb
  rw [← hn]
  refine ⟨hs, fun a b ha hb1 => ?_, hw.out, h3, hH, hD⟩
  have h1 := (iscomplete_iff w hw.toCnt).mp hc a b ha hb1
  have h2 := hw.cell a b
  simp only [UNK] at h1
  omega

theorem complete_mono (t u : tab_t) (ht : Cnt t) (hu : Cnt u) (hn : t.n = u.n)
    (hs : Sub t.tab u.tab) (hc : t.iscomplete = true) : u.iscomplete = true := by
  rw [iscomplete_iff u hu]
  intro i j hi hj
  have hne := (iscomplete_iff t ht).mp hc i j (hn ▸ hi) (hn ▸ hj)
  rw [hs i j hne]; exact hne

/-- When a replay ends on a complete board, every incomplete board between its start and
the completion has a move under some preset whose slot the replay charged. -/
theorem replayAux_find (g : Nat → Nat → Nat) (fuel : Nat) : ∀ (u : tab_t) (tab : List Int)
    (w : tab_t) (tab1 : List Int), Inv u → IsSol u.n u.tab g → 7 ≤ tab.length →
    (∀ k, 0 ≤ tab.getD k 0) → replayAux fuel u tab = some (true, w, tab1) →
    ∀ v, Inv v → u.n = v.n → Sub u.tab v.tab → IsSol v.n v.tab g → v.iscomplete = false →
      ∃ e m, e < tdiff.length ∧ 0 < tab1.getD e 0 ∧
        v.find (tdiff.getD e 0) = some (some m) := by
  induction fuel with
  | zero => intro u tab w tab1 _ _ _ _ h; simp [replayAux] at h
  | succ fuel ih =>
    intro u tab w tab1 hu hg hl hpos h v hv hn hs hgv hinc
    by_cases hc : u.iscomplete = true
    · have := complete_mono u v hu.toCnt hv.toCnt hn hs hc
      rw [this] at hinc; exact absurd hinc (by simp)
    · obtain ⟨e, i, j, x, he, hf, hnb, hr⟩ := replayAux_true_step fuel u tab w tab1
        (by simpa using hc) h
      have he7 : e < tab.length := by
        have : tdiff.length = 7 := rfl
        omega
      obtain ⟨h1, h2, hut, hx⟩ := find_legal u _ i j x hu hf
      have e1g := find_sol u _ i j x hu hf g hg
      by_cases hij : v.tab i j = UNK
      · obtain ⟨h3, hH⟩ := tdiff_rules e he
        obtain ⟨m, hm⟩ := find_mono u v _ i j x hu hv hn hs h3 hH g hgv hf hij
        refine ⟨e, m, he, ?_, hm⟩
        have s1 := (replayAux_slots fuel _ _ w tab1 (by rw [List.length_set]; exact hl) hr).2 e
        rw [getD_set_self tab e _ he7] at s1
        have := hpos e
        omega
      · have hu1 := inv_set u i j x hu h1 h2 hut hx
        have hg1 : IsSol (u.set i j x).n (u.set i j x).tab g := by
          rw [← e1g]; exact isSol_set u g i j hg
        have e2 := hgv.1 i j hij
        apply ih (u.set i j x) _ w tab1 hu1 hg1 (by rw [List.length_set]; exact hl) _ hr v hv
          (by rw [set_n]; exact hn) _ hgv hinc
        · intro k
          have := getD_set_le tab e k he7
          have := hpos k
          omega
        · rw [set_tab]
          exact sub_upd_left _ _ _ _ _ hs (by rw [← e2]; exact e1g)

theorem le_score_diffFrom (tab : List Int) (e : Nat) (h : tab.getD e 0 ≠ 0) (i : Nat)
    (hi : e < i) : (e : Int) ≤ score_diffFrom tab i := by
  induction i with
  | zero => omega
  | succ i ih =>
    simp only [score_diffFrom]
    by_cases hz : tab.getD i 0 ≠ 0
    · rw [if_pos hz]; omega
    · rw [if_neg hz]
      have : e ≠ i := fun hc => hz (hc ▸ h)
      exact ih (by omega)

theorem score_diffFrom_ge (tab : List Int) (i : Nat) : -1 ≤ score_diffFrom tab i := by
  induction i with
  | zero => simp [score_diffFrom]
  | succ i ih =>
    simp only [score_diffFrom]
    split
    · omega
    · exact ih


/-! ## Grading under hole punching (C8) -/

/-- Two boards with a common valid completion, the second with more cells assigned: when
the replay of the first ends on a complete board, so does the replay of the second, with
one charge per Unknown cell and a grade that is not higher. -/
theorem replay_le (t u : tab_t) (g : Nat → Nat → Nat) (ht : Inv t) (hu : Inv u)
    (hn : t.n = u.n) (hs : Sub t.tab u.tab) (hg : IsSol u.n u.tab g) (wt : tab_t)
    (tabt : List Int) (h : t.replay = some (true, wt, tabt)) :
    ∃ wu tabu, u.replay = some (true, wu, tabu) ∧ u.solvescore = some (true, tabu) ∧
      tabu.sum = (unk u : Int) ∧ score_diff tabu ≤ score_diff tabt := by
  have hgt : IsSol t.n t.tab g := ⟨sub_trans hs hg.1, hn ▸ hg.2⟩
  have hz : ∀ k, (List.replicate 10 (0 : Int)).getD k 0 = 0 := fun k => by
    rw [List.getD_eq_getElem?_getD, List.getElem?_replicate]; split <;> rfl
  have hK := replayAux_find g _ t (List.replicate 10 0) wt tabt ht hgt (by simp)
    (fun k => by rw [hz k]) h
  have h7 : tdiff.length = 7 := rfl
  by_cases hc : u.iscomplete = true
  · refine ⟨u, List.replicate 10 0, ?_, ?_, ?_, ?_⟩
    · unfold replay replayAux; rw [if_pos hc]
    · unfold solvescore solvescoreAux; rw [if_pos hc]
    · rw [unk_complete u hu.toCnt hc]; simp
    · have e : score_diff (List.replicate 10 0) = -1 := by decide
      rw [e]; exact score_diffFrom_ge tabt 10
  · have hinc : u.iscomplete = false := by simpa using hc
    obtain ⟨e0, m0, he0, hp0, _⟩ := hK u hu hn hs hg hinc
    have hD : (e0 : Int) ≤ score_diffFrom tabt 10 :=
      le_score_diffFrom tabt e0 (by omega) 10 (by omega)
    obtain ⟨wu, tabu, r1, _, _, r4, _, r6, r7⟩ := replay_complete (score_diffFrom tabt 10).toNat g
      (u.n * u.n + 1) u (List.replicate 10 0) (by have := unk_le u; omega) hu hg
      (fun v hv hnv hsv hgv hcv => by
        obtain ⟨e, m, he, hp, hm⟩ := hK v hv (hn.trans hnv) (sub_trans hs hsv) hgv hcv
        have := le_score_diffFrom tabt e (by omega) 10 (by omega)
        exact ⟨e, m, by omega, he, hm⟩)
      (by simp) (fun k _ => hz k)
    refine ⟨wu, tabu, r1, r4, by simpa using r6, ?_⟩
    have := score_diffFrom_le tabu _ r7 10
    show score_diffFrom tabu 10 ≤ score_diffFrom tabt 10
    omega

/-- C8 (amended). For every board `b` built from the empty board by legal `set` calls and
every assigned cell `(i,j)` of the grid: if the replay of `solvescore` ends on a complete
board both on `b` and on `copywithout(b,i,j)`, then `solvescore` returns true on both, the
value of `diff()` on `b` is at most its value on `copywithout(b,i,j)`, and the signature of
`copywithout(b,i,j)` holds exactly one more charge than the signature of `b`. -/
theorem diff_monotone_under_hole (b : tab_t) (i j : Nat) (hb : Reach b) (hi : i < b.n)
    (hj : j < b.n) (ha : b.get i j ≠ UNK)
    (h : (b.replay).map (fun r => r.1) = some true)
    (h1 : ((b.copywithout i j).replay).map (fun r => r.1) = some true) :
    ∃ tab tab1, b.solvescore = some (true, tab) ∧
      (b.copywithout i j).solvescore = some (true, tab1) ∧
      b.diff = some (score_diff tab) ∧ (b.copywithout i j).diff = some (score_diff tab1) ∧
      score_diff tab ≤ score_diff tab1 ∧ tab1.sum = tab.sum + 1 := by
  have hI := hb.inv
  obtain ⟨rc, nc, tc⟩ := copywithout_spec b hI.toCnt i j
  have hI1 := rc.inv
  have hsub : Sub (b.copywithout i j).tab b.tab := by
    rw [tc]
    intro a c hac
    by_cases hk : a = i ∧ c = j
    · obtain ⟨rfl, rfl⟩ := hk
      rw [upd_same] at hac; exact absurd rfl hac
    · rw [upd_other _ _ _ _ _ _ hk]
  have hu1 : (b.copywithout i j).tab i j = UNK := by rw [tc, upd_same]
  have hinc1 : (b.copywithout i j).iscomplete = false := by
    cases hc : (b.copywithout i j).iscomplete
    · rfl
    · exact absurd hu1 ((iscomplete_iff _ hI1.toCnt).mp hc i j (nc ▸ hi) (nc ▸ hj))
  have hunk : unk (b.copywithout i j) = unk b + 1 := by
    unfold unk
    rw [nc, tc]
    have e := unkRows_upd (upd b.tab i j UNK) b.n i j (b.tab i j) b.n hj (upd_same _ _ _ _) ha
    rw [if_pos hi] at e
    have e2 : upd (upd b.tab i j UNK) i j (b.tab i j) = b.tab := by
      funext a c
      unfold upd
      by_cases hk : a = i ∧ c = j
      · obtain ⟨rfl, rfl⟩ := hk; simp
      · simp [hk]
    rw [e2] at e
    omega
  cases hr : b.replay with
  | none => rw [hr] at h; simp at h
  | some r =>
    obtain ⟨bo, w, tab⟩ := r
    rw [hr] at h
    simp only [Option.map_some', Option.some.injEq] at h
    subst h
    cases hr1 : (b.copywithout i j).replay with
    | none => rw [hr1] at h1; simp at h1
    | some r1 =>
      obtain ⟨bo1, w1, tab1⟩ := r1
      rw [hr1] at h1
      simp only [Option.map_some', Option.some.injEq] at h1
      subst h1
      have hdiff : ∀ (t : tab_t) (tb : List Int), t.solvescore = some (true, tb) →
          t.diff = some (score_diff tb) := by
        intro t tb ht
        unfold diff
        rw [ht]; rfl
      obtain ⟨s1, s2, s3, s4, s5⟩ := replayAux_sound _ _ _ w1 tab1 hI1 hinc1 hr1
      have hg1 := isSol_of_complete (b.copywithout i j) w1 s1 s2 s3 s4 s5
      obtain ⟨wa, taba, a1, a2, a3, _⟩ := replay_le _ _ w1.tab hI1 hI1 rfl (sub_refl _) hg1
        w1 tab1 hr1
      rw [hr1] at a1
      simp only [Option.some.injEq, Prod.mk.injEq, true_and] at a1
      obtain ⟨_, rfl⟩ := a1
      by_cases hc : b.iscomplete = true
      · obtain ⟨_, rfl⟩ := replayAux_complete _ b _ w tab hc hr
        have hs0 : b.solvescore = some (true, List.replicate 10 0) := by
          unfold solvescore solvescoreAux; rw [if_pos hc]
        refine ⟨_, _, hs0, a2, hdiff _ _ hs0, hdiff _ _ a2, ?_, ?_⟩
        · have e : score_diff (List.replicate 10 0) = -1 := by decide
          rw [e]; exact score_diffFrom_ge tab1 10
        · rw [a3, hunk, unk_complete b hI.toCnt hc]; simp
      · obtain ⟨q1, q2, q3, q4, q5⟩ := replayAux_sound _ _ _ w tab hI (by simpa using hc) hr
        have hg := isSol_of_complete b w q1 q2 q3 q4 q5
        obtain ⟨wb, tabb, b1, b2, b3, b4⟩ := replay_le _ b w.tab hI1 hI nc hsub hg w1 tab1 hr1
        rw [hr] at b1
        simp only [Option.some.injEq, Prod.mk.injEq, true_and] at b1
        obtain ⟨_, rfl⟩ := b1
        refine ⟨_, _, b2, a2, hdiff _ _ b2, hdiff _ _ a2, b4, ?_⟩
        rw [a3, b3, hunk]; simp

set_option maxRecDepth 100000 in
/-- Witness for the amended C8: the `2 × 2` board with `(0,0)=0` and `(1,1)=0`, and the
hole at `(1,1)`. -/
theorem diff_monotone_under_hole_witness :
    ∃ tab tab1, (((tab_t.init 2).set 0 0 0).set 1 1 0).solvescore = some (true, tab) ∧
      ((((tab_t.init 2).set 0 0 0).set 1 1 0).copywithout 1 1).solvescore
        = some (true, tab1) ∧
      (((tab_t.init 2).set 0 0 0).set 1 1 0).diff = some (score_diff tab) ∧
      ((((tab_t.init 2).set 0 0 0).set 1 1 0).copywithout 1 1).diff
        = some (score_diff tab1) ∧
      score_diff tab ≤ score_diff tab1 ∧ tab1.sum = tab.sum + 1 :=
  diff_monotone_under_hole (((tab_t.init 2).set 0 0 0).set 1 1 0) 1 1
    (Reach.set 1 1 0 (Reach.set 0 0 0 (Reach.init 2 (by decide)) (by decide) (by decide)
      (by decide) (by decide)) (by decide) (by decide) (by decide!) (by decide))
    (by decide) (by decide) (by decide!) (by decide!) (by decide!)

set_option maxRecDepth 1000000 in
/-- Counterexample to C8 as stated: on the `6 × 6` board with rows `100110`, `1010..`,
`010101`, `1001..`, `011..0`, `0110..` the replay of `solvescore` ends on a complete board
with signature `6 1 0 0 1 0 0`; on the board without the cell `(4,5)` it ends on a complete
board with signature `8 0 0 0 1 0 0`, which is smaller in the `score_t` order. -/
theorem signature_not_monotone_counterexample :
    ((List.foldl (fun t c => t.set c.1 c.2.1 c.2.2) (tab_t.init 6)
      [(0, 0, 1), (0, 1, 0), (0, 2, 0), (0, 3, 1), (0, 4, 1), (0, 5, 0), (1, 0, 1), (1, 1, 0),
       (1, 2, 1), (1, 3, 0), (2, 0, 0), (2, 1, 1), (2, 2, 0), (2, 3, 1), (2, 4, 0), (2, 5, 1),
       (3, 0, 1), (3, 1, 0), (3, 2, 0), (3, 3, 1), (4, 0, 0), (4, 1, 1), (4, 2, 1), (4, 5, 0),
       (5, 0, 0), (5, 1, 1), (5, 2, 1), (5, 3, 0)]).replay).map
      (fun r => (r.1, r.2.1.iscomplete, r.2.2))
        = some (true, true, [6, 1, 0, 0, 1, 0, 0, 0, 0, 0]) ∧
    (List.foldl (fun t c => t.set c.1 c.2.1 c.2.2) (tab_t.init 6)
      [(0, 0, 1), (0, 1, 0), (0, 2, 0), (0, 3, 1), (0, 4, 1), (0, 5, 0), (1, 0, 1), (1, 1, 0),
       (1, 2, 1), (1, 3, 0), (2, 0, 0), (2, 1, 1), (2, 2, 0), (2, 3, 1), (2, 4, 0), (2, 5, 1),
       (3, 0, 1), (3, 1, 0), (3, 2, 0), (3, 3, 1), (4, 0, 0), (4, 1, 1), (4, 2, 1), (4, 5, 0),
       (5, 0, 0), (5, 1, 1), (5, 2, 1), (5, 3, 0)]).solvescore
        = some (true, [6, 1, 0, 0, 1, 0, 0, 0, 0, 0]) ∧
    (((List.foldl (fun t c => t.set c.1 c.2.1 c.2.2) (tab_t.init 6)
      [(0, 0, 1), (0, 1, 0), (0, 2, 0), (0, 3, 1), (0, 4, 1), (0, 5, 0), (1, 0, 1), (1, 1, 0),
       (1, 2, 1), (1, 3, 0), (2, 0, 0), (2, 1, 1), (2, 2, 0), (2, 3, 1), (2, 4, 0), (2, 5, 1),
       (3, 0, 1), (3, 1, 0), (3, 2, 0), (3, 3, 1), (4, 0, 0), (4, 1, 1), (4, 2, 1), (4, 5, 0),
       (5, 0, 0), (5, 1, 1), (5, 2, 1), (5, 3, 0)]).copywithout 4 5).replay).map
      (fun r => (r.1, r.2.1.iscomplete, r.2.2))
        = some (true, true, [8, 0, 0, 0, 1, 0, 0, 0, 0, 0]) ∧
    ((List.foldl (fun t c => t.set c.1 c.2.1 c.2.2) (tab_t.init 6)
      [(0, 0, 1), (0, 1, 0), (0, 2, 0), (0, 3, 1), (0, 4, 1), (0, 5, 0), (1, 0, 1), (1, 1, 0),
       (1, 2, 1), (1, 3, 0), (2, 0, 0), (2, 1, 1), (2, 2, 0), (2, 3, 1), (2, 4, 0), (2, 5, 1),
       (3, 0, 1), (3, 1, 0), (3, 2, 0), (3, 3, 1), (4, 0, 0), (4, 1, 1), (4, 2, 1), (4, 5, 0),
       (5, 0, 0), (5, 1, 1), (5, 2, 1), (5, 3, 0)]).copywithout 4 5).solvescore
        = some (true, [8, 0, 0, 0, 1, 0, 0, 0, 0, 0]) ∧
    score_lt [8, 0, 0, 0, 1, 0, 0, 0, 0, 0] [6, 1, 0, 0, 1, 0, 0, 0, 0, 0] = true := by
  decide!


/-! ## Flags and counters of `set` (C11, C12, C19) -/

/-- C11 (amended). For every board built from the empty board by legal `set` calls and
every legal `set(i,j,x)`: if neither `bad3` nor `badH` is set after the call and row `i` is
then fully assigned and identical to another fully assigned row, or column `j` is then
fully assigned and identical to another fully assigned column, `badD` is set after the
call; if `bad3` or `badH` is set after the call, the call leaves `badD` as it was. -/
theorem set_records_duplicate (t : tab_t) (i j x : Nat) (ht : Reach t) (hi : i < t.n)
    (hj : j < t.n) (hu : t.get i j = UNK) (hx : x ≤ 1) :
    ((t.set i j x).bad3 = false → (t.set i j x).badH = false →
      (DupAt t.n (t.set i j x).tab i ∨ DupAt t.n (col (t.set i j x).tab) j) →
      (t.set i j x).badD = true) ∧
    (((t.set i j x).bad3 = true ∨ (t.set i j x).badH = true) →
      (t.set i j x).badD = t.badD) := by
  obtain ⟨_, _, hD⟩ := set_flags t i j x ht.inv hi hj hu hx
  constructor
  · intro h3 hH hd
    rw [set_tab] at hd
    exact hD.mpr (Or.inr ⟨h3, hH, hd⟩)
  · intro hb
    cases e : t.badD
    · cases e1 : (t.set i j x).badD
      · rfl
      · rcases hD.mp e1 with h | ⟨h3, hH, _⟩
        · rw [e] at h; exact absurd h (by simp)
        · rcases hb with hb | hb
          · rw [h3] at hb; exact absurd hb (by simp)
          · rw [hH] at hb; exact absurd hb (by simp)
    · exact hD.mpr (Or.inl e)

/-- Witness for the amended C11. On the `4 × 4` board with rows `0011` and `001.` the call
`set(1,3,1)` is legal; after it neither `bad3` nor `badH` is set, row `1` is fully assigned
and identical to the fully assigned row `0`, and `badD` is set. On the `4 × 4` board with
row `000.` both `bad3` and `badH` are set, they stay set after the legal call `set(1,0,1)`,
and `badD` is as it was. -/
theorem set_records_duplicate_witness :
    (((((((((((tab_t.init 4).set 0 0 0).set 0 1 0).set 0 2 1).set 0 3 1).set 1 0 0).set 1 1 0).set 1 2 1).set 1 3 1).bad3 = false ∧
      (((((((((tab_t.init 4).set 0 0 0).set 0 1 0).set 0 2 1).set 0 3 1).set 1 0 0).set 1 1 0).set 1 2 1).set 1 3 1).badH = false ∧
      DupAt 4 (((((((((tab_t.init 4).set 0 0 0).set 0 1 0).set 0 2 1).set 0 3 1).set 1 0 0).set 1 1 0).set 1 2 1).set 1 3 1).tab 1) ∧
    (((((((((tab_t.init 4).set 0 0 0).set 0 1 0).set 0 2 1).set 0 3 1).set 1 0 0).set 1 1 0).set 1 2 1).set 1 3 1).badD = true) ∧
    ((((((tab_t.init 4).set 0 0 0).set 0 1 0).set 0 2 0).set 1 0 1).bad3 = true ∧
    (((((tab_t.init 4).set 0 0 0).set 0 1 0).set 0 2 0).set 1 0 1).badD = ((((tab_t.init 4).set 0 0 0).set 0 1 0).set 0 2 0).badD) :=
  have hd : DupAt 4 (((((((((tab_t.init 4).set 0 0 0).set 0 1 0).set 0 2 1).set 0 3 1).set 1 0 0).set 1 1 0).set 1 2 1).set 1 3 1).tab 1 := by
    unfold DupAt Full Same
    decide
  ⟨⟨⟨by decide, by decide, hd⟩,
   (set_records_duplicate ((((((((tab_t.init 4).set 0 0 0).set 0 1 0).set 0 2 1).set 0 3 1).set 1 0 0).set 1 1 0).set 1 2 1) 1 3 1
      (Reach.set 1 2 1 (Reach.set 1 1 0 (Reach.set 1 0 0 (Reach.set 0 3 1 (Reach.set 0 2 1 (Reach.set 0 1 0 (Reach.set 0 0 0 (Reach.init 4 (by decide)) (by decide) (by decide) (by decide) (by decide)) (by decide) (by decide) (by decide) (by decide)) (by decide) (by decide) (by decide) (by decide)) (by decide) (by decide) (by decide) (by decide)) (by decide) (by decide) (by decide) (by decide)) (by decide) (by decide) (by decide) (by decide)) (by decide) (by decide) (by decide) (by decide))
      (by decide) (by decide) (by decide) (by decide)).1 (by decide) (by decide) (Or.inl hd)⟩,
   ⟨by decide,
   (set_records_duplicate ((((tab_t.init 4).set 0 0 0).set 0 1 0).set 0 2 0) 1 0 1
      (Reach.set 0 2 0 (Reach.set 0 1 0 (Reach.set 0 0 0 (Reach.init 4 (by decide)) (by decide) (by decide) (by decide) (by decide)) (by decide) (by decide) (by decide) (by decide)) (by decide) (by decide) (by decide) (by decide))
      (by decide) (by decide) (by decide) (by decide)).2 (Or.inl (by decide))⟩⟩

/-- Counterexample to C11 as stated: after `set(0,0,0)`, `set(0,1,0)` and `set(1,0,0)` on
the empty `2 × 2` board the call `set(1,1,0)` is legal; after it row `1` is fully assigned
and identical to the fully assigned row `0`, and `badD` is not set, because `badH` is. -/
theorem set_duplicate_not_recorded_counterexample :
    ((((tab_t.init 2).set 0 0 0).set 0 1 0).set 1 0 0).get 1 1 = UNK ∧
    DupAt 2 (((((tab_t.init 2).set 0 0 0).set 0 1 0).set 1 0 0).set 1 1 0).tab 1 ∧
    (((((tab_t.init 2).set 0 0 0).set 0 1 0).set 1 0 0).set 1 1 0).badH = true ∧
    (((((tab_t.init 2).set 0 0 0).set 0 1 0).set 1 0 0).set 1 1 0).badD = false := by
  refine ⟨by decide, ?_, by decide, by decide⟩
  unfold DupAt Full Same
  decide

/-- C12. On every board built from the empty board by legal `set` calls, `bad3` is set
exactly when some row or column holds three consecutive equal assigned cells, and `badH`
exactly when some row or column holds more than `n/2` zeros or more than `n/2` ones; a
further `set` call clears neither flag. -/
theorem flags_record_violations (t : tab_t) (ht : Reach t) :
    (t.bad3 = true ↔ Triple t.n t.tab) ∧ (t.badH = true ↔ Half t.n t.tab) ∧
    ∀ i j x, (t.bad3 = true → (t.set i j x).bad3 = true) ∧
      (t.badH = true → (t.set i j x).badH = true) := by
  refine ⟨ht.inv.b3, ht.inv.bH, fun i j x => ?_⟩
  obtain ⟨_, _, _, _, _, _, _, _, f9, f10⟩ := set_fields t i j x
  exact ⟨fun h => by rw [f9]; exact (mid_bad3 t i j x).mpr (Or.inl h),
    fun h => by rw [f10]; exact (mid_badH t i j x).mpr (Or.inl h)⟩

/-- Witness for C12: the `4 × 4` board with `(0,0)=0`, `(0,1)=0` and `(0,2)=0`. -/
theorem flags_record_violations_witness :
    (((((tab_t.init 4).set 0 0 0).set 0 1 0).set 0 2 0).bad3 = true ↔
      Triple ((((tab_t.init 4).set 0 0 0).set 0 1 0).set 0 2 0).n
        ((((tab_t.init 4).set 0 0 0).set 0 1 0).set 0 2 0).tab) ∧
    (((((tab_t.init 4).set 0 0 0).set 0 1 0).set 0 2 0).badH = true ↔
      Half ((((tab_t.init 4).set 0 0 0).set 0 1 0).set 0 2 0).n
        ((((tab_t.init 4).set 0 0 0).set 0 1 0).set 0 2 0).tab) ∧
    ∀ i j x,
      (((((tab_t.init 4).set 0 0 0).set 0 1 0).set 0 2 0).bad3 = true →
        (((((tab_t.init 4).set 0 0 0).set 0 1 0).set 0 2 0).set i j x).bad3 = true) ∧
      (((((tab_t.init 4).set 0 0 0).set 0 1 0).set 0 2 0).badH = true →
        (((((tab_t.init 4).set 0 0 0).set 0 1 0).set 0 2 0).set i j x).badH = true) :=
  flags_record_violations ((((tab_t.init 4).set 0 0 0).set 0 1 0).set 0 2 0)
    (Reach.set 0 2 0 (Reach.set 0 1 0 (Reach.set 0 0 0 (Reach.init 4 (by decide)) (by decide) (by decide) (by decide) (by decide)) (by decide) (by decide) (by decide) (by decide)) (by decide) (by decide) (by decide) (by decide))

/-- C19. On every board built from the empty board by legal `set` calls the counters hold
the numbers of zeros and ones of each row and column, the masks hold the positions of the
ones of each row and column, and `iscomplete()`, which tests the column counters, is true
exactly when every row counter pair sums to `n`, and exactly when no cell of the grid is
Unknown. -/
theorem counters_mirror_grid (t : tab_t) (ht : Reach t) :
    (∀ i, t.hn0 i = cnt (t.tab i) 0 t.n ∧ t.hn1 i = cnt (t.tab i) 1 t.n) ∧
    (∀ j, t.vn0 j = cnt (col t.tab j) 0 t.n ∧ t.vn1 j = cnt (col t.tab j) 1 t.n) ∧
    (∀ i j, (t.hi i).testBit j = decide (t.tab i j = 1)) ∧
    (∀ j i, (t.vi j).testBit i = decide (t.tab i j = 1)) ∧
    (t.iscomplete = true ↔ ∀ i, i < t.n → t.hn0 i + t.hn1 i = t.n) ∧
    (t.iscomplete = true ↔ ∀ i j, i < t.n → j < t.n → t.tab i j ≠ UNK) := by
  have hC := ht.inv.toCnt
  refine ⟨fun i => ⟨hC.hn0 i, hC.hn1 i⟩, fun j => ⟨hC.vn0 j, hC.vn1 j⟩, hC.hi, hC.vi, ?_,
    iscomplete_iff t hC⟩
  rw [iscomplete_iff t hC]
  constructor
  · intro h i hi
    exact (full_iff_cnt t hC i).1.mpr (fun k hk => h i k hi hk)
  · intro h i j hi hj
    exact (full_iff_cnt t hC i).1.mp (h i hi) j hj

/-- Witness for C19: the `2 × 2` board with `(0,0)=0` and `(1,1)=0`. -/
theorem counters_mirror_grid_witness :
    (∀ i, (((tab_t.init 2).set 0 0 0).set 1 1 0).hn0 i = cnt ((((tab_t.init 2).set 0 0 0).set 1 1 0).tab i) 0 (((tab_t.init 2).set 0 0 0).set 1 1 0).n ∧
      (((tab_t.init 2).set 0 0 0).set 1 1 0).hn1 i = cnt ((((tab_t.init 2).set 0 0 0).set 1 1 0).tab i) 1 (((tab_t.init 2).set 0 0 0).set 1 1 0).n) ∧
    (∀ j, (((tab_t.init 2).set 0 0 0).set 1 1 0).vn0 j = cnt (col (((tab_t.init 2).set 0 0 0).set 1 1 0).tab j) 0 (((tab_t.init 2).set 0 0 0).set 1 1 0).n ∧
      (((tab_t.init 2).set 0 0 0).set 1 1 0).vn1 j = cnt (col (((tab_t.init 2).set 0 0 0).set 1 1 0).tab j) 1 (((tab_t.init 2).set 0 0 0).set 1 1 0).n) ∧
    (∀ i j, ((((tab_t.init 2).set 0 0 0).set 1 1 0).hi i).testBit j = decide ((((tab_t.init 2).set 0 0 0).set 1 1 0).tab i j = 1)) ∧
    (∀ j i, ((((tab_t.init 2).set 0 0 0).set 1 1 0).vi j).testBit i = decide ((((tab_t.init 2).set 0 0 0).set 1 1 0).tab i j = 1)) ∧
    ((((tab_t.init 2).set 0 0 0).set 1 1 0).iscomplete = true ↔
      ∀ i, i < (((tab_t.init 2).set 0 0 0).set 1 1 0).n → (((tab_t.init 2).set 0 0 0).set 1 1 0).hn0 i + (((tab_t.init 2).set 0 0 0).set 1 1 0).hn1 i = (((tab_t.init 2).set 0 0 0).set 1 1 0).n) ∧
    ((((tab_t.init 2).set 0 0 0).set 1 1 0).iscomplete = true ↔
      ∀ i j, i < (((tab_t.init 2).set 0 0 0).set 1 1 0).n → j < (((tab_t.init 2).set 0 0 0).set 1 1 0).n → (((tab_t.init 2).set 0 0 0).set 1 1 0).tab i j ≠ UNK) :=
  counters_mirror_grid (((tab_t.init 2).set 0 0 0).set 1 1 0)
    (Reach.set 1 1 0 (Reach.set 0 0 0 (Reach.init 2 (by decide)) (by decide) (by decide) (by decide) (by decide)) (by decide) (by decide) (by decide) (by decide))


/-! ## Rule presets (C13) -/

/-- C13 (amended). For all tier indexes `k < k1` in `0..6` other than the pairs `(2,4)`,
`(3,4)` and `(3,5)`, every rule bit enabled in `tdiff[k]` is enabled in `tdiff[k1]`, and
`tdiff[k1]` enables a bit that `tdiff[k]` does not. -/
theorem tdiff_cumulative_except (k k1 : Nat) (h : k < k1) (h1 : k1 < MDIFF)
    (hx : ¬ ((k = 2 ∧ k1 = 4) ∨ (k = 3 ∧ k1 = 4) ∨ (k = 3 ∧ k1 = 5))) :
    tdiff.getD k 0 &&& tdiff.getD k1 0 = tdiff.getD k 0 ∧
    tdiff.getD k1 0 &&& tdiff.getD k 0 ≠ tdiff.getD k1 0 := by
  unfold MDIFF at h1
  interval_cases k1 <;> interval_cases k <;> first | (exfalso; apply hx; decide) | decide!

/-- Witness for the amended C13: the presets of tiers `1` and `5`. -/
theorem tdiff_cumulative_except_witness :
    tdiff.getD 1 0 &&& tdiff.getD 5 0 = tdiff.getD 1 0 ∧
    tdiff.getD 5 0 &&& tdiff.getD 1 0 ≠ tdiff.getD 5 0 :=
  tdiff_cumulative_except 1 5 (by decide) (by decide) (by decide)

/-- Counterexample to C13 as stated: the preset of tier `3` enables `R_LINE4` and
`R_LINEx`, which the preset of tier `4` does not enable, and `R_LINEx` is not enabled by
the preset of tier `5`; the preset of tier `2` enables `R_LINE4`, which the preset of
tier `4` does not. -/
theorem tdiff_not_cumulative_counterexample :
    tdiff.getD 3 0 &&& R_LINE4 ≠ 0 ∧ tdiff.getD 4 0 &&& R_LINE4 = 0 ∧
    tdiff.getD 3 0 &&& R_LINEx ≠ 0 ∧ tdiff.getD 4 0 &&& R_LINEx = 0 ∧
    tdiff.getD 5 0 &&& R_LINEx = 0 ∧ tdiff.getD 2 0 &&& R_LINE4 ≠ 0 ∧
    tdiff.getD 3 0 &&& tdiff.getD 4 0 ≠ tdiff.getD 3 0 ∧
    tdiff.getD 3 0 &&& tdiff.getD 5 0 ≠ tdiff.getD 3 0 ∧
    tdiff.getD 2 0 &&& tdiff.getD 4 0 ≠ tdiff.getD 2 0 := by
  decide!

/-! ## Signatures (C14, C17) -/

/-- What `score_t::diff` returns when scanning from slot `i-1` down. -/
theorem score_diffFrom_spec (a : List Int) (i : Nat) :
    (score_diffFrom a i = -1 ↔ ∀ k, k < i → a.getD k 0 = 0) ∧
    (∀ j : Nat, score_diffFrom a i = (j : Int) ↔
      j < i ∧ a.getD j 0 ≠ 0 ∧ ∀ k, j < k → k < i → a.getD k 0 = 0) := by
  induction i with
  | zero =>
    refine ⟨by simp [score_diffFrom], fun j => ?_⟩
    simp only [score_diffFrom]
    constructor
    · intro h; omega
    · intro h; omega
  | succ i ih =>
    obtain ⟨ih1, ih2⟩ := ih
    simp only [score_diffFrom]
    by_cases hz : a.getD i 0 ≠ 0
    · rw [if_pos hz]
      constructor
      · constructor
        · intro h; omega
        · intro h; exact absurd (h i (by omega)) hz
      · intro j
        constructor
        · intro h
          have : j = i := by omega
          subst this
          exact ⟨by omega, hz, fun k h1 h2 => by omega⟩
        · rintro ⟨h1, h2, h3⟩
          by_cases hji : j = i
          · rw [hji]
          · exact absurd (h3 i (by omega) (by omega)) hz
    · rw [if_neg hz]
      have hz0 : a.getD i 0 = 0 := by simpa using hz
      constructor
      · rw [ih1]
        constructor
        · intro h k hk
          by_cases hki : k = i
          · rw [hki]; exact hz0
          · exact h k (by omega)
        · intro h k hk
          exact h k (by omega)
      · intro j
        rw [ih2 j]
        constructor
        · rintro ⟨h1, h2, h3⟩
          refine ⟨by omega, h2, fun k hk1 hk2 => ?_⟩
          by_cases hki : k = i
          · rw [hki]; exact hz0
          · exact h3 k hk1 (by omega)
        · rintro ⟨h1, h2, h3⟩
          have hji : j ≠ i := fun hc => h2 (hc ▸ hz0)
          exact ⟨by omega, h2, fun k hk1 hk2 => h3 k hk1 (by omega)⟩

/-- The comparison from slot `i-1` down is decided at a slot where the first signature
holds less, when the slots above it agree. -/
theorem score_ltFrom_at (a b : List Int) (d : Nat) (hd : a.getD d 0 < b.getD d 0) (i : Nat) :
    d < i → (∀ k, d < k → k < i → a.getD k 0 = b.getD k 0) →
    score_ltFrom a b i = true ∧ score_ltFrom b a i = false := by
  induction i with
  | zero => intro h; omega
  | succ i ih =>
    intro h heq
    simp only [score_ltFrom]
    by_cases hdi : d = i
    · subst hdi
      rw [if_pos hd, if_neg (by omega), if_pos hd]
      exact ⟨rfl, rfl⟩
    · have e := heq i (by omega) (by omega)
      rw [if_neg (by omega), if_neg (by omega), if_neg (by omega), if_neg (by omega)]
      exact ih (by omega) (fun k h1 h2 => heq k h1 (by omega))

/-- C14. For all signatures `a` and `b`, `b` with non-negative entries: if
`a.diff() < b.diff()` then `a < b` is true and `b < a` is false under
`score_t::operator<`; and `diff()` is `-1` exactly when the ten slots are zero, and is
`i` exactly when slot `i` is nonzero and every higher slot is zero. -/
theorem higher_diff_compares_harder (a b : List Int) (hb : ∀ k, 0 ≤ b.getD k 0) :
    (score_diff a < score_diff b → score_lt a b = true ∧ score_lt b a = false) ∧
    (score_diff a = -1 ↔ ∀ k, k < 10 → a.getD k 0 = 0) ∧
    (∀ i : Nat, score_diff a = (i : Int) ↔
      i < 10 ∧ a.getD i 0 ≠ 0 ∧ ∀ k, i < k → k < 10 → a.getD k 0 = 0) := by
  refine ⟨fun h => ?_, (score_diffFrom_spec a 10).1, (score_diffFrom_spec a 10).2⟩
  have hge := score_diffFrom_ge a 10
  have hsa : score_diff a = score_diffFrom a 10 := rfl
  obtain ⟨d, hd⟩ : ∃ d : Nat, score_diff b = (d : Int) :=
    ⟨(score_diff b).toNat, by omega⟩
  obtain ⟨d1, d2, d3⟩ := ((score_diffFrom_spec b 10).2 d).mp hd
  have ha0 : ∀ k, d ≤ k → k < 10 → a.getD k 0 = 0 := by
    intro k hk1 hk2
    by_contra hne
    have := le_score_diffFrom a k hne 10 hk2
    omega
  have hlt : a.getD d 0 < b.getD d 0 := by
    rw [ha0 d (Nat.le_refl _) d1]
    have := hb d
    omega
  exact score_ltFrom_at a b d hlt 10 d1
    (fun k h1 h2 => by rw [ha0 k (by omega) h2, d3 k h1 h2])

/-- Witness for C14: a signature with two steps at tier `0` against one with a single
step at tier `1`. -/
theorem higher_diff_compares_harder_witness :
    (score_diff [2, 0, 0, 0, 0, 0, 0, 0, 0, 0] < score_diff [0, 1, 0, 0, 0, 0, 0, 0, 0, 0] →
      score_lt [2, 0, 0, 0, 0, 0, 0, 0, 0, 0] [0, 1, 0, 0, 0, 0, 0, 0, 0, 0] = true ∧
      score_lt [0, 1, 0, 0, 0, 0, 0, 0, 0, 0] [2, 0, 0, 0, 0, 0, 0, 0, 0, 0] = false) ∧
    (score_diff [2, 0, 0, 0, 0, 0, 0, 0, 0, 0] = -1 ↔
      ∀ k, k < 10 → ([2, 0, 0, 0, 0, 0, 0, 0, 0, 0] : List Int).getD k 0 = 0) ∧
    (∀ i : Nat, score_diff [2, 0, 0, 0, 0, 0, 0, 0, 0, 0] = (i : Int) ↔
      i < 10 ∧ ([2, 0, 0, 0, 0, 0, 0, 0, 0, 0] : List Int).getD i 0 ≠ 0 ∧
        ∀ k, i < k → k < 10 → ([2, 0, 0, 0, 0, 0, 0, 0, 0, 0] : List Int).getD k 0 = 0) :=
  higher_diff_compares_harder [2, 0, 0, 0, 0, 0, 0, 0, 0, 0] [0, 1, 0, 0, 0, 0, 0, 0, 0, 0]
    (fun k => by
      rcases k with _ | _ | k
      · decide
      · decide
      · have : ([0, 1, 0, 0, 0, 0, 0, 0, 0, 0] : List Int).getD (k + 1 + 1) 0
            = ([0, 0, 0, 0, 0, 0, 0, 0] : List Int).getD k 0 := rfl
        rw [this]
        rcases k with _ | _ | _ | _ | _ | _ | _ | _ | k <;> simp)

/-- C17. On every board on which `iscomplete()` is true, `solvescore` returns true with
each of the ten slots equal to `0`, and `diff()` returns `-1`. -/
theorem complete_board_trivial (t : tab_t) (h : t.iscomplete = true) :
    t.solvescore = some (true, [0, 0, 0, 0, 0, 0, 0, 0, 0, 0]) ∧ t.diff = some (-1) := by
  have hs : t.solvescore = some (true, [0, 0, 0, 0, 0, 0, 0, 0, 0, 0]) := by
    unfold solvescore solvescoreAux
    rw [if_pos h]; rfl
  refine ⟨hs, ?_⟩
  unfold diff
  rw [hs]; rfl

/-- Witness for C17: the complete `2 × 2` board with rows `01` and `10`. -/
theorem complete_board_trivial_witness :
    (((((tab_t.init 2).set 0 0 0).set 0 1 1).set 1 0 1).set 1 1 0).solvescore
      = some (true, [0, 0, 0, 0, 0, 0, 0, 0, 0, 0]) ∧
    (((((tab_t.init 2).set 0 0 0).set 0 1 1).set 1 0 1).set 1 1 0).diff = some (-1) :=
  complete_board_trivial (((((tab_t.init 2).set 0 0 0).set 0 1 1).set 1 0 1).set 1 1 0)
    (by decide)

/-! ## Candidate order (C16) -/

theorem reverselist_fold (li acc : List (Nat × Nat)) :
    li.foldl (fun li2 c => li2 ++ [(c.1, c.2)]) acc = acc ++ li := by
  induction li generalizing acc with
  | nil => simp
  | cons c li ih => rw [List.foldl_cons, ih]; simp

/-- C16, the code against the claim: `reverselist` returns every list unchanged, so the
two-cell list `(0,0), (0,1)` is not reversed. -/
theorem reverselist_keeps_order :
    (∀ li : List (Nat × Nat), reverselist li = li) ∧
    reverselist [(0, 0), (0, 1)] ≠ [(0, 0), (0, 1)].reverse := by
  have h : ∀ li : List (Nat × Nat), reverselist li = li := fun li => by
    unfold reverselist
    rw [reverselist_fold]; simp
  refine ⟨h, ?_⟩
  rw [h]
  decide


/-! ## Scan order of `findcell` (C18) -/

/-- The nested loops `for(i<n) for(j<n)` visit the cells in row-major order. -/
theorem pairwise_cells (n : Nat) :
    (cells n).Pairwise (fun c d => c.1 < d.1 ∨ (c.1 = d.1 ∧ c.2 < d.2)) := by
  unfold cells
  rw [List.pairwise_flatMap]
  constructor
  · intro a _
    rw [List.pairwise_map]
    exact (List.pairwise_lt_range n).imp (fun h => Or.inr ⟨rfl, h⟩)
  · exact (List.pairwise_lt_range n).imp (fun h x hx y hy => by
      simp only [List.mem_map] at hx hy
      obtain ⟨_, _, rfl⟩ := hx
      obtain ⟨_, _, rfl⟩ := hy
      exact Or.inl h)

theorem findcellAt_none (t : tab_t) (rules : Nat) (c : Nat × Nat) :
    t.findcellAt rules c = none ↔
      (t.get c.1 c.2 = UNK →
        (t.set c.1 c.2 0).isbad rules = 0 ∧ (t.set c.1 c.2 1).isbad rules = 0) := by
  unfold findcellAt
  by_cases hu : t.get c.1 c.2 = UNK
  · rw [if_pos hu]
    by_cases h0 : (t.set c.1 c.2 0).isbad rules ≠ 0
    · rw [if_pos h0]
      constructor
      · intro h; exact absurd h (by simp)
      · intro h; exact absurd (h hu).1 h0
    · rw [if_neg h0]
      by_cases h1 : (t.set c.1 c.2 1).isbad rules ≠ 0
      · rw [if_pos h1]
        constructor
        · intro h; exact absurd h (by simp)
        · intro h; exact absurd (h hu).2 h1
      · rw [if_neg h1]
        exact ⟨fun _ _ => ⟨by simpa using h0, by simpa using h1⟩, fun _ => rfl⟩
  · rw [if_neg hu]
    exact ⟨fun _ h => absurd h hu, fun _ => rfl⟩

/-- The cells in front of a cell of the scan are the cells before it in row-major order. -/
theorem cells_split (n : Nat) (l1 l2 : List (Nat × Nat)) (c : Nat × Nat)
    (h : cells n = l1 ++ c :: l2) (d : Nat × Nat) :
    d ∈ l1 ↔ d.1 < n ∧ d.2 < n ∧ (d.1 < c.1 ∨ (d.1 = c.1 ∧ d.2 < c.2)) := by
  have hp := pairwise_cells n
  rw [h, List.pairwise_append, List.pairwise_cons] at hp
  obtain ⟨_, ⟨hc, _⟩, h12⟩ := hp
  constructor
  · intro hd
    have hm : d ∈ cells n := by rw [h]; exact List.mem_append_left _ hd
    obtain ⟨m1, m2⟩ := (mem_cells n d).mp hm
    exact ⟨m1, m2, h12 d hd c (List.mem_cons_self _ _)⟩
  · rintro ⟨m1, m2, hlt⟩
    have hm : d ∈ cells n := (mem_cells n d).mpr ⟨m1, m2⟩
    rw [h] at hm
    rcases List.mem_append.mp hm with hm | hm
    · exact hm
    · exfalso
      rcases List.mem_cons.mp hm with rfl | hm
      · omega
      · have := hc d hm
        omega

/-- C18. For every board and rule mask: `findcell(a,b,x,rules)` returns false exactly when
no Unknown cell of the grid has a trial value whose assignment is bad under `rules`; it
returns true with `(a,b,x)` exactly when `(a,b)` is an Unknown cell of the grid with such a
trial value, no Unknown cell before it in row-major order has one, and `x` is the opposite
of the first failing trial value (`1` when the trial of `0` fails, `0` otherwise). On the
empty `4 × 4` board after `set(0,0,0)` and `set(0,1,0)`, `findcell` with `R_3` returns
`(0,2,1)`. -/
theorem findcell_first_in_scan_order (t : tab_t) (rules : Nat) :
    (t.findcell rules = none ↔
      ∀ i j, i < t.n → j < t.n → t.get i j = UNK →
        (t.set i j 0).isbad rules = 0 ∧ (t.set i j 1).isbad rules = 0) ∧
    (∀ a b x, t.findcell rules = some (a, b, x) ↔
      a < t.n ∧ b < t.n ∧ t.get a b = UNK ∧
      ((t.set a b 0).isbad rules ≠ 0 ∨ (t.set a b 1).isbad rules ≠ 0) ∧
      (∀ i j, i < t.n → j < t.n → (i < a ∨ (i = a ∧ j < b)) → t.get i j = UNK →
        (t.set i j 0).isbad rules = 0 ∧ (t.set i j 1).isbad rules = 0) ∧
      x = (if (t.set a b 0).isbad rules ≠ 0 then 1 else 0)) ∧
    (((tab_t.init 4).set 0 0 0).set 0 1 0).findcell R_3 = some (0, 2, 1) := by
  refine ⟨?_, ?_, by decide⟩
  · unfold findcell
    rw [List.findSome?_eq_none_iff]
    constructor
    · intro h i j hi hj hu
      exact (findcellAt_none t rules (i, j)).mp (h (i, j) ((mem_cells t.n (i, j)).mpr ⟨hi, hj⟩))
        hu
    · intro h c hc
      obtain ⟨h1, h2⟩ := (mem_cells t.n c).mp hc
      exact (findcellAt_none t rules c).mpr (h c.1 c.2 h1 h2)
  · intro a b x
    constructor
    · intro h
      obtain ⟨h1, h2, h3, h4⟩ := findcell_some t rules a b x h
      unfold findcell at h
      obtain ⟨l1, c, l2, hl, hc, hnone⟩ := List.findSome?_eq_some_iff.mp h
      obtain ⟨e1, e2, _, _⟩ := findcellAt_some t rules c a b x hc
      refine ⟨h1, h2, h3, ?_, ?_, ?_⟩
      · rcases h4 with ⟨_, hb⟩ | ⟨_, _, hb⟩
        · exact Or.inl hb
        · exact Or.inr hb
      · intro i j hi hj hlt hu
        have hm : (i, j) ∈ l1 := (cells_split t.n l1 l2 c hl (i, j)).mpr
          ⟨hi, hj, by rw [← e1, ← e2]; exact hlt⟩
        exact (findcellAt_none t rules (i, j)).mp (hnone (i, j) hm) hu
      · rcases h4 with ⟨rfl, hb⟩ | ⟨rfl, hb, _⟩
        · rw [if_pos hb]
        · rw [if_neg (by rw [hb]; simp)]
    · rintro ⟨h1, h2, h3, h4, h5, h6⟩
      unfold findcell
      rw [List.findSome?_eq_some_iff]
      obtain ⟨l1, l2, hl⟩ := List.append_of_mem ((mem_cells t.n (a, b)).mpr ⟨h1, h2⟩)
      refine ⟨l1, (a, b), l2, hl, ?_, ?_⟩
      · unfold findcellAt
        simp only []
        rw [if_pos h3]
        by_cases h0 : (t.set a b 0).isbad rules ≠ 0
        · rw [if_pos h0] at h6 ⊢
          rw [h6]
        · rw [if_neg h0] at h6 ⊢
          rcases h4 with h4 | h4
          · exact absurd h4 h0
          · rw [if_pos h4, h6]
      · intro d hd
        obtain ⟨m1, m2, hlt⟩ := (cells_split t.n l1 l2 (a, b) hl d).mp hd
        exact (findcellAt_none t rules d).mpr (h5 d.1 d.2 m1 m2 hlt)


/-! ## Assertions of the line deduction (C20) -/

/-- C20 (amended). For every board built from the empty board by legal `set` calls that
has a valid completion, every rule mask and every row or column of the grid: the line of
the completion is a filling of the Unknown cells of the line with exactly `n/2 - n1` ones
whose board is not bad under `rules`, no assertion of `findline_` fails on the line, and no
assertion fails in `find`. -/
theorem findline_asserts_hold (t : tab_t) (g : Nat → Nat → Nat) (rules s l : Nat)
    (ht : Reach t) (hg : IsSol t.n t.tab g) (hl : l < t.n) :
    FillOK s t l rules (encode g s l (unkPos s t l)) ∧ t.findline_ s l rules ≠ none ∧
      t.find rules ≠ none :=
  ⟨fillOK_of_sol s t l rules g ht.inv hl hg,
    findline_total s t l rules ht.inv.toCnt ⟨_, fillOK_of_sol s t l rules g ht.inv hl hg⟩,
    find_total t rules g ht.inv hg⟩

/-- Witness for the amended C20: the `2 × 2` board with rows `01` and `1.`, whose
completion has rows `01` and `10`; row `1` under the preset of tier `1`. -/
theorem findline_asserts_hold_witness :
    FillOK 0 ((((tab_t.init 2).set 0 0 0).set 0 1 1).set 1 0 1) 1 (tdiff.getD 1 0)
      (encode (((((tab_t.init 2).set 0 0 0).set 0 1 1).set 1 0 1).set 1 1 0).tab 0 1
        (unkPos 0 ((((tab_t.init 2).set 0 0 0).set 0 1 1).set 1 0 1) 1)) ∧
    ((((tab_t.init 2).set 0 0 0).set 0 1 1).set 1 0 1).findline_ 0 1 (tdiff.getD 1 0) ≠ none ∧
    ((((tab_t.init 2).set 0 0 0).set 0 1 1).set 1 0 1).find (tdiff.getD 1 0) ≠ none :=
  findline_asserts_hold ((((tab_t.init 2).set 0 0 0).set 0 1 1).set 1 0 1)
    (((((tab_t.init 2).set 0 0 0).set 0 1 1).set 1 0 1).set 1 1 0).tab (tdiff.getD 1 0) 0 1
    (Reach.set 1 0 1 (Reach.set 0 1 1 (Reach.set 0 0 0 (Reach.init 2 (by decide)) (by decide) (by decide) (by decide) (by decide)) (by decide) (by decide) (by decide) (by decide)) (by decide) (by decide) (by decide) (by decide))
    (isSol_of_complete ((((tab_t.init 2).set 0 0 0).set 0 1 1).set 1 0 1)
      (((((tab_t.init 2).set 0 0 0).set 0 1 1).set 1 0 1).set 1 1 0)
      (Reach.inv (Reach.set 1 1 0 (Reach.set 1 0 1 (Reach.set 0 1 1 (Reach.set 0 0 0 (Reach.init 2 (by decide)) (by decide) (by decide) (by decide) (by decide)) (by decide) (by decide) (by decide) (by decide)) (by decide) (by decide) (by decide) (by decide)) (by decide) (by decide) (by decide) (by decide)))
      (by decide)
      (by rw [set_tab]; exact sub_upd _ 1 1 0 (by decide)) (by decide) (by decide))
    (by decide)

set_option maxRecDepth 100000 in
/-- Counterexample to C20 as stated: the `4 × 4` board with `(0,2)=1`, `(0,3)=1`,
`(1,0)=0` and `(2,0)=0` is built by legal `set` calls and is not bad under the preset of
tier `1`; `findline_` does not skip row `0` (no zero, two ones, two Unknown cells), but its
only filling with `n/2 - n1 = 0` ones puts a third zero on top of column `0`, so no filling
passes, and the assertion of line 522 fails. -/
theorem findline_assert_fails_counterexample :
    Reach (((((tab_t.init 4).set 0 2 1).set 0 3 1).set 1 0 0).set 2 0 0) ∧
    (((((tab_t.init 4).set 0 2 1).set 0 3 1).set 1 0 0).set 2 0 0).isbad (tdiff.getD 1 0) = 0 ∧
    lineScan 0 (((((tab_t.init 4).set 0 2 1).set 0 3 1).set 1 0 0).set 2 0 0) 0 = some (0, 2, [0, 1]) ∧
    (∀ k, ¬ FillOK 0 (((((tab_t.init 4).set 0 2 1).set 0 3 1).set 1 0 0).set 2 0 0) 0 (tdiff.getD 1 0) k) ∧
    (((((tab_t.init 4).set 0 2 1).set 0 3 1).set 1 0 0).set 2 0 0).findline_ 0 0 (tdiff.getD 1 0) = none := by
  refine ⟨(Reach.set 2 0 0 (Reach.set 1 0 0 (Reach.set 0 3 1 (Reach.set 0 2 1 (Reach.init 4 (by decide)) (by decide) (by decide) (by decide) (by decide)) (by decide) (by decide) (by decide) (by decide)) (by decide) (by decide) (by decide) (by decide)) (by decide) (by decide) (by decide) (by decide)), by decide!, by decide!, ?_, by decide!⟩
  intro k hk
  obtain ⟨h1, h2, h3⟩ := hk
  have hp : (unkPos 0 (((((tab_t.init 4).set 0 2 1).set 0 3 1).set 1 0 0).set 2 0 0) 0).length = 2 := by decide!
  rw [hp] at h1 h2
  have hk4 : k < 4 := h1
  interval_cases k
  · revert h3; decide!
  · revert h2; decide!
  · revert h2; decide!
  · revert h2; decide!


/-! ## Text round trip (C15) -/

theorem decDigits_digit (fuel : Nat) : ∀ (v c : Nat), c ∈ decDigits fuel v → isDigit c = true := by
  induction fuel with
  | zero => intro v c h; simp [decDigits] at h
  | succ fuel ih =>
    intro v c h
    unfold decDigits at h
    by_cases hv : v < 10
    · rw [if_pos hv] at h
      simp only [List.mem_singleton] at h
      subst h
      simp only [isDigit, decide_eq_true_eq]
      omega
    · rw [if_neg hv] at h
      rcases List.mem_append.mp h with h | h
      · exact ih _ _ h
      · simp only [List.mem_singleton] at h
        subst h
        simp only [isDigit, decide_eq_true_eq]
        omega

theorem decDigits_length (fuel : Nat) : ∀ v, (decDigits fuel v).length ≤ fuel := by
  induction fuel with
  | zero => intro v; simp [decDigits]
  | succ fuel ih =>
    intro v
    unfold decDigits
    by_cases hv : v < 10
    · rw [if_pos hv]; simp
    · rw [if_neg hv]
      have := ih (v / 10)
      simp only [List.length_append, List.length_singleton]
      omega

theorem decDigits_ne_nil (fuel v : Nat) : decDigits (fuel + 1) v ≠ [] := by
  unfold decDigits
  by_cases hv : v < 10
  · rw [if_pos hv]; simp
  · rw [if_neg hv]; simp

/-- Reading back the digits printed for `v` gives `v`. -/
theorem decDigits_val (fuel : Nat) : ∀ v, v < fuel →
    (decDigits fuel v).foldl (fun a c => 10 * a + (c - 48)) 0 = v := by
  induction fuel with
  | zero => intro v h; omega
  | succ fuel ih =>
    intro v h
    unfold decDigits
    by_cases hv : v < 10
    · rw [if_pos hv]
      simp only [List.foldl_cons, List.foldl_nil]
      omega
    · rw [if_neg hv, List.foldl_append, ih (v / 10) (by omega)]
      simp only [List.foldl_cons, List.foldl_nil]
      omega

theorem takeWhile_prefix (p : Nat → Bool) (ds : List Nat) (x : Nat) (r : List Nat)
    (h : ∀ c, c ∈ ds → p c = true) (hx : p x = false) :
    (ds ++ x :: r).takeWhile p = ds := by
  induction ds with
  | nil => simp [List.takeWhile, hx]
  | cons d ds ih =>
    rw [List.cons_append, List.takeWhile_cons, h d (List.mem_cons_self _ _)]
    simp only [if_true]
    rw [ih (fun c hc => h c (List.mem_cons_of_mem _ hc))]

/-- `sscanf` with `%d` reads back the size that `save` printed with `%d`. -/
theorem sscanf_printd (n : Nat) : sscanf_d (printd (n : Int) ++ [10]) = some n := by
  have hp : printd (n : Int) = decDigits (n + 1) n := by
    unfold printd
    rw [if_neg (by omega)]
    simp
  rw [hp]
  have hne := decDigits_ne_nil n n
  have hdig := decDigits_digit (n + 1) n
  have hval := decDigits_val (n + 1) n (by omega)
  generalize decDigits (n + 1) n = ds at hne hdig hval
  cases ds with
  | nil => exact absurd rfl hne
  | cons d tl =>
    have hd := hdig d (List.mem_cons_self _ _)
    have hd' : 48 ≤ d ∧ d ≤ 57 := by simpa [isDigit] using hd
    have hsp : isSpace d = false := by
      simp only [isSpace, decide_eq_false_iff_not]
      omega
    have h43 : d ≠ 43 := by omega
    have htw : ((d :: tl) ++ [10]).takeWhile isDigit = d :: tl :=
      takeWhile_prefix isDigit (d :: tl) 10 [] hdig (by decide)
    unfold sscanf_d
    rw [List.cons_append] at htw
    simp only [List.cons_append, List.dropWhile_cons, hsp, Bool.false_eq_true, if_false,
      List.head?_cons, Option.some.injEq, h43, htw]
    rw [if_neg (by simp), hval]

theorem fgetsAux_line (line rest : List Nat) (h10 : ∀ c, c ∈ line → c ≠ 10) :
    ∀ k, line.length < k → fgetsAux k (line ++ 10 :: rest) = (line ++ [10], rest) := by
  induction line with
  | nil =>
    intro k hk
    cases k with
    | zero => simp at hk
    | succ k => simp [fgetsAux]
  | cons c line ih =>
    intro k hk
    cases k with
    | zero => simp at hk
    | succ k =>
      rw [List.cons_append]
      unfold fgetsAux
      rw [if_neg (h10 c (List.mem_cons_self _ _)),
        ih (fun c hc => h10 c (List.mem_cons_of_mem _ hc)) k (by simpa using hk)]
      rfl

/-- `fgets` returns a line of fewer than `99` characters, newline included, and leaves
the rest of the stream. -/
theorem fgets_line (line rest : List Nat) (h10 : ∀ c, c ∈ line → c ≠ 10)
    (hlen : line.length < 99) :
    fgets 100 (line ++ 10 :: rest) = some (line ++ [10], rest) := by
  unfold fgets
  have e := fgetsAux_line line rest h10 99 hlen
  cases line with
  | nil => simpa using e
  | cons c line =>
    rw [List.cons_append] at e ⊢
    simp only []
    rw [show (100 : Nat) - 1 = 99 from rfl, e]

theorem saveRow_getD (t : tab_t) (i j : Nat) (hj : j < t.n) :
    (saveRow t i).getD j 0 = if t.get i j ≠ UNK then 48 + t.get i j else 32 := by
  unfold saveRow
  rw [List.getD_eq_getElem?_getD, List.getElem?_append_left (by simpa using hj),
    List.getElem?_map, List.getElem?_range hj]
  rfl

theorem readRow_char0 (i : Nat) (bf : List Nat) (fuel j : Nat) (u : tab_t)
    (hc : bf.getD j 0 = 48) (hj : j < u.n) :
    readRow i bf (fuel + 1) j u = readRow i bf fuel (j + 1) (u.set i j 0) := by
  rw [readRow, if_pos ⟨Or.inl hc, hj⟩, hc]
  rfl

theorem readRow_char1 (i : Nat) (bf : List Nat) (fuel j : Nat) (u : tab_t)
    (hc : bf.getD j 0 = 49) (hj : j < u.n) :
    readRow i bf (fuel + 1) j u = readRow i bf fuel (j + 1) (u.set i j 1) := by
  rw [readRow, if_pos ⟨Or.inr (Or.inl hc), hj⟩, hc]
  rfl

theorem readRow_space (i : Nat) (bf : List Nat) (fuel j : Nat) (u : tab_t)
    (hc : bf.getD j 0 = 32) (hj : j < u.n) :
    readRow i bf (fuel + 1) j u = readRow i bf fuel (j + 1) u := by
  rw [readRow, if_pos ⟨Or.inr (Or.inr hc), hj⟩, hc]
  rfl

/-- The loop over `j` of `read` on the text of row `i` of `t`: it copies the assigned
cells of the row from column `j` on. -/
theorem readRow_spec (t : tab_t) (hc : ∀ a b, t.tab a b ≤ 2) (i : Nat) (fuel : Nat) :
    ∀ (j : Nat) (u : tab_t), u.n = t.n → j + fuel = t.n →
    (readRow i (saveRow t i) fuel j u).n = t.n ∧
    ∀ a b, (readRow i (saveRow t i) fuel j u).tab a b =
      if a = i ∧ j ≤ b ∧ b < t.n ∧ t.tab i b ≠ UNK then t.tab i b else u.tab a b := by
  induction fuel with
  | zero =>
    intro j u hn hj
    refine ⟨hn, fun a b => ?_⟩
    rw [if_neg (by omega)]
    rfl
  | succ fuel ih =>
    intro j u hn hj
    have hjn : j < t.n := by omega
    have hg := saveRow_getD t i j hjn
    have h2 := hc i j
    have hget : t.get i j = t.tab i j := rfl
    rw [hget] at hg
    by_cases c0 : t.tab i j = 0
    · rw [c0, if_pos (by decide)] at hg
      rw [readRow_char0 i _ fuel j u hg (hn ▸ hjn)]
      obtain ⟨r1, r2⟩ := ih (j + 1) (u.set i j 0) (by rw [set_n]; exact hn) (by omega)
      refine ⟨r1, fun a b => ?_⟩
      rw [r2 a b, set_tab]
      by_cases hab : a = i ∧ b = j
      · obtain ⟨rfl, rfl⟩ := hab
        rw [if_neg (by omega), upd_same, if_pos ⟨rfl, Nat.le_refl _, hjn, by rw [c0]; decide⟩,
          c0]
      · rw [upd_other _ _ _ _ _ _ hab]
        by_cases hcond : a = i ∧ j + 1 ≤ b ∧ b < t.n ∧ t.tab i b ≠ UNK
        · rw [if_pos hcond, if_pos ⟨hcond.1, by omega, hcond.2.2⟩]
        · rw [if_neg hcond, if_neg]
          rintro ⟨h1, h2', h3⟩
          exact hcond ⟨h1, by
            have : b ≠ j := fun h => hab ⟨h1, h⟩
            omega, h3⟩
    · by_cases c1 : t.tab i j = 1
      · rw [c1, if_pos (by decide)] at hg
        rw [readRow_char1 i _ fuel j u hg (hn ▸ hjn)]
        obtain ⟨r1, r2⟩ := ih (j + 1) (u.set i j 1) (by rw [set_n]; exact hn) (by omega)
        refine ⟨r1, fun a b => ?_⟩
        rw [r2 a b, set_tab]
        by_cases hab : a = i ∧ b = j
        · obtain ⟨rfl, rfl⟩ := hab
          rw [if_neg (by omega), upd_same,
            if_pos ⟨rfl, Nat.le_refl _, hjn, by rw [c1]; decide⟩, c1]
        · rw [upd_other _ _ _ _ _ _ hab]
          by_cases hcond : a = i ∧ j + 1 ≤ b ∧ b < t.n ∧ t.tab i b ≠ UNK
          · rw [if_pos hcond, if_pos ⟨hcond.1, by omega, hcond.2.2⟩]
          · rw [if_neg hcond, if_neg]
            rintro ⟨h1, h2', h3⟩
            exact hcond ⟨h1, by
              have : b ≠ j := fun h => hab ⟨h1, h⟩
              omega, h3⟩
      · have c2 : t.tab i j = UNK := by simp only [UNK]; omega
        rw [c2, if_neg (by simp)] at hg
        rw [readRow_space i _ fuel j u hg (hn ▸ hjn)]
        obtain ⟨r1, r2⟩ := ih (j + 1) u hn (by omega)
        refine ⟨r1, fun a b => ?_⟩
        rw [r2 a b]
        by_cases hcond : a = i ∧ j + 1 ≤ b ∧ b < t.n ∧ t.tab i b ≠ UNK
        · rw [if_pos hcond, if_pos ⟨hcond.1, by omega, hcond.2.2⟩]
        · rw [if_neg hcond, if_neg]
          rintro ⟨h1, h2', h3, h4⟩
          by_cases hbj : b = j
          · rw [hbj] at h4; exact h4 c2
          · exact hcond ⟨h1, by omega, h3, h4⟩

theorem saveRow_eq (t : tab_t) (i : Nat) :
    saveRow t i = (List.range t.n).map
      (fun j => if t.get i j ≠ UNK then 48 + t.get i j else 32) ++ [10] := rfl

/-- The loop over `i` of `read` on the text of the rows `i, i+1, ...` of `t`: it consumes
these rows and copies their assigned cells. -/
theorem readRows_spec (t : tab_t) (hC : Cnt t) (tail : List Nat) (m : Nat) :
    ∀ (i : Nat) (u : tab_t), u.n = t.n → i + m = t.n →
    ∃ r, readRows m i ((List.range' i m).flatMap (saveRow t) ++ tail) u = some (r, tail) ∧
      r.n = t.n ∧
      ∀ a b, r.tab a b =
        if i ≤ a ∧ a < t.n ∧ b < t.n ∧ t.tab a b ≠ UNK then t.tab a b else u.tab a b := by
  induction m with
  | zero =>
    intro i u hn hi
    refine ⟨u, by simp [readRows], hn, fun a b => ?_⟩
    rw [if_neg (by omega)]
  | succ m ih =>
    intro i u hn hi
    have hsz : t.n ≤ 20 := hC.size
    have h10 : ∀ c, c ∈ (List.range t.n).map
        (fun j => if t.get i j ≠ UNK then 48 + t.get i j else 32) → c ≠ 10 := by
      intro c hc
      obtain ⟨j, _, rfl⟩ := List.mem_map.mp hc
      have := hC.cell i j
      have hget : t.get i j = t.tab i j := rfl
      rw [hget]
      split <;> omega
    have hfg := fgets_line _ ((List.range' (i + 1) m).flatMap (saveRow t) ++ tail) h10
      (by simp; omega)
    rw [← saveRow_eq] at hfg
    have hs : (List.range' i (m + 1)).flatMap (saveRow t) ++ tail
        = (List.range t.n).map (fun j => if t.get i j ≠ UNK then 48 + t.get i j else 32)
          ++ 10 :: ((List.range' (i + 1) m).flatMap (saveRow t) ++ tail) := by
      rw [List.range'_succ, List.flatMap_cons, saveRow_eq]
      simp
    rw [hs]
    unfold readRows
    rw [hfg]
    simp only []
    obtain ⟨q1, q2⟩ := readRow_spec t hC.cell i u.n 0 u hn (by omega)
    obtain ⟨r, r1, r2, r3⟩ := ih (i + 1) (readRow i (saveRow t i) u.n 0 u) q1 (by omega)
    refine ⟨r, r1, r2, fun a b => ?_⟩
    rw [r3 a b, q2 a b]
    by_cases hai : a = i
    · subst hai
      have e1 : (if a + 1 ≤ a ∧ a < t.n ∧ b < t.n ∧ t.tab a b ≠ UNK then t.tab a b
          else if a = a ∧ 0 ≤ b ∧ b < t.n ∧ t.tab a b ≠ UNK then t.tab a b else u.tab a b)
          = if a = a ∧ 0 ≤ b ∧ b < t.n ∧ t.tab a b ≠ UNK then t.tab a b else u.tab a b :=
        if_neg (fun h => by omega)
      rw [e1]
      by_cases hcond : b < t.n ∧ t.tab a b ≠ UNK
      · rw [if_pos ⟨rfl, Nat.zero_le _, hcond⟩, if_pos ⟨Nat.le_refl _, by omega, hcond⟩]
      · rw [if_neg (fun h => hcond h.2.2), if_neg (fun h => hcond h.2.2)]
    · have e1 : (if a = i ∧ 0 ≤ b ∧ b < t.n ∧ t.tab i b ≠ UNK then t.tab i b else u.tab a b)
          = u.tab a b := if_neg (fun h => hai h.1)
      rw [e1]
      by_cases hcond : i + 1 ≤ a ∧ a < t.n ∧ b < t.n ∧ t.tab a b ≠ UNK
      · rw [if_pos hcond, if_pos ⟨by omega, hcond.2⟩]
      · rw [if_neg hcond, if_neg]
        rintro ⟨h1, h2⟩
        exact hcond ⟨by omega, h2⟩

/-- The charging loop of `solvescore_` returns when no assertion of `find` fails, and a
move it returns was found by `find` under one of the presets. -/
theorem chargeFrom_total (t : tab_t) (tab : List Int) (rs : List Nat) :
    ∀ (d0 : Nat), (∀ r, r ∈ rs → t.find r ≠ none) →
    ∃ o tab2, chargeFrom t tab rs d0 = some (o, tab2) ∧
      ∀ m, o = some m → ∃ r, r ∈ rs ∧ t.find r = some (some m) := by
  induction rs with
  | nil => intro d0 _; exact ⟨none, tab, rfl, fun m hm => by simp at hm⟩
  | cons r rs ih =>
    intro d0 htot
    unfold chargeFrom
    cases hf : t.find r with
    | none => exact absurd hf (htot r (List.mem_cons_self _ _))
    | some o =>
      cases o with
      | some m =>
        refine ⟨some m, _, rfl, fun m' hm' => ?_⟩
        simp only [Option.some.injEq] at hm'
        subst hm'
        exact ⟨r, List.mem_cons_self _ _, hf⟩
      | none =>
        simp only []
        obtain ⟨o, tab2, h1, h2⟩ := ih (d0 + 1) (fun r' hr' => htot r' (List.mem_cons_of_mem _ hr'))
        exact ⟨o, tab2, h1, fun m hm => by
          obtain ⟨r', hr', hf'⟩ := h2 m hm
          exact ⟨r', List.mem_cons_of_mem _ hr', hf'⟩⟩

/-- On a board with a valid completion no assertion fails in `solvescore_`: it returns. -/
theorem solvescoreAux_total (g : Nat → Nat → Nat) (fuel : Nat) :
    ∀ (u : tab_t) (tab : List Int), unk u < fuel → Inv u → IsSol u.n u.tab g →
    ∃ r, solvescoreAux fuel u tab = some r := by
  induction fuel with
  | zero => intro u tab hf; omega
  | succ fuel ih =>
    intro u tab hf hu hg
    unfold solvescoreAux
    by_cases hc : u.iscomplete = true
    · rw [if_pos hc]; exact ⟨_, rfl⟩
    · rw [if_neg hc]
      obtain ⟨o, tab2, h1, h2⟩ := chargeFrom_total u tab tdiff 0
        (fun r _ => find_total u r g hu hg)
      rw [h1]
      cases o with
      | none => exact ⟨_, rfl⟩
      | some m =>
        obtain ⟨i, j, x⟩ := m
        simp only []
        obtain ⟨r, _, hfind⟩ := h2 (i, j, x) rfl
        obtain ⟨l1, l2, hut, hx⟩ := find_legal u r i j x hu hfind
        have e1g := find_sol u r i j x hu hfind g hg
        have hu1 := inv_set u i j x hu l1 l2 hut hx
        have hg1 : IsSol (u.set i j x).n (u.set i j x).tab g := by
          rw [← e1g]; exact isSol_set u g i j hg
        have hunk := unk_set u i j x l1 l2 hut hx
        obtain ⟨q, hq⟩ := ih (u.set i j x) tab2 (by omega) hu1 hg1
        rw [hq]
        simp only []
        have hnb : ¬ (u.set i j x).isbad R_ALL ≠ 0 := by
          rw [sol_not_bad _ hu1 g hg1]; simp
        rw [if_neg hnb]
        exact ⟨_, rfl⟩

/-- On a board built by legal `set` calls that has a valid completion, `solvescore`
returns. -/
theorem solvescore_total (t : tab_t) (g : Nat → Nat → Nat) (hI : Inv t)
    (hg : IsSol t.n t.tab g) : ∃ r, t.solvescore = some r :=
  solvescoreAux_total g _ t _ (by have := unk_le t; omega) hI hg

theorem sub_set (t : tab_t) (i j x : Nat) (hu : t.tab i j = UNK) :
    Sub t.tab (t.set i j x).tab := by
  rw [set_tab]; exact sub_upd t.tab i j x hu

/-- C15 (amended). For every board built from the empty board by legal `set` calls (so
`n ≤ 20`): when the board has a valid completion, `save` returns; and whenever `save`
returns, the text it wrote is the size line, the `n` rows of `'0'`, `'1'` and space
characters, the line `---` and the score line, and `read` on this text succeeds, consumes
the size line and the rows, and yields a board with the same `n` and the same value in
every cell. -/
theorem save_read_round_trip (t : tab_t) (ht : Reach t) :
    ((∃ g, IsSol t.n t.tab g) → ∃ txt, t.save = some txt) ∧
    ∀ txt, t.save = some txt →
      ∃ r t1, t.solvescore = some r ∧
        txt = printd (t.n : Int) ++ [10] ++ (List.range t.n).flatMap (saveRow t)
          ++ [45, 45, 45, 10] ++ score_aff r.2 ∧
        tab_t.read txt = some (t1, [45, 45, 45, 10] ++ score_aff r.2) ∧ t1.n = t.n ∧
        ∀ i j, t1.tab i j = t.tab i j := by
  have hC := ht.inv.toCnt
  constructor
  · rintro ⟨g, hg⟩
    obtain ⟨r, hr⟩ := solvescore_total t g ht.inv hg
    unfold save
    rw [hr]
    exact ⟨_, rfl⟩
  intro txt htxt
  have hsave : ∃ r, t.solvescore = some r ∧ txt = printd (t.n : Int) ++ [10]
      ++ (List.range t.n).flatMap (saveRow t) ++ [45, 45, 45, 10] ++ score_aff r.2 := by
    unfold save at htxt
    cases hs : t.solvescore with
    | none => rw [hs] at htxt; simp at htxt
    | some r =>
      rw [hs] at htxt
      exact ⟨r, rfl, (Option.some.inj htxt).symm⟩
  obtain ⟨rs, hrs, hsc⟩ := hsave
  have hp : printd (t.n : Int) = decDigits (t.n + 1) t.n := by
    unfold printd
    rw [if_neg (by omega)]
    simp
  have hline := fgets_line (printd (t.n : Int))
    ((List.range t.n).flatMap (saveRow t) ++ ([45, 45, 45, 10] ++ score_aff rs.2))
    (fun c hc => by
      rw [hp] at hc
      have := decDigits_digit _ _ _ hc
      simp only [isDigit, decide_eq_true_eq] at this
      omega)
    (by
      rw [hp]
      have := decDigits_length (t.n + 1) t.n
      have : t.n ≤ 20 := hC.size
      omega)
  obtain ⟨r, r1, r2, r3⟩ := readRows_spec t hC ([45, 45, 45, 10] ++ score_aff rs.2) t.n 0
    (tab_t.init t.n) rfl (by omega)
  refine ⟨rs, r, hrs, hsc, ?_, r2, fun i j => ?_⟩
  · rw [hsc]
    have e : printd (t.n : Int) ++ [10] ++ (List.range t.n).flatMap (saveRow t)
        ++ [45, 45, 45, 10] ++ score_aff rs.2
        = printd (t.n : Int) ++ 10 :: ((List.range t.n).flatMap (saveRow t)
          ++ ([45, 45, 45, 10] ++ score_aff rs.2)) := by simp
    rw [e]
    unfold tab_t.read
    rw [hline]
    simp only []
    rw [sscanf_printd]
    simp only []
    rw [List.range_eq_range']
    exact r1
  · rw [r3 i j]
    have e0 : (tab_t.init t.n).tab i j = UNK := rfl
    rw [e0]
    by_cases hu : t.tab i j = UNK
    · rw [if_neg (fun h => h.2.2.2 hu), hu]
    · rw [if_pos ⟨Nat.zero_le _, by
        by_contra hc
        exact hu (hC.out i j (fun h => hc h.1)), by
        by_contra hc
        exact hu (hC.out i j (fun h => hc h.2)), hu⟩]

set_option maxRecDepth 100000 in
/-- Witness for the amended C15: the `2 × 2` board with `(0,0)=0`. It has the valid
completion with rows `01` and `10`, so `save` returns; the text is `2`, `0 `, two spaces,
`---` and the score line `3 0 0 0 0 0 0 `, each followed by a newline, and `read` on it
yields a board of size `2` with the same cells. -/
theorem save_read_round_trip_witness :
    (∃ txt, save ((tab_t.init 2).set 0 0 0) = some txt) ∧
    save ((tab_t.init 2).set 0 0 0) = some [50, 10, 48, 32, 10, 32, 32, 10, 45, 45, 45, 10,
      51, 32, 48, 32, 48, 32, 48, 32, 48, 32, 48, 32, 48, 32, 10] ∧
    ∃ r t1, ((tab_t.init 2).set 0 0 0).solvescore = some r ∧
      [50, 10, 48, 32, 10, 32, 32, 10, 45, 45, 45, 10,
        51, 32, 48, 32, 48, 32, 48, 32, 48, 32, 48, 32, 48, 32, 10]
        = printd (((tab_t.init 2).set 0 0 0).n : Int) ++ [10]
          ++ (List.range ((tab_t.init 2).set 0 0 0).n).flatMap (saveRow ((tab_t.init 2).set 0 0 0))
          ++ [45, 45, 45, 10] ++ score_aff r.2 ∧
      tab_t.read [50, 10, 48, 32, 10, 32, 32, 10, 45, 45, 45, 10,
        51, 32, 48, 32, 48, 32, 48, 32, 48, 32, 48, 32, 48, 32, 10]
        = some (t1, [45, 45, 45, 10] ++ score_aff r.2) ∧
      t1.n = ((tab_t.init 2).set 0 0 0).n ∧
      ∀ i j, t1.tab i j = ((tab_t.init 2).set 0 0 0).tab i j :=
  ⟨(save_read_round_trip ((tab_t.init 2).set 0 0 0)
      (Reach.set 0 0 0 (Reach.init 2 (by decide)) (by decide) (by decide) (by decide) (by decide))).1
    ⟨(((((tab_t.init 2).set 0 0 0).set 0 1 1).set 1 0 1).set 1 1 0).tab,
      isSol_of_complete ((tab_t.init 2).set 0 0 0)
        (((((tab_t.init 2).set 0 0 0).set 0 1 1).set 1 0 1).set 1 1 0)
        (Reach.inv (Reach.set 1 1 0 (Reach.set 1 0 1 (Reach.set 0 1 1 (Reach.set 0 0 0 (Reach.init 2 (by decide)) (by decide) (by decide) (by decide) (by decide)) (by decide) (by decide) (by decide) (by decide)) (by decide) (by decide) (by decide) (by decide)) (by decide) (by decide) (by decide) (by decide)))
        rfl
        (sub_trans (sub_set _ 0 1 1 (by decide))
          (sub_trans (sub_set _ 1 0 1 (by decide)) (sub_set _ 1 1 0 (by decide))))
        (by decide) (by decide)⟩,
   by decide!,
   (save_read_round_trip ((tab_t.init 2).set 0 0 0)
      (Reach.set 0 0 0 (Reach.init 2 (by decide)) (by decide) (by decide) (by decide) (by decide))).2 _ (by decide!)⟩

set_option maxRecDepth 100000 in
/-- Counterexample to C15 as stated: the `4 × 4` board built by `set(0,2,1)`, `set(0,3,1)`,
`set(1,0,0)`, `set(2,0,0)` is built by legal `set` calls and has `0 < n ≤ 20`, but the
grading that `save` runs before the score line fails an assertion: `save` does not return
and there is no text to read. -/
theorem save_aborts_counterexample :
    Reach (((((tab_t.init 4).set 0 2 1).set 0 3 1).set 1 0 0).set 2 0 0) ∧
    0 < (((((tab_t.init 4).set 0 2 1).set 0 3 1).set 1 0 0).set 2 0 0).n ∧
    (((((tab_t.init 4).set 0 2 1).set 0 3 1).set 1 0 0).set 2 0 0).n ≤ 20 ∧
    (((((tab_t.init 4).set 0 2 1).set 0 3 1).set 1 0 0).set 2 0 0).solvescore = none ∧
    (((((tab_t.init 4).set 0 2 1).set 0 3 1).set 1 0 0).set 2 0 0).save = none :=
  ⟨(Reach.set 2 0 0 (Reach.set 1 0 0 (Reach.set 0 3 1 (Reach.set 0 2 1 (Reach.init 4 (by decide)) (by decide) (by decide) (by decide) (by decide)) (by decide) (by decide) (by decide) (by decide)) (by decide) (by decide) (by decide) (by decide)) (by decide) (by decide) (by decide) (by decide)),
   by decide, by decide, by decide!, by decide!⟩


/-! ## Accounting of the grading steps (C21) -/

/-- When the charging loop of `solvescore_` charges nothing, it leaves the slots as they
were and `find` has failed for every preset. -/
theorem chargeFrom_none (t : tab_t) (tab : List Int) (rs : List Nat) :
    ∀ (d0 : Nat) (tab2 : List Int), chargeFrom t tab rs d0 = some (none, tab2) →
    tab2 = tab ∧ ∀ r, r ∈ rs → t.find r = some none := by
  induction rs with
  | nil =>
    intro d0 tab2 h
    simp only [chargeFrom, Option.some.injEq, Prod.mk.injEq, true_and] at h
    exact ⟨h.symm, fun r hr => by simp at hr⟩
  | cons r rs ih =>
    intro d0 tab2 h
    unfold chargeFrom at h
    cases hf : t.find r with
    | none => rw [hf] at h; simp at h
    | some o =>
      rw [hf] at h
      cases o with
      | some m => simp at h
      | none =>
        simp only [] at h
        obtain ⟨h1, h2⟩ := ih (d0 + 1) tab2 h
        refine ⟨h1, fun r' hr' => ?_⟩
        rcases List.mem_cons.mp hr' with rfl | hr'
        · exact hf
        · exact h2 r' hr'

/-- One step of a replay from an incomplete board: either the replay is stuck there, or
one cell is assigned, one slot below `MDIFF` is charged, and the replay goes on. -/
theorem replayAux_step (fuel : Nat) (u : tab_t) (tab : List Int) (b0 : Bool) (w : tab_t)
    (tab1 : List Int) (hinc : u.iscomplete = false)
    (h : replayAux (fuel + 1) u tab = some (b0, w, tab1)) :
    (b0 = false ∧ w = u ∧ tab1 = tab ∧ ∀ r, r ∈ tdiff → u.find r = some none) ∨
    ∃ e i j x, e < tdiff.length ∧ u.find (tdiff.getD e 0) = some (some (i, j, x)) ∧
      (u.set i j x).isbad R_ALL = 0 ∧
      replayAux fuel (u.set i j x) (tab.set e (tab.getD e 0 + 1)) = some (b0, w, tab1) := by
  unfold replayAux at h
  rw [if_neg (by rw [hinc]; simp)] at h
  cases hch : chargeFrom u tab tdiff 0 with
  | none => rw [hch] at h; simp at h
  | some p =>
    rw [hch] at h
    obtain ⟨o, tab2⟩ := p
    cases o with
    | none =>
      simp only [Option.some.injEq, Prod.mk.injEq] at h
      obtain ⟨h1, h2, h3⟩ := h
      obtain ⟨c1, c2⟩ := chargeFrom_none u tab tdiff 0 tab2 hch
      exact Or.inl ⟨h1.symm, h2.symm, by rw [← h3, c1], c2⟩
    | some m =>
      obtain ⟨i, j, x⟩ := m
      simp only [] at h
      obtain ⟨e, he, hf, ht⟩ := chargeFrom_some u tab tdiff 0 (i, j, x) tab2 hch
      rw [Nat.zero_add] at ht
      cases hr : replayAux fuel (u.set i j x) tab2 with
      | none => rw [hr] at h; simp at h
      | some r =>
        rw [hr] at h
        simp only [] at h
        by_cases hb : (u.set i j x).isbad R_ALL ≠ 0
        · rw [if_pos hb] at h; simp at h
        · rw [if_neg hb] at h
          simp only [Option.some.injEq] at h
          subst h
          exact Or.inr ⟨e, i, j, x, he, hf, by simpa using hb, by rw [← ht]; exact hr⟩

theorem replayAux_complete_any (fuel : Nat) (u : tab_t) (tab : List Int) (b0 : Bool)
    (w : tab_t) (tab1 : List Int) (hc : u.iscomplete = true)
    (h : replayAux fuel u tab = some (b0, w, tab1)) : b0 = true ∧ w = u ∧ tab1 = tab := by
  cases fuel with
  | zero => simp [replayAux] at h
  | succ fuel =>
    unfold replayAux at h
    rw [if_pos hc] at h
    simp only [Option.some.injEq, Prod.mk.injEq] at h
    exact ⟨h.1.symm, h.2.1.symm, h.2.2.symm⟩

/-- The account of a replay: the innermost call is made on a board that extends the
graded one, every cell assigned on the way is charged once to a slot below `MDIFF`, and
the innermost call returns true exactly on a complete board. -/
theorem replayAux_account (fuel : Nat) : ∀ (u : tab_t) (tab : List Int) (b0 : Bool)
    (w : tab_t) (tab1 : List Int), Inv u → tab.length = 10 →
    replayAux fuel u tab = some (b0, w, tab1) →
    Inv w ∧ w.n = u.n ∧ Sub u.tab w.tab ∧ tab1.length = 10 ∧
    tab1.sum + (unk w : Int) = tab.sum + (unk u : Int) ∧
    (∀ k, tab.getD k 0 ≤ tab1.getD k 0) ∧ (∀ k, 7 ≤ k → tab1.getD k 0 = tab.getD k 0) ∧
    (b0 = true ↔ w.iscomplete = true) := by
  induction fuel with
  | zero => intro u tab b0 w tab1 _ _ h; simp [replayAux] at h
  | succ fuel ih =>
    intro u tab b0 w tab1 hu hl h
    by_cases hc : u.iscomplete = true
    · obtain ⟨rfl, rfl, rfl⟩ := replayAux_complete_any _ u tab b0 w tab1 hc h
      exact ⟨hu, rfl, sub_refl _, hl, rfl, fun k => Int.le_refl _, fun k _ => rfl,
        ⟨fun _ => hc, fun _ => rfl⟩⟩
    · have hinc : u.iscomplete = false := by simpa using hc
      rcases replayAux_step fuel u tab b0 w tab1 hinc h with
        ⟨rfl, rfl, rfl, _⟩ | ⟨e, i, j, x, he, hf, _, hr⟩
      · exact ⟨hu, rfl, sub_refl _, hl, rfl, fun k => Int.le_refl _, fun k _ => rfl,
          ⟨fun hx => absurd hx (by simp), fun hx => absurd hx hc⟩⟩
      · have h7 : tdiff.length = 7 := rfl
        have he10 : e < tab.length := by omega
        obtain ⟨h1, h2, hut, hx⟩ := find_legal u _ i j x hu hf
        have hu1 := inv_set u i j x hu h1 h2 hut hx
        have hunk := unk_set u i j x h1 h2 hut hx
        obtain ⟨r1, r2, r3, r4, r5, r6, r7, r8⟩ := ih _ _ b0 w tab1 hu1
          (by rw [List.length_set]; exact hl) hr
        refine ⟨r1, r2.trans (set_n u i j x), ?_, r4, ?_, ?_, ?_, r8⟩
        · refine sub_trans ?_ r3
          rw [set_tab]; exact sub_upd u.tab i j x hut
        · rw [sum_set_succ tab e he10] at r5
          omega
        · exact fun k => Int.le_trans (getD_set_le tab e k he10) (r6 k)
        · intro k hk
          rw [r7 k hk, getD_set_ne tab e k _ (by omega)]

/-- Whenever `solvescore_` returns, the chain of its nested calls ends, with the same
slots. -/
theorem solvescoreAux_replay (fuel : Nat) : ∀ (u : tab_t) (tab : List Int) (b : Bool)
    (tab1 : List Int), solvescoreAux fuel u tab = some (b, tab1) →
    ∃ b0 w, replayAux fuel u tab = some (b0, w, tab1) := by
  induction fuel with
  | zero => intro u tab b tab1 h; simp [solvescoreAux] at h
  | succ fuel ih =>
    intro u tab b tab1 h
    unfold solvescoreAux at h
    unfold replayAux
    by_cases hc : u.iscomplete = true
    · rw [if_pos hc] at h ⊢
      simp only [Option.some.injEq, Prod.mk.injEq] at h
      exact ⟨true, u, by rw [h.2]⟩
    · rw [if_neg hc] at h ⊢
      cases hch : chargeFrom u tab tdiff 0 with
      | none => rw [hch] at h; simp at h
      | some p =>
        rw [hch] at h
        obtain ⟨o, tab2⟩ := p
        cases o with
        | none =>
          simp only [Option.some.injEq, Prod.mk.injEq] at h
          exact ⟨false, u, by rw [h.2]⟩
        | some m =>
          obtain ⟨i, j, x⟩ := m
          simp only [] at h ⊢
          cases hs : solvescoreAux fuel (u.set i j x) tab2 with
          | none => rw [hs] at h; simp at h
          | some q =>
            obtain ⟨bq, tabq⟩ := q
            rw [hs] at h
            simp only [] at h
            by_cases hb : (u.set i j x).isbad R_ALL ≠ 0
            · rw [if_pos hb] at h; simp at h
            · rw [if_neg hb] at h
              simp only [Option.some.injEq, Prod.mk.injEq] at h
              obtain ⟨b0, w, hr⟩ := ih _ _ bq tabq hs
              rw [hr]
              simp only []
              rw [if_neg hb]
              exact ⟨b0, w, by rw [h.2]⟩

/-- C21. For every board built from the empty board by legal `set` calls on which
`solvescore` returns: the chain of nested calls of `solvescore_` ends on a board `w` that
has the size of the graded board and extends it; the signature has ten slots, the slots
`0..6` are not negative, the slots `7..9` are `0`, and the sum of the slots is the number of
cells the replay assigned, that is the number of Unknown cells of the graded board less
that of `w`; the innermost call returns true exactly when `w` is complete, and then the sum
is the number of Unknown cells of the graded board. -/
theorem solvescore_slots_account (t : tab_t) (b : Bool) (tab : List Int) (ht : Reach t)
    (h : t.solvescore = some (b, tab)) :
    ∃ b0 w, t.replay = some (b0, w, tab) ∧ w.n = t.n ∧ Sub t.tab w.tab ∧
      tab.length = 10 ∧ (∀ k, k < 7 → 0 ≤ tab.getD k 0) ∧ (∀ k, 7 ≤ k → tab.getD k 0 = 0) ∧
      tab.sum + (unk w : Int) = (unk t : Int) ∧
      (b0 = true ↔ w.iscomplete = true) ∧
      (w.iscomplete = true → tab.sum = (unk t : Int)) := by
  obtain ⟨b0, w, hr⟩ := solvescoreAux_replay _ t _ b tab h
  have hz : ∀ k, (List.replicate 10 (0 : Int)).getD k 0 = 0 := fun k => by
    rw [List.getD_eq_getElem?_getD, List.getElem?_replicate]; split <;> rfl
  obtain ⟨r1, r2, r3, r4, r5, r6, r7, r8⟩ := replayAux_account _ t _ b0 w tab ht.inv
    (by simp) hr
  have hsum : tab.sum + (unk w : Int) = (unk t : Int) := by simpa using r5
  refine ⟨b0, w, hr, r2, r3, r4, fun k _ => ?_, fun k hk => ?_, hsum, r8, fun hc => ?_⟩
  · have := r6 k
    rw [hz k] at this
    exact this
  · rw [r7 k hk, hz k]
  · rw [unk_complete w r1.toCnt hc] at hsum
    simpa using hsum

set_option maxRecDepth 100000 in
/-- Witness for C21: the `4 × 4` board with `(0,0)=0` and `(0,1)=0`, on which the replay
assigns two cells and then is stuck. -/
theorem solvescore_slots_account_witness :
    ∃ b0 w, (((tab_t.init 4).set 0 0 0).set 0 1 0).replay
        = some (b0, w, [2, 0, 0, 0, 0, 0, 0, 0, 0, 0]) ∧
      w.n = (((tab_t.init 4).set 0 0 0).set 0 1 0).n ∧
      Sub (((tab_t.init 4).set 0 0 0).set 0 1 0).tab w.tab ∧
      ([2, 0, 0, 0, 0, 0, 0, 0, 0, 0] : List Int).length = 10 ∧
      (∀ k, k < 7 → 0 ≤ ([2, 0, 0, 0, 0, 0, 0, 0, 0, 0] : List Int).getD k 0) ∧
      (∀ k, 7 ≤ k → ([2, 0, 0, 0, 0, 0, 0, 0, 0, 0] : List Int).getD k 0 = 0) ∧
      ([2, 0, 0, 0, 0, 0, 0, 0, 0, 0] : List Int).sum + (unk w : Int)
        = (unk (((tab_t.init 4).set 0 0 0).set 0 1 0) : Int) ∧
      (b0 = true ↔ w.iscomplete = true) ∧
      (w.iscomplete = true → ([2, 0, 0, 0, 0, 0, 0, 0, 0, 0] : List Int).sum
        = (unk (((tab_t.init 4).set 0 0 0).set 0 1 0) : Int)) :=
  solvescore_slots_account (((tab_t.init 4).set 0 0 0).set 0 1 0) true
    [2, 0, 0, 0, 0, 0, 0, 0, 0, 0]
    (Reach.set 0 1 0 (Reach.set 0 0 0 (Reach.init 4 (by decide)) (by decide) (by decide)
      (by decide) (by decide)) (by decide) (by decide) (by decide) (by decide))
    (by decide!)


/-! ## Counting completions (C4) -/

/-- The valid completions of a board built by legal `set` calls form a finite set, and
`nsol` is its number of elements. -/
theorem nsol_eq_card (m : Nat) : ∀ (t : tab_t), unk t = m → Inv t →
    ∃ S : Finset (Nat → Nat → Nat), S.card = nsol t ∧ ∀ g, g ∈ S ↔ IsSol t.n t.tab g := by
  classical
  induction m using Nat.strong_induction_on with
  | _ m ih =>
    intro t hm hI
    by_cases hb : t.isbad R_ALL ≠ 0
    · refine ⟨∅, by rw [nsol_bad t hb]; rfl, fun g => ⟨fun h => by simp at h, fun h => ?_⟩⟩
      exact absurd (sol_not_bad t hI g h) hb
    · have hb0 : t.isbad R_ALL = 0 := by simpa using hb
      by_cases hc : t.iscomplete = true
      · refine ⟨{t.tab}, by rw [nsol_complete t hb0 hc]; rfl, fun g => ⟨fun h => ?_, fun h => ?_⟩⟩
        · rw [Finset.mem_singleton] at h
          rw [h]
          exact isSol_of_complete t t hI rfl (sub_refl _) hc hb0
        · rw [Finset.mem_singleton]
          funext a b
          by_cases hab : a < t.n ∧ b < t.n
          · exact h.1 a b ((iscomplete_iff t hI.toCnt).mp hc a b hab.1 hab.2)
          · rw [hI.out a b hab, h.2.2.1 a b hab]
      · have hc0 : t.iscomplete = false := by simpa using hc
        cases hu : t.firstUnk with
        | none => exact absurd ((iscomplete_iff t hI.toCnt).mpr (firstUnk_none t hu)) hc
        | some c =>
          obtain ⟨a, b⟩ := c
          obtain ⟨h1, h2, h3⟩ := firstUnk_some t a b hu
          have u0 := unk_set t a b 0 h1 h2 h3 (by omega)
          have u1 := unk_set t a b 1 h1 h2 h3 (by omega)
          have i0 := inv_set t a b 0 hI h1 h2 h3 (by omega)
          have i1 := inv_set t a b 1 hI h1 h2 h3 (by omega)
          obtain ⟨S0, c0, m0⟩ := ih _ (by omega) (t.set a b 0) rfl i0
          obtain ⟨S1, c1, m1⟩ := ih _ (by omega) (t.set a b 1) rfl i1
          have hd : Disjoint S0 S1 := by
            rw [Finset.disjoint_left]
            intro g g0 g1
            have e0 := (isSol_of_set t g a b 0 h3 (by omega) ((m0 g).mp g0)).2
            have e1 := (isSol_of_set t g a b 1 h3 (by omega) ((m1 g).mp g1)).2
            omega
          refine ⟨S0 ∪ S1, ?_, fun g => ⟨fun h => ?_, fun h => ?_⟩⟩
          · rw [Finset.card_union_of_disjoint hd, c0, c1, nsol_first t hI hb0 hc0 a b hu]
          · rcases Finset.mem_union.mp h with h | h
            · exact (isSol_of_set t g a b 0 h3 (by omega) ((m0 g).mp h)).1
            · exact (isSol_of_set t g a b 1 h3 (by omega) ((m1 g).mp h)).1
          · have hle := h.2.1 a b h1 h2
            have hs := isSol_set t g a b h
            rw [Finset.mem_union]
            rcases (show g a b = 0 ∨ g a b = 1 by omega) with e | e
            · rw [e] at hs; exact Or.inl ((m0 g).mpr hs)
            · rw [e] at hs; exact Or.inr ((m1 g).mpr hs)

theorem blockGrid_in (v : Fin 8 → Fin 8 → Bool) (i j : Nat) (hi : i < 16) (hj : j < 16) :
    blockGrid v i j
      = if xor (xor (v (blk i) (blk j)) (decide (i % 2 = 1))) (decide (j % 2 = 1)) then 1
        else 0 := by
  unfold blockGrid
  exact if_pos ⟨hi, hj⟩

theorem blockGrid_out (v : Fin 8 → Fin 8 → Bool) (i j : Nat) (h : ¬ (i < 16 ∧ j < 16)) :
    blockGrid v i j = UNK := by
  unfold blockGrid
  exact if_neg h

theorem blk_double (m : Fin 8) : blk (2 * m.val) = m := by
  unfold blk
  apply Fin.ext
  show 2 * m.val / 2 % 8 = m.val
  have := m.isLt
  omega

theorem blockGrid_pair (v : Fin 8 → Fin 8 → Bool) (i m : Nat) (hi : i < 16) (hm : m < 8) :
    blockGrid v i (2 * m) + blockGrid v i (2 * m + 1) = 1 := by
  have e1 : blk (2 * m + 1) = blk (2 * m) := by
    unfold blk
    apply Fin.ext
    show (2 * m + 1) / 2 % 8 = 2 * m / 2 % 8
    omega
  have e2 : (2 * m) % 2 = 0 := by omega
  have e3 : (2 * m + 1) % 2 = 1 := by omega
  rw [blockGrid_in v i (2 * m) hi (by omega), blockGrid_in v i (2 * m + 1) hi (by omega), e1,
    e2, e3]
  cases v (blk i) (blk (2 * m)) <;> cases decide (i % 2 = 1) <;> rfl

theorem blockGrid_col (v : Fin 8 → Fin 8 → Bool) :
    col (blockGrid v) = blockGrid (fun a b => v b a) := by
  funext j i
  unfold col
  by_cases h : i < 16 ∧ j < 16
  · rw [blockGrid_in v i j h.1 h.2, blockGrid_in _ j i h.2 h.1]
    cases v (blk i) (blk j) <;> cases decide (i % 2 = 1) <;> cases decide (j % 2 = 1) <;> rfl
  · rw [blockGrid_out v i j h, blockGrid_out _ j i (fun h' => h ⟨h'.2, h'.1⟩)]

theorem blockGrid_run3 (v : Fin 8 → Fin 8 → Bool) (l k : Nat) (hl : l < 16)
    (hk : k + 2 < 16) : ¬ Run3 (blockGrid v l) k := by
  rintro ⟨_, h1, h2⟩
  rcases Nat.even_or_odd' k with ⟨m, rfl | rfl⟩
  · have := blockGrid_pair v l m hl (by omega)
    omega
  · have := blockGrid_pair v l (m + 1) hl (by omega)
    have e : 2 * (m + 1) = 2 * m + 1 + 1 := by ring
    have e' : 2 * (m + 1) + 1 = 2 * m + 1 + 2 := by ring
    rw [e', e] at this
    omega

theorem cnt_pairs (f : Nat → Nat) (M : Nat) :
    (∀ m, m < M → f (2 * m) + f (2 * m + 1) = 1) →
    cnt f 0 (2 * M) = M ∧ cnt f 1 (2 * M) = M := by
  induction M with
  | zero => intro _; exact ⟨rfl, rfl⟩
  | succ M ih =>
    intro h
    obtain ⟨c0, c1⟩ := ih (fun m hm => h m (by omega))
    have hp := h M (by omega)
    have e : 2 * (M + 1) = 2 * M + 1 + 1 := by ring
    rw [e]
    simp only [cnt]
    rw [c0, c1]
    constructor <;> split_ifs <;> omega

theorem blockGrid_half (v : Fin 8 → Fin 8 → Bool) (l : Nat) (hl : l < 16) :
    cnt (blockGrid v l) 0 16 = 8 ∧ cnt (blockGrid v l) 1 16 = 8 :=
  cnt_pairs (blockGrid v l) 8 (fun m hm => blockGrid_pair v l m hl hm)

theorem blockGrid_rows (v : Fin 8 → Fin 8 → Bool) (hv : RowsApart v) (a b : Nat)
    (ha : a < 16) (hb : b < 16) (hab : a ≠ b) :
    ¬ Same 16 (blockGrid v a) (blockGrid v b) := by
  intro hs
  have key : ∀ m : Fin 8, xor (v (blk a) m) (decide (a % 2 = 1))
      = xor (v (blk b) m) (decide (b % 2 = 1)) := by
    intro m
    have h := hs (2 * m.val) (by have := m.isLt; omega)
    have hm : 2 * m.val < 16 := by have := m.isLt; omega
    have e2 : (2 * m.val) % 2 = 0 := by omega
    rw [blockGrid_in v a _ ha hm, blockGrid_in v b _ hb hm, blk_double, e2] at h
    revert h
    cases v (blk a) m <;> cases v (blk b) m <;> cases decide (a % 2 = 1) <;>
      cases decide (b % 2 = 1) <;> simp
  have va : (blk a).val = a / 2 := by
    show a / 2 % 8 = a / 2
    omega
  have vb : (blk b).val = b / 2 := by
    show b / 2 % 8 = b / 2
    omega
  by_cases hp : a % 2 = b % 2
  · have hne : blk a ≠ blk b := by
      intro h
      have := congrArg Fin.val h
      rw [va, vb] at this
      omega
    have heq : v (blk a) = v (blk b) := by
      funext m
      have := key m
      rw [hp] at this
      revert this
      cases v (blk a) m <;> cases v (blk b) m <;> cases decide (b % 2 = 1) <;> simp
    rcases lt_or_gt_of_ne hne with h | h
    · exact (hv _ _ h).1 heq
    · exact (hv _ _ h).1 heq.symm
  · have hneg : decide (a % 2 = 1) = !decide (b % 2 = 1) := by
      by_cases h1 : a % 2 = 1
      · have h2 : ¬ b % 2 = 1 := by omega
        simp [h1, h2]
      · have h2 : b % 2 = 1 := by omega
        simp [h1, h2]
    have hcp : ∀ m, v (blk a) m = !(v (blk b) m) := by
      intro m
      have := key m
      rw [hneg] at this
      revert this
      cases v (blk a) m <;> cases v (blk b) m <;> cases decide (b % 2 = 1) <;> simp
    by_cases hne : blk a = blk b
    · have := hcp (blk a)
      rw [hne] at this
      revert this
      cases v (blk b) (blk b) <;> simp
    · rcases lt_or_gt_of_ne hne with h | h
      · exact (hv _ _ h).2 (funext hcp)
      · refine (hv _ _ h).2 (funext fun m => ?_)
        have := hcp m
        revert this
        cases v (blk a) m <;> cases v (blk b) m <;> simp

/-- Every block grid whose rows and columns are apart is a valid completion of the empty
`16 × 16` board. -/
theorem blockGrid_isSol (v : Fin 8 → Fin 8 → Bool) (hv : Spread v) :
    IsSol (tab_t.init 16).n (tab_t.init 16).tab (blockGrid v) := by
  have hn : (tab_t.init 16).n = 16 := rfl
  rw [hn]
  refine ⟨fun a b h => absurd rfl h, fun a b ha hb => ?_, fun a b h => ?_, ?_, ?_, ?_⟩
  · rw [blockGrid_in v a b ha hb]
    split <;> omega
  · exact blockGrid_out v a b h
  · rintro ⟨l, hl, k, hk, h | h⟩
    · exact blockGrid_run3 v l k hl hk h
    · rw [blockGrid_col] at h
      exact blockGrid_run3 _ l k hl hk h
  · rintro ⟨l, hl, h⟩
    have r := blockGrid_half v l hl
    have c := blockGrid_half (fun a b => v b a) l hl
    rw [blockGrid_col] at h
    have e : 16 / 2 = 8 := rfl
    rw [e] at h
    omega
  · rintro ⟨a, ha, b, hb, hab, h | h⟩
    · exact blockGrid_rows v hv.1 a b ha hb hab h.2.2
    · rw [blockGrid_col] at h
      exact blockGrid_rows _ hv.2 a b ha hb hab h.2.2

theorem blockGrid_injective : Function.Injective blockGrid := by
  intro v w h
  funext a b
  have h1 := congrFun (congrFun h (2 * a.val)) (2 * b.val)
  have ca : 2 * a.val < 16 := by have := a.isLt; omega
  have cb : 2 * b.val < 16 := by have := b.isLt; omega
  rw [blockGrid_in v _ _ ca cb, blockGrid_in w _ _ ca cb, blk_double, blk_double] at h1
  revert h1
  cases v a b <;> cases w a b <;> cases decide (2 * a.val % 2 = 1) <;>
    cases decide (2 * b.val % 2 = 1) <;> simp

set_option maxRecDepth 10000 in
open Classical in
/-- At most `256^7` choices have row `a` equal to the image of row `b` under `σ`. -/
theorem card_rows_rel (σ : (Fin 8 → Bool) → (Fin 8 → Bool)) (a b : Fin 8) (hab : a ≠ b) :
    ((Finset.univ : Finset (Fin 8 → Fin 8 → Bool)).filter (fun v => v a = σ (v b))).card
      ≤ 256 ^ 7 := by
  have h := Finset.card_le_card_of_injOn
    (s := (Finset.univ : Finset (Fin 8 → Fin 8 → Bool)).filter (fun v => v a = σ (v b)))
    (t := (Finset.univ : Finset ({i : Fin 8 // i ≠ a} → Fin 8 → Bool)))
    (fun v i => v i.1) (fun _ _ => Finset.mem_univ _)
    (by
      intro v hv w hw hvw
      have hv1 : v a = σ (v b) := (Finset.mem_filter.mp hv).2
      have hw1 : w a = σ (w b) := (Finset.mem_filter.mp hw).2
      funext i
      by_cases hi : i = a
      · have hb := congrFun hvw ⟨b, fun e => hab e.symm⟩
        have hb1 : v b = w b := hb
        rw [hi, hv1, hw1, hb1]
      · exact congrFun hvw ⟨i, hi⟩)
  have c : (Finset.univ : Finset ({i : Fin 8 // i ≠ a} → Fin 8 → Bool)).card = 256 ^ 7 := by
    rw [Finset.card_univ]
    simp
  rw [c] at h
  exact h

set_option maxRecDepth 10000 in
open Classical in
/-- At most `56 * 256^7` choices have two rows that are equal or complementary. -/
theorem card_rows_not_apart :
    ((Finset.univ : Finset (Fin 8 → Fin 8 → Bool)).filter (fun v => ¬ RowsApart v)).card
      ≤ 56 * 256 ^ 7 := by
  have hsub : (Finset.univ : Finset (Fin 8 → Fin 8 → Bool)).filter (fun v => ¬ RowsApart v)
      ⊆ ((Finset.univ : Finset (Fin 8 × Fin 8)).filter (fun p => p.1 < p.2)).biUnion
        (fun p => (Finset.univ : Finset (Fin 8 → Fin 8 → Bool)).filter
            (fun v => v p.1 = (fun r => r) (v p.2))
          ∪ (Finset.univ : Finset (Fin 8 → Fin 8 → Bool)).filter
            (fun v => v p.1 = (fun r m => !(r m)) (v p.2))) := by
    intro v hv
    have hv1 : ¬ RowsApart v := (Finset.mem_filter.mp hv).2
    unfold RowsApart at hv1
    push_neg at hv1
    obtain ⟨a, b, hab, h⟩ := hv1
    rw [Finset.mem_biUnion]
    refine ⟨(a, b), Finset.mem_filter.mpr ⟨Finset.mem_univ _, hab⟩, ?_⟩
    rw [Finset.mem_union]
    by_cases e : v a = v b
    · exact Or.inl (Finset.mem_filter.mpr ⟨Finset.mem_univ _, e⟩)
    · exact Or.inr (Finset.mem_filter.mpr ⟨Finset.mem_univ _, h e⟩)
  have hpairs : ((Finset.univ : Finset (Fin 8 × Fin 8)).filter (fun p => p.1 < p.2)).card
      = 28 := by decide
  refine le_trans (Finset.card_le_card hsub) (le_trans Finset.card_biUnion_le ?_)
  refine le_trans (Finset.sum_le_card_nsmul _ _ (2 * 256 ^ 7) (fun p hp => ?_)) ?_
  · have hlt : p.1 < p.2 := (Finset.mem_filter.mp hp).2
    have hne : p.1 ≠ p.2 := ne_of_lt hlt
    have h1 := card_rows_rel (fun r => r) p.1 p.2 hne
    have h2 := card_rows_rel (fun r m => !(r m)) p.1 p.2 hne
    exact le_trans (Finset.card_union_le _ _)
      (le_trans (Nat.add_le_add h1 h2) (le_of_eq (by ring)))
  · rw [hpairs, smul_eq_mul]
    norm_num

set_option maxRecDepth 10000 in
open Classical in
/-- At most `56 * 256^7` choices have two columns that are equal or complementary. -/
theorem card_cols_not_apart :
    ((Finset.univ : Finset (Fin 8 → Fin 8 → Bool)).filter
      (fun v => ¬ RowsApart (fun a b => v b a))).card ≤ 56 * 256 ^ 7 := by
  refine le_trans (Finset.card_le_card_of_injOn
    (t := (Finset.univ : Finset (Fin 8 → Fin 8 → Bool)).filter (fun v => ¬ RowsApart v))
    (fun v a b => v b a) (fun v hv => ?_) ?_) card_rows_not_apart
  · exact Finset.mem_filter.mpr ⟨Finset.mem_univ _, (Finset.mem_filter.mp hv).2⟩
  · intro v _ w _ h
    funext a b
    exact congrFun (congrFun h b) a

set_option maxRecDepth 10000 in
open Classical in
/-- At least `144 * 256^7` choices have their rows and columns apart. -/
theorem card_spread :
    144 * 256 ^ 7 ≤ ((Finset.univ : Finset (Fin 8 → Fin 8 → Bool)).filter Spread).card := by
  have hcov : (Finset.univ : Finset (Fin 8 → Fin 8 → Bool))
      ⊆ (Finset.univ : Finset (Fin 8 → Fin 8 → Bool)).filter Spread
        ∪ ((Finset.univ : Finset (Fin 8 → Fin 8 → Bool)).filter (fun v => ¬ RowsApart v)
          ∪ (Finset.univ : Finset (Fin 8 → Fin 8 → Bool)).filter
            (fun v => ¬ RowsApart (fun a b => v b a))) := by
    intro v _
    rw [Finset.mem_union, Finset.mem_union]
    by_cases h1 : RowsApart v
    · by_cases h2 : RowsApart (fun a b => v b a)
      · exact Or.inl (Finset.mem_filter.mpr ⟨Finset.mem_univ _, h1, h2⟩)
      · exact Or.inr (Or.inr (Finset.mem_filter.mpr ⟨Finset.mem_univ _, h2⟩))
    · exact Or.inr (Or.inl (Finset.mem_filter.mpr ⟨Finset.mem_univ _, h1⟩))
  have hall : (Finset.univ : Finset (Fin 8 → Fin 8 → Bool)).card = 256 ^ 8 := by
    rw [Finset.card_univ]
    simp
  have h1 := Finset.card_le_card hcov
  have h2 := Finset.card_union_le
    ((Finset.univ : Finset (Fin 8 → Fin 8 → Bool)).filter Spread)
    ((Finset.univ : Finset (Fin 8 → Fin 8 → Bool)).filter (fun v => ¬ RowsApart v)
      ∪ (Finset.univ : Finset (Fin 8 → Fin 8 → Bool)).filter
        (fun v => ¬ RowsApart (fun a b => v b a)))
  have h3 := Finset.card_union_le
    ((Finset.univ : Finset (Fin 8 → Fin 8 → Bool)).filter (fun v => ¬ RowsApart v))
    ((Finset.univ : Finset (Fin 8 → Fin 8 → Bool)).filter
      (fun v => ¬ RowsApart (fun a b => v b a)))
  have h4 := card_rows_not_apart
  have h5 := card_cols_not_apart
  rw [hall] at h1
  have h6 := le_trans h1 (le_trans h2 (Nat.add_le_add_left (le_trans h3
    (Nat.add_le_add h4 h5)) _))
  have e : (256 : Nat) ^ 8 = 144 * 256 ^ 7 + (56 * 256 ^ 7 + 56 * 256 ^ 7) := by norm_num
  rw [e] at h6
  exact Nat.le_of_add_le_add_right h6

set_option maxRecDepth 10000 in
/-- The empty `16 × 16` board has at least `2^63` valid completions. -/
theorem nsol_init16 : 2 ^ 63 ≤ nsol (tab_t.init 16) := by
  classical
  obtain ⟨S, hc, hm⟩ := nsol_eq_card _ (tab_t.init 16) rfl (inv_init 16 (by decide))
  have hsub : ((Finset.univ : Finset (Fin 8 → Fin 8 → Bool)).filter Spread).image blockGrid
      ⊆ S := by
    intro g hg
    obtain ⟨v, hv, rfl⟩ := Finset.mem_image.mp hg
    exact (hm _).mpr (blockGrid_isSol v (Finset.mem_filter.mp hv).2)
  have h1 := Finset.card_le_card hsub
  rw [Finset.card_image_of_injective _ blockGrid_injective, hc] at h1
  have h2 := card_spread
  have e : (2 : Nat) ^ 63 ≤ 144 * 256 ^ 7 := by norm_num
  omega

set_option maxRecDepth 10000 in
/-- Counterexample to C4 as stated: the empty `16 × 16` board is a board built from the
empty board by legal `set` calls (by none). It has at least `2^63` valid completions, so
the sum of `nbrsol()` leaves the 64-bit `ll_t` and `nbrsol()` has no value to compare,
while `hasuniquesol_()` returns `2`; `hasonesol()` has no value either, while
`hasuniquesol()` returns false. -/
theorem nbrsol_overflow_counterexample :
    Reach (tab_t.init 16) ∧ 2 ^ 63 ≤ nsol (tab_t.init 16) ∧
    (tab_t.init 16).nbrsol = none ∧ (tab_t.init 16).hasuniquesol_ = some 2 ∧
    (tab_t.init 16).hasonesol 0 = none ∧ (tab_t.init 16).hasuniquesol = some false := by
  have hI := inv_init 16 (by decide)
  have h := nsol_init16
  have h1 := nbrsol_overflow (tab_t.init 16) hI h
  have h2 := hasuniquesol__eq (tab_t.init 16) hI
  have e : min (nsol (tab_t.init 16)) 2 = 2 := by
    have : (2 : Nat) ≤ 2 ^ 63 := by norm_num
    omega
  rw [e] at h2
  refine ⟨Reach.init 16 (by decide), h, h1, h2, ?_, ?_⟩
  · unfold hasonesol
    rw [h1]
    rfl
  · unfold hasuniquesol
    rw [h2]
    rfl

end Binero
